import Mathlib

/-!
# The file hierarchy walker of `libls/fts.c`

A shallow embedding of `fts_open`, `fts_read`, `fts_children`, `fts_set` and their
helpers (`fts_alloc`, `fts_load`, `fts_build`, `fts_stat`, `fts_sort`, `fts_palloc`).

Representation choices.
* An `FTSENT` is a record; its address is the field `addr`.  The `fts_link` chain of
  an entry is a list, the `fts_parent` chain of the cursor is a stack of frames
  (`Frame`): the head frame is `sp->fts_cur` with the siblings still linked after it,
  the frames below are its ancestors, the last one is the root parent.
* Strings are raw byte lists (`List Char`), NUL bytes included; `cstr` reads a C string.
* The option word is decoded into a record of booleans once `fts_open` has checked it
  against the mask; the two entry flags are two booleans.
* System calls are fields of `Sys`; the process state they depend on (working
  directory, `errno`) is carried in the walk state.
* `malloc` and `realloc` succeed, and `realloc` extends the path buffer in place, so
  that the pointer fix-up `fts_padjust` is the identity.
-/

namespace Fts

/-- Raw bytes of a C buffer. -/
abbrev Bytes := List Char

/-- The terminating byte of a C string. -/
def NUL : Char := Char.ofNat 0

/-- The C function `strlen`, on the bytes starting at a pointer. -/
def strlen (b : Bytes) : Nat := (b.takeWhile (fun c => c != NUL)).length

/-- The C string starting at a pointer: the bytes before the first NUL. -/
def cstr (b : Bytes) : Bytes := b.takeWhile (fun c => c != NUL)

/-- The `n` bytes read by `memmove` from a source buffer; bytes past the modelled end of the
source read as NUL. -/
def memTake (n : Nat) (src : Bytes) : Bytes := (src ++ List.replicate n NUL).take n

/-- The effect of `memmove (buf + off, src, n)`. A write past the end of the buffer extends it. -/
def memWrite (buf : Bytes) (off : Nat) (src : Bytes) (n : Nat) : Bytes :=
  let b := buf ++ List.replicate (off + n - buf.length) NUL
  b.take off ++ memTake n src ++ b.drop (off + n)

/-- The macro `ISDOT`, applied to the bytes of a name. -/
def ISDOT (a : Bytes) : Bool :=
  a.getD 0 NUL == '.' && (a.getD 1 NUL == NUL || (a.getD 1 NUL == '.' && a.getD 2 NUL == NUL))

/-- Values of `fts_info`. -/
inductive Info where
  | FTS_D | FTS_DC | FTS_DEFAULT | FTS_DNR | FTS_DOT | FTS_DP | FTS_ERR
  | FTS_F | FTS_INIT | FTS_NS | FTS_NSOK | FTS_SL | FTS_SLNONE | FTS_W
  deriving DecidableEq, Repr

open Info

/-- Modelled from the spec: the instruction code "revisit" (`FTS_AGAIN`). The header `fts.h`
that defines the instruction codes is not among the sources; the numbers are those of the
4.4BSD header this file is written against. -/
def FTS_AGAIN : Int := 1

/-- Modelled from the spec: the instruction code "follow-symlink" (`FTS_FOLLOW` of the missing
`fts.h`). -/
def FTS_FOLLOW : Int := 2

/-- Modelled from the spec: the instruction code "none" (`FTS_NOINSTR` of the missing
`fts.h`). -/
def FTS_NOINSTR : Int := 3

/-- Modelled from the spec: the instruction code "skip-subtree" (`FTS_SKIP` of the missing
`fts.h`). -/
def FTS_SKIP : Int := 4

/-- Modelled from the spec: the mask of the eight option bits a caller may pass to `fts_open`
(`FTS_OPTIONMASK` of the missing `fts.h`). -/
def FTS_OPTIONMASK : Nat := 0xff

/-- Modelled from the spec: the option word bit asking `fts_children` for names only
(`FTS_NAMEONLY` of the missing `fts.h`). -/
def FTS_NAMEONLY : Nat := 0x100

/-- Modelled from the spec: the level of the parent of the roots (`FTS_ROOTPARENTLEVEL` of
the missing `fts.h`). -/
def FTS_ROOTPARENTLEVEL : Int := -1

/-- Modelled from the spec: the level of the roots (`FTS_ROOTLEVEL` of the missing
`fts.h`). -/
def FTS_ROOTLEVEL : Int := 0

/-- Error number `ENOENT`. -/
def ENOENT : Nat := 2

/-- Error number `EINVAL`. -/
def EINVAL : Nat := 22

/-- The file type bits of `st_mode`, as tested by `S_ISDIR`, `S_ISLNK`, `S_ISREG`;
`zero` is the mode left by `memset`, `wht` is `S_IFWHT`. -/
inductive Mode where
  | zero | dir | lnk | reg | wht | other
  deriving DecidableEq, Repr

/-- The fields of `struct stat` that the walker reads. -/
structure Stat where
  st_mode : Mode
  st_dev : Nat
  st_ino : Nat
  st_nlink : Nat
  deriving DecidableEq, Repr

/-- The result of `memset (sbp, 0, sizeof (struct stat))`. -/
def Stat.zeroed : Stat := ⟨Mode.zero, 0, 0, 0⟩

/-- The type hint `d_type` of a directory entry. -/
inductive DType where
  | DT_UNKNOWN | DT_DIR | DT_WHT | DT_OTHER
  deriving DecidableEq, Repr

/-- A `struct dirent`: the bytes of the `d_name` array (terminator and what follows it
included) and the type hint. -/
structure Dirent where
  d_name : Bytes
  d_type : DType
  deriving DecidableEq, Repr

/-- What `fts_accpath` points to: the name array of the entry at an address, or the start of
the path buffer. -/
inductive AccPath where
  | name (addr : Nat)
  | path
  deriving DecidableEq, Repr

/-- The decoded option word `sp->fts_options`. -/
structure Options where
  comfollow : Bool
  logical : Bool
  nochdir : Bool
  nostat : Bool
  physical : Bool
  seedot : Bool
  xdev : Bool
  whiteout : Bool
  nameonly : Bool
  stop : Bool
  deriving DecidableEq, Repr

/-- Modelled from the spec: the decoding of an option word (bit pattern of the `int`) into the
options of the spec's table, followed by the two internal flags; the bit positions are those
of the missing `fts.h`. -/
def Options.ofWord (w : Nat) : Options :=
  { comfollow := w.testBit 0, logical := w.testBit 1, nochdir := w.testBit 2,
    nostat := w.testBit 3, physical := w.testBit 4, seedot := w.testBit 5,
    xdev := w.testBit 6, whiteout := w.testBit 7, nameonly := w.testBit 8,
    stop := w.testBit 9 }

/-- An `FTSENT`, without its `fts_link` and `fts_parent` pointers (see `Frame`) and without
`fts_path`, which always points to the path buffer. `hasStatp` tells that `fts_statp` has been
set and `statbuf` is what it points to; `fts_parent` is the address of the parent, or `none`
while the pointer still holds what `malloc` returned. -/
structure FTSENT where
  addr : Nat
  fts_cycle : Option Nat
  fts_accpath : AccPath
  fts_number : Int
  fts_pointer : Option Nat
  fts_symfd : Int
  fts_pathlen : Nat
  fts_namelen : Nat
  fts_ino : Nat
  fts_dev : Nat
  fts_nlink : Nat
  fts_level : Int
  fts_info : Info
  dontchdir : Bool
  symfollow : Bool
  fts_instr : Int
  hasStatp : Bool
  statbuf : Stat
  fts_errno : Nat
  fts_name : Bytes
  fts_parent : Option Nat
  deriving DecidableEq, Repr

/-- An entry of the cursor's parent chain together with the siblings linked after it. -/
structure Frame where
  ent : FTSENT
  link : List FTSENT
  deriving DecidableEq, Repr

/-- Compile-time configuration of the file. -/
structure Config where
  have_fchdir : Bool
  have_whiteout : Bool
  have_d_type : Bool
  deriving DecidableEq, Repr

/-- The system interface. Directories are identified by numbers; a file descriptor opened on
a directory is that number, a failed `open` gives `-1`. Failing calls give their `errno`. -/
structure Sys where
  cfg : Config
  stat : Nat → Bytes → Except Nat Stat
  lstat : Nat → Bytes → Except Nat Stat
  opendir : Nat → Bytes → Except Nat (Nat × List Dirent)
  chdir : Nat → Bytes → Except Nat Nat
  fchdir : Int → Except Nat Nat
  openDot : Nat → Except Nat Int
  qsort : (FTSENT → FTSENT → Int) → List FTSENT → List FTSENT
  junk : Nat → FTSENT
  pathJunk : Nat → Char

/-- The walk state `FTS`, with the process state the walker depends on (`cwd`, `errno`) and the
number of entries allocated so far. `fts_cur = []` is the null cursor. -/
structure FTS where
  fts_cur : List Frame
  fts_child : List FTSENT
  fts_nitems : Nat
  fts_dev : Nat
  fts_path : Bytes
  fts_rfd : Int
  fts_pathlen : Nat
  fts_compar : Option (FTSENT → FTSENT → Int)
  fts_options : Options
  cwd : Nat
  errno : Nat
  nalloc : Nat

/-- The function `fts_alloc`: a fresh entry whose other fields hold what `malloc` returned. -/
def fts_alloc (sys : Sys) (sp : FTS) (name : Bytes) (namelen : Nat) : FTSENT × FTS :=
  let j := sys.junk sp.nalloc
  ({ j with
      addr := sp.nalloc
      fts_name := memTake (namelen + 1) name
      hasStatp := if sp.fts_options.nostat then j.hasStatp else true
      fts_namelen := namelen
      fts_errno := 0
      dontchdir := false
      symfollow := false
      fts_instr := FTS_NOINSTR
      fts_number := 0
      fts_pointer := none
      fts_parent := none },
   { sp with nalloc := sp.nalloc + 1 })

/-- The function `fts_set`: the return value, the new `errno` when it is set, and the entry. -/
def fts_set (p : FTSENT) (instr : Int) : Int × Option Nat × FTSENT :=
  if instr ≠ 0 ∧ instr ≠ FTS_AGAIN ∧ instr ≠ FTS_FOLLOW ∧ instr ≠ FTS_NOINSTR ∧
      instr ≠ FTS_SKIP then
    (1, some EINVAL, p)
  else
    (0, none, { p with fts_instr := instr })

/-- Result of a call that may dereference a null or unassigned pointer (`crash`). -/
inductive Outcome (α : Type) where
  | crash
  | ret (val : α) (sp : FTS)

/-- The string `p->fts_accpath` points to; `anc` is the parent chain of `p`. -/
def accString (sp : FTS) (anc : List FTSENT) (p : FTSENT) : Bytes :=
  match p.fts_accpath with
  | AccPath.path => cstr sp.fts_path
  | AccPath.name a =>
    if a = p.addr then cstr p.fts_name
    else match anc.find? (fun t => t.addr == a) with
      | some t => cstr t.fts_name
      | none => []

/-- The loop of `fts_stat` over the parent chain: the address of the first entry with the
same inode and device, among the entries before the first one of negative level. -/
def cycleScan (ino dev : Nat) : List FTSENT → Option Nat
  | [] => none
  | t :: ts =>
    if t.fts_level ≥ FTS_ROOTLEVEL then
      if ino = t.fts_ino ∧ dev = t.fts_dev then some t.addr else cycleScan ino dev ts
    else none

/-- A store through `sbp`: into the entry's stat buffer, or into the local `sb` when
`FTS_NOSTAT` is set. -/
def setSb (sp : FTS) (p : FTSENT) (sb : Stat) : FTSENT :=
  if sp.fts_options.nostat then p else { p with statbuf := sb }

/-- The part of `fts_stat` after a successful `stat` or `lstat` that gave `sb`. -/
def fts_stat_mode (anc : List FTSENT) (p : FTSENT) (sb : Stat) : Info × FTSENT :=
  if sb.st_mode = Mode.dir then
    let p1 := { p with fts_dev := sb.st_dev, fts_ino := sb.st_ino, fts_nlink := sb.st_nlink }
    if ISDOT p1.fts_name then (FTS_DOT, p1)
    else match cycleScan sb.st_ino sb.st_dev anc with
      | some t => (FTS_DC, { p1 with fts_cycle := some t })
      | none => (FTS_D, p1)
  else if sb.st_mode = Mode.lnk then (FTS_SL, p)
  else if sb.st_mode = Mode.reg then (FTS_F, p)
  else (FTS_DEFAULT, p)

/-- The function `fts_stat`: the returned kind, the entry and the new `errno`. `anc` is the
parent chain of `p`, nearest first. -/
def fts_stat (sys : Sys) (sp : FTS) (anc : List FTSENT) (dp : Option Dirent) (p : FTSENT)
    (follow : Bool) : Info × FTSENT × Nat :=
  if sys.cfg.have_whiteout ∧ (dp.map (fun d => d.d_type)) = some DType.DT_WHT then
    (FTS_W, setSb sp p { Stat.zeroed with st_mode := Mode.wht }, sp.errno)
  else if sp.fts_options.logical ∨ follow then
    match sys.stat sp.cwd (accString sp anc p) with
    | Except.error e =>
      match sys.lstat sp.cwd (accString sp anc p) with
      | Except.ok sb => (FTS_SLNONE, setSb sp p sb, 0)
      | Except.error e2 => (FTS_NS, setSb sp { p with fts_errno := e } Stat.zeroed, e2)
    | Except.ok sb =>
      let r := fts_stat_mode anc (setSb sp p sb) sb
      (r.1, r.2, sp.errno)
  else
    match sys.lstat sp.cwd (accString sp anc p) with
    | Except.error e => (FTS_NS, setSb sp { p with fts_errno := e } Stat.zeroed, e)
    | Except.ok sb =>
      let r := fts_stat_mode anc (setSb sp p sb) sb
      (r.1, r.2, sp.errno)

/-- The function `fts_palloc` (the reallocation succeeds and extends the buffer in place). -/
def fts_palloc (sys : Sys) (sp : FTS) (more : Nat) : FTS :=
  let n := sp.fts_pathlen + more + 256
  { sp with
      fts_pathlen := n
      fts_path := sp.fts_path ++
        (List.range (n - sp.fts_path.length)).map (fun i => sys.pathJunk (sp.fts_path.length + i)) }

/-- The function `fts_maxarglen`. -/
def fts_maxarglen (argv : List Bytes) : Nat :=
  argv.foldl (fun m a => if strlen a > m then strlen a else m) 0

/-- The C function `strrchr` on the string at `b`: the offset of the last occurrence of `c`. -/
def strrchr (b : Bytes) (c : Char) : Option Nat :=
  let s := cstr b
  match (s.reverse).indexOf? c with
  | some i => some (s.length - 1 - i)
  | none => none

/-- The function `fts_load`. -/
def fts_load (sp : FTS) (p : FTSENT) : FTSENT × FTS :=
  let len := p.fts_namelen
  let p1 := { p with fts_pathlen := len }
  let sp1 := { sp with fts_path := memWrite sp.fts_path 0 p.fts_name (len + 1) }
  let p2 :=
    match strrchr p1.fts_name '/' with
    | some i =>
      if i ≠ 0 ∨ p1.fts_name.getD 1 NUL ≠ NUL then
        let cp := p1.fts_name.drop (i + 1)
        { p1 with fts_name := memWrite p1.fts_name 0 cp (strlen cp + 1), fts_namelen := strlen cp }
      else p1
    | none => p1
  ({ p2 with fts_accpath := AccPath.path }, { sp1 with fts_dev := p.fts_dev })

/-- The function `fts_sort` (the reallocation of the scratch array succeeds). -/
def fts_sort (sys : Sys) (sp : FTS) (head : List FTSENT) (nitems : Nat) : List FTSENT × FTS :=
  let sp1 := if nitems > sp.fts_nitems then { sp with fts_nitems := nitems + 40 } else sp
  match sp.fts_compar with
  | some cmp => (sys.qsort cmp (head.take nitems), sp1)
  | none => (head, sp1)

/-- The constant `MAXPATHLEN`. -/
def MAXPATHLEN : Nat := 1024

/-- The body of the loop of `fts_open` for the non-empty argument `a`: the root entry, stat
probed, and the walk state. -/
def openRoot (sys : Sys) (parent : FTSENT) (sp : FTS) (a : Bytes) : FTSENT × FTS :=
  let al := fts_alloc sys sp a (strlen a)
  let p1 := { al.1 with fts_level := FTS_ROOTLEVEL, fts_parent := some parent.addr,
                        fts_accpath := AccPath.name al.1.addr }
  let r := fts_stat sys al.2 [parent] none p1 al.2.fts_options.comfollow
  ({ r.2.1 with fts_info := if r.1 = FTS_DOT then FTS_D else r.1 }, { al.2 with errno := r.2.2 })

/-- The loop of `fts_open` over the arguments: the root list and the number of items, or
nothing when an argument is empty (`errno` is then `ENOENT`). -/
def openRoots (sys : Sys) (parent : FTSENT) :
    List Bytes → FTS → List FTSENT → Nat → Option (List FTSENT × Nat) × FTS
  | [], sp, root, nitems => (some (root, nitems), sp)
  | a :: argv, sp, root, nitems =>
    if strlen a = 0 then (none, { sp with errno := ENOENT })
    else if sp.fts_compar.isSome then
      openRoots sys parent argv (openRoot sys parent sp a).2
        ((openRoot sys parent sp a).1 :: root) (nitems + 1)
    else
      openRoots sys parent argv (openRoot sys parent sp a).2
        (root ++ [(openRoot sys parent sp a).1]) (nitems + 1)

/-- The start of `fts_open`, up to the allocation of the parent of the roots: the walk state
and that parent. -/
def openInit (sys : Sys) (cwd errno0 : Nat) (argv : List Bytes) (options : Nat)
    (compar : Option (FTSENT → FTSENT → Int)) : FTS × FTSENT :=
  let o := Options.ofWord options
  let o1 := if o.logical then { o with nochdir := true } else o
  let o2 := if sys.cfg.have_fchdir then o1 else { o1 with nochdir := true }
  let sp0 : FTS :=
    { fts_cur := [], fts_child := [], fts_nitems := 0, fts_dev := 0, fts_path := [],
      fts_rfd := 0, fts_pathlen := 0, fts_compar := compar, fts_options := o2,
      cwd := cwd, errno := errno0, nalloc := 0 }
  let sp1 := fts_palloc sys sp0 (max (fts_maxarglen argv) MAXPATHLEN)
  let r := fts_alloc sys sp1 [NUL] 0
  (r.2, { r.1 with fts_level := FTS_ROOTPARENTLEVEL })

/-- The end of `fts_open`, after the loop over the arguments: the sort of the roots, the dummy
cursor of kind `FTS_INIT` and the descriptor on the starting directory. -/
def openFinish (sys : Sys) (sp : FTS) (parent : FTSENT) (root : List FTSENT) (nitems : Nat) :
    FTS :=
  let s := if sp.fts_compar.isSome ∧ nitems > 1 then fts_sort sys sp root nitems else (root, sp)
  let d := fts_alloc sys s.2 [NUL] 0
  let dummy := { d.1 with fts_info := FTS_INIT }
  let sp6 := { d.2 with fts_cur := [⟨dummy, s.1⟩, ⟨parent, []⟩] }
  if sp6.fts_options.nochdir then sp6
  else
    match sys.openDot sp6.cwd with
    | Except.ok fd => { sp6 with fts_rfd := fd }
    | Except.error e =>
      { sp6 with fts_rfd := -1, errno := e,
                 fts_options := { sp6.fts_options with nochdir := true } }

/-- The function `fts_open`, called in working directory `cwd` with `errno` equal to `errno0`:
the walk state (or nothing for a null return) and `errno` after the call. The option word is
the bit pattern of the `int` argument. -/
def fts_open (sys : Sys) (cwd errno0 : Nat) (argv : List Bytes) (options : Nat)
    (compar : Option (FTSENT → FTSENT → Int)) : Option FTS × Nat :=
  if options &&& (0xffffffff - FTS_OPTIONMASK) ≠ 0 then (none, EINVAL)
  else
    let i := openInit sys cwd errno0 argv options compar
    match openRoots sys i.2 argv i.1 [] 0 with
    | (none, sp3) => (none, sp3.errno)
    | (some (root, nitems), sp3) =>
      (some (openFinish sys sp3 i.2 root nitems), (openFinish sys sp3 i.2 root nitems).errno)

/-- The macro `NAPPEND`. -/
def NAPPEND (sp : FTS) (p : FTSENT) : Nat :=
  if p.fts_level = FTS_ROOTLEVEL ∧ p.fts_pathlen = 1 ∧ sp.fts_path.getD 0 NUL = '/' then 0
  else p.fts_pathlen

/-- The macro `FCHDIR`: whether it is non-zero (the change of directory failed), and the
process state after it. -/
def FCHDIR (sys : Sys) (sp : FTS) (fd : Int) : Bool × FTS :=
  if sp.fts_options.nochdir then (false, sp)
  else if sys.cfg.have_fchdir then
    match sys.fchdir fd with
    | Except.ok d => (false, { sp with cwd := d })
    | Except.error e => (true, { sp with errno := e })
  else (true, sp)

/-- The macro `CHDIR`: whether it is non-zero, and the process state after it. -/
def CHDIR (sys : Sys) (sp : FTS) (path : Bytes) : Bool × FTS :=
  if sp.fts_options.nochdir then (false, sp)
  else
    match sys.chdir sp.cwd path with
    | Except.ok d => (false, { sp with cwd := d })
    | Except.error e => (true, { sp with errno := e })

/-- The `fts_build` flags. -/
inductive BType where
  | BCHILD | BNAMES | BREAD
  deriving DecidableEq, Repr

/-- The variables of `fts_build` that change in its loop over the directory entries. -/
structure BuildLoop where
  sp : FTS
  nlinks : Int
  maxlen : Int
  head : List FTSENT
  nitems : Nat

/-- The start of an iteration of the loop of `fts_build`, for a directory entry that is not
skipped: the entry allocated with its path length, parent and level set, the walk state and
the new value of `maxlen` (the path buffer grows when the name does not fit). -/
def buildAlloc (sys : Sys) (cur : FTSENT) (len : Nat) (level : Int) (st : BuildLoop)
    (dp : Dirent) : FTSENT × FTS × Int :=
  let namlen := strlen dp.d_name + 1
  let a := fts_alloc sys st.sp dp.d_name namlen
  let g : FTS × Int :=
    if (namlen : Int) > st.maxlen then
      (fts_palloc sys a.2 namlen,
        ((fts_palloc sys a.2 namlen).fts_pathlen : Int) - cur.fts_pathlen - 1)
    else (a.2, st.maxlen)
  ({ a.1 with fts_pathlen := len + namlen + 1, fts_parent := some cur.addr, fts_level := level },
    g.1, g.2)

/-- One iteration of the loop of `fts_build`, for the directory entry `dp`; `chain` is the
parent chain of the new entry (the current node first), `cp` the offset in the path buffer
of the pointer `cp`. -/
def buildEntry (sys : Sys) (cur : FTSENT) (chain : List FTSENT) (cderrno len cp : Nat)
    (level : Int) (st : BuildLoop) (dp : Dirent) : BuildLoop :=
  if !st.sp.fts_options.seedot && ISDOT dp.d_name then st
  else
    let a := buildAlloc sys cur len level st dp
    let p1 := a.1
    let sp2 := a.2.1
    let maxlen := a.2.2
    if cderrno ≠ 0 then
      let p2 :=
        if st.nlinks ≠ 0 then { p1 with fts_info := FTS_NS, fts_errno := cderrno }
        else { p1 with fts_info := FTS_NSOK }
      let p3 := { p2 with fts_accpath := cur.fts_accpath }
      { sp := sp2, nlinks := st.nlinks, maxlen := maxlen, head := st.head ++ [p3],
        nitems := st.nitems + 1 }
    else if st.nlinks = 0 ∨ (sys.cfg.have_d_type ∧ st.nlinks > 0 ∧
        dp.d_type ≠ DType.DT_DIR ∧ dp.d_type ≠ DType.DT_UNKNOWN) then
      let p2 := { p1 with
        fts_accpath := if sp2.fts_options.nochdir then AccPath.path else AccPath.name p1.addr
        fts_info := FTS_NSOK }
      { sp := sp2, nlinks := st.nlinks, maxlen := maxlen, head := st.head ++ [p2],
        nitems := st.nitems + 1 }
    else
      let p2 :=
        if sp2.fts_options.nochdir then
          { p1 with fts_accpath := AccPath.path
                    fts_name := memWrite p1.fts_name 0 (sp2.fts_path.drop cp) (p1.fts_namelen + 1) }
        else { p1 with fts_accpath := AccPath.name p1.addr }
      let r := fts_stat sys sp2 chain (some dp) p2 false
      let p3 := { r.2.1 with fts_info := r.1 }
      let sp3 := { sp2 with errno := r.2.2 }
      let nlinks :=
        if st.nlinks > 0 ∧ (r.1 = FTS_D ∨ r.1 = FTS_DC ∨ r.1 = FTS_DOT) then st.nlinks - 1
        else st.nlinks
      { sp := sp3, nlinks := nlinks, maxlen := maxlen, head := st.head ++ [p3],
        nitems := st.nitems + 1 }

/-- The stat budget `nlinks` of `fts_build`. -/
def buildNlinks (sp : FTS) (cur : FTSENT) (type : BType) : Int :=
  if type = BType.BNAMES then 0
  else if sp.fts_options.nostat ∧ sp.fts_options.physical then
    (cur.fts_nlink : Int) - (if sp.fts_options.seedot then 0 else 2)
  else -1

/-- The change of directory into the directory just opened in `fts_build`: the values of
`cderrno` and `descend`, the current node and the walk state. -/
def buildDescend (sys : Sys) (sp : FTS) (cur : FTSENT) (type : BType) (nlinks : Int)
    (dirp : Nat) : Nat × Bool × FTSENT × FTS :=
  if nlinks ≠ 0 ∨ type = BType.BREAD then
    if (FCHDIR sys sp dirp).1 then
      (if nlinks ≠ 0 ∧ type = BType.BREAD then
          ((FCHDIR sys sp dirp).2.errno, false,
            { cur with fts_errno := (FCHDIR sys sp dirp).2.errno, dontchdir := true },
            (FCHDIR sys sp dirp).2)
        else
          ((FCHDIR sys sp dirp).2.errno, false, { cur with dontchdir := true },
            (FCHDIR sys sp dirp).2))
    else (0, true, cur, (FCHDIR sys sp dirp).2)
  else (0, false, cur, sp)

/-- After the loop of `fts_build`: without `chdir` the path buffer is cut back to the path of
the current node. -/
def buildReset (cp : Nat) (sp : FTS) : FTS :=
  if sp.fts_options.nochdir then
    { sp with fts_path := memWrite sp.fts_path (if cp - 1 > 0 then cp - 1 else cp) [NUL] 1 }
  else sp

/-- After the loop of `fts_build`: the directory is left again when the descent was made for
`fts_children` or found nothing; whether leaving failed, and the walk state. -/
def buildBack (sys : Sys) (type : BType) (cur1 : FTSENT) (descend : Bool) (nitems : Nat)
    (sp3 : FTS) : Bool × FTS :=
  if descend ∧ (type = BType.BCHILD ∨ nitems = 0) then
    if cur1.fts_level = FTS_ROOTLEVEL then FCHDIR sys sp3 sp3.fts_rfd
    else CHDIR sys sp3 ['.', '.']
  else (false, sp3)

/-- The end of `fts_build`, after the loop: the path buffer is reset, the directory is left
again when the descent was not used, and the entries are sorted. -/
def buildFinish (sys : Sys) (type : BType) (cur1 : FTSENT) (descend : Bool) (cp : Nat)
    (st : BuildLoop) : List FTSENT × FTSENT × FTS :=
  let back := buildBack sys type cur1 descend st.nitems (buildReset cp st.sp)
  if back.1 then
    ([], { cur1 with fts_info := FTS_ERR },
      { back.2 with fts_options := { back.2.fts_options with stop := true } })
  else if st.nitems = 0 then
    ([], if type = BType.BREAD then { cur1 with fts_info := FTS_DP } else cur1, back.2)
  else if back.2.fts_compar.isSome ∧ st.nitems > 1 then
    ((fts_sort sys back.2 st.head st.nitems).1, cur1, (fts_sort sys back.2 st.head st.nitems).2)
  else (st.head, cur1, back.2)

/-- The walk state at the start of the loop of `fts_build`: without `chdir` the separator is
written after the path of the current node. -/
def buildStart (sp1 : FTS) (cur1 : FTSENT) : FTS :=
  if sp1.fts_options.nochdir then
    { sp1 with fts_path := memWrite sp1.fts_path (NAPPEND sp1 cur1) ['/'] 1 }
  else sp1

/-- The body of `fts_build` for the current node `cur` whose parent chain is `anc`: the list
returned (empty for a null return), the current node and the walk state afterwards. -/
def fts_build_core (sys : Sys) (sp : FTS) (cur : FTSENT) (anc : List FTSENT) (type : BType) :
    List FTSENT × FTSENT × FTS :=
  match sys.opendir sp.cwd (accString sp anc cur) with
  | Except.error e =>
    if type = BType.BREAD then
      ([], { cur with fts_info := FTS_DNR, fts_errno := e }, { sp with errno := e })
    else ([], cur, { sp with errno := e })
  | Except.ok (dirp, ents) =>
    let nlinks := buildNlinks sp cur type
    let d := buildDescend sys sp cur type nlinks dirp
    let cderrno := d.1
    let descend := d.2.1
    let cur1 := d.2.2.1
    let sp1 := d.2.2.2
    let maxlen : Int := (sp1.fts_pathlen : Int) - cur1.fts_pathlen - 1
    let len := NAPPEND sp1 cur1
    let cp := len + 1
    let level := cur1.fts_level + 1
    let st := ents.foldl (buildEntry sys cur1 (cur1 :: anc) cderrno len cp level)
      { sp := buildStart sp1 cur1, nlinks := nlinks, maxlen := maxlen, head := [], nitems := 0 }
    buildFinish sys type cur1 descend cp st

/-- The function `fts_build`; a null `sp->fts_cur` is dereferenced. -/
def fts_build (sys : Sys) (sp : FTS) (type : BType) : Outcome (List FTSENT) :=
  match sp.fts_cur with
  | [] => Outcome.crash
  | f :: rest =>
    let r := fts_build_core sys sp f.ent (rest.map (fun g => g.ent)) type
    Outcome.ret r.1 { r.2.2 with fts_cur := { f with ent := r.2.1 } :: rest }

/-- The re-classification of a followed symbolic link in `fts_read`: `fts_stat` with the follow
flag and, when the result is a directory and the walk changes directory, a descriptor on the
working directory. -/
def followStat (sys : Sys) (sp : FTS) (anc : List FTSENT) (p : FTSENT) : FTSENT × FTS :=
  let r := fts_stat sys sp anc none p true
  let p1 := { r.2.1 with fts_info := r.1 }
  let sp1 := { sp with errno := r.2.2 }
  if r.1 = FTS_D ∧ !sp1.fts_options.nochdir then
    match sys.openDot sp1.cwd with
    | Except.ok fd => ({ p1 with fts_symfd := fd, symfollow := true }, sp1)
    | Except.error e =>
      ({ p1 with fts_symfd := -1, fts_errno := e, fts_info := FTS_ERR }, { sp1 with errno := e })
  else (p1, sp1)

/-- The statements at the label `name` of `fts_read`, for the entry `p` that becomes the
cursor above the frames `rest`; `p->fts_parent` must be the entry of the first of them. -/
def readName (sp : FTS) (p : FTSENT) (lk : List FTSENT) (rest : List Frame) :
    Outcome (Option FTSENT) :=
  match rest with
  | [] => Outcome.crash
  | par :: _ =>
    if p.fts_parent = some par.ent.addr then
      let t := NAPPEND sp par.ent
      let path := memWrite (memWrite sp.fts_path t ['/'] 1) (t + 1) p.fts_name (p.fts_namelen + 1)
      Outcome.ret (some p) { sp with fts_path := path, fts_cur := ⟨p, lk⟩ :: rest }
    else Outcome.crash

/-- The end of `fts_read`, from the comment `Move up to the parent node`: `tmp` is the entry
that has no sibling left, `rest` the frames of its ancestors. -/
def readUp (sys : Sys) (sp : FTS) (tmp : FTSENT) (rest : List Frame) : Outcome (Option FTSENT) :=
  match rest with
  | [] => Outcome.crash
  | par :: rest1 =>
    if tmp.fts_parent ≠ some par.ent.addr then Outcome.crash
    else
      let p := par.ent
      if p.fts_level = FTS_ROOTPARENTLEVEL then
        Outcome.ret none { sp with errno := 0, fts_cur := [] }
      else
        let sp1 := { sp with fts_path := memWrite sp.fts_path p.fts_pathlen [NUL] 1 }
        let r : Bool × FTS :=
          if p.fts_level = FTS_ROOTLEVEL then FCHDIR sys sp1 sp1.fts_rfd
          else if p.symfollow then FCHDIR sys sp1 p.fts_symfd
          else if !p.dontchdir then CHDIR sys sp1 ['.', '.']
          else (false, sp1)
        if r.1 then
          Outcome.ret none { r.2 with fts_options := { r.2.fts_options with stop := true } }
        else
          let p1 := { p with fts_info := if p.fts_errno ≠ 0 then FTS_ERR else FTS_DP }
          Outcome.ret (some p1) { r.2 with fts_cur := ⟨p1, par.link⟩ :: rest1 }

/-- The statements of `fts_read` from the label `next`: `tmp` is the entry left, the list its
`fts_link` chain, `rest` the frames of its ancestors. -/
def readNext (sys : Sys) (rest : List Frame) : FTS → FTSENT → List FTSENT → Outcome (Option FTSENT)
  | sp, tmp, [] => readUp sys sp tmp rest
  | sp, _, p :: lk =>
    if p.fts_level = FTS_ROOTLEVEL then
      let r := FCHDIR sys sp sp.fts_rfd
      if r.1 then
        Outcome.ret none { r.2 with fts_options := { r.2.fts_options with stop := true } }
      else
        let l := fts_load r.2 p
        Outcome.ret (some l.1) { l.2 with fts_cur := ⟨l.1, lk⟩ :: rest }
    else if p.fts_instr = FTS_SKIP then readNext sys rest sp p lk
    else if p.fts_instr = FTS_FOLLOW then
      let r := followStat sys sp (rest.map (fun g => g.ent)) p
      readName r.2 { r.1 with fts_instr := FTS_NOINSTR } lk rest
    else readName sp p lk rest

/-- In the pre-order branch of `fts_read`: a pending child list that holds names only is
dropped. -/
def readDirDrop (sp : FTS) : FTS :=
  if sp.fts_child ≠ [] ∧ sp.fts_options.nameonly then
    { sp with fts_options := { sp.fts_options with nameonly := false }, fts_child := [] }
  else sp

/-- In the pre-order branch of `fts_read`, without a pending child list: the children are
built; the cursor is returned again when there is none, else the first child. -/
def readDirBuild (sys : Sys) (sp : FTS) (p : FTSENT) (lk : List FTSENT) (rest : List Frame) :
    Outcome (Option FTSENT) :=
  match fts_build sys { sp with fts_cur := ⟨p, lk⟩ :: rest } BType.BREAD with
  | Outcome.crash => Outcome.crash
  | Outcome.ret [] sp2 =>
    if sp2.fts_options.stop then Outcome.ret none sp2
    else Outcome.ret ((sp2.fts_cur.head?).map (fun f => f.ent)) sp2
  | Outcome.ret (c :: cs) sp2 => readName sp2 c cs sp2.fts_cur

/-- In the pre-order branch of `fts_read`: the descent, into the pending child list when
there is one (after a change of directory), else into the list that `fts_build` returns. -/
def readDirEnter (sys : Sys) (sp1 : FTS) (p : FTSENT) (lk : List FTSENT) (rest : List Frame) :
    Outcome (Option FTSENT) :=
  match sp1.fts_child with
  | c :: cs =>
    let r := CHDIR sys sp1 (accString sp1 (rest.map (fun g => g.ent)) p)
    if r.1 then
      let p1 := { p with fts_errno := r.2.errno, dontchdir := true }
      if ∀ q ∈ c :: cs, q.fts_parent = some p.addr then
        readName { r.2 with fts_child := [] } { c with fts_accpath := p1.fts_accpath }
          (cs.map (fun q => { q with fts_accpath := p1.fts_accpath })) (⟨p1, lk⟩ :: rest)
      else Outcome.crash
    else readName { r.2 with fts_child := [] } c cs (⟨p, lk⟩ :: rest)
  | [] => readDirBuild sys sp1 p lk rest

/-- The pre-order branch of `fts_read`, for the cursor `p` of kind `FTS_D` whose instruction
was `instr`; `lk` and `rest` are its siblings and the frames of its ancestors. -/
def readDir (sys : Sys) (sp : FTS) (p : FTSENT) (lk : List FTSENT) (rest : List Frame)
    (instr : Int) : Outcome (Option FTSENT) :=
  if instr = FTS_SKIP ∨ (sp.fts_options.xdev ∧ p.fts_dev ≠ sp.fts_dev) then
    let p1 := { p with fts_info := FTS_DP }
    Outcome.ret (some p1) { sp with fts_child := [], fts_cur := ⟨p1, lk⟩ :: rest }
  else readDirEnter sys (readDirDrop sp) p lk rest

/-- The function `fts_read`: the entry returned (or nothing for a null return) and the walk
state after the call. -/
def fts_read (sys : Sys) (sp : FTS) : Outcome (Option FTSENT) :=
  match sp.fts_cur with
  | [] => Outcome.ret none sp
  | ⟨p0, lk⟩ :: rest =>
    if sp.fts_options.stop then Outcome.ret none sp
    else
      let instr := p0.fts_instr
      let p := { p0 with fts_instr := FTS_NOINSTR }
      let anc := rest.map (fun g => g.ent)
      if instr = FTS_AGAIN then
        let r := fts_stat sys sp anc none p false
        let p1 := { r.2.1 with fts_info := r.1 }
        Outcome.ret (some p1) { sp with errno := r.2.2, fts_cur := ⟨p1, lk⟩ :: rest }
      else if instr = FTS_FOLLOW ∧ (p.fts_info = FTS_SL ∨ p.fts_info = FTS_SLNONE) then
        let r := followStat sys sp anc p
        Outcome.ret (some r.1) { r.2 with fts_cur := ⟨r.1, lk⟩ :: rest }
      else if p.fts_info = FTS_D then readDir sys sp p lk rest instr
      else readNext sys rest { sp with fts_cur := ⟨p, lk⟩ :: rest } p lk

/-- The function `fts_children`: the list returned (empty for a null return) and the walk
state after the call. -/
def fts_children (sys : Sys) (sp : FTS) (instr : Int) : Outcome (List FTSENT) :=
  if instr ≠ 0 ∧ instr ≠ (FTS_NAMEONLY : Int) then Outcome.ret [] { sp with errno := EINVAL }
  else
    let sp0 := { sp with errno := 0 }
    if sp0.fts_options.stop then Outcome.ret [] sp0
    else
      match sp0.fts_cur with
      | [] => Outcome.crash
      | ⟨p, _⟩ :: rest =>
        if p.fts_info = FTS_INIT then Outcome.ret ((sp0.fts_cur.head?).elim [] (fun f => f.link)) sp0
        else if p.fts_info ≠ FTS_D then Outcome.ret [] sp0
        else
          let sp1 := if instr = (FTS_NAMEONLY : Int) then
              { sp0 with fts_options := { sp0.fts_options with nameonly := true } } else sp0
          let type := if instr = (FTS_NAMEONLY : Int) then BType.BNAMES else BType.BCHILD
          if p.fts_level ≠ FTS_ROOTLEVEL ∨
              (accString sp1 (rest.map (fun g => g.ent)) p).head? = some '/' ∨
              sp1.fts_options.nochdir then
            match fts_build sys sp1 type with
            | Outcome.crash => Outcome.crash
            | Outcome.ret l sp2 => Outcome.ret l { sp2 with fts_child := l }
          else
            match sys.openDot sp1.cwd with
            | Except.error e => Outcome.ret [] { sp1 with errno := e }
            | Except.ok fd =>
              match fts_build sys sp1 type with
              | Outcome.crash => Outcome.crash
              | Outcome.ret l sp2 =>
                let sp3 := { sp2 with fts_child := l }
                match sys.fchdir fd with
                | Except.error e => Outcome.ret [] { sp3 with errno := e }
                | Except.ok d => Outcome.ret l { sp3 with cwd := d }

/-! ## The stat probe as the specification words it -/

/-- Whether the directory-entry hint signals a whiteout (on a system that has whiteouts). -/
def hintIsWhiteout (sys : Sys) (dp : Option Dirent) : Bool :=
  match dp with
  | some d => sys.cfg.have_whiteout && d.d_type == DType.DT_WHT
  | none => false

/-- The decision procedure of the specification for the stat probe: (1) a whiteout hint gives
whiteout; (2) a logical walk or a follow request uses the dereferencing stat, falling back to
the non-dereferencing one (broken symlink with `errno` 0, or stat-failed with the first error
recorded); (3) otherwise the non-dereferencing stat, stat-failed with the error recorded on
failure; (4) dispatch on the mode, a directory storing device, inode and link count, being
dot-self when named `.` or `..`, a cycle when the nearest entry of the parent chain at level
at least 0 with the same device and inode exists, and pre-dir otherwise. -/
def statSpec (sys : Sys) (sp : FTS) (anc : List FTSENT) (dp : Option Dirent) (p : FTSENT)
    (follow : Bool) : Info × FTSENT × Nat :=
  let path := accString sp anc p
  let fill : FTSENT → Stat → FTSENT :=
    fun q sb => if sp.fts_options.nostat then q else { q with statbuf := sb }
  if hintIsWhiteout sys dp then (FTS_W, fill p ⟨Mode.wht, 0, 0, 0⟩, sp.errno)
  else
    let probe : Except (Info × FTSENT × Nat) Stat :=
      if sp.fts_options.logical || follow then
        match sys.stat sp.cwd path, sys.lstat sp.cwd path with
        | Except.ok sb, _ => Except.ok sb
        | Except.error _, Except.ok sb => Except.error (FTS_SLNONE, fill p sb, 0)
        | Except.error e, Except.error e2 =>
          Except.error (FTS_NS, fill { p with fts_errno := e } Stat.zeroed, e2)
      else
        match sys.lstat sp.cwd path with
        | Except.ok sb => Except.ok sb
        | Except.error e => Except.error (FTS_NS, fill { p with fts_errno := e } Stat.zeroed, e)
    match probe with
    | Except.error r => r
    | Except.ok sb =>
      match sb.st_mode with
      | Mode.dir =>
        let q := { (fill p sb) with
          fts_dev := sb.st_dev, fts_ino := sb.st_ino, fts_nlink := sb.st_nlink }
        if cstr p.fts_name = ['.'] ∨ cstr p.fts_name = ['.', '.'] then (FTS_DOT, q, sp.errno)
        else
          match (anc.takeWhile (fun t => decide (0 ≤ t.fts_level))).find?
              (fun t => t.fts_ino == sb.st_ino && t.fts_dev == sb.st_dev) with
          | some t => (FTS_DC, { q with fts_cycle := some t.addr }, sp.errno)
          | none => (FTS_D, q, sp.errno)
      | Mode.lnk => (FTS_SL, fill p sb, sp.errno)
      | Mode.reg => (FTS_F, fill p sb, sp.errno)
      | _ => (FTS_DEFAULT, fill p sb, sp.errno)

/-- An entry with every field zero, used as a concrete input. -/
def ent0 : FTSENT :=
  { addr := 0, fts_cycle := none, fts_accpath := AccPath.path, fts_number := 0,
    fts_pointer := none, fts_symfd := 0, fts_pathlen := 0, fts_namelen := 0, fts_ino := 0,
    fts_dev := 0, fts_nlink := 0, fts_level := 0, fts_info := FTS_INIT, dontchdir := false,
    symfollow := false, fts_instr := 0, hasStatp := false, statbuf := Stat.zeroed,
    fts_errno := 0, fts_name := [], fts_parent := none }

/-! ## Concrete file systems used as inputs -/

/-- A table of answers of a system call, keyed by working directory and path; a missing key
is the error `ENOENT`. -/
def tbl {α : Type} (t : List ((Nat × String) × α)) (cwd : Nat) (path : Bytes) : Except Nat α :=
  match t.find? (fun e => e.1.1 == cwd && e.1.2.toList == path) with
  | some e => Except.ok e.2
  | none => Except.error ENOENT

/-- A directory entry with the given name and no type hint. -/
def dn (s : String) : Dirent := ⟨s.toList ++ [NUL, NUL], DType.DT_UNKNOWN⟩

/-- The answer of `stat` for a directory with the given inode on device 1. -/
def dirS (ino : Nat) : Stat := ⟨Mode.dir, 1, ino, 2⟩

/-- The answer of `stat` for a regular file with the given inode on device 1. -/
def regS (ino : Nat) : Stat := ⟨Mode.reg, 1, ino, 1⟩

/-- Scenario 1: the starting directory (number 0) holds the directory `D` (number 1), which
holds the regular files `a`, `b`, `c`. -/
def sysFlat : Sys :=
  { cfg := ⟨true, false, true⟩
    stat := tbl [((0, "D"), dirS 1), ((1, "a"), regS 2), ((1, "b"), regS 3), ((1, "c"), regS 4)]
    lstat := tbl [((0, "D"), dirS 1), ((1, "a"), regS 2), ((1, "b"), regS 3), ((1, "c"), regS 4)]
    opendir := tbl [((0, "D"), (1, [dn ".", dn "..", dn "a", dn "b", dn "c"]))]
    chdir := tbl [((1, ".."), 0), ((0, "D"), 1)]
    fchdir := fun fd => Except.ok fd.toNat
    openDot := fun cwd => Except.ok (cwd : Int)
    qsort := fun _ l => l
    junk := fun _ => ent0
    pathJunk := fun _ => NUL }

/-- A walk state with the stop flag set: the state `fts_open` gives a walk, changed only in that
flag. -/
def spStopped : FTS :=
  let sp := openFinish sysFlat (openInit sysFlat 0 0 [] 0 none).1
    (openInit sysFlat 0 0 [] 0 none).2 [] 0
  { sp with fts_options := { sp.fts_options with stop := true } }

/-! ### Fields that the stat probe and the path loader leave alone -/

/-- The entry `e` is the entry `p` with possibly other contents: same address, parent,
instruction and level. -/
def Same (e p : FTSENT) : Prop :=
  e.addr = p.addr ∧ e.fts_parent = p.fts_parent ∧ e.fts_instr = p.fts_instr ∧
    e.fts_level = p.fts_level

/-! ### What the child builder allocates -/

/-- The fields of the walk state that the loop of `fts_build` does not write. -/
def FrameEq (a b : FTS) : Prop :=
  a.fts_options = b.fts_options ∧ a.fts_compar = b.fts_compar ∧ a.fts_cur = b.fts_cur ∧
    a.fts_child = b.fts_child ∧ a.fts_rfd = b.fts_rfd ∧ a.cwd = b.cwd ∧ a.fts_dev = b.fts_dev ∧
    a.fts_nitems = b.fts_nitems

/-- The invariant of the loop of `fts_build`: the entries built so far were allocated one
after the other from address `n0` on, and each has the current node as parent, no
instruction, and the level of a child. -/
def BuildInv (n0 : Nat) (cur : FTSENT) (level : Int) (st : BuildLoop) : Prop :=
  st.head.map (fun c => c.addr) = List.range' n0 st.nitems ∧
  st.sp.nalloc = n0 + st.nitems ∧
  ∀ c ∈ st.head, c.fts_parent = some cur.addr ∧ c.fts_instr = FTS_NOINSTR ∧ c.fts_level = level

/-- The fields of the walk state that no helper of `fts_build` writes, apart from the stop
flag. -/
def Kept (a b : FTS) : Prop :=
  a.fts_options = b.fts_options ∧ a.fts_compar = b.fts_compar ∧ a.fts_cur = b.fts_cur ∧
    a.fts_child = b.fts_child

/-- What `fts_build` guarantees about its result `r` (list, current node, walk state), for the
walk state `sp` and current node `cur` it was called with. -/
def BuildPost (sp : FTS) (cur : FTSENT) (type : BType) (r : List FTSENT × FTSENT × FTS) : Prop :=
  Same r.2.1 cur ∧
  sp.nalloc ≤ r.2.2.nalloc ∧
  (∀ c ∈ r.1, sp.nalloc ≤ c.addr ∧ c.addr < r.2.2.nalloc ∧ c.fts_parent = some cur.addr ∧
    c.fts_instr = FTS_NOINSTR ∧ c.fts_level = cur.fts_level + 1) ∧
  r.2.2.fts_child = sp.fts_child ∧ r.2.2.fts_cur = sp.fts_cur ∧
  r.2.2.fts_compar = sp.fts_compar ∧
  (r.2.2.fts_options = sp.fts_options ∨
    (r.2.2.fts_options = { sp.fts_options with stop := true } ∧ r.1 = [])) ∧
  (r.1 = [] → type = BType.BREAD →
    r.2.2.fts_options.stop = true ∨ r.2.1.fts_info = FTS_DNR ∨ r.2.1.fts_info = FTS_DP) ∧
  (r.1 ≠ [] → r.2.1.fts_info = cur.fts_info)

/-! ### Walks driven by `fts_read` alone -/

/-- An entry allocated before `n` on which no instruction is set. -/
def EntOk (n : Nat) (e : FTSENT) : Prop := e.addr < n ∧ e.fts_instr = FTS_NOINSTR

/-- A frame whose entry and linked siblings are all `EntOk`. -/
def FrameOk (n : Nat) (f : Frame) : Prop := EntOk n f.ent ∧ ∀ q ∈ f.link, EntOk n q

/-- The invariant of a walk on which the caller sets no instruction and never calls
`fts_children`: no pending child list, every live entry was allocated by the walk and has no
instruction. -/
def Inv (sp : FTS) : Prop := sp.fts_child = [] ∧ ∀ f ∈ sp.fts_cur, FrameOk sp.nalloc f

/-- The children that the child builder enumerates for the cursor when `fts_read` is called on
a cursor of kind `FTS_D` without instruction: the list `fts_build` returns, and no list when
the cursor is on another device than the pinned one under `FTS_XDEV` (the builder is then not
called). -/
def builtChildren (sys : Sys) (sp : FTS) : List FTSENT :=
  match sp.fts_cur with
  | [] => []
  | f :: _ =>
    if sp.fts_options.xdev ∧ f.ent.fts_dev ≠ sp.fts_dev then []
    else
      match fts_build sys sp BType.BREAD with
      | Outcome.ret l _ => l
      | Outcome.crash => []

/-- The possible outcomes of one call of `fts_read` in a walk that satisfies `Inv`, when the
cursor is `p`, its siblings are `lk` and the frames of its ancestors are `rest`: the cursor
stays (a directory that is not entered), moves down to the first child built, moves to the
next sibling, or moves up to the parent; or the call returns null, or dereferences a pointer
that was never assigned. -/
inductive Shape (sys : Sys) (sp : FTS) (p : FTSENT) (lk : List FTSENT) (rest : List Frame) :
    Outcome (Option FTSENT) → Prop where
  | crash : Shape sys sp p lk rest Outcome.crash
  | null (sp1 : FTS) : (sp1.fts_cur = [] ∨ sp1.fts_options.stop = true) →
      Shape sys sp p lk rest (Outcome.ret none sp1)
  | stay (e : FTSENT) (sp1 : FTS) : p.fts_info = FTS_D → sp1.fts_cur = ⟨e, lk⟩ :: rest →
      Same e p → (e.fts_info = FTS_DP ∨ e.fts_info = FTS_DNR) → Inv sp1 →
      sp.nalloc ≤ sp1.nalloc → builtChildren sys sp = [] →
      Shape sys sp p lk rest (Outcome.ret (some e) sp1)
  | down (c : FTSENT) (cs : List FTSENT) (e : FTSENT) (sp1 : FTS) : p.fts_info = FTS_D →
      sp1.fts_cur = ⟨c, cs⟩ :: ⟨e, lk⟩ :: rest → Same e p → e.fts_info = FTS_D →
      builtChildren sys sp = c :: cs →
      (∀ x ∈ c :: cs, sp.nalloc ≤ x.addr ∧ x.fts_parent = some p.addr) → Inv sp1 →
      sp.nalloc ≤ sp1.nalloc → Shape sys sp p lk rest (Outcome.ret (some c) sp1)
  | side (q : FTSENT) (lk1 : List FTSENT) (e : FTSENT) (sp1 : FTS) : p.fts_info ≠ FTS_D →
      lk = q :: lk1 → sp1.fts_cur = ⟨e, lk1⟩ :: rest → Same e q → Inv sp1 →
      sp.nalloc ≤ sp1.nalloc → Shape sys sp p lk rest (Outcome.ret (some e) sp1)
  | up (par : Frame) (rest1 : List Frame) (e : FTSENT) (sp1 : FTS) : p.fts_info ≠ FTS_D →
      lk = [] → rest = par :: rest1 → p.fts_parent = some par.ent.addr →
      sp1.fts_cur = ⟨e, par.link⟩ :: rest1 → Same e par.ent →
      (e.fts_info = FTS_DP ∨ e.fts_info = FTS_ERR) → Inv sp1 →
      sp.nalloc ≤ sp1.nalloc → Shape sys sp p lk rest (Outcome.ret (some e) sp1)

/-- The walk: the entries that up to `n` successive calls of `fts_read` return, each with the
walk state after the call; the list ends at the first call that returns null. -/
def run (sys : Sys) : Nat → FTS → List (FTSENT × FTS)
  | 0, _ => []
  | n + 1, sp =>
    match fts_read sys sp with
    | Outcome.ret (some e) sp1 => (e, sp1) :: run sys n sp1
    | _ => []

/-- Following the `fts_parent` pointers from the cursor (the entry of the first frame) through
the frames below it reaches the entry at address `a`. -/
def ParentChain (a : Nat) : List Frame → Prop
  | f :: g :: rest =>
    f.ent.fts_parent = some g.ent.addr ∧ (g.ent.addr = a ∨ ParentChain a (g :: rest))
  | _ => False

/-- The address of the entry below a list of frames that sit on the frame of the entry at
address `a`. -/
def belowAddr (a : Nat) : List Frame → Nat
  | [] => a
  | g :: _ => g.ent.addr

/-- A frame of entries allocated from address `n` on whose parent is the entry at `b`. -/
def FrOk (n b : Nat) (f : Frame) : Prop :=
  n ≤ f.ent.addr ∧ f.ent.fts_parent = some b ∧
    ∀ q ∈ f.link, n ≤ q.addr ∧ q.fts_parent = some b

/-- Frames stacked on the frame of the entry at address `a`: each holds entries allocated from
`n` on whose parent is the entry of the frame below. -/
def PreOk (n a : Nat) : List Frame → Prop
  | [] => True
  | f :: r => FrOk n (belowAddr a r) f ∧ PreOk n a r

/-- The walk is inside the subtree of the directory at address `a`: the cursor stack is made of
frames of descendants (`mid`), the frame of a child with the siblings `chl` still linked after
it, the frame of the directory with its siblings `lkD`, and the frames `base` of its
ancestors. -/
def InSub (a n : Nat) (lkD : List FTSENT) (base : List Frame) (chl : List FTSENT)
    (sp : FTS) : Prop :=
  ∃ (mid : List Frame) (ch D : FTSENT),
    sp.fts_cur = mid ++ ⟨ch, chl⟩ :: ⟨D, lkD⟩ :: base ∧ D.addr = a ∧
    PreOk n a (mid ++ [⟨ch, chl⟩]) ∧ Inv sp ∧ n ≤ sp.nalloc

/-- The siblings still linked after the cursor. -/
def curLink (sp : FTS) : List FTSENT :=
  match sp.fts_cur with
  | [] => []
  | f :: _ => f.link

/-- The walk state that `fts_open` gives for the single argument `D` in the flat scenario. -/
def flatStart : FTS := ((fts_open sysFlat 0 0 ["D".toList] 0 none).1).getD spStopped

/-- Comparison of two byte strings, byte by byte (`strcmp`). -/
def cmpBytes : Bytes → Bytes → Int
  | [], [] => 0
  | [], _ :: _ => -1
  | _ :: _, [] => 1
  | a :: as, b :: bs =>
    if a.toNat < b.toNat then -1 else if b.toNat < a.toNat then 1 else cmpBytes as bs

/-- The comparator that orders entries by name. -/
def byName (a b : FTSENT) : Int := cmpBytes (cstr a.fts_name) (cstr b.fts_name)

/-- A sort routine: insertion sort by the comparator. -/
def isort (cmp : FTSENT → FTSENT → Int) (l : List FTSENT) : List FTSENT :=
  l.foldr (fun x acc => List.orderedInsert (fun a b => cmp a b ≤ 0) x acc) []

/-- Scenario 2: the starting directory (number 0) holds `D` (number 1), which holds the
directory `sub` (number 2, holding the files `z` and `a`) and the file `m`. -/
def sysNested : Sys :=
  { sysFlat with
    stat := tbl [((0, "D"), dirS 1), ((1, "sub"), dirS 2), ((1, "m"), regS 3),
      ((2, "z"), regS 4), ((2, "a"), regS 5)]
    lstat := tbl [((0, "D"), dirS 1), ((1, "sub"), dirS 2), ((1, "m"), regS 3),
      ((2, "z"), regS 4), ((2, "a"), regS 5)]
    opendir := tbl [((0, "D"), (1, [dn ".", dn "..", dn "sub", dn "m"])),
      ((1, "sub"), (2, [dn ".", dn "..", dn "z", dn "a"]))]
    chdir := tbl [((1, ".."), 0), ((2, ".."), 1)]
    qsort := isort }

/-- The walk state that `fts_open` gives for the argument `D` in scenario 2, with the by-name
comparator. -/
def nestedStart : FTS :=
  ((fts_open sysNested 0 0 ["D".toList] 0 (some byName)).1).getD spStopped

/-- Modelled from the spec: the option bit "logical" (`FTS_LOGICAL` of the missing
`fts.h`). -/
def FTS_LOGICAL : Nat := 0x002

/-- Modelled from the spec: the option bit "xdev" (`FTS_XDEV` of the missing `fts.h`). -/
def FTS_XDEV : Nat := 0x040

/-- Scenario 3: the starting directory (number 0) holds `D` (number 1, inode 1), which holds
`loop`, a symbolic link to `D`. Paths are resolved from the starting directory, as in a
walk that does not change directory. -/
def sysLoop : Sys :=
  { sysFlat with
    stat := tbl [((0, "D"), dirS 1), ((0, "D/"), dirS 1), ((0, "D/loop"), dirS 1)]
    lstat := tbl [((0, "D"), dirS 1), ((0, "D/"), dirS 1),
      ((0, "D/loop"), ⟨Mode.lnk, 1, 7, 1⟩)]
    opendir := tbl [((0, "D"), (1, [dn ".", dn "..", dn "loop"])),
      ((0, "D/"), (1, [dn ".", dn "..", dn "loop"])),
      ((0, "D/loop"), (1, [dn ".", dn "..", dn "loop"]))]
    chdir := tbl [] }

/-- The walk state that `fts_open` gives for a logical walk of `D` in scenario 3. -/
def loopStart : FTS :=
  ((fts_open sysLoop 0 0 ["D".toList] FTS_LOGICAL none).1).getD spStopped

/-- Scenario 3 when the memory that `realloc` returns for the path buffer holds the byte `x`
instead of zeros. -/
def sysLoopX : Sys := { sysLoop with pathJunk := fun _ => 'x' }

/-- The walk state that `fts_open` gives for a logical walk of `D` in that case. -/
def loopStartX : FTS :=
  ((fts_open sysLoopX 0 0 ["D".toList] FTS_LOGICAL none).1).getD spStopped

/-! ### Where the entries of a walk state come from -/

/-- The address `a` is that of an entry of the frame `f`. -/
def InFrame (f : Frame) (a : Nat) : Prop := f.ent.addr = a ∨ ∃ q ∈ f.link, q.addr = a

/-- The address `a` is that of a live entry of the walk state: an entry of the cursor stack, a
sibling linked to one, or a pending child. -/
def HasAddr (sp : FTS) (a : Nat) : Prop :=
  (∃ f ∈ sp.fts_cur, InFrame f a) ∨ ∃ q ∈ sp.fts_child, q.addr = a

/-- Every live entry of `sp1` is at the address of a live entry of `sp` other than the cursor
of `sp`, or was allocated after `sp`. -/
def Prov (sp sp1 : FTS) : Prop :=
  sp.nalloc ≤ sp1.nalloc ∧
  ∀ a, HasAddr sp1 a →
    (∃ q ∈ curLink sp, q.addr = a) ∨ (∃ f ∈ sp.fts_cur.tail, InFrame f a) ∨
    (∃ q ∈ sp.fts_child, q.addr = a) ∨ sp.nalloc ≤ a

/-- As `Prov`, but the cursor of `sp` may also be kept. -/
def ProvCur (sp sp1 : FTS) : Prop :=
  sp.nalloc ≤ sp1.nalloc ∧ ∀ a, HasAddr sp1 a → HasAddr sp a ∨ sp.nalloc ≤ a

/-- The outcome of leaving the cursor (`readNext`): the call returns null with the stop flag
set or the cursor null, or the new cursor is a sibling that was linked after the old one, or
the parent. -/
def Leaves (sp : FTS) (lk : List FTSENT) (rest : List Frame) (v : Option FTSENT)
    (sp1 : FTS) : Prop :=
  sp1.nalloc = sp.nalloc ∧ sp1.fts_child = sp.fts_child ∧
  ((v = none ∧ ((sp1.fts_options.stop = true ∧ sp1.fts_cur = sp.fts_cur) ∨
      (sp1.fts_cur = [] ∧
        ∃ par rest1, rest = par :: rest1 ∧ par.ent.fts_level = FTS_ROOTPARENTLEVEL))) ∨
   (∃ e l, v = some e ∧ sp1.fts_cur = ⟨e, l⟩ :: rest ∧
      (∃ q ∈ lk, q.addr = e.addr ∧ q.fts_level = e.fts_level) ∧ ∀ x ∈ l, x ∈ lk) ∨
   (∃ e par rest1, v = some e ∧ rest = par :: rest1 ∧
      sp1.fts_cur = ⟨e, par.link⟩ :: rest1 ∧ e.addr = par.ent.addr ∧
      e.fts_level = par.ent.fts_level ∧ (e.fts_info = FTS_DP ∨ e.fts_info = FTS_ERR)))

/-! ### Walks on which the caller sets instructions -/

/-- The caller calls `fts_set` with a valid instruction on the entry last returned (the
cursor). -/
def setCur (sp : FTS) (instr : Int) : FTS :=
  match sp.fts_cur with
  | [] => sp
  | f :: rest => { sp with fts_cur := { f with ent := (fts_set f.ent instr).2.2 } :: rest }

/-- The walk in which, after each call of `fts_read`, the caller sets the given instruction (if
any) on the entry returned. -/
def runI (sys : Sys) : List (Option Int) → FTS → List (FTSENT × FTS)
  | [], _ => []
  | i :: is, sp =>
    match fts_read sys sp with
    | Outcome.ret (some e) sp1 =>
      (e, sp1) :: runI sys is (match i with
        | some v => setCur sp1 v
        | none => sp1)
    | _ => []

/-- An entry with its instruction slot blanked. -/
def eraseInstr (e : FTSENT) : FTSENT := { e with fts_instr := 0 }

/-- A frame with the instruction slots blanked. -/
def eraseFrame (f : Frame) : Frame := ⟨eraseInstr f.ent, f.link.map eraseInstr⟩

/-- The walk state `t` is the walk state `s` after the caller has written instruction slots of
live entries (by `fts_set`), and nothing else. -/
def InstrOnly (s t : FTS) : Prop :=
  ∃ cur child, t = { s with fts_cur := cur, fts_child := child } ∧
    cur.map eraseFrame = s.fts_cur.map eraseFrame ∧
    child.map eraseInstr = s.fts_child.map eraseInstr

/-- The calls of `fts_read` that follow the walk state `s`, the caller writing instruction
slots between the calls: `Calls sys s v u` says that some such call returns `v` and leaves the
walk state `u`. -/
inductive Calls (sys : Sys) : FTS → Option FTSENT → FTS → Prop where
  | first (s t : FTS) (v : Option FTSENT) (u : FTS) : InstrOnly s t →
      fts_read sys t = Outcome.ret v u → Calls sys s v u
  | next (s : FTS) (v : Option FTSENT) (u t : FTS) (v1 : Option FTSENT) (w : FTS) :
      Calls sys s v u → InstrOnly u t → fts_read sys t = Outcome.ret v1 w → Calls sys s v1 w

/-- The addresses of the entries of a frame. -/
def frameAddrs (f : Frame) : List Nat := f.ent.addr :: f.link.map (fun q => q.addr)

/-- The entry at address `a` has left the walk: it is no live entry any more (or the walk is
stopped, and returns nothing any more). -/
def Gone (a : Nat) (u : FTS) : Prop :=
  u.fts_options.stop = true ∨ (a < u.nalloc ∧ ¬ HasAddr u a)

/-- The call that returned `v` and left the walk state `u` returned neither the entry at
address `a` nor an entry that has it on its parent chain. -/
def NotUnder (a : Nat) (v : Option FTSENT) (u : FTS) : Prop :=
  ∀ e, v = some e → ∀ f ∈ u.fts_cur, f.ent.addr ≠ a

/-- A directory `D` (device 1) that holds the directory `sub`, on device 2. -/
def sysXdev : Sys :=
  { sysFlat with
    stat := tbl [((0, "D"), dirS 1), ((1, "sub"), ⟨Mode.dir, 2, 5, 2⟩)]
    lstat := tbl [((0, "D"), dirS 1), ((1, "sub"), ⟨Mode.dir, 2, 5, 2⟩)]
    opendir := tbl [((0, "D"), (1, [dn ".", dn "..", dn "sub"])),
      ((1, "sub"), (2, [dn ".", dn "..", dn "x"]))]
    chdir := tbl [((1, ".."), 0), ((2, ".."), 1)] }

/-- The walk state that `fts_open` gives for the argument `D` with the option `FTS_XDEV`. -/
def xdevStart : FTS := ((fts_open sysXdev 0 0 ["D".toList] FTS_XDEV none).1).getD spStopped

/-- The entry `p` as the skip and cross-device branch of `fts_read` returns it. -/
def fenced (p : FTSENT) : FTSENT := { p with fts_instr := FTS_NOINSTR, fts_info := FTS_DP }

/-- Scenario 4: the walk state of scenario 2 after `sub` has been returned in pre-order and the
caller has set `FTS_SKIP` on it. -/
def skipState : FTS :=
  setCur ((run sysNested 3 nestedStart).getLastD (ent0, spStopped)).2 FTS_SKIP

/-! ### An unreadable directory -/

/-- The starting directory (number 0) holds the directory `D`, which `opendir` cannot open,
and the regular file `E`. -/
def sysUnread : Sys :=
  { sysFlat with
    stat := tbl [((0, "D"), dirS 1), ((0, "E"), regS 2)]
    lstat := tbl [((0, "D"), dirS 1), ((0, "E"), regS 2)]
    opendir := tbl []
    chdir := tbl [] }

/-- The walk state that `fts_open` gives for the arguments `D`, `E` over `sysUnread`. -/
def unreadStart2 : FTS :=
  ((fts_open sysUnread 0 0 ["D".toList, "E".toList] 0 none).1).getD spStopped

/-- The walk state that `fts_open` gives for the single argument `D` over `sysUnread`. -/
def unreadStart1 : FTS := ((fts_open sysUnread 0 0 ["D".toList] 0 none).1).getD spStopped

/-! ### The order of siblings -/

/-- One call of `fts_read`: the walk state it was called on, the entry returned (or nothing for
a null return) and the walk state afterwards. -/
structure Call where
  pre : FTS
  val : Option FTSENT
  post : FTS

/-- Whether the call returned the entry at address `a`. -/
def retAddr (a : Nat) (c : Call) : Bool :=
  match c.val with
  | some e => e.addr == a
  | none => false

/-- The call was not made with the instruction `FTS_AGAIN` set on a cursor at address `a`. -/
def NoAgainOn (a : Nat) (c : Call) : Prop :=
  ∀ f ∈ c.pre.fts_cur.head?, f.ent.addr = a → f.ent.fts_instr ≠ FTS_AGAIN

/-- The calls of `fts_read` without any instruction, up to `k` of them and up to the first null
return, from the walk state `s` on. -/
def callsOf (sys : Sys) : Nat → FTS → List Call
  | 0, _ => []
  | k + 1, s =>
    match fts_read sys s with
    | Outcome.ret (some e) u => ⟨s, some e, u⟩ :: callsOf sys k u
    | Outcome.ret none u => [⟨s, none, u⟩]
    | Outcome.crash => []

/-- The walk state of scenario 2 after `D` has been returned in pre-order. -/
def nestedAtD : FTS := ((run sysNested 1 nestedStart).headD (ent0, spStopped)).2

/-! ### Inputs for the claims on `fts_children` and on the child builder -/

/-- Whether a call dereferenced a pointer that was null or never assigned. -/
def crashed {α : Type} : Outcome α → Bool
  | Outcome.crash => true
  | Outcome.ret _ _ => false

/-- The walk state after the walk of scenario 1 is exhausted: `fts_read` has returned null. -/
def flatEnd : FTS := ((callsOf sysFlat 9 flatStart).getLastD ⟨spStopped, none, spStopped⟩).post

/-- The walk state of scenario 3 (path buffer memory holding `x`) after `D` has been returned
in pre-order. -/
def loopAtDX : FTS := ((run sysLoopX 1 loopStartX).headD (ent0, spStopped)).2

/-- Scenario 1 with a type hint on the directory entries: `a`, `b`, `c` are hinted to be
something other than a directory. -/
def sysHint : Sys :=
  { sysFlat with
    opendir := tbl [((0, "D"), (1, [dn ".", dn "..",
      ⟨"a".toList ++ [NUL, NUL], DType.DT_OTHER⟩, ⟨"b".toList ++ [NUL, NUL], DType.DT_OTHER⟩,
      ⟨"c".toList ++ [NUL, NUL], DType.DT_OTHER⟩]))] }

/-- The walk state over `sysHint` after `D` has been returned in pre-order. -/
def hintAtD : FTS :=
  ((run sysHint 1 (((fts_open sysHint 0 0 ["D".toList] 0 none).1).getD spStopped)).headD
    (ent0, spStopped)).2

/-- The test of `fts_build` under which the stat probe is skipped: the stat budget is used
up, or it is positive and the directory entry carries a type hint that is neither `DT_DIR`
nor `DT_UNKNOWN`. -/
def Elide (sys : Sys) (st : BuildLoop) (dp : Dirent) : Prop :=
  st.nlinks = 0 ∨ (sys.cfg.have_d_type = true ∧ st.nlinks > 0 ∧ dp.d_type ≠ DType.DT_DIR ∧
    dp.d_type ≠ DType.DT_UNKNOWN)

/-- What one iteration of the loop of `fts_build` does with a directory entry when the descent
did not fail (`cderrno` is 0). Under `Elide` the new entry has kind `FTS_NSOK`, the stat
budget is unchanged and the result does not depend on what `stat` and `lstat` answer. Else
the kind of the new entry is what `fts_stat` returns, and the budget is decremented when it is
positive and that kind is `FTS_D`, `FTS_DC` or `FTS_DOT`. -/
def StatElision (sys : Sys) (cur : FTSENT) (chain : List FTSENT) (len cp : Nat) (level : Int)
    (st : BuildLoop) (dp : Dirent) : Prop :=
  (Elide sys st dp →
    (∃ p, (buildEntry sys cur chain 0 len cp level st dp).head = st.head ++ [p] ∧
      p.fts_info = FTS_NSOK) ∧
    (buildEntry sys cur chain 0 len cp level st dp).nlinks = st.nlinks ∧
    ∀ f g, buildEntry { sys with stat := f, lstat := g } cur chain 0 len cp level st dp =
      buildEntry sys cur chain 0 len cp level st dp) ∧
  (¬ Elide sys st dp →
    ∃ p2,
      (buildEntry sys cur chain 0 len cp level st dp).head =
        st.head ++ [{ (fts_stat sys (buildAlloc sys cur len level st dp).2.1 chain (some dp) p2
          false).2.1 with
          fts_info := (fts_stat sys (buildAlloc sys cur len level st dp).2.1 chain (some dp) p2
            false).1 }] ∧
      (buildEntry sys cur chain 0 len cp level st dp).nlinks =
        if st.nlinks > 0 ∧
            ((fts_stat sys (buildAlloc sys cur len level st dp).2.1 chain (some dp) p2
                false).1 = FTS_D ∨
              (fts_stat sys (buildAlloc sys cur len level st dp).2.1 chain (some dp) p2
                false).1 = FTS_DC ∨
              (fts_stat sys (buildAlloc sys cur len level st dp).2.1 chain (some dp) p2
                false).1 = FTS_DOT) then st.nlinks - 1
        else st.nlinks)

/-- The cursor of `hintAtD`, the directory `D`. -/
def hintCur : FTSENT := (hintAtD.fts_cur.headD ⟨ent0, []⟩).ent

/-- The loop state of `fts_build` at its first iteration on `hintAtD`, with stat budget `n`,
after the change of directory into `D` (directory number 1). -/
def hintSt (n : Int) : BuildLoop :=
  { sp := { hintAtD with cwd := 1 }, nlinks := n, maxlen := 1000, head := [], nitems := 0 }

/-- The directory entry `a` with a type hint that is neither `DT_DIR` nor `DT_UNKNOWN`. -/
def hintDirent : Dirent := ⟨"a".toList ++ [NUL, NUL], DType.DT_OTHER⟩

/-! ### A subdirectory that cannot be opened -/

/-- An entry of kind `FTS_DC` has a cycle link that is not null. -/
def CycOk (e : FTSENT) : Prop := e.fts_info = FTS_DC → e.fts_cycle ≠ none

/-- The entry of a frame and the siblings linked after it are `CycOk`. -/
def FrameCyc (f : Frame) : Prop := CycOk f.ent ∧ ∀ q ∈ f.link, CycOk q

/-- The frames of the ancestors of the cursor: the last one is the parent of the roots (level
`FTS_ROOTPARENTLEVEL`, its kind is never assigned), the others are `FrameCyc`. -/
def Above : List Frame → Prop
  | [] => False
  | [last] => last.ent.fts_level = FTS_ROOTPARENTLEVEL
  | f :: g :: r => FrameCyc f ∧ Above (g :: r)

/-- The cycle-link invariant of a walk state: the cursor is null, or it and every entry linked
to it or to an ancestor above the parent of the roots is `CycOk`; and so is every pending
child. -/
def CycInv (u : FTS) : Prop :=
  (u.fts_cur = [] ∨ ∃ f rest, u.fts_cur = f :: rest ∧ FrameCyc f ∧ Above rest) ∧
  ∀ q ∈ u.fts_child, CycOk q

/-- The walk states reachable from `fts_open` by calls of `fts_read`, `fts_children` and
`fts_set` (which writes the instruction slot of a live entry, or sets `errno` to `EINVAL` when it
rejects the instruction). -/
inductive Reach (sys : Sys) : FTS → Prop where
  | start (cwd errno0 : Nat) (argv : List Bytes) (options : Nat)
      (compar : Option (FTSENT → FTSENT → Int)) (sp : FTS) :
      (fts_open sys cwd errno0 argv options compar).1 = some sp → Reach sys sp
  | read (s : FTS) (v : Option FTSENT) (u : FTS) :
      Reach sys s → fts_read sys s = Outcome.ret v u → Reach sys u
  | children (s : FTS) (instr : Int) (l : List FTSENT) (u : FTS) :
      Reach sys s → fts_children sys s instr = Outcome.ret l u → Reach sys u
  | set (s t : FTS) : Reach sys s → InstrOnly s t → Reach sys t
  | setRejected (s : FTS) : Reach sys s → Reach sys { s with errno := EINVAL }

/-- Scenario 1 when the memory that `malloc` returns is not zeroed: the block of the first
allocation reads as an entry of kind `FTS_DC` with a null cycle link, every later block as an
entry whose cycle link is the address 7. -/
def sysJunk : Sys :=
  { sysFlat with
    junk := fun a =>
      if a = 0 then { ent0 with fts_info := FTS_DC } else { ent0 with fts_cycle := some 7 } }

/-- The walk state that `fts_open` gives for the single argument `D` in that case. -/
def junkStart : FTS := ((fts_open sysJunk 0 0 ["D".toList] 0 none).1).getD spStopped

/-- The walk state of that walk after `D` and its first file have been returned. -/
def junkAtFile : FTS := ((run sysJunk 2 junkStart).getLastD (ent0, spStopped)).2

/-- The walk state of scenario 3 after `D` and the link `loop` have been returned. -/
def loopAtLink : FTS := ((run sysLoop 2 loopStart).getLastD (ent0, spStopped)).2

/-- The live entries of a walk state apart from the parent of the roots (the entry of the last
frame, whose kind is never assigned): the cursor and its ancestors, the siblings linked after
each of them, and the pending children. -/
def liveEntries (u : FTS) : List FTSENT :=
  (u.fts_cur.dropLast.map (fun f => f.ent :: f.link)).flatten ++ u.fts_child

/-- Every live entry of kind `FTS_DC`, the parent of the roots apart, has a cycle link that is
not null. -/
def CycleLinked (u : FTS) : Prop :=
  ∀ e ∈ liveEntries u, e.fts_info = FTS_DC → e.fts_cycle ≠ none

/-! ### Where the siblings come from -/

/-- The entry `e` has the name bytes and the name length of the entry `p`. -/
def KeepsName (e p : FTSENT) : Prop :=
  e.fts_name = p.fts_name ∧ e.fts_namelen = p.fts_namelen

/-- The root entry `r` was made from the argument `a` of `fts_open`, called in the directory
`cwd`: it holds the string of the argument and its length, it is at the level of the roots, and
its kind is stat-failed when neither `stat` nor `lstat` succeeds on the argument. -/
def RootFrom (sys : Sys) (cwd : Nat) (r : FTSENT) (a : Bytes) : Prop :=
  cstr r.fts_name = cstr a ∧ r.fts_namelen = strlen a ∧ r.fts_level = FTS_ROOTLEVEL ∧
  ((∃ e, sys.stat cwd (cstr a) = Except.error e) →
    (∃ e, sys.lstat cwd (cstr a) = Except.error e) → r.fts_info = FTS_NS)

/-- Scenario 1 with a second argument `x` that names no file. -/
def missingStart : Option FTS := (fts_open sysFlat 0 0 ["D".toList, "x".toList] 0 none).1

/-! ### One call of `fts_read` on any walk state -/

/-- Whether `opendir` fails on the cursor of the walk state. -/
def openFails (sys : Sys) (t : FTS) : Bool :=
  match t.fts_cur with
  | [] => false
  | f :: rest =>
    match sys.opendir t.cwd (accString t (rest.map (fun g => g.ent)) f.ent) with
    | Except.error _ => true
    | Except.ok _ => false

/-- Whether the change of directory fails that `fts_read` makes when it descends into the
cursor of the walk state: `CHDIR` to the cursor when a child list is pending, else `FCHDIR` to
the directory that `fts_build` has opened. -/
def enterFails (sys : Sys) (t : FTS) : Bool :=
  match t.fts_cur with
  | [] => false
  | f :: rest =>
    match (readDirDrop t).fts_child with
    | _ :: _ => (CHDIR sys t (accString t (rest.map (fun g => g.ent)) f.ent)).1
    | [] =>
      match sys.opendir t.cwd (accString t (rest.map (fun g => g.ent)) f.ent) with
      | Except.ok r => (FCHDIR sys t r.1).1
      | Except.error _ => false

/-- The addresses of the live entries of a walk state: those of the cursor stack, frame by
frame, then those of the pending children. -/
def liveAddrs (u : FTS) : List Nat :=
  u.fts_cur.flatMap frameAddrs ++ u.fts_child.map (fun q => q.addr)

/-- The result `v`, `w` of one call of `fts_read` on the walk state `t` that is not stopped, `p`
being the cursor, `lk` its siblings and `rest` the frames of its ancestors. The call stops the
walk (`stopped`); ends it, the cursor having no sibling left below the parent of the roots
(`done`); returns the cursor again (`stay`: re-classified by an instruction, or a directory
that is skipped, empty or unreadable); moves down to the first child, built by the call or
pending (`down`); moves to the next sibling that is not skipped (`side`); or moves up to the
parent, which gets kind post-dir, or error when it carries an error number (`up`). -/
inductive Step (sys : Sys) (t : FTS) (p : FTSENT) (lk : List FTSENT) (rest : List Frame) :
    Option FTSENT → FTS → Prop where
  | stopped (w : FTS) : w.fts_options.stop = true → t.nalloc ≤ w.nalloc →
      Step sys t p lk rest none w
  | done (w : FTS) (par : Frame) (rest1 : List Frame) : p.fts_info ≠ FTS_D →
      rest = par :: rest1 → par.ent.fts_level = FTS_ROOTPARENTLEVEL → w.fts_cur = [] →
      w.fts_child = t.fts_child → w.nalloc = t.nalloc → w.fts_options.stop = false →
      Step sys t p lk rest none w
  | stay (e : FTSENT) (w : FTS) :
      (p.fts_instr = FTS_AGAIN ∨
        (p.fts_instr = FTS_FOLLOW ∧ (p.fts_info = FTS_SL ∨ p.fts_info = FTS_SLNONE)) ∨
        p.fts_info = FTS_D) →
      w.fts_cur = ⟨e, lk⟩ :: rest → e.addr = p.addr → e.fts_level = p.fts_level →
      (w.fts_child = t.fts_child ∨ w.fts_child = []) → t.nalloc ≤ w.nalloc →
      w.fts_options.stop = false →
      (p.fts_instr ≠ FTS_AGAIN → p.fts_info = FTS_D →
        w.fts_child = [] ∧
        (e.fts_info = FTS_DP ∨ (e.fts_info = FTS_DNR ∧ openFails sys t = true))) →
      Step sys t p lk rest (some e) w
  | down (c : FTSENT) (cs : List FTSENT) (e : FTSENT) (w : FTS) : p.fts_info = FTS_D →
      p.fts_instr ≠ FTS_AGAIN → w.fts_cur = ⟨c, cs⟩ :: ⟨e, lk⟩ :: rest → e.addr = p.addr →
      e.fts_level = p.fts_level → w.fts_child = [] → t.nalloc ≤ w.nalloc →
      w.fts_options.stop = false →
      (e.fts_errno ≠ 0 → p.fts_errno ≠ 0 ∨ enterFails sys t = true) →
      ((((c :: cs).map (fun x => x.addr)).Nodup ∧
          ∀ x ∈ c :: cs, t.nalloc ≤ x.addr ∧ x.addr < w.nalloc ∧
            x.fts_level = p.fts_level + 1 ∧ (x.fts_info = FTS_D → x.fts_errno = 0)) ∨
        ((c :: cs).map (fun x => x.addr) = t.fts_child.map (fun x => x.addr) ∧
          (c :: cs).map (fun x => x.fts_level) = t.fts_child.map (fun x => x.fts_level))) →
      Step sys t p lk rest (some c) w
  | side (e : FTSENT) (l pre : List FTSENT) (q : FTSENT) (w : FTS) : p.fts_info ≠ FTS_D →
      lk = pre ++ q :: l → w.fts_cur = ⟨e, l⟩ :: rest → e.addr = q.addr →
      e.fts_level = q.fts_level → w.fts_child = t.fts_child → w.nalloc = t.nalloc →
      w.fts_options.stop = false →
      (q.fts_instr = FTS_NOINSTR → e.fts_info = q.fts_info ∧ e.fts_errno = q.fts_errno) →
      Step sys t p lk rest (some e) w
  | up (e : FTSENT) (par : Frame) (rest1 : List Frame) (w : FTS) : p.fts_info ≠ FTS_D →
      rest = par :: rest1 → par.ent.fts_level ≠ FTS_ROOTPARENTLEVEL →
      w.fts_cur = ⟨e, par.link⟩ :: rest1 → e.addr = par.ent.addr →
      e.fts_level = par.ent.fts_level →
      (e.fts_info = FTS_DP ∨ (e.fts_info = FTS_ERR ∧ par.ent.fts_errno ≠ 0)) →
      w.fts_child = t.fts_child → w.nalloc = t.nalloc → w.fts_options.stop = false →
      Step sys t p lk rest (some e) w

/-- What a call of `fts_children` that built a child list has done to the walk state `t`, whose
cursor was `p` with the siblings `lk` above the frames `rest`: in the walk state `u` the cursor
is the same entry (its kind and error number unchanged, unless the walk is now stopped) and
the pending children are entries allocated by the call, at the level below the cursor. -/
def Built (t u : FTS) : Prop :=
  ∃ p lk rest e, t.fts_cur = ⟨p, lk⟩ :: rest ∧ p.fts_info = FTS_D ∧
    t.fts_options.stop = false ∧ u.fts_cur = ⟨e, lk⟩ :: rest ∧ Same e p ∧
    e.fts_errno = p.fts_errno ∧ (e.fts_info = p.fts_info ∨ u.fts_options.stop = true) ∧
    t.nalloc ≤ u.nalloc ∧ (u.fts_child.map (fun q => q.addr)).Nodup ∧
    ∀ q ∈ u.fts_child, t.nalloc ≤ q.addr ∧ q.addr < u.nalloc ∧ q.fts_level = p.fts_level + 1

/-- A call of `fts_children` that built nothing: the cursor stack, the pending children and
the stop flag are as before. -/
def Unbuilt (t u : FTS) : Prop :=
  u.fts_cur = t.fts_cur ∧ u.fts_child = t.fts_child ∧ u.nalloc = t.nalloc ∧
    u.fts_options.stop = t.fts_options.stop

/-! ### Walks from `fts_open` by `fts_read`, `fts_children` and `fts_set` -/

/-- The caller writes instruction slots of live entries (by `fts_set`) and nothing else; the
first cursor that `fts_open` makes, of kind init, is handed to no caller, and no instruction is
set on it. -/
def SetOnly (s t : FTS) : Prop :=
  InstrOnly s t ∧
    ∀ f ∈ t.fts_cur.head?, f.ent.fts_info = FTS_INIT → f.ent.fts_instr = FTS_NOINSTR

/-- What the caller does between two calls of `fts_read`, taking the walk state `s` to the
walk state `t`: any number of calls of `fts_set` (which writes an instruction slot, or sets
`errno` to `EINVAL` when it rejects the instruction) and of `fts_children`. -/
inductive Caller (sys : Sys) : FTS → FTS → Prop where
  | idle (s : FTS) : Caller sys s s
  | set (s t u : FTS) : Caller sys s t → SetOnly t u → Caller sys s u
  | rejected (s t : FTS) : Caller sys s t → Caller sys s { t with errno := EINVAL }
  | children (s t : FTS) (instr : Int) (l : List FTSENT) (u : FTS) :
      Caller sys s t → fts_children sys t instr = Outcome.ret l u → Caller sys s u

/-- The calls `l` of `fts_read` follow each other from the walk state `s` on: each is made on
the state the previous one left, after what the caller did in between. -/
def Walk (sys : Sys) : FTS → List Call → Prop
  | _, [] => True
  | s, c :: l =>
    Caller sys s c.pre ∧ fts_read sys c.pre = Outcome.ret c.val c.post ∧ Walk sys c.post l

/-- The levels of the frames of the ancestors of the cursor: the last frame is that of the
parent of the roots, the entries of the others are at levels from 0 on. -/
def Levels : List Frame → Prop
  | [] => False
  | [last] => last.ent.fts_level = FTS_ROOTPARENTLEVEL
  | f :: g :: r => 0 ≤ f.ent.fts_level ∧ (∀ q ∈ f.link, 0 ≤ q.fts_level) ∧ Levels (g :: r)

/-- The frame of the cursor: the cursor is the first cursor of the walk, of kind init and
without instruction, or an entry at a level from 0 on, as its siblings are. -/
def HeadOk (f : Frame) : Prop :=
  ((f.ent.fts_info = FTS_INIT ∧ f.ent.fts_instr = FTS_NOINSTR) ∨ 0 ≤ f.ent.fts_level) ∧
    ∀ q ∈ f.link, 0 ≤ q.fts_level

/-- The walk state is stopped, or well formed: no two live entries share an address, every
live entry was allocated by the walk, and the levels are those of a walk. -/
def WellFormed (u : FTS) : Prop :=
  u.fts_options.stop = true ∨
  ((liveAddrs u).Nodup ∧ (∀ x ∈ liveAddrs u, x < u.nalloc) ∧
    (u.fts_cur = [] ∨ ∃ f rest, u.fts_cur = f :: rest ∧ HeadOk f ∧ Levels rest) ∧
    ∀ q ∈ u.fts_child, 0 ≤ q.fts_level)

/-- An entry of kind pre-dir carries no error number. -/
def ErrOk (x : FTSENT) : Prop := x.fts_info = FTS_D → x.fts_errno = 0

/-! ### The visits of a directory along a walk -/

/-- The walk is stopped, or the directory `D`, returned with kind pre-dir, is still the cursor,
with the kind and error number it was returned with. -/
def PreAt (D : FTSENT) (u : FTS) : Prop :=
  u.fts_options.stop = true ∨
  ∃ q lk rest, u.fts_cur = ⟨q, lk⟩ :: rest ∧ q.addr = D.addr ∧ q.fts_info = FTS_D ∧
    q.fts_errno = D.fts_errno

/-- The walk is stopped, or it is below the directory at address `a`: the frame of the
directory, at a level from 0 on, is on the cursor stack under at least one other frame, and the
directory carries an error number only if `P` holds. -/
def Below (a : Nat) (P : Prop) (u : FTS) : Prop :=
  u.fts_options.stop = true ∨
  ∃ mid E lk rest, u.fts_cur = mid ++ ⟨E, lk⟩ :: rest ∧ mid ≠ [] ∧ E.addr = a ∧
    0 ≤ E.fts_level ∧ (E.fts_errno ≠ 0 → P)

/-- The walk is stopped, or the directory at address `a` has been returned a second time and is
the cursor: its kind is none of pre-dir and symbolic link. -/
def Back (a : Nat) (u : FTS) : Prop :=
  u.fts_options.stop = true ∨
  ∃ e lk rest, u.fts_cur = ⟨e, lk⟩ :: rest ∧ e.addr = a ∧ e.fts_info ≠ FTS_D ∧
    e.fts_info ≠ FTS_SL ∧ e.fts_info ≠ FTS_SLNONE

/-- The walk is stopped, or the entry at address `a`, allocated earlier, is no live entry any
more. -/
def Left (a : Nat) (u : FTS) : Prop :=
  u.fts_options.stop = true ∨ (a ∉ liveAddrs u ∧ a < u.nalloc)

/-- The returns of the entry at address `a` by the calls `l`: at most one, every one of them
of an entry that satisfies `K`, and exactly one when a call returns null without the stop flag
set (the walk has reached its end). -/
def PairedBy (a : Nat) (K : FTSENT → Prop) (l : List Call) : Prop :=
  (l.filter (retAddr a)).length ≤ 1 ∧
  (∀ c ∈ l, ∀ e, c.val = some e → e.addr = a → K e) ∧
  (∀ c ∈ l, c.val = none → c.post.fts_options.stop = false →
    (l.filter (retAddr a)).length = 1)

/-- The kind with which the directory `D`, returned with kind pre-dir, is returned a second
time by one of the calls `l` that follow: post-dir; or unreadable-dir, and then the first of
the calls could not open the directory; or error, and then `D` carried an error number already
or the first of the calls could not change into the directory. -/
def SecondKind (sys : Sys) (D : FTSENT) (l : List Call) (e : FTSENT) : Prop :=
  e.fts_info = FTS_DP ∨
  (e.fts_info = FTS_DNR ∧ ∃ c1 l1, l = c1 :: l1 ∧ openFails sys c1.pre = true) ∨
  (e.fts_info = FTS_ERR ∧
    (D.fts_errno ≠ 0 ∨ ∃ c1 l1, l = c1 :: l1 ∧ enterFails sys c1.pre = true))

/-- The pairing of the visits of the directory `D`, returned with kind pre-dir, in the calls
`l` that follow that return: `D` is returned at most once more, with a kind as `SecondKind`
says, and exactly once more when the walk reaches its end. -/
def PairedAt (sys : Sys) (D : FTSENT) (l : List Call) : Prop :=
  PairedBy D.addr (SecondKind sys D l) l

/-- In a walk on which the caller sets no instruction, the cursor and the siblings linked in
the frames carry no error number when they are of kind pre-dir. -/
def ErrInv (u : FTS) : Prop :=
  (∀ f ∈ u.fts_cur.head?, ErrOk f.ent) ∧ ∀ f ∈ u.fts_cur, ∀ q ∈ f.link, ErrOk q

/-- The returns of a walk driven by `fts_read` alone from the walk state `s`, as calls: each
call is made on the state that the previous one left. -/
def toCalls : FTS → List (FTSENT × FTS) → List Call
  | _, [] => []
  | s, y :: l => ⟨s, some y.1, y.2⟩ :: toCalls y.2 l

/-- The depth-first property of the walk at the pre-order return `x` of a directory, `l2` being
the returns that follow it. (1) Every entry returned before the directory is returned again
has the directory on its parent chain and is none of the siblings linked after the
directory. (2) When the directory is returned again, it is with kind post-dir, or with kind
unreadable-dir and the call after the pre-order return could not open it, or with kind error
and that call could not change into it; it is on the cursor stack with the siblings it had at
its first return, and every child that the child builder enumerated for it has been returned
in between. -/
def DepthFirstAt (sys : Sys) (x : FTSENT × FTS) (l2 : List (FTSENT × FTS)) : Prop :=
  (∀ y ∈ l2.takeWhile (fun y => decide (y.1.addr ≠ x.1.addr)),
    ParentChain x.1.addr y.2.fts_cur ∧ ∀ q ∈ curLink x.2, y.1.addr ≠ q.addr) ∧
  (∀ z, (l2.dropWhile (fun y => decide (y.1.addr ≠ x.1.addr))).head? = some z →
    (z.1.fts_info = FTS_DP ∨ (z.1.fts_info = FTS_DNR ∧ openFails sys x.2 = true) ∨
      (z.1.fts_info = FTS_ERR ∧ enterFails sys x.2 = true)) ∧
    z.2.fts_cur.tail = x.2.fts_cur.tail ∧ curLink z.2 = curLink x.2 ∧
    ∀ q ∈ builtChildren sys x.2,
      ∃ y ∈ l2.takeWhile (fun y => decide (y.1.addr ≠ x.1.addr)), y.1.addr = q.addr)

/-! ## Theorems -/

theorem cstr_nil : cstr [] = [] := rfl

theorem cstr_cons (c : Char) (t : Bytes) :
    cstr (c :: t) = if c = NUL then [] else c :: cstr t := by
  by_cases h : c = NUL
  · simp [cstr, List.takeWhile, h]
  · have hb : (c != NUL) = true := by simpa using h
    simp [cstr, List.takeWhile, h, hb]

theorem dot_ne_NUL : ¬ ('.' = NUL) := by decide

theorem ISDOT_iff (a : Bytes) : ISDOT a = true ↔ (cstr a = ['.'] ∨ cstr a = ['.', '.']) := by
  have hd := dot_ne_NUL
  rcases a with _ | ⟨c0, _ | ⟨c1, _ | ⟨c2, t⟩⟩⟩
  · simp [ISDOT, cstr_nil, NUL]
  · by_cases h0 : c0 = '.' <;> by_cases h0n : c0 = NUL <;>
      simp_all [ISDOT, cstr_cons, cstr_nil]
  · by_cases h0 : c0 = '.' <;> by_cases h0n : c0 = NUL <;>
      by_cases h1 : c1 = '.' <;> by_cases h1n : c1 = NUL <;>
      simp_all [ISDOT, cstr_cons, cstr_nil]
  · by_cases h0 : c0 = '.' <;> by_cases h0n : c0 = NUL <;>
      by_cases h1 : c1 = '.' <;> by_cases h1n : c1 = NUL <;>
      by_cases h2n : c2 = NUL <;>
      simp_all [ISDOT, cstr_cons, cstr_nil]

theorem cycleScan_eq (ino dev : Nat) (anc : List FTSENT) :
    cycleScan ino dev anc =
      ((anc.takeWhile (fun t => decide (0 ≤ t.fts_level))).find?
        (fun t => t.fts_ino == ino && t.fts_dev == dev)).map (fun t => t.addr) := by
  induction anc with
  | nil => rfl
  | cons t ts ih =>
    by_cases hl : 0 ≤ t.fts_level
    · by_cases hm : ino = t.fts_ino ∧ dev = t.fts_dev
      · obtain ⟨h1, h2⟩ := hm
        simp [cycleScan, FTS_ROOTLEVEL, hl, List.takeWhile, List.find?, h1, h2]
      · have hm2 : (t.fts_ino == ino && t.fts_dev == dev) = false := by
          rcases Classical.not_and_iff_or_not_not.mp hm with h | h
          · have : ¬ t.fts_ino = ino := fun e => h e.symm
            simp [this]
          · have : ¬ t.fts_dev = dev := fun e => h e.symm
            simp [this]
        simp [cycleScan, FTS_ROOTLEVEL, hl, List.takeWhile, List.find?, hm, hm2, ih]
    · simp [cycleScan, FTS_ROOTLEVEL, hl, List.takeWhile]

theorem fts_stat_mode_eq (sp : FTS) (anc : List FTSENT) (p : FTSENT) (sb : Stat) :
    fts_stat_mode anc (setSb sp p sb) sb =
      (match sb.st_mode with
      | Mode.dir =>
        if cstr p.fts_name = ['.'] ∨ cstr p.fts_name = ['.', '.'] then
          (FTS_DOT, { (setSb sp p sb) with
            fts_dev := sb.st_dev, fts_ino := sb.st_ino, fts_nlink := sb.st_nlink })
        else
          match (anc.takeWhile (fun t => decide (0 ≤ t.fts_level))).find?
              (fun t => t.fts_ino == sb.st_ino && t.fts_dev == sb.st_dev) with
          | some t => (FTS_DC, { (setSb sp p sb) with
              fts_dev := sb.st_dev, fts_ino := sb.st_ino, fts_nlink := sb.st_nlink,
              fts_cycle := some t.addr })
          | none => (FTS_D, { (setSb sp p sb) with
              fts_dev := sb.st_dev, fts_ino := sb.st_ino, fts_nlink := sb.st_nlink })
      | Mode.lnk => (FTS_SL, setSb sp p sb)
      | Mode.reg => (FTS_F, setSb sp p sb)
      | _ => (FTS_DEFAULT, setSb sp p sb)) := by
  have hname : (setSb sp p sb).fts_name = p.fts_name := by
    unfold setSb; split <;> rfl
  cases hm : sb.st_mode <;> simp [fts_stat_mode, hm]
  by_cases hd : cstr p.fts_name = ['.'] ∨ cstr p.fts_name = ['.', '.']
  · have := (ISDOT_iff p.fts_name).mpr hd
    simp [hname, this, hd]
  · have hn : ISDOT p.fts_name = false := by
      cases h : ISDOT p.fts_name
      · rfl
      · exact absurd ((ISDOT_iff p.fts_name).mp h) hd
    simp only [hname, hn, hd, if_false, Bool.false_eq_true]
    rw [cycleScan_eq]
    cases (anc.takeWhile (fun t => decide (0 ≤ t.fts_level))).find?
        (fun t => t.fts_ino == sb.st_ino && t.fts_dev == sb.st_dev) <;> rfl

/-- C10: for every entry, option set, follow flag, directory-entry hint and answer of the
file system, `fts_stat` returns the kind, the entry and the `errno` that the decision procedure
of the specification (`statSpec`) gives. -/
theorem fts_stat_refines_spec (sys : Sys) (sp : FTS) (anc : List FTSENT) (dp : Option Dirent)
    (p : FTSENT) (follow : Bool) :
    fts_stat sys sp anc dp p follow = statSpec sys sp anc dp p follow := by
  have hfill : ∀ (q : FTSENT) (sb : Stat),
      (if sp.fts_options.nostat then q else { q with statbuf := sb }) = setSb sp q sb := by
    intro q sb
    unfold setSb
    cases sp.fts_options.nostat <;> simp
  have hmode : ∀ sb : Stat,
      ((fts_stat_mode anc (setSb sp p sb) sb).1, (fts_stat_mode anc (setSb sp p sb) sb).2,
        sp.errno) =
      (match sb.st_mode with
      | Mode.dir =>
        if cstr p.fts_name = ['.'] ∨ cstr p.fts_name = ['.', '.'] then
          (FTS_DOT, { (setSb sp p sb) with
            fts_dev := sb.st_dev, fts_ino := sb.st_ino, fts_nlink := sb.st_nlink }, sp.errno)
        else
          match (anc.takeWhile (fun t => decide (0 ≤ t.fts_level))).find?
              (fun t => t.fts_ino == sb.st_ino && t.fts_dev == sb.st_dev) with
          | some t => (FTS_DC, { (setSb sp p sb) with
              fts_dev := sb.st_dev, fts_ino := sb.st_ino, fts_nlink := sb.st_nlink,
              fts_cycle := some t.addr }, sp.errno)
          | none => (FTS_D, { (setSb sp p sb) with
              fts_dev := sb.st_dev, fts_ino := sb.st_ino, fts_nlink := sb.st_nlink }, sp.errno)
      | Mode.lnk => (FTS_SL, setSb sp p sb, sp.errno)
      | Mode.reg => (FTS_F, setSb sp p sb, sp.errno)
      | _ => (FTS_DEFAULT, setSb sp p sb, sp.errno)) := by
    intro sb
    rw [fts_stat_mode_eq]
    cases sb.st_mode <;> simp
    · split
      · rfl
      · split <;> rfl
  unfold fts_stat statSpec
  simp only [hfill]
  by_cases hw : sys.cfg.have_whiteout = true ∧ (dp.map (fun d => d.d_type)) = some DType.DT_WHT
  · obtain ⟨h1, h2⟩ := hw
    cases dp with
    | none => simp at h2
    | some d =>
      simp only [Option.map_some', Option.some.injEq] at h2
      simp [hintIsWhiteout, h1, h2, Stat.zeroed]
  · have hw2 : hintIsWhiteout sys dp = false := by
      unfold hintIsWhiteout
      cases dp with
      | none => rfl
      | some d =>
        simp only [Option.map_some', Option.some.injEq] at hw
        by_cases h1 : sys.cfg.have_whiteout = true
        · have h2 : ¬ d.d_type = DType.DT_WHT := fun h => hw ⟨h1, h⟩
          simp [h1, h2]
        · simp [h1]
    simp only [hw, hw2, if_false, Bool.false_eq_true]
    by_cases hl : sp.fts_options.logical = true ∨ follow = true
    · have hl2 : (sp.fts_options.logical || follow) = true := by
        rcases hl with h | h <;> simp [h]
      simp only [hl, hl2, if_true]
      cases hs : sys.stat sp.cwd (accString sp anc p) with
      | error e =>
        cases hls : sys.lstat sp.cwd (accString sp anc p) <;> simp
      | ok sb =>
        simp only []
        exact hmode sb
    · have hl2 : (sp.fts_options.logical || follow) = false := by
        cases h1 : sp.fts_options.logical <;> cases h2 : follow <;> simp_all
      simp only [hl, hl2, if_false, Bool.false_eq_true]
      cases hls : sys.lstat sp.cwd (accString sp anc p) with
      | error e => simp
      | ok sb =>
        simp only []
        exact hmode sb

/-- C9 (counterexample): the instruction 0 is none of the four instruction codes, and `fts_set`
accepts it: it returns 0 and stores 0 in the instruction slot. -/
theorem fts_set_accepts_zero :
    ((0 : Int) ≠ FTS_NOINSTR ∧ (0 : Int) ≠ FTS_SKIP ∧ (0 : Int) ≠ FTS_FOLLOW ∧
      (0 : Int) ≠ FTS_AGAIN) ∧
    fts_set { ent0 with fts_instr := FTS_SKIP } 0 = (0, none, ent0) := by
  decide

/-- C9 (amended): for every entry and every integer instruction, `fts_set` returns 0, stores the
instruction and changes no other field exactly when the instruction is 0 or one of none, skip,
follow, again; for any other value it returns 1 with `errno` set to `EINVAL` and leaves the
entry unchanged. -/
theorem fts_set_validates (p : FTSENT) (instr : Int) :
    fts_set p instr =
      if instr = 0 ∨ instr = FTS_NOINSTR ∨ instr = FTS_SKIP ∨ instr = FTS_FOLLOW ∨
          instr = FTS_AGAIN then (0, none, { p with fts_instr := instr })
      else (1, some EINVAL, p) := by
  unfold fts_set
  by_cases h0 : instr = 0 <;> by_cases h1 : instr = FTS_NOINSTR <;>
    by_cases h2 : instr = FTS_SKIP <;> by_cases h3 : instr = FTS_FOLLOW <;>
    by_cases h4 : instr = FTS_AGAIN <;> simp [h0, h1, h2, h3, h4]

theorem openRoots_fail (sys : Sys) (parent : FTSENT) (argv : List Bytes) :
    ∀ (sp : FTS) (root : List FTSENT) (n : Nat),
      argv.any (fun a => decide (strlen a = 0)) = true →
      (openRoots sys parent argv sp root n).1 = none ∧
      (openRoots sys parent argv sp root n).2.errno = ENOENT := by
  induction argv with
  | nil => intro sp root n h; simp at h
  | cons a as ih =>
    intro sp root n h
    by_cases ha : strlen a = 0
    · simp [openRoots, ha]
    · have has : as.any (fun a => decide (strlen a = 0)) = true := by
        simpa [ha] using h
      simp only [openRoots, ha, if_false]
      split <;> exact ih _ _ _ has

theorem openRoots_ok (sys : Sys) (parent : FTSENT) (argv : List Bytes) :
    ∀ (sp : FTS) (root : List FTSENT) (n : Nat),
      argv.any (fun a => decide (strlen a = 0)) = false →
      ∃ l m, (openRoots sys parent argv sp root n).1 = some (l, m) := by
  induction argv with
  | nil => intro sp root n _; exact ⟨root, n, rfl⟩
  | cons a as ih =>
    intro sp root n h
    have ha : ¬ strlen a = 0 := by
      intro e; simp [e] at h
    have has : as.any (fun a => decide (strlen a = 0)) = false := by
      simpa [ha] using h
    simp only [openRoots, ha, if_false]
    split <;> exact ih _ _ _ has

/-- C7: in every walk state whose stop flag is set, `fts_read` returns null and leaves the walk
state unchanged, and `fts_children` (whatever its argument) returns null and leaves every field
of the walk state unchanged, only the process `errno` being assigned; so the stop flag is still
set after either call. -/
theorem stop_is_sticky (sys : Sys) (sp : FTS) (instr : Int) (h : sp.fts_options.stop = true) :
    fts_read sys sp = Outcome.ret none sp ∧
    (∃ e, fts_children sys sp instr = Outcome.ret [] { sp with errno := e }) ∧
    (∀ v sp1, fts_read sys sp = Outcome.ret v sp1 → sp1.fts_options.stop = true) ∧
    (∀ v sp1, fts_children sys sp instr = Outcome.ret v sp1 → sp1.fts_options.stop = true) := by
  have hr : fts_read sys sp = Outcome.ret none sp := by
    unfold fts_read
    split
    · rfl
    · rw [if_pos h]
  have hc : ∃ e, fts_children sys sp instr = Outcome.ret [] { sp with errno := e } := by
    unfold fts_children
    by_cases hi : instr ≠ 0 ∧ instr ≠ (FTS_NAMEONLY : Int)
    · exact ⟨EINVAL, by rw [if_pos hi]⟩
    · refine ⟨0, ?_⟩
      rw [if_neg hi]
      simp only [h, if_true]
  refine ⟨hr, hc, ?_, ?_⟩
  · intro v sp1 h1
    rw [hr] at h1
    cases h1
    exact h
  · intro v sp1 h1
    obtain ⟨e, he⟩ := hc
    rw [he] at h1
    cases h1
    exact h

/-- Witness of C7 at a concrete stopped walk state. -/
theorem stop_is_sticky_witness :
    spStopped.fts_options.stop = true ∧
    fts_read sysFlat spStopped = Outcome.ret none spStopped ∧
    (∃ e, fts_children sysFlat spStopped 0 = Outcome.ret [] { spStopped with errno := e }) :=
  ⟨rfl, (stop_is_sticky sysFlat spStopped 0 rfl).1, (stop_is_sticky sysFlat spStopped 0 rfl).2.1⟩

theorem Same.sameRefl (p : FTSENT) : Same p p := ⟨rfl, rfl, rfl, rfl⟩

theorem Same.sameTrans {a b c : FTSENT} (h1 : Same a b) (h2 : Same b c) : Same a c :=
  ⟨h1.1.trans h2.1, h1.2.1.trans h2.2.1, h1.2.2.1.trans h2.2.2.1, h1.2.2.2.trans h2.2.2.2⟩

theorem setSb_same (sp : FTS) (p : FTSENT) (sb : Stat) : Same (setSb sp p sb) p := by
  unfold setSb; split <;> exact ⟨rfl, rfl, rfl, rfl⟩

theorem fts_stat_mode_same (anc : List FTSENT) (p : FTSENT) (sb : Stat) :
    Same (fts_stat_mode anc p sb).2 p := by
  unfold fts_stat_mode
  dsimp only
  by_cases h1 : sb.st_mode = Mode.dir
  · rw [if_pos h1]
    by_cases h2 : ISDOT p.fts_name = true
    · rw [if_pos h2]; exact ⟨rfl, rfl, rfl, rfl⟩
    · rw [if_neg h2]
      cases cycleScan sb.st_ino sb.st_dev anc <;> exact ⟨rfl, rfl, rfl, rfl⟩
  · rw [if_neg h1]
    by_cases h2 : sb.st_mode = Mode.lnk
    · rw [if_pos h2]; exact ⟨rfl, rfl, rfl, rfl⟩
    · rw [if_neg h2]
      by_cases h3 : sb.st_mode = Mode.reg
      · rw [if_pos h3]; exact ⟨rfl, rfl, rfl, rfl⟩
      · rw [if_neg h3]; exact ⟨rfl, rfl, rfl, rfl⟩

theorem fts_stat_same (sys : Sys) (sp : FTS) (anc : List FTSENT) (dp : Option Dirent)
    (p : FTSENT) (follow : Bool) : Same (fts_stat sys sp anc dp p follow).2.1 p := by
  unfold fts_stat
  split
  · exact setSb_same _ _ _
  · split
    · split
      · split
        · exact setSb_same _ _ _
        · exact (setSb_same _ _ _).sameTrans ⟨rfl, rfl, rfl, rfl⟩
      · exact (fts_stat_mode_same _ _ _).sameTrans (setSb_same _ _ _)
    · split
      · exact (setSb_same _ _ _).sameTrans ⟨rfl, rfl, rfl, rfl⟩
      · exact (fts_stat_mode_same _ _ _).sameTrans (setSb_same _ _ _)

theorem followStat_same (sys : Sys) (sp : FTS) (anc : List FTSENT) (p : FTSENT) :
    Same (followStat sys sp anc p).1 p := by
  have h := fts_stat_same sys sp anc none p true
  unfold followStat
  dsimp only
  split
  · split
    · exact ⟨h.1, h.2.1, h.2.2.1, h.2.2.2⟩
    · exact ⟨h.1, h.2.1, h.2.2.1, h.2.2.2⟩
  · exact ⟨h.1, h.2.1, h.2.2.1, h.2.2.2⟩

theorem fts_load_same (sp : FTS) (p : FTSENT) : Same (fts_load sp p).1 p := by
  unfold fts_load
  dsimp only
  split
  · split <;> exact ⟨rfl, rfl, rfl, rfl⟩
  · exact ⟨rfl, rfl, rfl, rfl⟩

theorem FrameEq.frameRefl (a : FTS) : FrameEq a a := ⟨rfl, rfl, rfl, rfl, rfl, rfl, rfl, rfl⟩

theorem FrameEq.frameTrans {a b c : FTS} (h1 : FrameEq a b) (h2 : FrameEq b c) : FrameEq a c :=
  ⟨h1.1.trans h2.1, h1.2.1.trans h2.2.1, h1.2.2.1.trans h2.2.2.1,
    h1.2.2.2.1.trans h2.2.2.2.1, h1.2.2.2.2.1.trans h2.2.2.2.2.1,
    h1.2.2.2.2.2.1.trans h2.2.2.2.2.2.1, h1.2.2.2.2.2.2.1.trans h2.2.2.2.2.2.2.1,
    h1.2.2.2.2.2.2.2.trans h2.2.2.2.2.2.2.2⟩

theorem fts_palloc_frame (sys : Sys) (sp : FTS) (more : Nat) :
    FrameEq (fts_palloc sys sp more) sp ∧ (fts_palloc sys sp more).nalloc = sp.nalloc :=
  ⟨⟨rfl, rfl, rfl, rfl, rfl, rfl, rfl, rfl⟩, rfl⟩

theorem buildInv_snoc {n0 : Nat} {cur : FTSENT} {level : Int} {st : BuildLoop}
    (h : BuildInv n0 cur level st) (p : FTSENT) (sp : FTS)
    (ha : p.addr = st.sp.nalloc) (hn : sp.nalloc = st.sp.nalloc + 1)
    (hp : p.fts_parent = some cur.addr) (hi : p.fts_instr = FTS_NOINSTR)
    (hl : p.fts_level = level) (nl : Int) (ml : Int) :
    BuildInv n0 cur level
      { sp := sp, nlinks := nl, maxlen := ml, head := st.head ++ [p], nitems := st.nitems + 1 } := by
  obtain ⟨h1, h2, h3⟩ := h
  refine ⟨?_, ?_, ?_⟩
  · simp only [List.map_append, List.map_cons, List.map_nil, h1, ha, h2]
    rw [List.range'_concat]
    simp
  · simp only [hn, h2]; omega
  · intro c hc
    rcases List.mem_append.mp hc with hc | hc
    · exact h3 c hc
    · simp only [List.mem_singleton] at hc
      subst hc
      exact ⟨hp, hi, hl⟩

theorem buildAlloc_facts (sys : Sys) (cur : FTSENT) (len : Nat) (level : Int) (st : BuildLoop)
    (dp : Dirent) :
    (buildAlloc sys cur len level st dp).1.addr = st.sp.nalloc ∧
    (buildAlloc sys cur len level st dp).1.fts_parent = some cur.addr ∧
    (buildAlloc sys cur len level st dp).1.fts_instr = FTS_NOINSTR ∧
    (buildAlloc sys cur len level st dp).1.fts_level = level ∧
    (buildAlloc sys cur len level st dp).2.1.nalloc = st.sp.nalloc + 1 ∧
    FrameEq (buildAlloc sys cur len level st dp).2.1 st.sp := by
  unfold buildAlloc
  dsimp only
  refine ⟨rfl, rfl, rfl, rfl, ?_, ?_⟩
  · split <;> rfl
  · split <;> exact ⟨rfl, rfl, rfl, rfl, rfl, rfl, rfl, rfl⟩

theorem buildEntry_inv (sys : Sys) (cur : FTSENT) (chain : List FTSENT) (cderrno len cp : Nat)
    (level : Int) (st : BuildLoop) (dp : Dirent) (n0 : Nat)
    (h : BuildInv n0 cur level st) :
    BuildInv n0 cur level (buildEntry sys cur chain cderrno len cp level st dp) ∧
    FrameEq (buildEntry sys cur chain cderrno len cp level st dp).sp st.sp := by
  obtain ⟨ha, hp, hi, hl, hn, hf⟩ := buildAlloc_facts sys cur len level st dp
  unfold buildEntry
  by_cases hs : (!st.sp.fts_options.seedot && ISDOT dp.d_name) = true
  · rw [if_pos hs]; exact ⟨h, FrameEq.frameRefl _⟩
  · rw [if_neg hs]
    dsimp only
    by_cases hc : cderrno ≠ 0
    · rw [if_pos hc]
      refine ⟨buildInv_snoc h _ _ ?_ hn ?_ ?_ ?_ _ _, hf⟩
      · split <;> exact ha
      · split <;> exact hp
      · split <;> exact hi
      · split <;> exact hl
    · rw [if_neg hc]
      split
      · exact ⟨buildInv_snoc h _ _ (by exact ha) hn (by exact hp) (by exact hi) (by exact hl) _ _, hf⟩
      · have hsame := fts_stat_same sys (buildAlloc sys cur len level st dp).2.1 chain (some dp)
          (if (buildAlloc sys cur len level st dp).2.1.fts_options.nochdir = true then
            { (buildAlloc sys cur len level st dp).1 with
                fts_accpath := AccPath.path
                fts_name := memWrite (buildAlloc sys cur len level st dp).1.fts_name 0
                  ((buildAlloc sys cur len level st dp).2.1.fts_path.drop cp)
                  ((buildAlloc sys cur len level st dp).1.fts_namelen + 1) }
          else { (buildAlloc sys cur len level st dp).1 with
                fts_accpath := AccPath.name (buildAlloc sys cur len level st dp).1.addr }) false
        have hp2 : ∀ q : FTSENT, q = (if (buildAlloc sys cur len level st dp).2.1.fts_options.nochdir = true then
            { (buildAlloc sys cur len level st dp).1 with
                fts_accpath := AccPath.path
                fts_name := memWrite (buildAlloc sys cur len level st dp).1.fts_name 0
                  ((buildAlloc sys cur len level st dp).2.1.fts_path.drop cp)
                  ((buildAlloc sys cur len level st dp).1.fts_namelen + 1) }
          else { (buildAlloc sys cur len level st dp).1 with
                fts_accpath := AccPath.name (buildAlloc sys cur len level st dp).1.addr }) →
            Same q (buildAlloc sys cur len level st dp).1 := by
          intro q hq
          subst hq
          split <;> exact ⟨rfl, rfl, rfl, rfl⟩
        have hs2 := hsame.sameTrans (hp2 _ rfl)
        refine ⟨buildInv_snoc h _ _ ?_ ?_ ?_ ?_ ?_ _ _, ?_⟩
        · exact hs2.1.trans ha
        · exact hn
        · exact hs2.2.1.trans hp
        · exact hs2.2.2.1.trans hi
        · exact hs2.2.2.2.trans hl
        · exact hf

theorem build_fold_inv (sys : Sys) (cur : FTSENT) (chain : List FTSENT) (cderrno len cp : Nat)
    (level : Int) (n0 : Nat) (ents : List Dirent) :
    ∀ st : BuildLoop, BuildInv n0 cur level st →
      BuildInv n0 cur level (ents.foldl (buildEntry sys cur chain cderrno len cp level) st) ∧
      FrameEq (ents.foldl (buildEntry sys cur chain cderrno len cp level) st).sp st.sp := by
  induction ents with
  | nil => intro st h; exact ⟨h, FrameEq.frameRefl _⟩
  | cons d ds ih =>
    intro st h
    obtain ⟨h1, h2⟩ := buildEntry_inv sys cur chain cderrno len cp level st d n0 h
    obtain ⟨h3, h4⟩ := ih _ h1
    exact ⟨h3, h4.frameTrans h2⟩

theorem buildInv_init (n0 : Nat) (cur : FTSENT) (level : Int) (sp : FTS) (nl ml : Int)
    (h : sp.nalloc = n0) :
    BuildInv n0 cur level { sp := sp, nlinks := nl, maxlen := ml, head := [], nitems := 0 } := by
  refine ⟨rfl, ?_, ?_⟩
  · simp [h]
  · intro c hc; simp at hc

theorem FCHDIR_frame (sys : Sys) (sp : FTS) (fd : Int) :
    (FCHDIR sys sp fd).2.fts_options = sp.fts_options ∧
    (FCHDIR sys sp fd).2.fts_compar = sp.fts_compar ∧
    (FCHDIR sys sp fd).2.fts_cur = sp.fts_cur ∧
    (FCHDIR sys sp fd).2.fts_child = sp.fts_child ∧
    (FCHDIR sys sp fd).2.nalloc = sp.nalloc := by
  unfold FCHDIR
  split
  · exact ⟨rfl, rfl, rfl, rfl, rfl⟩
  · split
    · split <;> exact ⟨rfl, rfl, rfl, rfl, rfl⟩
    · exact ⟨rfl, rfl, rfl, rfl, rfl⟩

theorem CHDIR_frame (sys : Sys) (sp : FTS) (path : Bytes) :
    (CHDIR sys sp path).2.fts_options = sp.fts_options ∧
    (CHDIR sys sp path).2.fts_compar = sp.fts_compar ∧
    (CHDIR sys sp path).2.fts_cur = sp.fts_cur ∧
    (CHDIR sys sp path).2.fts_child = sp.fts_child ∧
    (CHDIR sys sp path).2.nalloc = sp.nalloc := by
  unfold CHDIR
  split
  · exact ⟨rfl, rfl, rfl, rfl, rfl⟩
  · split <;> exact ⟨rfl, rfl, rfl, rfl, rfl⟩

theorem fts_sort_facts (sys : Sys) (sp : FTS) (head : List FTSENT) (nitems : Nat) :
    (fts_sort sys sp head nitems).2.fts_options = sp.fts_options ∧
    (fts_sort sys sp head nitems).2.fts_compar = sp.fts_compar ∧
    (fts_sort sys sp head nitems).2.fts_cur = sp.fts_cur ∧
    (fts_sort sys sp head nitems).2.fts_child = sp.fts_child ∧
    (fts_sort sys sp head nitems).2.nalloc = sp.nalloc := by
  unfold fts_sort
  dsimp only
  split <;> split <;> exact ⟨rfl, rfl, rfl, rfl, rfl⟩

theorem fts_sort_perm (sys : Sys) (hq : ∀ cmp l, (sys.qsort cmp l).Perm l) (sp : FTS)
    (head : List FTSENT) (nitems : Nat) (hn : head.length = nitems) :
    (fts_sort sys sp head nitems).1.Perm head := by
  unfold fts_sort
  dsimp only
  have ht : head.take nitems = head := by
    rw [← hn]; exact List.take_length head
  split
  · rw [ht]; exact hq _ _
  · exact List.Perm.refl _

theorem Kept.keptRefl (a : FTS) : Kept a a := ⟨rfl, rfl, rfl, rfl⟩

theorem Kept.keptTrans {a b c : FTS} (h1 : Kept a b) (h2 : Kept b c) : Kept a c :=
  ⟨h1.1.trans h2.1, h1.2.1.trans h2.2.1, h1.2.2.1.trans h2.2.2.1, h1.2.2.2.trans h2.2.2.2⟩

theorem FrameEq.kept {a b : FTS} (h : FrameEq a b) : Kept a b :=
  ⟨h.1, h.2.1, h.2.2.1, h.2.2.2.1⟩

theorem buildDescend_facts (sys : Sys) (sp : FTS) (cur : FTSENT) (type : BType) (nlinks : Int)
    (dirp : Nat) :
    Same (buildDescend sys sp cur type nlinks dirp).2.2.1 cur ∧
    (buildDescend sys sp cur type nlinks dirp).2.2.1.fts_info = cur.fts_info ∧
    Kept (buildDescend sys sp cur type nlinks dirp).2.2.2 sp ∧
    (buildDescend sys sp cur type nlinks dirp).2.2.2.nalloc = sp.nalloc := by
  obtain ⟨f1, f2, f3, f4, f5⟩ := FCHDIR_frame sys sp dirp
  unfold buildDescend
  split
  · split
    · split
      · exact ⟨⟨rfl, rfl, rfl, rfl⟩, rfl, ⟨f1, f2, f3, f4⟩, f5⟩
      · exact ⟨⟨rfl, rfl, rfl, rfl⟩, rfl, ⟨f1, f2, f3, f4⟩, f5⟩
    · exact ⟨⟨rfl, rfl, rfl, rfl⟩, rfl, ⟨f1, f2, f3, f4⟩, f5⟩
  · exact ⟨⟨rfl, rfl, rfl, rfl⟩, rfl, Kept.keptRefl _, rfl⟩

theorem buildStart_facts (sp1 : FTS) (cur1 : FTSENT) :
    Kept (buildStart sp1 cur1) sp1 ∧ (buildStart sp1 cur1).nalloc = sp1.nalloc := by
  unfold buildStart
  split
  · exact ⟨⟨rfl, rfl, rfl, rfl⟩, rfl⟩
  · exact ⟨Kept.keptRefl _, rfl⟩

theorem buildBack_facts (sys : Sys) (type : BType) (cur1 : FTSENT) (descend : Bool)
    (nitems cp : Nat) (sp : FTS) :
    Kept (buildBack sys type cur1 descend nitems (buildReset cp sp)).2 sp ∧
    (buildBack sys type cur1 descend nitems (buildReset cp sp)).2.nalloc = sp.nalloc := by
  have hr : Kept (buildReset cp sp) sp ∧ (buildReset cp sp).nalloc = sp.nalloc := by
    unfold buildReset
    split
    · exact ⟨⟨rfl, rfl, rfl, rfl⟩, rfl⟩
    · exact ⟨Kept.keptRefl _, rfl⟩
  obtain ⟨f1, f2, f3, f4, f5⟩ := FCHDIR_frame sys (buildReset cp sp) (buildReset cp sp).fts_rfd
  obtain ⟨g1, g2, g3, g4, g5⟩ := CHDIR_frame sys (buildReset cp sp) ['.', '.']
  unfold buildBack
  split
  · split
    · exact ⟨Kept.keptTrans ⟨f1, f2, f3, f4⟩ hr.1, f5.trans hr.2⟩
    · exact ⟨Kept.keptTrans ⟨g1, g2, g3, g4⟩ hr.1, g5.trans hr.2⟩
  · exact hr

theorem buildInv_mem {n0 : Nat} {cur : FTSENT} {level : Int} {st : BuildLoop}
    (h : BuildInv n0 cur level st) (c : FTSENT) (hc : c ∈ st.head) :
    n0 ≤ c.addr ∧ c.addr < st.sp.nalloc := by
  obtain ⟨h1, h2, _⟩ := h
  have hm : c.addr ∈ st.head.map (fun c => c.addr) := List.mem_map_of_mem _ hc
  rw [h1, List.mem_range'_1] at hm
  omega

theorem buildInv_length {n0 : Nat} {cur : FTSENT} {level : Int} {st : BuildLoop}
    (h : BuildInv n0 cur level st) : st.head.length = st.nitems := by
  have := congrArg List.length h.1
  simpa using this

theorem buildFinish_post (sys : Sys) (hq : ∀ cmp l, (sys.qsort cmp l).Perm l) (type : BType)
    (cur cur1 : FTSENT) (descend : Bool) (cp : Nat) (st : BuildLoop) (n0 : Nat) (sp : FTS)
    (hinv : BuildInv n0 cur1 (cur1.fts_level + 1) st) (hsame : Same cur1 cur)
    (hinfo : cur1.fts_info = cur.fts_info)
    (hk : Kept st.sp sp) (hn0 : sp.nalloc = n0) :
    BuildPost sp cur type (buildFinish sys type cur1 descend cp st) := by
  obtain ⟨hb, hbn⟩ := buildBack_facts sys type cur1 descend st.nitems cp st.sp
  have hlen := buildInv_length hinv
  have hnal : n0 ≤ st.sp.nalloc := by rw [hinv.2.1]; omega
  have hmem : ∀ c ∈ st.head, sp.nalloc ≤ c.addr ∧ c.addr < st.sp.nalloc ∧
      c.fts_parent = some cur.addr ∧ c.fts_instr = FTS_NOINSTR ∧
      c.fts_level = cur.fts_level + 1 := by
    intro c hc
    obtain ⟨a1, a2⟩ := buildInv_mem hinv c hc
    obtain ⟨b1, b2, b3⟩ := hinv.2.2 c hc
    refine ⟨by omega, a2, ?_, b2, ?_⟩
    · rw [b1, hsame.1]
    · rw [b3, hsame.2.2.2]
  have hkk := Kept.keptTrans hb hk
  unfold buildFinish
  dsimp only
  by_cases h1 : (buildBack sys type cur1 descend st.nitems (buildReset cp st.sp)).1 = true
  · rw [if_pos h1]
    refine ⟨⟨hsame.1, hsame.2.1, hsame.2.2.1, hsame.2.2.2⟩, ?_, ?_, hkk.2.2.2, hkk.2.2.1,
      hkk.2.1, ?_, ?_, ?_⟩
    · show sp.nalloc ≤ (buildBack sys type cur1 descend st.nitems (buildReset cp st.sp)).2.nalloc
      omega
    · intro c hc; simp at hc
    · right
      refine ⟨?_, rfl⟩
      show ({ (buildBack sys type cur1 descend st.nitems (buildReset cp st.sp)).2.fts_options with
        stop := true } : Options) = _
      rw [hkk.1]
    · intro _ _; left; rfl
    · intro h; exact absurd rfl h
  · rw [if_neg h1]
    by_cases h2 : st.nitems = 0
    · rw [if_pos h2]
      refine ⟨?_, ?_, ?_, hkk.2.2.2, hkk.2.2.1, hkk.2.1, Or.inl hkk.1, ?_, ?_⟩
      · split
        · exact ⟨hsame.1, hsame.2.1, hsame.2.2.1, hsame.2.2.2⟩
        · exact hsame
      · show sp.nalloc ≤ (buildBack sys type cur1 descend st.nitems (buildReset cp st.sp)).2.nalloc
        omega
      · intro c hc; simp at hc
      · intro _ ht
        right; right
        rw [if_pos ht]
      · intro h; exact absurd rfl h
    · rw [if_neg h2]
      by_cases h3 : (buildBack sys type cur1 descend st.nitems
          (buildReset cp st.sp)).2.fts_compar.isSome = true ∧ st.nitems > 1
      · rw [if_pos h3]
        obtain ⟨s1, s2, s3, s4, s5⟩ := fts_sort_facts sys
          (buildBack sys type cur1 descend st.nitems (buildReset cp st.sp)).2 st.head st.nitems
        have hperm := fts_sort_perm sys hq
          (buildBack sys type cur1 descend st.nitems (buildReset cp st.sp)).2 st.head st.nitems hlen
        refine ⟨hsame, ?_, ?_, s4.trans hkk.2.2.2, s3.trans hkk.2.2.1, s2.trans hkk.2.1,
          Or.inl (s1.trans hkk.1), ?_, ?_⟩
        · show sp.nalloc ≤ (fts_sort sys _ st.head st.nitems).2.nalloc
          rw [s5]; omega
        · intro c hc
          have hc2 : c ∈ st.head := hperm.mem_iff.mp hc
          obtain ⟨a1, a2, a3⟩ := hmem c hc2
          refine ⟨a1, ?_, a3⟩
          show c.addr < (fts_sort sys _ st.head st.nitems).2.nalloc
          rw [s5]; omega
        · intro he _
          exfalso
          have hl := hperm.length_eq
          rw [show (fts_sort sys (buildBack sys type cur1 descend st.nitems
            (buildReset cp st.sp)).2 st.head st.nitems).1 = [] from he] at hl
          simp at hl
          omega
        · intro _; exact hinfo
      · rw [if_neg h3]
        refine ⟨hsame, ?_, ?_, hkk.2.2.2, hkk.2.2.1, hkk.2.1, Or.inl hkk.1, ?_, ?_⟩
        · show sp.nalloc ≤ (buildBack sys type cur1 descend st.nitems (buildReset cp st.sp)).2.nalloc
          omega
        · intro c hc
          obtain ⟨a1, a2, a3⟩ := hmem c hc
          refine ⟨a1, ?_, a3⟩
          show c.addr < (buildBack sys type cur1 descend st.nitems (buildReset cp st.sp)).2.nalloc
          omega
        · intro he _
          exfalso
          rw [show st.head = [] from he] at hlen
          simp at hlen
          omega
        · intro _; exact hinfo

theorem fts_build_core_post (sys : Sys) (hq : ∀ cmp l, (sys.qsort cmp l).Perm l) (sp : FTS)
    (cur : FTSENT) (anc : List FTSENT) (type : BType) :
    BuildPost sp cur type (fts_build_core sys sp cur anc type) := by
  unfold fts_build_core
  split
  · split
    · refine ⟨⟨rfl, rfl, rfl, rfl⟩, Nat.le_refl _, ?_, rfl, rfl, rfl, Or.inl rfl, ?_, ?_⟩
      · intro c hc; simp at hc
      · intro _ _; right; left; rfl
      · intro h; exact absurd rfl h
    · rename_i hne
      refine ⟨Same.sameRefl _, Nat.le_refl _, ?_, rfl, rfl, rfl, Or.inl rfl, ?_, ?_⟩
      · intro c hc; simp at hc
      · intro _ ht; exact absurd ht hne
      · intro h; exact absurd rfl h
  · rename_i dirp ents _
    dsimp only
    obtain ⟨d1, d2, d3, d4⟩ := buildDescend_facts sys sp cur type (buildNlinks sp cur type) dirp
    obtain ⟨b1, b2⟩ := buildStart_facts
      (buildDescend sys sp cur type (buildNlinks sp cur type) dirp).2.2.2
      (buildDescend sys sp cur type (buildNlinks sp cur type) dirp).2.2.1
    have hinit := buildInv_init sp.nalloc
      (buildDescend sys sp cur type (buildNlinks sp cur type) dirp).2.2.1
      ((buildDescend sys sp cur type (buildNlinks sp cur type) dirp).2.2.1.fts_level + 1)
      (buildStart (buildDescend sys sp cur type (buildNlinks sp cur type) dirp).2.2.2
        (buildDescend sys sp cur type (buildNlinks sp cur type) dirp).2.2.1)
      (buildNlinks sp cur type)
      (((buildDescend sys sp cur type (buildNlinks sp cur type) dirp).2.2.2.fts_pathlen : Int) -
        (buildDescend sys sp cur type (buildNlinks sp cur type) dirp).2.2.1.fts_pathlen - 1)
      (b2.trans d4)
    obtain ⟨f1, f2⟩ := build_fold_inv sys
      (buildDescend sys sp cur type (buildNlinks sp cur type) dirp).2.2.1
      ((buildDescend sys sp cur type (buildNlinks sp cur type) dirp).2.2.1 :: anc)
      (buildDescend sys sp cur type (buildNlinks sp cur type) dirp).1
      (NAPPEND (buildDescend sys sp cur type (buildNlinks sp cur type) dirp).2.2.2
        (buildDescend sys sp cur type (buildNlinks sp cur type) dirp).2.2.1)
      (NAPPEND (buildDescend sys sp cur type (buildNlinks sp cur type) dirp).2.2.2
        (buildDescend sys sp cur type (buildNlinks sp cur type) dirp).2.2.1 + 1)
      ((buildDescend sys sp cur type (buildNlinks sp cur type) dirp).2.2.1.fts_level + 1)
      sp.nalloc ents _ hinit
    exact buildFinish_post sys hq type cur _ _ _ _ sp.nalloc sp f1 d1 d2
      (Kept.keptTrans f2.kept (Kept.keptTrans b1 d3)) rfl

theorem EntOk.entMono {n m : Nat} {e : FTSENT} (h : EntOk n e) (hnm : n ≤ m) : EntOk m e :=
  ⟨Nat.lt_of_lt_of_le h.1 hnm, h.2⟩

theorem EntOk.entSame {n : Nat} {e p : FTSENT} (h : EntOk n p) (hs : Same e p) : EntOk n e :=
  ⟨hs.1 ▸ h.1, hs.2.2.1.trans h.2⟩

theorem FrameOk.frameMono {n m : Nat} {f : Frame} (h : FrameOk n f) (hnm : n ≤ m) : FrameOk m f :=
  ⟨h.1.entMono hnm, fun q hq => (h.2 q hq).entMono hnm⟩

theorem noinstr_ne : FTS_NOINSTR ≠ FTS_AGAIN ∧ FTS_NOINSTR ≠ FTS_FOLLOW ∧
    FTS_NOINSTR ≠ FTS_SKIP := by decide

theorem clear_instr_eq (p : FTSENT) (h : p.fts_instr = FTS_NOINSTR) :
    { p with fts_instr := FTS_NOINSTR } = p := by
  cases p
  simp only at h
  subst h
  rfl

theorem readName_cases (sp : FTS) (p : FTSENT) (lk : List FTSENT) (rest : List Frame) :
    readName sp p lk rest = Outcome.crash ∨
    ∃ path, readName sp p lk rest =
      Outcome.ret (some p) { sp with fts_path := path, fts_cur := ⟨p, lk⟩ :: rest } := by
  unfold readName
  split
  · left; rfl
  · split
    · right; exact ⟨_, rfl⟩
    · left; rfl

theorem Inv.frames {sp : FTS} (h : Inv sp) {p : FTSENT} {lk : List FTSENT} {rest : List Frame}
    (hcur : sp.fts_cur = ⟨p, lk⟩ :: rest) :
    EntOk sp.nalloc p ∧ (∀ q ∈ lk, EntOk sp.nalloc q) ∧ ∀ f ∈ rest, FrameOk sp.nalloc f := by
  have h2 := h.2
  rw [hcur] at h2
  have h3 := h2 ⟨p, lk⟩ (List.mem_cons_self _ _)
  exact ⟨h3.1, h3.2, fun f hf => h2 f (List.mem_cons_of_mem _ hf)⟩

theorem Inv.mk_cons {sp1 : FTS} {e : FTSENT} {lk : List FTSENT} {rest : List Frame}
    (hchild : sp1.fts_child = []) (hcur : sp1.fts_cur = ⟨e, lk⟩ :: rest)
    (he : EntOk sp1.nalloc e) (hlk : ∀ q ∈ lk, EntOk sp1.nalloc q)
    (hrest : ∀ f ∈ rest, FrameOk sp1.nalloc f) : Inv sp1 := by
  refine ⟨hchild, ?_⟩
  rw [hcur]
  intro f hf
  rcases List.mem_cons.mp hf with hf | hf
  · subst hf; exact ⟨he, hlk⟩
  · exact hrest f hf

theorem readUp_shape (sys : Sys) (sp : FTS) (p : FTSENT) (rest : List Frame) (hinv : Inv sp)
    (hcur : sp.fts_cur = ⟨p, []⟩ :: rest) (hp : p.fts_info ≠ FTS_D) :
    Shape sys sp p [] rest (readUp sys sp p rest) := by
  obtain ⟨_, _, hrest⟩ := hinv.frames hcur
  unfold readUp
  cases rest with
  | nil => exact Shape.crash
  | cons par rest1 =>
    dsimp only
    by_cases hpar : p.fts_parent ≠ some par.ent.addr
    · rw [if_pos hpar]; exact Shape.crash
    · rw [if_neg hpar]
      have hpar2 : p.fts_parent = some par.ent.addr := by
        by_contra h; exact hpar h
      by_cases hl : par.ent.fts_level = FTS_ROOTPARENTLEVEL
      · rw [if_pos hl]; exact Shape.null _ (Or.inl rfl)
      · rw [if_neg hl]
        have hfr : ∀ r : Bool × FTS,
            (r.2.fts_child = sp.fts_child ∧ r.2.nalloc = sp.nalloc) →
            Shape sys sp p [] (par :: rest1)
              (if r.1 = true then
                Outcome.ret none { r.2 with fts_options := { r.2.fts_options with stop := true } }
              else
                Outcome.ret (some { par.ent with
                    fts_info := if par.ent.fts_errno ≠ 0 then FTS_ERR else FTS_DP })
                  { r.2 with fts_cur := ⟨{ par.ent with
                    fts_info := if par.ent.fts_errno ≠ 0 then FTS_ERR else FTS_DP },
                      par.link⟩ :: rest1 }) := by
          intro r hr
          by_cases h1 : r.1 = true
          · rw [if_pos h1]; exact Shape.null _ (Or.inr rfl)
          · rw [if_neg h1]
            have hpo := hrest par (List.mem_cons_self _ _)
            refine Shape.up par rest1 _ _ hp rfl rfl hpar2 rfl ⟨rfl, rfl, rfl, rfl⟩ ?_ ?_ ?_
            · by_cases he : par.ent.fts_errno ≠ 0
              · right; show (if par.ent.fts_errno ≠ 0 then FTS_ERR else FTS_DP) = FTS_ERR
                rw [if_pos he]
              · left; show (if par.ent.fts_errno ≠ 0 then FTS_ERR else FTS_DP) = FTS_DP
                rw [if_neg he]
            · refine Inv.mk_cons (hr.1.trans hinv.1) rfl ?_ ?_ ?_
              · show EntOk r.2.nalloc _
                rw [hr.2]; exact ⟨hpo.1.1, hpo.1.2⟩
              · intro q hq
                show EntOk r.2.nalloc q
                rw [hr.2]; exact hpo.2 q hq
              · intro f hf
                show FrameOk r.2.nalloc f
                rw [hr.2]; exact hrest f (List.mem_cons_of_mem _ hf)
            · show sp.nalloc ≤ r.2.nalloc
              rw [hr.2]
        apply hfr
        split
        · have := FCHDIR_frame sys { sp with fts_path := memWrite sp.fts_path par.ent.fts_pathlen [NUL] 1 }
            sp.fts_rfd
          exact ⟨this.2.2.2.1, this.2.2.2.2⟩
        · split
          · have := FCHDIR_frame sys
              { sp with fts_path := memWrite sp.fts_path par.ent.fts_pathlen [NUL] 1 }
              par.ent.fts_symfd
            exact ⟨this.2.2.2.1, this.2.2.2.2⟩
          · split
            · have := CHDIR_frame sys
                { sp with fts_path := memWrite sp.fts_path par.ent.fts_pathlen [NUL] 1 } ['.', '.']
              exact ⟨this.2.2.2.1, this.2.2.2.2⟩
            · exact ⟨rfl, rfl⟩

theorem fts_load_frame (sp : FTS) (p : FTSENT) :
    (fts_load sp p).2.fts_child = sp.fts_child ∧ (fts_load sp p).2.nalloc = sp.nalloc ∧
    (fts_load sp p).2.fts_options = sp.fts_options := by
  unfold fts_load
  exact ⟨rfl, rfl, rfl⟩

theorem readName_shape_side (sys : Sys) (sp : FTS) (p q : FTSENT) (lk lk1 : List FTSENT)
    (rest : List Frame) (hinv : Inv sp) (hcur : sp.fts_cur = ⟨p, lk⟩ :: rest)
    (hp : p.fts_info ≠ FTS_D) (hlk : lk = q :: lk1) :
    Shape sys sp p lk rest (readName sp q lk1 rest) := by
  obtain ⟨_, hl, hrest⟩ := hinv.frames hcur
  rcases readName_cases sp q lk1 rest with h | ⟨path, h⟩
  · rw [h]; exact Shape.crash
  · rw [h]
    refine Shape.side q lk1 q _ hp hlk rfl (Same.sameRefl _) ?_ (Nat.le_refl _)
    refine Inv.mk_cons hinv.1 rfl ?_ ?_ ?_
    · exact hl q (hlk ▸ List.mem_cons_self _ _)
    · intro x hx; exact hl x (hlk ▸ List.mem_cons_of_mem _ hx)
    · exact hrest

theorem readNext_shape (sys : Sys) (sp : FTS) (p : FTSENT) (lk : List FTSENT)
    (rest : List Frame) (hinv : Inv sp) (hcur : sp.fts_cur = ⟨p, lk⟩ :: rest)
    (hp : p.fts_info ≠ FTS_D) :
    Shape sys sp p lk rest (readNext sys rest sp p lk) := by
  obtain ⟨_, hl, hrest⟩ := hinv.frames hcur
  cases lk with
  | nil =>
    unfold readNext
    exact readUp_shape sys sp p rest hinv hcur hp
  | cons q lk1 =>
    have hq := hl q (List.mem_cons_self _ _)
    unfold readNext
    by_cases h0 : q.fts_level = FTS_ROOTLEVEL
    · rw [if_pos h0]
      dsimp only
      obtain ⟨f1, f2, f3, f4, f5⟩ := FCHDIR_frame sys sp sp.fts_rfd
      by_cases h1 : (FCHDIR sys sp sp.fts_rfd).1 = true
      · rw [if_pos h1]; exact Shape.null _ (Or.inr rfl)
      · rw [if_neg h1]
        obtain ⟨l1, l2, l3⟩ := fts_load_frame (FCHDIR sys sp sp.fts_rfd).2 q
        have hs := fts_load_same (FCHDIR sys sp sp.fts_rfd).2 q
        refine Shape.side q lk1 _ _ hp rfl rfl hs ?_ ?_
        · refine Inv.mk_cons ?_ rfl ?_ ?_ ?_
          · show (fts_load (FCHDIR sys sp sp.fts_rfd).2 q).2.fts_child = []
            rw [l1, f4]; exact hinv.1
          · show EntOk (fts_load (FCHDIR sys sp sp.fts_rfd).2 q).2.nalloc _
            rw [l2, f5]; exact hq.entSame hs
          · intro x hx
            show EntOk (fts_load (FCHDIR sys sp sp.fts_rfd).2 q).2.nalloc x
            rw [l2, f5]; exact hl x (List.mem_cons_of_mem _ hx)
          · intro f hf
            show FrameOk (fts_load (FCHDIR sys sp sp.fts_rfd).2 q).2.nalloc f
            rw [l2, f5]; exact hrest f hf
        · show sp.nalloc ≤ (fts_load (FCHDIR sys sp sp.fts_rfd).2 q).2.nalloc
          rw [l2, f5]
    · rw [if_neg h0]
      have hs : ¬ q.fts_instr = FTS_SKIP := by
        rw [hq.2]; exact noinstr_ne.2.2
      have hf : ¬ q.fts_instr = FTS_FOLLOW := by
        rw [hq.2]; exact noinstr_ne.2.1
      rw [if_neg hs, if_neg hf]
      exact readName_shape_side sys sp p q (q :: lk1) lk1 rest hinv hcur hp rfl

theorem set_cur_eq (sp : FTS) (c : List Frame) (h : sp.fts_cur = c) :
    { sp with fts_cur := c } = sp := by
  cases sp
  simp only at h
  subst h
  rfl

theorem readDir_shape (sys : Sys) (hq : ∀ cmp l, (sys.qsort cmp l).Perm l) (sp : FTS)
    (p : FTSENT) (lk : List FTSENT) (rest : List Frame) (hinv : Inv sp)
    (hcur : sp.fts_cur = ⟨p, lk⟩ :: rest) (hp : p.fts_info = FTS_D) :
    Shape sys sp p lk rest (readDir sys sp p lk rest FTS_NOINSTR) := by
  obtain ⟨hpo, hl, hrest⟩ := hinv.frames hcur
  unfold readDir
  by_cases hx : FTS_NOINSTR = FTS_SKIP ∨ (sp.fts_options.xdev = true ∧ p.fts_dev ≠ sp.fts_dev)
  · rw [if_pos hx]
    have hx2 : sp.fts_options.xdev = true ∧ p.fts_dev ≠ sp.fts_dev := by
      rcases hx with h | h
      · exact absurd h noinstr_ne.2.2
      · exact h
    refine Shape.stay _ _ hp rfl ⟨rfl, rfl, rfl, rfl⟩ (Or.inl rfl) ?_ (Nat.le_refl _) ?_
    · exact Inv.mk_cons rfl rfl ⟨hpo.1, hpo.2⟩ hl hrest
    · unfold builtChildren
      rw [hcur]
      simp only [if_pos hx2]
  · rw [if_neg hx]
    have hc : ¬ (sp.fts_child ≠ [] ∧ sp.fts_options.nameonly = true) := by
      intro h; exact h.1 hinv.1
    have hdrop : readDirDrop sp = sp := by
      unfold readDirDrop; rw [if_neg hc]
    have henter : readDirEnter sys sp p lk rest = readDirBuild sys sp p lk rest := by
      unfold readDirEnter
      rw [hinv.1]
    rw [hdrop, henter]
    unfold readDirBuild
    rw [set_cur_eq sp _ hcur]
    have hpost := fts_build_core_post sys hq sp p (rest.map (fun g => g.ent)) BType.BREAD
    have hb : fts_build sys sp BType.BREAD =
        Outcome.ret (fts_build_core sys sp p (rest.map (fun g => g.ent)) BType.BREAD).1
          { (fts_build_core sys sp p (rest.map (fun g => g.ent)) BType.BREAD).2.2 with
            fts_cur := ⟨(fts_build_core sys sp p (rest.map (fun g => g.ent)) BType.BREAD).2.1,
              lk⟩ :: rest } := by
      unfold fts_build
      rw [hcur]
    have hx3 : ¬ (sp.fts_options.xdev = true ∧ p.fts_dev ≠ sp.fts_dev) := fun h => hx (Or.inr h)
    have hbc : builtChildren sys sp =
        (fts_build_core sys sp p (rest.map (fun g => g.ent)) BType.BREAD).1 := by
      unfold builtChildren
      rw [hcur]
      simp only [if_neg hx3, hb]
    rw [hb]
    generalize fts_build_core sys sp p (rest.map (fun g => g.ent)) BType.BREAD = r at hpost hb hbc
    obtain ⟨rl, rc, rs⟩ := r
    obtain ⟨b1, b2, b3, b4, b5, b6, b7, b8, b9⟩ := hpost
    simp only at b1 b2 b3 b4 b5 b6 b7 b8 b9 hb hbc ⊢
    have hinv1 : ∀ e : FTSENT, Same e p → ∀ l : List FTSENT, (∀ x ∈ l, EntOk rs.nalloc x) →
        ∀ (st : List Frame) (path : Bytes), st = ⟨e, l⟩ :: rest ∨
          (∃ c cs, st = ⟨c, cs⟩ :: ⟨e, l⟩ :: rest ∧ EntOk rs.nalloc c ∧
            ∀ x ∈ cs, EntOk rs.nalloc x) →
        Inv { rs with fts_path := path, fts_cur := st } := by
      intro e he l hll st path hst
      have hfe : FrameOk rs.nalloc ⟨e, l⟩ := ⟨(hpo.entMono b2).entSame he, hll⟩
      have hfr : ∀ f ∈ rest, FrameOk rs.nalloc f := fun f hf => (hrest f hf).frameMono b2
      refine ⟨b4.trans hinv.1, ?_⟩
      intro f hf
      rcases hst with hst | ⟨c, cs, hst, hc1, hc2⟩
      · rw [show ({ rs with fts_path := path, fts_cur := st } : FTS).fts_cur = st from rfl,
          hst] at hf
        rcases List.mem_cons.mp hf with hf | hf
        · subst hf; exact hfe
        · exact hfr f hf
      · rw [show ({ rs with fts_path := path, fts_cur := st } : FTS).fts_cur = st from rfl,
          hst] at hf
        rcases List.mem_cons.mp hf with hf | hf
        · subst hf; exact ⟨hc1, hc2⟩
        · rcases List.mem_cons.mp hf with hf | hf
          · subst hf; exact hfe
          · exact hfr f hf
    have hlk2 : ∀ x ∈ lk, EntOk rs.nalloc x := fun x hx => (hl x hx).entMono b2
    cases rl with
    | nil =>
      simp only
      by_cases hstop : rs.fts_options.stop = true
      · simp only [hstop, if_true]
        exact Shape.null _ (Or.inr hstop)
      · simp only [hstop, if_false, Bool.false_eq_true, List.head?_cons, Option.map_some']
        have hk : rc.fts_info = FTS_DP ∨ rc.fts_info = FTS_DNR := by
          rcases b8 rfl trivial with h | h | h
          · exact absurd h hstop
          · exact Or.inr h
          · exact Or.inl h
        refine Shape.stay rc _ hp rfl b1 hk ?_ b2 hbc
        have := hinv1 rc b1 lk hlk2 (⟨rc, lk⟩ :: rest) rs.fts_path (Or.inl rfl)
        exact this
    | cons c cs =>
      simp only
      rcases readName_cases { rs with fts_cur := ⟨rc, lk⟩ :: rest } c cs (⟨rc, lk⟩ :: rest)
        with h | ⟨path, h⟩
      · rw [h]; exact Shape.crash
      · rw [h]
        have hcok : ∀ x ∈ c :: cs, EntOk rs.nalloc x := fun x hx =>
          ⟨(b3 x hx).2.1, (b3 x hx).2.2.2.1⟩
        refine Shape.down c cs rc _ hp rfl b1 ?_ hbc ?_ ?_ b2
        · rw [b9 (by simp)]; exact hp
        · intro x hx; exact ⟨(b3 x hx).1, (b3 x hx).2.2.1⟩
        · exact hinv1 rc b1 lk hlk2 _ path (Or.inr ⟨c, cs, rfl, hcok c (List.mem_cons_self _ _),
            fun x hx => hcok x (List.mem_cons_of_mem _ hx)⟩)

theorem read_shape (sys : Sys) (hq : ∀ cmp l, (sys.qsort cmp l).Perm l) (sp : FTS)
    (p : FTSENT) (lk : List FTSENT) (rest : List Frame) (hinv : Inv sp)
    (hcur : sp.fts_cur = ⟨p, lk⟩ :: rest) :
    Shape sys sp p lk rest (fts_read sys sp) := by
  obtain ⟨hpo, _, _⟩ := hinv.frames hcur
  have hfr : fts_read sys sp =
      if sp.fts_options.stop = true then Outcome.ret none sp
      else if p.fts_info = FTS_D then readDir sys sp p lk rest FTS_NOINSTR
      else readNext sys rest sp p lk := by
    unfold fts_read
    rw [hcur]
    dsimp only
    rw [clear_instr_eq p hpo.2, hpo.2, if_neg noinstr_ne.1]
    have hnf : ¬ (FTS_NOINSTR = FTS_FOLLOW ∧ (p.fts_info = FTS_SL ∨ p.fts_info = FTS_SLNONE)) :=
      fun h => noinstr_ne.2.1 h.1
    rw [if_neg hnf, ← hcur, set_cur_eq sp _ rfl]
  rw [hfr]
  by_cases hs : sp.fts_options.stop = true
  · rw [if_pos hs]; exact Shape.null _ (Or.inr hs)
  · rw [if_neg hs]
    by_cases hd : p.fts_info = FTS_D
    · rw [if_pos hd]; exact readDir_shape sys hq sp p lk rest hinv hcur hd
    · rw [if_neg hd]; exact readNext_shape sys sp p lk rest hinv hcur hd

theorem FrOk.frSame {n b : Nat} {e p : FTSENT} {lk : List FTSENT} (h : FrOk n b ⟨p, lk⟩)
    (hs : Same e p) : FrOk n b ⟨e, lk⟩ :=
  ⟨hs.1 ▸ h.1, hs.2.1.trans h.2.1, h.2.2⟩

theorem FrOk.side {n b : Nat} {e p q : FTSENT} {lk1 : List FTSENT}
    (h : FrOk n b ⟨p, q :: lk1⟩) (hs : Same e q) : FrOk n b ⟨e, lk1⟩ := by
  have hq := h.2.2 q (List.mem_cons_self _ _)
  exact ⟨hs.1 ▸ hq.1, hs.2.1.trans hq.2, fun x hx => h.2.2 x (List.mem_cons_of_mem _ hx)⟩

theorem belowAddr_append (a : Nat) (f : Frame) (r : List Frame) (t : List Frame) :
    belowAddr a ((f :: r) ++ t) = belowAddr a (f :: r) := rfl

theorem preOk_parentChain (n a : Nat) (D : FTSENT) (lkD : List FTSENT) (base : List Frame)
    (hD : D.addr = a) :
    ∀ pre : List Frame, pre ≠ [] → PreOk n a pre →
      ParentChain a (pre ++ ⟨D, lkD⟩ :: base) := by
  intro pre
  induction pre with
  | nil => intro h; exact absurd rfl h
  | cons f r ih =>
    intro _ hp
    cases r with
    | nil =>
      refine ⟨?_, Or.inl hD⟩
      show f.ent.fts_parent = some D.addr
      rw [hD]; exact hp.1.2.1
    | cons g r2 =>
      exact ⟨hp.1.2.1, Or.inr (ih (by simp) hp.2)⟩

theorem frOk_fresh {n b : Nat} {sp : FTS} {p c : FTSENT} {cs : List FTSENT} (hn : n ≤ sp.nalloc)
    (hb : p.addr = b)
    (h : ∀ x ∈ c :: cs, sp.nalloc ≤ x.addr ∧ x.fts_parent = some p.addr) :
    FrOk n b ⟨c, cs⟩ := by
  have hc := h c (List.mem_cons_self _ _)
  refine ⟨Nat.le_trans hn hc.1, hb ▸ hc.2, ?_⟩
  intro q hq
  have hq2 := h q (List.mem_cons_of_mem _ hq)
  exact ⟨Nat.le_trans hn hq2.1, hb ▸ hq2.2⟩

theorem insub_step_child (sys : Sys) (hq : ∀ cmp l, (sys.qsort cmp l).Perm l) (a n : Nat)
    (lkD : List FTSENT) (base : List Frame) (chl : List FTSENT) (sp : FTS) (e : FTSENT)
    (sp1 : FTS) (ch D : FTSENT)
    (hcur : sp.fts_cur = ⟨ch, chl⟩ :: ⟨D, lkD⟩ :: base) (hD : D.addr = a)
    (hfr : FrOk n a ⟨ch, chl⟩) (hinv : Inv sp) (hn : n ≤ sp.nalloc)
    (hr : fts_read sys sp = Outcome.ret (some e) sp1) :
    (InSub a n lkD base chl sp1 ∧ (∃ l r, sp1.fts_cur = ⟨e, l⟩ :: r) ∧ n ≤ e.addr) ∨
    (∃ q chl1, chl = q :: chl1 ∧ e.addr = q.addr ∧ InSub a n lkD base chl1 sp1 ∧
      (∃ l r, sp1.fts_cur = ⟨e, l⟩ :: r) ∧ n ≤ e.addr) ∨
    (chl = [] ∧ e.addr = a ∧ sp1.fts_cur = ⟨e, lkD⟩ :: base ∧
      (e.fts_info = FTS_DP ∨ e.fts_info = FTS_ERR) ∧ Inv sp1 ∧ n ≤ sp1.nalloc) := by
  have hs := read_shape sys hq sp ch chl (⟨D, lkD⟩ :: base) hinv hcur
  rw [hr] at hs
  cases hs with
  | stay _ _ h1 h2 h3 h4 h5 h6 h7 =>
    left
    have hf2 := hfr.frSame h3
    refine ⟨⟨[], e, D, h2, hD, ⟨hf2, trivial⟩, h5, Nat.le_trans hn h6⟩, ⟨_, _, h2⟩, hf2.1⟩
  | down _ cs e1 _ h1 h2 h3 h4 h5 h6 h7 h8 =>
    left
    have hf2 := hfr.frSame h3
    have hf3 : FrOk n e1.addr ⟨e, cs⟩ := frOk_fresh hn h3.1.symm h6
    refine ⟨⟨[⟨e, cs⟩], e1, D, h2, hD, ⟨hf3, hf2, trivial⟩, h7, Nat.le_trans hn h8⟩,
      ⟨_, _, h2⟩, hf3.1⟩
  | side q lk1 _ _ h1 h2 h3 h4 h5 h6 =>
    right; left
    subst h2
    have hf2 := hfr.side h4
    exact ⟨q, lk1, rfl, h4.1, ⟨[], e, D, h3, hD, ⟨hf2, trivial⟩, h5, Nat.le_trans hn h6⟩,
      ⟨_, _, h3⟩, hf2.1⟩
  | up par rest1 _ _ h1 h2 h3 h4 h5 h6 h7 h8 h9 =>
    right; right
    simp only [List.cons.injEq] at h3
    obtain ⟨h3a, h3b⟩ := h3
    subst h3a h3b
    exact ⟨h2, h6.1.trans hD, h5, h7, h8, Nat.le_trans hn h9⟩

theorem insub_step_deep (sys : Sys) (hq : ∀ cmp l, (sys.qsort cmp l).Perm l) (a n : Nat)
    (lkD : List FTSENT) (base : List Frame) (chl : List FTSENT) (sp : FTS) (e : FTSENT)
    (sp1 : FTS) (ch D p : FTSENT) (lk : List FTSENT) (mid : List Frame)
    (hcur : sp.fts_cur = (⟨p, lk⟩ :: mid) ++ ⟨ch, chl⟩ :: ⟨D, lkD⟩ :: base) (hD : D.addr = a)
    (hpre : PreOk n a ((⟨p, lk⟩ :: mid) ++ [⟨ch, chl⟩])) (hinv : Inv sp) (hn : n ≤ sp.nalloc)
    (hr : fts_read sys sp = Outcome.ret (some e) sp1) :
    InSub a n lkD base chl sp1 ∧ (∃ l r, sp1.fts_cur = ⟨e, l⟩ :: r) ∧ n ≤ e.addr := by
  have hcur2 : sp.fts_cur = ⟨p, lk⟩ :: (mid ++ ⟨ch, chl⟩ :: ⟨D, lkD⟩ :: base) := hcur
  have hs := read_shape sys hq sp p lk (mid ++ ⟨ch, chl⟩ :: ⟨D, lkD⟩ :: base) hinv hcur2
  obtain ⟨hp1, hp2⟩ : FrOk n (belowAddr a (mid ++ [Frame.mk ch chl])) (Frame.mk p lk) ∧
      PreOk n a (mid ++ [Frame.mk ch chl]) := hpre
  rw [hr] at hs
  cases hs with
  | stay _ _ h1 h2 h3 h4 h5 h6 h7 =>
    have hf2 := hp1.frSame h3
    exact ⟨⟨⟨e, lk⟩ :: mid, ch, D, h2, hD, ⟨hf2, hp2⟩, h5, Nat.le_trans hn h6⟩,
      ⟨_, _, h2⟩, hf2.1⟩
  | down _ cs e1 _ h1 h2 h3 h4 h5 h6 h7 h8 =>
    have hf2 := hp1.frSame h3
    have hf3 : FrOk n e1.addr ⟨e, cs⟩ := frOk_fresh hn h3.1.symm h6
    exact ⟨⟨⟨e, cs⟩ :: ⟨e1, lk⟩ :: mid, ch, D, h2, hD, ⟨hf3, hf2, hp2⟩, h7,
      Nat.le_trans hn h8⟩, ⟨_, _, h2⟩, hf3.1⟩
  | side q lk1 _ _ h1 h2 h3 h4 h5 h6 =>
    subst h2
    have hf2 := hp1.side h4
    exact ⟨⟨⟨e, lk1⟩ :: mid, ch, D, h3, hD, ⟨hf2, hp2⟩, h5, Nat.le_trans hn h6⟩,
      ⟨_, _, h3⟩, hf2.1⟩
  | up par rest1 _ _ h1 h2 h3 h4 h5 h6 h7 h8 h9 =>
    cases mid with
    | nil =>
      simp only [List.nil_append, List.cons.injEq] at h3
      obtain ⟨h3a, h3b⟩ := h3
      subst h3a h3b
      have hf : FrOk n a ⟨ch, chl⟩ := hp2.1
      have hf2 := hf.frSame h6
      exact ⟨⟨[], e, D, h5, hD, ⟨hf2, trivial⟩, h8, Nat.le_trans hn h9⟩, ⟨_, _, h5⟩, hf2.1⟩
    | cons m2 mid2 =>
      simp only [List.cons_append, List.cons.injEq] at h3
      obtain ⟨h3a, h3b⟩ := h3
      subst h3a h3b
      obtain ⟨hm1, hm2⟩ : FrOk n (belowAddr a (mid2 ++ [Frame.mk ch chl])) m2 ∧
          PreOk n a (mid2 ++ [Frame.mk ch chl]) := hp2
      have hf2 : FrOk n (belowAddr a (mid2 ++ [Frame.mk ch chl])) (Frame.mk e m2.link) :=
        FrOk.frSame (p := m2.ent) hm1 h6
      exact ⟨⟨⟨e, m2.link⟩ :: mid2, ch, D, h5, hD, ⟨hf2, hm2⟩, h8, Nat.le_trans hn h9⟩,
        ⟨_, _, h5⟩, hf2.1⟩

theorem insub_step (sys : Sys) (hq : ∀ cmp l, (sys.qsort cmp l).Perm l) (a n : Nat)
    (lkD : List FTSENT) (base : List Frame) (chl : List FTSENT) (sp : FTS) (e : FTSENT)
    (sp1 : FTS) (h : InSub a n lkD base chl sp)
    (hr : fts_read sys sp = Outcome.ret (some e) sp1) :
    (InSub a n lkD base chl sp1 ∧ (∃ l r, sp1.fts_cur = ⟨e, l⟩ :: r) ∧ n ≤ e.addr) ∨
    (∃ q chl1, chl = q :: chl1 ∧ e.addr = q.addr ∧ InSub a n lkD base chl1 sp1 ∧
      (∃ l r, sp1.fts_cur = ⟨e, l⟩ :: r) ∧ n ≤ e.addr) ∨
    (chl = [] ∧ e.addr = a ∧ sp1.fts_cur = ⟨e, lkD⟩ :: base ∧
      (e.fts_info = FTS_DP ∨ e.fts_info = FTS_ERR) ∧ Inv sp1 ∧ n ≤ sp1.nalloc) := by
  obtain ⟨mid, ch, D, hcur, hD, hpre, hinv, hn⟩ := h
  cases mid with
  | nil =>
    exact insub_step_child sys hq a n lkD base chl sp e sp1 ch D hcur hD hpre.1 hinv hn hr
  | cons m mid2 =>
    exact Or.inl (insub_step_deep sys hq a n lkD base chl sp e sp1 ch D m.ent m.link mid2
      hcur hD hpre hinv hn hr)

theorem insub_chain {a n : Nat} {lkD : List FTSENT} {base : List Frame} {chl : List FTSENT}
    {sp : FTS} (h : InSub a n lkD base chl sp) : ParentChain a sp.fts_cur := by
  obtain ⟨mid, ch, D, hcur, hD, hpre, _, _⟩ := h
  rw [hcur]
  have := preOk_parentChain n a D lkD base hD (mid ++ [Frame.mk ch chl]) (by simp) hpre
  simpa using this

theorem run_succ (sys : Sys) (n : Nat) (sp : FTS) (e : FTSENT) (sp1 : FTS)
    (h : fts_read sys sp = Outcome.ret (some e) sp1) :
    run sys (n + 1) sp = (e, sp1) :: run sys n sp1 := by
  simp only [run, h]

theorem run_nil_of (sys : Sys) (n : Nat) (sp : FTS)
    (h : ∀ e sp1, fts_read sys sp ≠ Outcome.ret (some e) sp1) : run sys n sp = [] := by
  cases n with
  | zero => rfl
  | succ m =>
    cases hr : fts_read sys sp with
    | crash => simp only [run, hr]
    | ret v sp1 =>
      cases v with
      | none => simp only [run, hr]
      | some e => exact absurd hr (h e sp1)

theorem tw_pos (a : Nat) (x : FTSENT × FTS) (l : List (FTSENT × FTS)) (h : x.1.addr ≠ a) :
    (x :: l).takeWhile (fun y => decide (y.1.addr ≠ a)) =
      x :: l.takeWhile (fun y => decide (y.1.addr ≠ a)) := by
  simp [List.takeWhile, h]

theorem tw_neg (a : Nat) (x : FTSENT × FTS) (l : List (FTSENT × FTS)) (h : x.1.addr = a) :
    (x :: l).takeWhile (fun y => decide (y.1.addr ≠ a)) = [] := by
  simp [List.takeWhile, h]

theorem dw_pos (a : Nat) (x : FTSENT × FTS) (l : List (FTSENT × FTS)) (h : x.1.addr ≠ a) :
    (x :: l).dropWhile (fun y => decide (y.1.addr ≠ a)) =
      l.dropWhile (fun y => decide (y.1.addr ≠ a)) := by
  simp [List.dropWhile, h]

theorem dw_neg (a : Nat) (x : FTSENT × FTS) (l : List (FTSENT × FTS)) (h : x.1.addr = a) :
    (x :: l).dropWhile (fun y => decide (y.1.addr ≠ a)) = x :: l := by
  simp [List.dropWhile, h]

/-- The entries returned while the walk is inside the subtree of the directory at address `a`
(up to the return of an entry at that address), and the return that ends it. -/
theorem insub_run (sys : Sys) (hq : ∀ cmp l, (sys.qsort cmp l).Perm l) (a n : Nat)
    (lkD : List FTSENT) (base : List Frame) (ha : a < n) :
    ∀ (k : Nat) (sp : FTS) (chl : List FTSENT), InSub a n lkD base chl sp →
      (∀ y ∈ (run sys k sp).takeWhile (fun y => decide (y.1.addr ≠ a)),
        n ≤ y.1.addr ∧ ParentChain a y.2.fts_cur) ∧
      (∀ z, ((run sys k sp).dropWhile (fun y => decide (y.1.addr ≠ a))).head? = some z →
        z.1.addr = a ∧ z.2.fts_cur = ⟨z.1, lkD⟩ :: base ∧
        (z.1.fts_info = FTS_DP ∨ z.1.fts_info = FTS_ERR) ∧ Inv z.2 ∧ n ≤ z.2.nalloc ∧
        ∀ q ∈ chl, ∃ y ∈ (run sys k sp).takeWhile (fun y => decide (y.1.addr ≠ a)),
          y.1.addr = q.addr) := by
  intro k
  induction k with
  | zero =>
    intro sp chl _
    refine ⟨?_, ?_⟩
    · intro y hy; simp [run] at hy
    · intro z hz; simp [run] at hz
  | succ k ih =>
    intro sp chl h
    by_cases hex : ∃ e sp1, fts_read sys sp = Outcome.ret (some e) sp1
    · obtain ⟨e, sp1, hr⟩ := hex
      rw [run_succ sys k sp e sp1 hr]
      rcases insub_step sys hq a n lkD base chl sp e sp1 h hr with
        ⟨h1, _, h3⟩ | ⟨q, chl1, hc, hqa, h1, _, h3⟩ | ⟨hc, hea, hcur1, hk, hinv1, hn1⟩
      · have hne : e.addr ≠ a := by omega
        obtain ⟨i1, i2⟩ := ih sp1 chl h1
        rw [tw_pos a (e, sp1) _ hne, dw_pos a (e, sp1) _ hne]
        refine ⟨?_, ?_⟩
        · intro y hy
          rcases List.mem_cons.mp hy with hy | hy
          · subst hy; exact ⟨h3, insub_chain h1⟩
          · exact i1 y hy
        · intro z hz
          obtain ⟨z1, z2, z3, z4, z5, z6⟩ := i2 z hz
          refine ⟨z1, z2, z3, z4, z5, ?_⟩
          intro x hx
          obtain ⟨y, hy, hya⟩ := z6 x hx
          exact ⟨y, List.mem_cons_of_mem _ hy, hya⟩
      · have hne : e.addr ≠ a := by omega
        obtain ⟨i1, i2⟩ := ih sp1 chl1 h1
        rw [tw_pos a (e, sp1) _ hne, dw_pos a (e, sp1) _ hne]
        refine ⟨?_, ?_⟩
        · intro y hy
          rcases List.mem_cons.mp hy with hy | hy
          · subst hy; exact ⟨h3, insub_chain h1⟩
          · exact i1 y hy
        · intro z hz
          obtain ⟨z1, z2, z3, z4, z5, z6⟩ := i2 z hz
          refine ⟨z1, z2, z3, z4, z5, ?_⟩
          intro x hx
          rw [hc] at hx
          rcases List.mem_cons.mp hx with hx | hx
          · subst hx
            exact ⟨(e, sp1), List.mem_cons_self _ _, hqa⟩
          · obtain ⟨y, hy, hya⟩ := z6 x hx
            exact ⟨y, List.mem_cons_of_mem _ hy, hya⟩
      · rw [tw_neg a (e, sp1) _ hea, dw_neg a (e, sp1) _ hea]
        refine ⟨?_, ?_⟩
        · intro y hy; simp at hy
        · intro z hz
          simp only [List.head?_cons, Option.some.injEq] at hz
          subst hz
          refine ⟨hea, hcur1, hk, hinv1, hn1, ?_⟩
          intro x hx
          rw [hc] at hx
          simp at hx
    · have hnil : run sys (k + 1) sp = [] := by
        apply run_nil_of
        intro e sp1 he
        exact hex ⟨e, sp1, he⟩
      rw [hnil]
      refine ⟨?_, ?_⟩
      · intro y hy; simp at hy
      · intro z hz; simp at hz

/-- From the state in which `fts_read` has just returned the directory `D` in pre-order: the
entries returned before an entry at the address of `D` is returned again are descendants of
`D` allocated after it; the next return of `D` finds the cursor stack as it was, with kind
post-dir, unreadable-dir or error, after every child built for `D` has been returned. -/
theorem predir_run (sys : Sys) (hq : ∀ cmp l, (sys.qsort cmp l).Perm l) (sp : FTS)
    (D : FTSENT) (lkD : List FTSENT) (base : List Frame) (hinv : Inv sp)
    (hcur : sp.fts_cur = ⟨D, lkD⟩ :: base) (hD : D.fts_info = FTS_D) (k : Nat) :
    (∀ y ∈ (run sys k sp).takeWhile (fun y => decide (y.1.addr ≠ D.addr)),
      sp.nalloc ≤ y.1.addr ∧ ParentChain D.addr y.2.fts_cur) ∧
    (∀ z, ((run sys k sp).dropWhile (fun y => decide (y.1.addr ≠ D.addr))).head? = some z →
      z.1.addr = D.addr ∧ z.2.fts_cur = ⟨z.1, lkD⟩ :: base ∧
      (z.1.fts_info = FTS_DP ∨ z.1.fts_info = FTS_DNR ∨ z.1.fts_info = FTS_ERR) ∧ Inv z.2 ∧
      ∀ q ∈ builtChildren sys sp,
        ∃ y ∈ (run sys k sp).takeWhile (fun y => decide (y.1.addr ≠ D.addr)),
          y.1.addr = q.addr) := by
  obtain ⟨hDo, _, _⟩ := hinv.frames hcur
  cases k with
  | zero =>
    refine ⟨?_, ?_⟩
    · intro y hy; simp [run] at hy
    · intro z hz; simp [run] at hz
  | succ k =>
    by_cases hex : ∃ e sp1, fts_read sys sp = Outcome.ret (some e) sp1
    · obtain ⟨e, sp1, hr⟩ := hex
      rw [run_succ sys k sp e sp1 hr]
      have hs := read_shape sys hq sp D lkD base hinv hcur
      rw [hr] at hs
      cases hs with
      | stay _ _ h1 h2 h3 h4 h5 h6 h7 =>
        rw [tw_neg D.addr (e, sp1) _ h3.1, dw_neg D.addr (e, sp1) _ h3.1]
        refine ⟨?_, ?_⟩
        · intro y hy; simp at hy
        · intro z hz
          simp only [List.head?_cons, Option.some.injEq] at hz
          subst hz
          refine ⟨h3.1, h2, ?_, h5, ?_⟩
          · rcases h4 with h | h
            · exact Or.inl h
            · exact Or.inr (Or.inl h)
          · intro q hq
            rw [h7] at hq
            simp at hq
      | down _ cs e1 _ h1 h2 h3 h4 h5 h6 h7 h8 =>
        have hfr : FrOk sp.nalloc D.addr ⟨e, cs⟩ := frOk_fresh (Nat.le_refl _) rfl h6
        have hsub : InSub D.addr sp.nalloc lkD base cs sp1 :=
          ⟨[], e, e1, h2, h3.1, ⟨hfr, trivial⟩, h7, h8⟩
        have hne : e.addr ≠ D.addr := by
          have h10 : sp.nalloc ≤ e.addr := hfr.1
          have h11 : D.addr < sp.nalloc := hDo.1
          omega
        obtain ⟨i1, i2⟩ := insub_run sys hq D.addr sp.nalloc lkD base hDo.1 k sp1 cs hsub
        rw [tw_pos D.addr (e, sp1) _ hne, dw_pos D.addr (e, sp1) _ hne]
        refine ⟨?_, ?_⟩
        · intro y hy
          rcases List.mem_cons.mp hy with hy | hy
          · subst hy; exact ⟨hfr.1, insub_chain hsub⟩
          · exact i1 y hy
        · intro z hz
          obtain ⟨z1, z2, z3, z4, _, z6⟩ := i2 z hz
          refine ⟨z1, z2, ?_, z4, ?_⟩
          · rcases z3 with h | h
            · exact Or.inl h
            · exact Or.inr (Or.inr h)
          · intro q hq
            rw [h5] at hq
            rcases List.mem_cons.mp hq with hq | hq
            · subst hq
              exact ⟨(q, sp1), List.mem_cons_self _ _, rfl⟩
            · obtain ⟨y, hy, hya⟩ := z6 q hq
              exact ⟨y, List.mem_cons_of_mem _ hy, hya⟩
      | side q lk1 _ _ h1 h2 h3 h4 h5 h6 => exact absurd hD h1
      | up par rest1 _ _ h1 h2 h3 h4 h5 h6 h7 h8 h9 => exact absurd hD h1
    · have hnil : run sys (k + 1) sp = [] := by
        apply run_nil_of
        intro e sp1 he
        exact hex ⟨e, sp1, he⟩
      rw [hnil]
      refine ⟨?_, ?_⟩
      · intro y hy; simp at hy
      · intro z hz; simp at hz

theorem read_ret_inv (sys : Sys) (hq : ∀ cmp l, (sys.qsort cmp l).Perm l) (sp : FTS)
    (hinv : Inv sp) (e : FTSENT) (sp1 : FTS)
    (hr : fts_read sys sp = Outcome.ret (some e) sp1) :
    Inv sp1 ∧ ∃ l r, sp1.fts_cur = ⟨e, l⟩ :: r := by
  cases hc : sp.fts_cur with
  | nil =>
    unfold fts_read at hr
    rw [hc] at hr
    cases hr
  | cons f rest =>
    have hs := read_shape sys hq sp f.ent f.link rest hinv hc
    rw [hr] at hs
    cases hs with
    | stay _ _ h1 h2 h3 h4 h5 h6 h7 => exact ⟨h5, _, _, h2⟩
    | down _ cs e1 _ h1 h2 h3 h4 h5 h6 h7 h8 => exact ⟨h7, _, _, h2⟩
    | side q lk1 _ _ h1 h2 h3 h4 h5 h6 => exact ⟨h5, _, _, h3⟩
    | up par rest1 _ _ h1 h2 h3 h4 h5 h6 h7 h8 h9 => exact ⟨h8, _, _, h5⟩

theorem run_inv (sys : Sys) (hq : ∀ cmp l, (sys.qsort cmp l).Perm l) :
    ∀ (k : Nat) (sp : FTS), Inv sp → ∀ y ∈ run sys k sp,
      Inv y.2 ∧ ∃ l r, y.2.fts_cur = ⟨y.1, l⟩ :: r := by
  intro k
  induction k with
  | zero => intro sp _ y hy; simp [run] at hy
  | succ k ih =>
    intro sp hinv y hy
    by_cases hex : ∃ e sp1, fts_read sys sp = Outcome.ret (some e) sp1
    · obtain ⟨e, sp1, hr⟩ := hex
      rw [run_succ sys k sp e sp1 hr] at hy
      have h1 := read_ret_inv sys hq sp hinv e sp1 hr
      rcases List.mem_cons.mp hy with hy | hy
      · subst hy; exact h1
      · exact ih sp1 h1.1 y hy
    · have hnil : run sys (k + 1) sp = [] := by
        apply run_nil_of
        intro e sp1 he
        exact hex ⟨e, sp1, he⟩
      rw [hnil] at hy
      simp at hy

theorem run_split (sys : Sys) :
    ∀ (l1 : List (FTSENT × FTS)) (k : Nat) (sp : FTS) (x : FTSENT × FTS)
      (l2 : List (FTSENT × FTS)), run sys k sp = l1 ++ x :: l2 →
      l2 = run sys (k - l1.length - 1) x.2 := by
  intro l1
  induction l1 with
  | nil =>
    intro k sp x l2 h
    cases k with
    | zero => simp [run] at h
    | succ k =>
      by_cases hex : ∃ e sp1, fts_read sys sp = Outcome.ret (some e) sp1
      · obtain ⟨e, sp1, hr⟩ := hex
        rw [run_succ sys k sp e sp1 hr] at h
        simp only [List.nil_append, List.cons.injEq] at h
        obtain ⟨h1, h2⟩ := h
        subst h1
        simp only [List.length_nil, Nat.sub_zero, Nat.add_sub_cancel]
        exact h2.symm
      · have hnil : run sys (k + 1) sp = [] := by
          apply run_nil_of
          intro e sp1 he
          exact hex ⟨e, sp1, he⟩
        rw [hnil] at h
        simp at h
  | cons w l1 ih =>
    intro k sp x l2 h
    cases k with
    | zero => simp [run] at h
    | succ k =>
      by_cases hex : ∃ e sp1, fts_read sys sp = Outcome.ret (some e) sp1
      · obtain ⟨e, sp1, hr⟩ := hex
        rw [run_succ sys k sp e sp1 hr] at h
        simp only [List.cons_append, List.cons.injEq] at h
        obtain ⟨h1, h2⟩ := h
        have := ih k sp1 x l2 h2
        rw [this]
        congr 1
        simp only [List.length_cons]
        omega
      · have hnil : run sys (k + 1) sp = [] := by
          apply run_nil_of
          intro e sp1 he
          exact hex ⟨e, sp1, he⟩
        rw [hnil] at h
        simp at h

theorem openRoot_facts (sys : Sys) (parent : FTSENT) (sp : FTS) (a : Bytes) :
    (openRoot sys parent sp a).1.addr = sp.nalloc ∧
    (openRoot sys parent sp a).1.fts_instr = FTS_NOINSTR ∧
    (openRoot sys parent sp a).1.fts_parent = some parent.addr ∧
    (openRoot sys parent sp a).1.fts_level = FTS_ROOTLEVEL ∧
    (openRoot sys parent sp a).2.nalloc = sp.nalloc + 1 ∧
    Kept (openRoot sys parent sp a).2 sp := by
  have hs := fts_stat_same sys (fts_alloc sys sp a (strlen a)).2 [parent] none
    { (fts_alloc sys sp a (strlen a)).1 with
      fts_level := FTS_ROOTLEVEL, fts_parent := some parent.addr,
      fts_accpath := AccPath.name (fts_alloc sys sp a (strlen a)).1.addr }
    (fts_alloc sys sp a (strlen a)).2.fts_options.comfollow
  unfold openRoot
  exact ⟨hs.1, hs.2.2.1, hs.2.1, hs.2.2.2, rfl, ⟨rfl, rfl, rfl, rfl⟩⟩

theorem openRoots_inv (sys : Sys) (parent : FTSENT) (argv : List Bytes) :
    ∀ (sp : FTS) (root : List FTSENT) (n : Nat) (r : List FTSENT × Nat) (sp1 : FTS),
      openRoots sys parent argv sp root n = (some r, sp1) →
      (∀ x ∈ root, EntOk sp.nalloc x) → root.length = n →
      (∀ x ∈ r.1, EntOk sp1.nalloc x) ∧ r.1.length = r.2 ∧ sp.nalloc ≤ sp1.nalloc ∧
        Kept sp1 sp := by
  induction argv with
  | nil =>
    intro sp root n r sp1 h hr hn
    simp only [openRoots, Prod.mk.injEq, Option.some.injEq] at h
    obtain ⟨h1, h2⟩ := h
    subst h1 h2
    exact ⟨hr, hn, Nat.le_refl _, Kept.keptRefl _⟩
  | cons a as ih =>
    intro sp root n r sp1 h hr hn
    obtain ⟨f1, f2, _, _, f5, f6⟩ := openRoot_facts sys parent sp a
    have hnew : EntOk (openRoot sys parent sp a).2.nalloc (openRoot sys parent sp a).1 :=
      ⟨by rw [f1, f5]; omega, f2⟩
    have hold : ∀ x ∈ root, EntOk (openRoot sys parent sp a).2.nalloc x := fun x hx =>
      (hr x hx).entMono (by rw [f5]; omega)
    unfold openRoots at h
    by_cases h0 : strlen a = 0
    · rw [if_pos h0] at h
      simp at h
    · rw [if_neg h0] at h
      by_cases hc : sp.fts_compar.isSome = true
      · rw [if_pos hc] at h
        obtain ⟨i1, i2, i3, i4⟩ := ih _ _ _ r sp1 h
          (by
            intro x hx
            rcases List.mem_cons.mp hx with hx | hx
            · subst hx; exact hnew
            · exact hold x hx)
          (by simp [hn])
        exact ⟨i1, i2, by rw [f5] at i3; omega, Kept.keptTrans i4 f6⟩
      · rw [if_neg hc] at h
        obtain ⟨i1, i2, i3, i4⟩ := ih _ _ _ r sp1 h
          (by
            intro x hx
            rcases List.mem_append.mp hx with hx | hx
            · exact hold x hx
            · simp only [List.mem_singleton] at hx
              subst hx; exact hnew)
          (by simp [hn])
        exact ⟨i1, i2, by rw [f5] at i3; omega, Kept.keptTrans i4 f6⟩

theorem openFinish_facts (sys : Sys) (hq : ∀ cmp l, (sys.qsort cmp l).Perm l) (sp : FTS)
    (parent : FTSENT) (root : List FTSENT) (nitems : Nat) (hn : root.length = nitems) :
    ∃ (dummy : FTSENT) (roots : List FTSENT),
      (openFinish sys sp parent root nitems).fts_cur = [⟨dummy, roots⟩, ⟨parent, []⟩] ∧
      roots.Perm root ∧ dummy.addr = sp.nalloc ∧ dummy.fts_instr = FTS_NOINSTR ∧
      dummy.fts_info = FTS_INIT ∧ dummy.fts_parent = none ∧
      (openFinish sys sp parent root nitems).nalloc = sp.nalloc + 1 ∧
      (openFinish sys sp parent root nitems).fts_child = sp.fts_child ∧
      (openFinish sys sp parent root nitems).fts_options.stop = sp.fts_options.stop ∧
      (sp.fts_compar = none → roots = root) := by
  obtain ⟨s1, s2, s3, s4, s5⟩ := fts_sort_facts sys sp root nitems
  have hperm := fts_sort_perm sys hq sp root nitems hn
  unfold openFinish
  dsimp only
  by_cases hc : sp.fts_compar.isSome = true ∧ nitems > 1
  · simp only [if_pos hc]
    have hcn : sp.fts_compar = none → (fts_sort sys sp root nitems).1 = root := by
      intro h; rw [h] at hc; simp at hc
    split
    · exact ⟨_, _, rfl, hperm, s5, rfl, rfl, rfl, by show _ + 1 = _; rw [s5], s4,
        by show (fts_sort sys sp root nitems).2.fts_options.stop = _; rw [s1], hcn⟩
    · split
      · exact ⟨_, _, rfl, hperm, s5, rfl, rfl, rfl, by show _ + 1 = _; rw [s5], s4,
          by show (fts_sort sys sp root nitems).2.fts_options.stop = _; rw [s1], hcn⟩
      · exact ⟨_, _, rfl, hperm, s5, rfl, rfl, rfl, by show _ + 1 = _; rw [s5], s4,
          by show (fts_sort sys sp root nitems).2.fts_options.stop = _; rw [s1], hcn⟩
  · simp only [if_neg hc]
    split
    · exact ⟨_, _, rfl, List.Perm.refl _, rfl, rfl, rfl, rfl, rfl, rfl, rfl, fun _ => rfl⟩
    · split
      · exact ⟨_, _, rfl, List.Perm.refl _, rfl, rfl, rfl, rfl, rfl, rfl, rfl, fun _ => rfl⟩
      · exact ⟨_, _, rfl, List.Perm.refl _, rfl, rfl, rfl, rfl, rfl, rfl, rfl, fun _ => rfl⟩

theorem openInit_facts (sys : Sys) (cwd errno0 : Nat) (argv : List Bytes) (options : Nat)
    (compar : Option (FTSENT → FTSENT → Int)) :
    (openInit sys cwd errno0 argv options compar).1.nalloc = 1 ∧
    (openInit sys cwd errno0 argv options compar).1.fts_child = [] ∧
    (openInit sys cwd errno0 argv options compar).1.fts_compar = compar ∧
    (openInit sys cwd errno0 argv options compar).2.addr = 0 ∧
    (openInit sys cwd errno0 argv options compar).2.fts_instr = FTS_NOINSTR ∧
    (openInit sys cwd errno0 argv options compar).2.fts_level = FTS_ROOTPARENTLEVEL := by
  unfold openInit
  exact ⟨rfl, rfl, rfl, rfl, rfl, rfl⟩

/-- The walk state that `fts_open` returns satisfies the invariant of walks driven by
`fts_read` alone. -/
theorem open_inv (sys : Sys) (hq : ∀ cmp l, (sys.qsort cmp l).Perm l) (cwd errno0 : Nat)
    (argv : List Bytes) (options : Nat) (compar : Option (FTSENT → FTSENT → Int))
    (sp0 : FTS) (e0 : Nat)
    (h : fts_open sys cwd errno0 argv options compar = (some sp0, e0)) : Inv sp0 := by
  obtain ⟨a1, a2, a3, a4, a5, a6⟩ := openInit_facts sys cwd errno0 argv options compar
  unfold fts_open at h
  by_cases hm : options &&& (0xffffffff - FTS_OPTIONMASK) ≠ 0
  · rw [if_pos hm] at h; simp at h
  · rw [if_neg hm] at h
    dsimp only at h
    rcases hr : openRoots sys (openInit sys cwd errno0 argv options compar).2 argv
      (openInit sys cwd errno0 argv options compar).1 [] 0 with ⟨r1, sp3⟩
    rw [hr] at h
    cases r1 with
    | none => simp at h
    | some r =>
      obtain ⟨root, nitems⟩ := r
      simp only [Prod.mk.injEq, Option.some.injEq] at h
      obtain ⟨h1, _⟩ := h
      obtain ⟨i1, i2, i3, i4⟩ := openRoots_inv sys _ argv _ [] 0 (root, nitems) sp3 hr
        (by intro x hx; simp at hx) rfl
      obtain ⟨dummy, roots, f1, f2, f3, f4, _, _, f7, f8, _, _⟩ :=
        openFinish_facts sys hq sp3 (openInit sys cwd errno0 argv options compar).2 root nitems i2
      rw [← h1]
      refine ⟨?_, ?_⟩
      · rw [f8, i4.2.2.2, a2]
      · rw [f1, f7]
        intro f hf
        simp only [List.mem_cons, List.mem_singleton, List.not_mem_nil, or_false] at hf
        rcases hf with hf | hf
        · subst hf
          refine ⟨⟨by rw [f3]; omega, f4⟩, ?_⟩
          intro q hq2
          exact (i1 q (f2.mem_iff.mp hq2)).entMono (by omega)
        · subst hf
          refine ⟨⟨by rw [a4]; rw [a1] at i3; omega, a5⟩, ?_⟩
          intro q hq2
          simp at hq2

theorem depth_first_core (sys : Sys) (hq : ∀ cmp l, (sys.qsort cmp l).Perm l) (sp0 : FTS)
    (hinv0 : Inv sp0) (k : Nat) (l1 l2 : List (FTSENT × FTS)) (x : FTSENT × FTS)
    (hrun : run sys k sp0 = l1 ++ x :: l2) (hD : x.1.fts_info = FTS_D) :
    (∀ y ∈ l2.takeWhile (fun y => decide (y.1.addr ≠ x.1.addr)),
      ParentChain x.1.addr y.2.fts_cur ∧ ∀ q ∈ curLink x.2, y.1.addr ≠ q.addr) ∧
    (∀ z, (l2.dropWhile (fun y => decide (y.1.addr ≠ x.1.addr))).head? = some z →
      (z.1.fts_info = FTS_DP ∨ z.1.fts_info = FTS_DNR ∨ z.1.fts_info = FTS_ERR) ∧
      z.2.fts_cur.tail = x.2.fts_cur.tail ∧ curLink z.2 = curLink x.2 ∧
      ∀ q ∈ builtChildren sys x.2,
        ∃ y ∈ l2.takeWhile (fun y => decide (y.1.addr ≠ x.1.addr)), y.1.addr = q.addr) := by
  have hx : x ∈ run sys k sp0 := by rw [hrun]; simp
  obtain ⟨hinv, lk, base, hcur⟩ := run_inv sys hq k sp0 hinv0 x hx
  have hl2 := run_split sys l1 k sp0 x l2 hrun
  obtain ⟨_, hlk, _⟩ := hinv.frames hcur
  obtain ⟨p1, p2⟩ := predir_run sys hq x.2 x.1 lk base hinv hcur hD (k - l1.length - 1)
  rw [← hl2] at p1 p2
  have hcl : curLink x.2 = lk := by
    unfold curLink; rw [hcur]
  refine ⟨?_, ?_⟩
  · intro y hy
    obtain ⟨h1, h2⟩ := p1 y hy
    refine ⟨h2, ?_⟩
    intro q hq2
    rw [hcl] at hq2
    have := (hlk q hq2).1
    omega
  · intro z hz
    obtain ⟨_, z2, z3, _, z5⟩ := p2 z hz
    refine ⟨z3, ?_, ?_, z5⟩
    · rw [z2, hcur]; rfl
    · rw [hcl]; unfold curLink; rw [z2]

theorem some_getD_of_isSome {α : Type} (o : Option α) (d : α) (h : o.isSome = true) :
    o = some (o.getD d) := by
  cases o with
  | none => simp at h
  | some v => rfl

theorem cons_of_length_ne {α : Type} (l : List α) (d : α) (h : l.length ≠ 0) :
    l = [] ++ l.headD d :: l.tail := by
  cases l with
  | nil => simp at h
  | cons a t => rfl

set_option maxRecDepth 100000 in
/-- C3 (the code at the failing input): in the walk of `D` holding `sub` holding `a`, the file
`a` is returned while the path buffer reads `D/sub`, not `D/sub/a`: the path length recorded
for `sub` is 6, one more than the length of `D/sub`, so that the separator and the name of `a`
are written after the terminator of `D/sub`. -/
theorem path_of_grandchild_is_cut :
    (run sysNested 8 nestedStart).map
        (fun y => (y.1.fts_info, cstr y.1.fts_name, cstr y.2.fts_path, y.1.fts_pathlen)) =
      [(FTS_D, "D".toList, "D".toList, 1), (FTS_F, "m".toList, "D/m".toList, 4),
        (FTS_D, "sub".toList, "D/sub".toList, 6), (FTS_F, "a".toList, "D/sub".toList, 9),
        (FTS_F, "z".toList, "D/sub".toList, 9), (FTS_DP, "sub".toList, "D/sub".toList, 6),
        (FTS_DP, "D".toList, "D".toList, 1)] := by
  decide

set_option maxRecDepth 100000 in
/-- C5 (the code at the failing input): in the logical walk of `D` whose entry `loop` is a
symbolic link to `D`, the entry built for `loop` is not probed through `D/loop` but through
the path buffer as it stands after the separator, and its name is overwritten with those
bytes. When the buffer holds zeros the probe is of `D/`, and the entry is returned as a cycle
with an empty name; when it holds the byte `x` the probe fails and the entry is returned with
kind stat-failed and a name made of the six bytes copied, `xxxxxx`. -/
theorem logical_walk_loses_name :
    (run sysLoop 8 loopStart).map
        (fun y => (y.1.fts_info, cstr y.1.fts_name, y.1.fts_cycle, y.1.addr)) =
      [(FTS_D, "D".toList, (ent0.fts_cycle), 1), (FTS_DC, [], some 1, 3),
        (FTS_DP, "D".toList, (ent0.fts_cycle), 1)] ∧
    (run sysLoopX 8 loopStartX).map (fun y => (y.1.fts_info, cstr y.1.fts_name)) =
      [(FTS_D, "D".toList), (FTS_NS, "xxxxxx".toList), (FTS_DP, "D".toList)] := by
  decide

theorem Prov.toCur {sp sp1 : FTS} (h : Prov sp sp1) : ProvCur sp sp1 := by
  refine ⟨h.1, ?_⟩
  intro a ha
  rcases h.2 a ha with ⟨q, hq, hqa⟩ | ⟨f, hf, hfa⟩ | h3 | h4
  · left; left
    unfold curLink at hq
    cases hc : sp.fts_cur with
    | nil => rw [hc] at hq; simp at hq
    | cons g r =>
      rw [hc] at hq
      exact ⟨g, List.mem_cons_self _ _, Or.inr ⟨q, hq, hqa⟩⟩
  · left; left
    exact ⟨f, List.mem_of_mem_tail hf, hfa⟩
  · left; right; exact h3
  · right; exact h4

theorem followStat_frame (sys : Sys) (sp : FTS) (anc : List FTSENT) (p : FTSENT) :
    (followStat sys sp anc p).2.nalloc = sp.nalloc ∧
    (followStat sys sp anc p).2.fts_child = sp.fts_child ∧
    (followStat sys sp anc p).2.fts_options = sp.fts_options ∧
    (followStat sys sp anc p).2.fts_cur = sp.fts_cur := by
  unfold followStat
  dsimp only
  split
  · split <;> exact ⟨rfl, rfl, rfl, rfl⟩
  · exact ⟨rfl, rfl, rfl, rfl⟩

theorem readUp_leaves (sys : Sys) (sp : FTS) (tmp : FTSENT) (rest : List Frame)
    (v : Option FTSENT) (sp1 : FTS) (h : readUp sys sp tmp rest = Outcome.ret v sp1) :
    Leaves sp [] rest v sp1 := by
  unfold readUp at h
  cases rest with
  | nil => simp at h
  | cons par rest1 =>
    dsimp only at h
    by_cases hpar : tmp.fts_parent ≠ some par.ent.addr
    · rw [if_pos hpar] at h; cases h
    · rw [if_neg hpar] at h
      by_cases hl : par.ent.fts_level = FTS_ROOTPARENTLEVEL
      · rw [if_pos hl] at h
        cases h
        exact ⟨rfl, rfl, Or.inl ⟨rfl, Or.inr ⟨rfl, par, rest1, rfl, hl⟩⟩⟩
      · rw [if_neg hl] at h
        have hgen : ∀ r : Bool × FTS,
            (r.2.fts_child = sp.fts_child ∧ r.2.nalloc = sp.nalloc ∧ r.2.fts_cur = sp.fts_cur) →
            (if r.1 = true then
                Outcome.ret none { r.2 with fts_options := { r.2.fts_options with stop := true } }
              else
                Outcome.ret (some { par.ent with
                    fts_info := if par.ent.fts_errno ≠ 0 then FTS_ERR else FTS_DP })
                  { r.2 with fts_cur := ⟨{ par.ent with
                    fts_info := if par.ent.fts_errno ≠ 0 then FTS_ERR else FTS_DP },
                      par.link⟩ :: rest1 }) = Outcome.ret v sp1 →
            Leaves sp [] (par :: rest1) v sp1 := by
          intro r hr h2
          by_cases h1 : r.1 = true
          · rw [if_pos h1] at h2
            cases h2
            exact ⟨hr.2.1, hr.1, Or.inl ⟨rfl, Or.inl ⟨rfl, hr.2.2⟩⟩⟩
          · rw [if_neg h1] at h2
            cases h2
            refine ⟨hr.2.1, hr.1, Or.inr (Or.inr ⟨_, par, rest1, rfl, rfl, rfl, rfl, rfl, ?_⟩)⟩
            dsimp only
            split
            · exact Or.inr rfl
            · exact Or.inl rfl
        refine hgen _ ?_ h
        split
        · have := FCHDIR_frame sys
            { sp with fts_path := memWrite sp.fts_path par.ent.fts_pathlen [NUL] 1 } sp.fts_rfd
          exact ⟨this.2.2.2.1, this.2.2.2.2, this.2.2.1⟩
        · split
          · have := FCHDIR_frame sys
              { sp with fts_path := memWrite sp.fts_path par.ent.fts_pathlen [NUL] 1 }
              par.ent.fts_symfd
            exact ⟨this.2.2.2.1, this.2.2.2.2, this.2.2.1⟩
          · split
            · have := CHDIR_frame sys
                { sp with fts_path := memWrite sp.fts_path par.ent.fts_pathlen [NUL] 1 } ['.', '.']
              exact ⟨this.2.2.2.1, this.2.2.2.2, this.2.2.1⟩
            · exact ⟨rfl, rfl, rfl⟩

theorem Leaves.cons {sp : FTS} {lk : List FTSENT} {rest : List Frame} {v : Option FTSENT}
    {sp1 : FTS} (q : FTSENT) (h : Leaves sp lk rest v sp1) : Leaves sp (q :: lk) rest v sp1 := by
  obtain ⟨h1, h2, h3⟩ := h
  refine ⟨h1, h2, ?_⟩
  rcases h3 with h | ⟨e, l, a1, a2, ⟨x, hx, hxa⟩, a4⟩ | h
  · exact Or.inl h
  · exact Or.inr (Or.inl ⟨e, l, a1, a2, ⟨x, List.mem_cons_of_mem _ hx, hxa⟩,
      fun y hy => List.mem_cons_of_mem _ (a4 y hy)⟩)
  · exact Or.inr (Or.inr h)

theorem readName_leaves (sp0 sp : FTS) (q q1 : FTSENT) (lk1 : List FTSENT) (rest : List Frame)
    (v : Option FTSENT) (sp1 : FTS) (hn : sp.nalloc = sp0.nalloc)
    (hc : sp.fts_child = sp0.fts_child) (hq : q1.addr = q.addr)
    (hlv : q1.fts_level = q.fts_level)
    (h : readName sp q1 lk1 rest = Outcome.ret v sp1) :
    Leaves sp0 (q :: lk1) rest v sp1 := by
  rcases readName_cases sp q1 lk1 rest with h2 | ⟨path, h2⟩
  · rw [h2] at h; cases h
  · rw [h2] at h
    cases h
    exact ⟨hn, hc, Or.inr (Or.inl ⟨q1, lk1, rfl, rfl,
      ⟨q, List.mem_cons_self _ _, hq.symm, hlv.symm⟩,
      fun x hx => List.mem_cons_of_mem _ hx⟩)⟩

theorem readNext_leaves (sys : Sys) (rest : List Frame) :
    ∀ (lk : List FTSENT) (sp : FTS) (tmp : FTSENT) (v : Option FTSENT) (sp1 : FTS),
      readNext sys rest sp tmp lk = Outcome.ret v sp1 → Leaves sp lk rest v sp1 := by
  intro lk
  induction lk with
  | nil =>
    intro sp tmp v sp1 h
    unfold readNext at h
    exact readUp_leaves sys sp tmp rest v sp1 h
  | cons q lk1 ih =>
    intro sp tmp v sp1 h
    unfold readNext at h
    by_cases h0 : q.fts_level = FTS_ROOTLEVEL
    · rw [if_pos h0] at h
      dsimp only at h
      obtain ⟨f1, f2, f3, f4, f5⟩ := FCHDIR_frame sys sp sp.fts_rfd
      by_cases h1 : (FCHDIR sys sp sp.fts_rfd).1 = true
      · rw [if_pos h1] at h
        cases h
        exact ⟨f5, f4, Or.inl ⟨rfl, Or.inl ⟨rfl, f3⟩⟩⟩
      · rw [if_neg h1] at h
        cases h
        obtain ⟨l1, l2, l3⟩ := fts_load_frame (FCHDIR sys sp sp.fts_rfd).2 q
        have hs := fts_load_same (FCHDIR sys sp sp.fts_rfd).2 q
        refine ⟨?_, ?_, Or.inr (Or.inl ⟨_, lk1, rfl, rfl,
          ⟨q, List.mem_cons_self _ _, hs.1.symm, hs.2.2.2.symm⟩,
          fun x hx => List.mem_cons_of_mem _ hx⟩)⟩
        · show (fts_load (FCHDIR sys sp sp.fts_rfd).2 q).2.nalloc = sp.nalloc
          rw [l2, f5]
        · show (fts_load (FCHDIR sys sp sp.fts_rfd).2 q).2.fts_child = sp.fts_child
          rw [l1, f4]
    · rw [if_neg h0] at h
      by_cases hs : q.fts_instr = FTS_SKIP
      · rw [if_pos hs] at h
        exact (ih sp q v sp1 h).cons q
      · rw [if_neg hs] at h
        by_cases hf : q.fts_instr = FTS_FOLLOW
        · rw [if_pos hf] at h
          dsimp only at h
          obtain ⟨g1, g2, _, _⟩ := followStat_frame sys sp (rest.map (fun g => g.ent)) q
          have hsame := followStat_same sys sp (rest.map (fun g => g.ent)) q
          generalize followStat sys sp (rest.map (fun g => g.ent)) q = r at h g1 g2 hsame
          obtain ⟨r1, r2⟩ := r
          exact readName_leaves sp r2 q { r1 with fts_instr := FTS_NOINSTR }
            lk1 rest v sp1 g1 g2 hsame.1 hsame.2.2.2 h
        · rw [if_neg hf] at h
          exact readName_leaves sp sp q q lk1 rest v sp1 rfl rfl rfl rfl h

theorem leaves_prov {sp sp2 sp1 : FTS} {p : FTSENT} {lk : List FTSENT} {rest : List Frame}
    {v : Option FTSENT} (hcur : sp.fts_cur = ⟨p, lk⟩ :: rest) (hn : sp2.nalloc = sp.nalloc)
    (hc : sp2.fts_child = sp.fts_child)
    (hl : Leaves sp2 lk rest v sp1) :
    (v = none ∧ sp1.fts_options.stop = true ∧ sp1.fts_cur = sp2.fts_cur ∧
      sp1.fts_child = sp.fts_child ∧ sp1.nalloc = sp.nalloc) ∨ Prov sp sp1 := by
  obtain ⟨h1, h2, h3⟩ := hl
  have hlink : curLink sp = lk := by unfold curLink; rw [hcur]
  have htail : sp.fts_cur.tail = rest := by rw [hcur]; rfl
  have hchild : ∀ a, (∃ q ∈ sp1.fts_child, q.addr = a) → ∃ q ∈ sp.fts_child, q.addr = a := by
    intro a ha; rw [h2, hc] at ha; exact ha
  rcases h3 with ⟨hv, ⟨hs, hc1⟩ | ⟨hnil, _⟩⟩ | ⟨e, l, hv, hst, ⟨q, hq, hqa, _⟩, hsub⟩ |
      ⟨e, par, rest1, hv, hr, hst, hea, _, _⟩
  · left
    exact ⟨hv, hs, hc1, h2.trans hc, h1.trans hn⟩
  · right
    refine ⟨by rw [h1, hn], ?_⟩
    intro a ha
    rcases ha with ⟨f, hf, _⟩ | ha
    · rw [hnil] at hf; simp at hf
    · exact Or.inr (Or.inr (Or.inl (hchild a ha)))
  · right
    refine ⟨by rw [h1, hn], ?_⟩
    intro a ha
    rcases ha with ⟨f, hf, hfa⟩ | ha
    · rw [hst] at hf
      rcases List.mem_cons.mp hf with hf | hf
      · subst hf
        rcases hfa with hfa | ⟨x, hx, hxa⟩
        · left; rw [hlink]; exact ⟨q, hq, hqa.trans hfa⟩
        · left; rw [hlink]; exact ⟨x, hsub x hx, hxa⟩
      · right; left; rw [htail]; exact ⟨f, hf, hfa⟩
    · exact Or.inr (Or.inr (Or.inl (hchild a ha)))
  · right
    refine ⟨by rw [h1, hn], ?_⟩
    intro a ha
    rcases ha with ⟨f, hf, hfa⟩ | ha
    · rw [hst] at hf
      right; left
      rw [htail, hr]
      rcases List.mem_cons.mp hf with hf | hf
      · subst hf
        refine ⟨par, List.mem_cons_self _ _, ?_⟩
        rcases hfa with hfa | ⟨x, hx, hxa⟩
        · exact Or.inl (hea.symm.trans hfa)
        · exact Or.inr ⟨x, hx, hxa⟩
      · exact ⟨f, List.mem_cons_of_mem _ hf, hfa⟩
    · exact Or.inr (Or.inr (Or.inl (hchild a ha)))

theorem provCur_of_same_sets {sp sp1 : FTS} (hn : sp.nalloc ≤ sp1.nalloc)
    (hst : ∀ f ∈ sp1.fts_cur, ∀ a, InFrame f a → HasAddr sp a ∨ sp.nalloc ≤ a)
    (hch : ∀ q ∈ sp1.fts_child, HasAddr sp q.addr ∨ sp.nalloc ≤ q.addr) : ProvCur sp sp1 := by
  refine ⟨hn, ?_⟩
  intro a ha
  rcases ha with ⟨f, hf, hfa⟩ | ⟨q, hq, hqa⟩
  · exact hst f hf a hfa
  · rw [← hqa]; exact hch q hq

theorem hasAddr_cur {sp : FTS} {f : Frame} (hf : f ∈ sp.fts_cur) {a : Nat} (ha : InFrame f a) :
    HasAddr sp a := Or.inl ⟨f, hf, ha⟩

theorem hasAddr_child {sp : FTS} {q : FTSENT} (hq : q ∈ sp.fts_child) : HasAddr sp q.addr :=
  Or.inr ⟨q, hq, rfl⟩

/-- A state whose cursor entry was replaced by an entry at the same address keeps its set of
live addresses. -/
theorem provCur_replace_top {sp sp1 : FTS} {p e : FTSENT} {lk : List FTSENT}
    {rest : List Frame} (hcur : sp.fts_cur = ⟨p, lk⟩ :: rest)
    (hcur1 : sp1.fts_cur = ⟨e, lk⟩ :: rest) (hea : e.addr = p.addr)
    (hn : sp.nalloc ≤ sp1.nalloc)
    (hch : sp1.fts_child = sp.fts_child ∨ sp1.fts_child = []) : ProvCur sp sp1 := by
  apply provCur_of_same_sets hn
  · intro f hf a ha
    left
    rw [hcur1] at hf
    rcases List.mem_cons.mp hf with hf | hf
    · subst hf
      refine hasAddr_cur (f := ⟨p, lk⟩) (by rw [hcur]; exact List.mem_cons_self _ _) ?_
      rcases ha with ha | ha
      · exact Or.inl (hea.symm.trans ha)
      · exact Or.inr ha
    · exact hasAddr_cur (by rw [hcur]; exact List.mem_cons_of_mem _ hf) ha
  · intro q hq
    rcases hch with h | h
    · rw [h] at hq; exact Or.inl (hasAddr_child hq)
    · rw [h] at hq; simp at hq

theorem provCur_push {sp sp1 : FTS} {p e c : FTSENT} {cs lk : List FTSENT}
    {rest : List Frame} (hcur : sp.fts_cur = ⟨p, lk⟩ :: rest)
    (hcur1 : sp1.fts_cur = ⟨c, cs⟩ :: ⟨e, lk⟩ :: rest) (hea : e.addr = p.addr)
    (hn : sp.nalloc ≤ sp1.nalloc)
    (hch : sp1.fts_child = sp.fts_child ∨ sp1.fts_child = [])
    (hnew : ∀ x ∈ c :: cs, HasAddr sp x.addr ∨ sp.nalloc ≤ x.addr) : ProvCur sp sp1 := by
  apply provCur_of_same_sets hn
  · intro f hf a ha
    rw [hcur1] at hf
    rcases List.mem_cons.mp hf with hf | hf
    · subst hf
      rcases ha with ha | ⟨x, hx, hxa⟩
      · rw [← ha]; exact hnew c (List.mem_cons_self _ _)
      · rw [← hxa]; exact hnew x (List.mem_cons_of_mem _ hx)
    · left
      rcases List.mem_cons.mp hf with hf | hf
      · subst hf
        refine hasAddr_cur (f := ⟨p, lk⟩) (by rw [hcur]; exact List.mem_cons_self _ _) ?_
        rcases ha with ha | ha
        · exact Or.inl (hea.symm.trans ha)
        · exact Or.inr ha
      · exact hasAddr_cur (by rw [hcur]; exact List.mem_cons_of_mem _ hf) ha
  · intro q hq
    rcases hch with h | h
    · rw [h] at hq; exact Or.inl (hasAddr_child hq)
    · rw [h] at hq; simp at hq

theorem readDirBuild_prov (sys : Sys) (hq : ∀ cmp l, (sys.qsort cmp l).Perm l) (sp sd : FTS)
    (p0 p : FTSENT) (lk : List FTSENT) (rest : List Frame)
    (hcur : sp.fts_cur = ⟨p0, lk⟩ :: rest) (hp : p.addr = p0.addr)
    (hdn : sd.nalloc = sp.nalloc) (hdc : sd.fts_child = sp.fts_child ∨ sd.fts_child = [])
    (v : Option FTSENT) (sp1 : FTS)
    (h : readDirBuild sys sd p lk rest = Outcome.ret v sp1) : ProvCur sp sp1 := by
  unfold readDirBuild at h
  have hpost := fts_build_core_post sys hq { sd with fts_cur := ⟨p, lk⟩ :: rest } p
    (rest.map (fun g => g.ent)) BType.BREAD
  have hb : fts_build sys { sd with fts_cur := ⟨p, lk⟩ :: rest } BType.BREAD =
      Outcome.ret (fts_build_core sys { sd with fts_cur := ⟨p, lk⟩ :: rest } p
          (rest.map (fun g => g.ent)) BType.BREAD).1
        { (fts_build_core sys { sd with fts_cur := ⟨p, lk⟩ :: rest } p
            (rest.map (fun g => g.ent)) BType.BREAD).2.2 with
          fts_cur := ⟨(fts_build_core sys { sd with fts_cur := ⟨p, lk⟩ :: rest } p
            (rest.map (fun g => g.ent)) BType.BREAD).2.1, lk⟩ :: rest } := by
    unfold fts_build
    rfl
  rw [hb] at h
  generalize fts_build_core sys { sd with fts_cur := ⟨p, lk⟩ :: rest } p
    (rest.map (fun g => g.ent)) BType.BREAD = r at hpost h
  obtain ⟨rl, rc, rs⟩ := r
  obtain ⟨b1, b2, b3, b4, b5, b6, b7, b8, b9⟩ := hpost
  simp only at b1 b2 b3 b4 b5 b6 b7 b8 b9 h
  have hn : sp.nalloc ≤ rs.nalloc := by rw [← hdn]; exact b2
  have hch : rs.fts_child = sp.fts_child ∨ rs.fts_child = [] := by
    rcases hdc with h1 | h1
    · left; rw [b4]; exact h1
    · right; rw [b4]; exact h1
  cases rl with
  | nil =>
    simp only at h
    by_cases hstop : rs.fts_options.stop = true
    · simp only [hstop, if_true] at h
      cases h
      exact provCur_replace_top (e := rc) hcur rfl (b1.1.trans hp) hn hch
    · simp only [hstop, if_false, Bool.false_eq_true] at h
      cases h
      exact provCur_replace_top (e := rc) hcur rfl (b1.1.trans hp) hn hch
  | cons c cs =>
    simp only at h
    rcases readName_cases { rs with fts_cur := ⟨rc, lk⟩ :: rest } c cs (⟨rc, lk⟩ :: rest)
      with h2 | ⟨path, h2⟩
    · rw [h2] at h; cases h
    · rw [h2] at h
      cases h
      refine @provCur_push _ _ _ rc c cs _ _ hcur rfl (b1.1.trans hp) hn hch ?_
      intro x hx
      right
      have := (b3 x hx).1
      show sp.nalloc ≤ x.addr
      rw [← hdn]; exact this

theorem readDirEnter_prov (sys : Sys) (hq : ∀ cmp l, (sys.qsort cmp l).Perm l) (sp sd : FTS)
    (p0 p : FTSENT) (lk : List FTSENT) (rest : List Frame)
    (hcur : sp.fts_cur = ⟨p0, lk⟩ :: rest) (hp : p.addr = p0.addr)
    (hdn : sd.nalloc = sp.nalloc) (hdc : sd.fts_child = sp.fts_child ∨ sd.fts_child = [])
    (v : Option FTSENT) (sp1 : FTS)
    (h : readDirEnter sys sd p lk rest = Outcome.ret v sp1) : ProvCur sp sp1 := by
  unfold readDirEnter at h
  cases hch : sd.fts_child with
  | nil =>
    rw [hch] at h
    exact readDirBuild_prov sys hq sp sd p0 p lk rest hcur hp hdn hdc v sp1 h
  | cons c cs =>
    rw [hch] at h
    dsimp only at h
    have hsub : ∀ x ∈ c :: cs, HasAddr sp x.addr ∨ sp.nalloc ≤ x.addr := by
      intro x hx
      left
      rcases hdc with h1 | h1
      · rw [← hch, h1] at hx; exact hasAddr_child hx
      · rw [hch] at h1; simp at h1
    obtain ⟨_, _, _, _, g5⟩ := CHDIR_frame sys sd (accString sd (rest.map (fun g => g.ent)) p)
    have hn : sp.nalloc ≤ (CHDIR sys sd (accString sd (rest.map (fun g => g.ent)) p)).2.nalloc := by
      rw [g5, hdn]
    by_cases h1 : (CHDIR sys sd (accString sd (rest.map (fun g => g.ent)) p)).1 = true
    · rw [if_pos h1] at h
      by_cases h2 : ∀ q ∈ c :: cs, q.fts_parent = some p.addr
      · rw [if_pos h2] at h
        rcases readName_cases _ _ _ _ with h3 | ⟨path, h3⟩
        · rw [h3] at h; cases h
        · rw [h3] at h
          cases h
          refine provCur_push (p := p0) hcur rfl hp hn (Or.inr rfl) ?_
          intro x hx
          rcases List.mem_cons.mp hx with hx | hx
          · subst hx; exact hsub c (List.mem_cons_self _ _)
          · obtain ⟨y, hy, hyx⟩ := List.mem_map.mp hx
            subst hyx
            exact hsub y (List.mem_cons_of_mem _ hy)
      · rw [if_neg h2] at h; cases h
    · rw [if_neg h1] at h
      rcases readName_cases _ _ _ _ with h3 | ⟨path, h3⟩
      · rw [h3] at h; cases h
      · rw [h3] at h
        cases h
        exact provCur_push (p := p0) hcur rfl hp hn (Or.inr rfl) hsub

theorem readDir_prov (sys : Sys) (hq : ∀ cmp l, (sys.qsort cmp l).Perm l) (sp : FTS)
    (p0 p : FTSENT) (lk : List FTSENT) (rest : List Frame) (instr : Int)
    (hcur : sp.fts_cur = ⟨p0, lk⟩ :: rest) (hp : p.addr = p0.addr)
    (v : Option FTSENT) (sp1 : FTS)
    (h : readDir sys sp p lk rest instr = Outcome.ret v sp1) : ProvCur sp sp1 := by
  unfold readDir at h
  by_cases hx : instr = FTS_SKIP ∨ (sp.fts_options.xdev = true ∧ p.fts_dev ≠ sp.fts_dev)
  · rw [if_pos hx] at h
    cases h
    exact provCur_replace_top (e := { p with fts_info := FTS_DP }) hcur rfl hp (Nat.le_refl _)
      (Or.inr rfl)
  · rw [if_neg hx] at h
    refine readDirEnter_prov sys hq sp (readDirDrop sp) p0 p lk rest hcur hp ?_ ?_ v sp1 h
    · unfold readDirDrop; split <;> rfl
    · unfold readDirDrop
      split
      · right; rfl
      · left; rfl

/-- Every live entry after a call of `fts_read` is at the address of an entry that was live
before the call, or was allocated by the call. -/
theorem read_prov (sys : Sys) (hq : ∀ cmp l, (sys.qsort cmp l).Perm l) (sp : FTS)
    (v : Option FTSENT) (sp1 : FTS) (h : fts_read sys sp = Outcome.ret v sp1) :
    ProvCur sp sp1 := by
  unfold fts_read at h
  cases hc : sp.fts_cur with
  | nil =>
    rw [hc] at h
    cases h
    exact ⟨Nat.le_refl _, fun a ha => Or.inl ha⟩
  | cons f rest =>
    obtain ⟨p0, lk⟩ := f
    rw [hc] at h
    dsimp only at h
    by_cases hs : sp.fts_options.stop = true
    · rw [if_pos hs] at h
      cases h
      exact ⟨Nat.le_refl _, fun a ha => Or.inl ha⟩
    · rw [if_neg hs] at h
      by_cases ha : p0.fts_instr = FTS_AGAIN
      · rw [if_pos ha] at h
        cases h
        have hsame := fts_stat_same sys sp (rest.map (fun g => g.ent)) none
          { p0 with fts_instr := FTS_NOINSTR } false
        exact provCur_replace_top hc rfl hsame.1 (Nat.le_refl _) (Or.inl rfl)
      · rw [if_neg ha] at h
        by_cases hf : p0.fts_instr = FTS_FOLLOW ∧
            (({ p0 with fts_instr := FTS_NOINSTR } : FTSENT).fts_info = FTS_SL ∨
             ({ p0 with fts_instr := FTS_NOINSTR } : FTSENT).fts_info = FTS_SLNONE)
        · rw [if_pos hf] at h
          cases h
          obtain ⟨g1, g2, _, _⟩ := followStat_frame sys sp (rest.map (fun g => g.ent))
            { p0 with fts_instr := FTS_NOINSTR }
          have hsame := followStat_same sys sp (rest.map (fun g => g.ent))
            { p0 with fts_instr := FTS_NOINSTR }
          exact provCur_replace_top hc rfl hsame.1 (by rw [g1]) (Or.inl g2)
        · rw [if_neg hf] at h
          by_cases hd : ({ p0 with fts_instr := FTS_NOINSTR } : FTSENT).fts_info = FTS_D
          · rw [if_pos hd] at h
            exact readDir_prov sys hq sp p0 { p0 with fts_instr := FTS_NOINSTR } lk rest
              p0.fts_instr hc rfl v sp1 h
          · rw [if_neg hd] at h
            have hl := readNext_leaves sys rest lk
              { sp with fts_cur := ⟨{ p0 with fts_instr := FTS_NOINSTR }, lk⟩ :: rest }
              { p0 with fts_instr := FTS_NOINSTR } v sp1 h
            rcases @leaves_prov sp
                { sp with fts_cur := ⟨{ p0 with fts_instr := FTS_NOINSTR }, lk⟩ :: rest }
                _ _ _ _ _ hc rfl rfl hl with ⟨_, _, h3, h4, h5⟩ | hpr
            · exact provCur_replace_top (e := { p0 with fts_instr := FTS_NOINSTR }) hc h3 rfl
                (by rw [h5]) (Or.inl h4)
            · exact hpr.toCur

theorem eraseInstr_addr_list (l1 l2 : List FTSENT)
    (h : l1.map eraseInstr = l2.map eraseInstr) :
    l1.map (fun q => q.addr) = l2.map (fun q => q.addr) := by
  have := congrArg (List.map (fun q : FTSENT => q.addr)) h
  simpa [List.map_map, Function.comp, eraseInstr] using this

theorem eraseFrame_addrs (f g : Frame) (h : eraseFrame f = eraseFrame g) :
    frameAddrs f = frameAddrs g := by
  unfold eraseFrame at h
  simp only [Frame.mk.injEq] at h
  obtain ⟨h1, h2⟩ := h
  unfold frameAddrs
  rw [eraseInstr_addr_list _ _ h2]
  have : f.ent.addr = g.ent.addr := by
    have := congrArg (fun e : FTSENT => e.addr) h1
    simpa [eraseInstr] using this
  rw [this]

theorem inFrame_iff (f : Frame) (a : Nat) : InFrame f a ↔ a ∈ frameAddrs f := by
  unfold InFrame frameAddrs
  simp only [List.mem_cons, List.mem_map]
  constructor
  · rintro (h | ⟨q, hq, hqa⟩)
    · exact Or.inl h.symm
    · exact Or.inr ⟨q, hq, hqa⟩
  · rintro (h | ⟨q, hq, hqa⟩)
    · exact Or.inl h.symm
    · exact Or.inr ⟨q, hq, hqa⟩

theorem eraseFrames_mem (c1 c2 : List Frame) (h : c1.map eraseFrame = c2.map eraseFrame)
    (a : Nat) : (∃ f ∈ c1, InFrame f a) → ∃ f ∈ c2, InFrame f a := by
  rintro ⟨f, hf, hfa⟩
  have hm : eraseFrame f ∈ c2.map eraseFrame := by
    rw [← h]; exact List.mem_map_of_mem _ hf
  obtain ⟨g, hg, hge⟩ := List.mem_map.mp hm
  refine ⟨g, hg, ?_⟩
  rw [inFrame_iff] at hfa ⊢
  rw [eraseFrame_addrs g f hge]
  exact hfa

theorem instrOnly_hasAddr {s t : FTS} (h : InstrOnly s t) (a : Nat) :
    HasAddr t a ↔ HasAddr s a := by
  obtain ⟨cur, child, ht, h1, h2⟩ := h
  subst ht
  have h3 := eraseInstr_addr_list _ _ h2
  constructor
  · rintro (hf | ⟨q, hq, hqa⟩)
    · exact Or.inl (eraseFrames_mem _ _ h1 a hf)
    · right
      have : a ∈ child.map (fun q => q.addr) := List.mem_map.mpr ⟨q, hq, hqa⟩
      rw [h3] at this
      obtain ⟨x, hx, hxa⟩ := List.mem_map.mp this
      exact ⟨x, hx, hxa⟩
  · rintro (hf | ⟨q, hq, hqa⟩)
    · exact Or.inl (eraseFrames_mem _ _ h1.symm a hf)
    · right
      have : a ∈ s.fts_child.map (fun q => q.addr) := List.mem_map.mpr ⟨q, hq, hqa⟩
      rw [← h3] at this
      obtain ⟨x, hx, hxa⟩ := List.mem_map.mp this
      exact ⟨x, hx, hxa⟩

theorem read_stopped (sys : Sys) (sp : FTS) (h : sp.fts_options.stop = true) :
    fts_read sys sp = Outcome.ret none sp := by
  unfold fts_read
  split
  · rfl
  · rw [if_pos h]

theorem instrOnly_frame {s t : FTS} (h : InstrOnly s t) :
    t.fts_options = s.fts_options ∧ t.nalloc = s.nalloc := by
  obtain ⟨cur, child, ht, _, _⟩ := h
  subst ht
  exact ⟨rfl, rfl⟩

theorem gone_call (sys : Sys) (hq : ∀ cmp l, (sys.qsort cmp l).Perm l) (a : Nat) (s t : FTS)
    (v : Option FTSENT) (u : FTS) (hg : Gone a s) (hi : InstrOnly s t)
    (hr : fts_read sys t = Outcome.ret v u) : Gone a u ∧ NotUnder a v u := by
  obtain ⟨i1, i2⟩ := instrOnly_frame hi
  rcases hg with hstop | ⟨hlt, hno⟩
  · have hst : t.fts_options.stop = true := by rw [i1]; exact hstop
    rw [read_stopped sys t hst] at hr
    cases hr
    exact ⟨Or.inl hst, fun e he => by cases he⟩
  · have hpc := read_prov sys hq t v u hr
    have hno2 : ¬ HasAddr u a := by
      intro hu
      rcases hpc.2 a hu with h1 | h1
      · exact hno ((instrOnly_hasAddr hi a).mp h1)
      · rw [i2] at h1; omega
    refine ⟨Or.inr ⟨?_, hno2⟩, ?_⟩
    · have := hpc.1
      rw [i2] at this
      omega
    · intro e _ f hf hfa
      exact hno2 (Or.inl ⟨f, hf, Or.inl hfa⟩)

theorem gone_calls (sys : Sys) (hq : ∀ cmp l, (sys.qsort cmp l).Perm l) (a : Nat) (s : FTS)
    (hg : Gone a s) (v : Option FTSENT) (u : FTS) (hc : Calls sys s v u) :
    Gone a u ∧ NotUnder a v u := by
  induction hc with
  | first t v u hi hr => exact gone_call sys hq a s t v u hg hi hr
  | next v u t v1 w _ hi hr ih => exact gone_call sys hq a u t v1 w ih.1 hi hr

theorem eraseInstr_fields (e p : FTSENT) (h : eraseInstr e = eraseInstr p) :
    e.addr = p.addr ∧ e.fts_info = p.fts_info := by
  have h1 := congrArg (fun x : FTSENT => x.addr) h
  have h2 := congrArg (fun x : FTSENT => x.fts_info) h
  exact ⟨by simpa [eraseInstr] using h1, by simpa [eraseInstr] using h2⟩

/-- The call of `fts_read` that follows the return of an entry that is neither a directory in
pre-order nor a symbolic link, the caller not having set `FTS_AGAIN` on it: the entry leaves
the walk. -/
theorem leave_entry (sys : Sys) (sp1 t : FTS) (p1 : FTSENT) (lk : List FTSENT)
    (rest : List Frame) (v : Option FTSENT) (u : FTS)
    (hcur1 : sp1.fts_cur = ⟨p1, lk⟩ :: rest) (hchild : sp1.fts_child = [])
    (hstop : sp1.fts_options.stop = false)
    (hinfo : p1.fts_info ≠ FTS_D ∧ p1.fts_info ≠ FTS_SL ∧ p1.fts_info ≠ FTS_SLNONE)
    (hlt : p1.addr < sp1.nalloc)
    (hfresh : p1.addr ∉ lk.map (fun q => q.addr) ++ rest.flatMap frameAddrs)
    (hi : InstrOnly sp1 t) (hag : ∀ f ∈ t.fts_cur.head?, f.ent.fts_instr ≠ FTS_AGAIN)
    (hr : fts_read sys t = Outcome.ret v u) :
    Gone p1.addr u ∧ NotUnder p1.addr v u := by
  obtain ⟨i1, i2⟩ := instrOnly_frame hi
  obtain ⟨cur, child, ht, h1, h2⟩ := hi
  rw [hcur1] at h1
  rw [hchild] at h2
  have hchild2 : child = [] := by
    cases child with
    | nil => rfl
    | cons c cs => simp at h2
  cases cur with
  | nil => simp at h1
  | cons f cr =>
    simp only [List.map_cons, List.cons.injEq] at h1
    obtain ⟨h1a, h1b⟩ := h1
    obtain ⟨p2, lk2⟩ := f
    have hfa := eraseFrame_addrs ⟨p2, lk2⟩ ⟨p1, lk⟩ h1a
    unfold eraseFrame at h1a
    simp only [Frame.mk.injEq] at h1a
    obtain ⟨e1, e2⟩ := eraseInstr_fields p2 p1 h1a.1
    have hlk := eraseInstr_addr_list _ _ h1a.2
    have htcur : t.fts_cur = ⟨p2, lk2⟩ :: cr := by rw [ht]
    have htchild : t.fts_child = [] := by rw [ht]; exact hchild2
    have hts : ¬ t.fts_options.stop = true := by rw [i1, hstop]; simp
    have hag2 : ¬ p2.fts_instr = FTS_AGAIN := by
      have := hag ⟨p2, lk2⟩ (by rw [htcur]; simp)
      exact this
    have hread : fts_read sys t =
        readNext sys cr { t with fts_cur := ⟨{ p2 with fts_instr := FTS_NOINSTR }, lk2⟩ :: cr }
          { p2 with fts_instr := FTS_NOINSTR } lk2 := by
      unfold fts_read
      rw [htcur]
      dsimp only
      rw [if_neg hts, if_neg hag2]
      have hnf : ¬ (p2.fts_instr = FTS_FOLLOW ∧ (p2.fts_info = FTS_SL ∨ p2.fts_info = FTS_SLNONE)) := by
        rintro ⟨_, h | h⟩
        · exact hinfo.2.1 (e2 ▸ h)
        · exact hinfo.2.2 (e2 ▸ h)
      have hnd : ¬ p2.fts_info = FTS_D := fun h => hinfo.1 (e2 ▸ h)
      rw [if_neg hnf, if_neg hnd]
    rw [hread] at hr
    have hl := readNext_leaves sys cr lk2 _ _ v u hr
    rcases @leaves_prov t
        { t with fts_cur := ⟨{ p2 with fts_instr := FTS_NOINSTR }, lk2⟩ :: cr }
        _ _ _ _ _ htcur rfl rfl hl with ⟨hv, hs, _, _, _⟩ | hpr
    · exact ⟨Or.inl hs, fun e he => by rw [hv] at he; cases he⟩
    · have hno : ¬ HasAddr u p1.addr := by
        intro hu
        rcases hpr.2 _ hu with ⟨q, hq, hqa⟩ | ⟨g, hg, hga⟩ | ⟨q, hq, _⟩ | h4
        · apply hfresh
          apply List.mem_append_left
          rw [← hlk]
          unfold curLink at hq
          rw [htcur] at hq
          exact List.mem_map.mpr ⟨q, hq, hqa⟩
        · apply hfresh
          apply List.mem_append_right
          rw [htcur] at hg
          obtain ⟨g2, hg2, hg2a⟩ := eraseFrames_mem cr rest h1b p1.addr ⟨g, hg, hga⟩
          rw [inFrame_iff] at hg2a
          exact List.mem_flatMap.mpr ⟨g2, hg2, hg2a⟩
        · rw [htchild] at hq; simp at hq
        · rw [i2] at h4; omega
      refine ⟨Or.inr ⟨?_, hno⟩, ?_⟩
      · have := hpr.1
        rw [i2] at this
        omega
      · intro e _ f hf hfa2
        exact hno (Or.inl ⟨f, hf, Or.inl hfa2⟩)

theorem isort_perm (cmp : FTSENT → FTSENT → Int) (l : List FTSENT) : (isort cmp l).Perm l := by
  induction l with
  | nil => exact List.Perm.refl _
  | cons a t ih =>
    show (List.orderedInsert (fun a b => cmp a b ≤ 0) a (isort cmp t)).Perm (a :: t)
    exact (List.perm_orderedInsert _ a (isort cmp t)).trans (List.Perm.cons a ih)

theorem frames_cons_of_length_ne (l : List Frame) (d : Frame) (h : l.length ≠ 0) :
    l = ⟨(l.headD d).ent, (l.headD d).link⟩ :: l.tail := by
  cases l with
  | nil => simp at h
  | cons a t => rfl

set_option maxRecDepth 100000 in
/-- C6 (counterexample): with `FTS_XDEV`, when the cursor `sub` has kind pre-dir and is on device
2 while the pinned device is 1, and the caller has set `FTS_AGAIN` on it, `fts_read` returns
`sub` with kind pre-dir again, not post-dir. And after a skip of `sub`, when the caller sets
`FTS_AGAIN` on the post-dir return, `sub` is entered and its descendants `a` and `z` are
returned. -/
theorem fence_misses_again :
    (runI sysXdev [none, some FTS_AGAIN, none, none, none] xdevStart).map
        (fun y => (y.1.fts_info, cstr y.1.fts_name, y.1.fts_dev, y.2.fts_dev,
          y.2.fts_options.xdev)) =
      [(FTS_D, "D".toList, 1, 1, true), (FTS_D, "sub".toList, 2, 1, true),
        (FTS_D, "sub".toList, 2, 1, true), (FTS_DP, "sub".toList, 2, 1, true),
        (FTS_DP, "D".toList, 1, 1, true)] ∧
    (runI sysNested [none, none, some FTS_SKIP, some FTS_AGAIN, none, none, none, none, none]
        nestedStart).map (fun y => (y.1.fts_info, cstr y.1.fts_name)) =
      [(FTS_D, "D".toList), (FTS_F, "m".toList), (FTS_D, "sub".toList),
        (FTS_DP, "sub".toList), (FTS_D, "sub".toList), (FTS_F, "a".toList),
        (FTS_F, "z".toList), (FTS_DP, "sub".toList), (FTS_DP, "D".toList)] := by
  decide

/-- C6 (amended): when `fts_read` is called while the cursor has kind pre-dir, the instruction
on it is not `FTS_AGAIN`, and either the instruction is `FTS_SKIP` or `FTS_XDEV` is set and the
cursor is on another device than the pinned one (live entries having distinct addresses), the
call returns that same entry with kind post-dir and changes nothing else in the walk state but
emptying the pending child list: no directory is enumerated. And unless the caller then sets
`FTS_AGAIN` on the entry, no later call of `fts_read`, whatever instructions the caller sets,
returns the entry or an entry that has it on its parent chain. -/
theorem skip_fence (sys : Sys) (hq : ∀ cmp l, (sys.qsort cmp l).Perm l) (sp : FTS)
    (p : FTSENT) (lk : List FTSENT) (rest : List Frame)
    (hcur : sp.fts_cur = ⟨p, lk⟩ :: rest) (hstop : sp.fts_options.stop = false)
    (hD : p.fts_info = FTS_D) (hA : p.fts_instr ≠ FTS_AGAIN)
    (hc : p.fts_instr = FTS_SKIP ∨ (sp.fts_options.xdev = true ∧ p.fts_dev ≠ sp.fts_dev))
    (hlt : p.addr < sp.nalloc)
    (hfresh : p.addr ∉ lk.map (fun q => q.addr) ++ rest.flatMap frameAddrs) :
    fts_read sys sp =
      Outcome.ret (some (fenced p))
        { sp with fts_child := [], fts_cur := ⟨fenced p, lk⟩ :: rest } ∧
    ∀ t, InstrOnly { sp with fts_child := [], fts_cur := ⟨fenced p, lk⟩ :: rest } t →
      (∀ f ∈ t.fts_cur.head?, f.ent.fts_instr ≠ FTS_AGAIN) →
      ∀ v u, fts_read sys t = Outcome.ret v u →
        NotUnder p.addr v u ∧ ∀ v1 w, Calls sys u v1 w → NotUnder p.addr v1 w := by
  refine ⟨?_, ?_⟩
  · unfold fts_read
    rw [hcur]
    dsimp only
    have hs : ¬ sp.fts_options.stop = true := by rw [hstop]; simp
    have hnf : ¬ (p.fts_instr = FTS_FOLLOW ∧ (p.fts_info = FTS_SL ∨ p.fts_info = FTS_SLNONE)) := by
      rintro ⟨_, h | h⟩
      · rw [hD] at h; cases h
      · rw [hD] at h; cases h
    rw [if_neg hs, if_neg hA, if_neg hnf, if_pos hD]
    unfold readDir
    rw [if_pos hc]
    rfl
  · intro t hi hag v u hr
    have h1 := leave_entry sys { sp with fts_child := [], fts_cur := ⟨fenced p, lk⟩ :: rest } t
      (fenced p) lk rest v u rfl rfl hstop
      ⟨by unfold fenced; simp, by unfold fenced; simp, by unfold fenced; simp⟩ hlt hfresh hi hag hr
    refine ⟨h1.2, ?_⟩
    intro v1 w hcalls
    exact (gone_calls sys hq (fenced p).addr u h1.1 v1 w hcalls).2

set_option maxRecDepth 100000 in
/-- Witness of C6: with skip set on `sub` (holding `a` and `z`) inside `D` next to the file `m`,
the walk is (pre-dir, D), (regular, m), (pre-dir, sub), (post-dir, sub), (post-dir, D), and the
call on the skipped cursor returns it with kind post-dir and an empty pending child list. -/
theorem skip_fence_witness :
    (runI sysNested [none, none, some FTS_SKIP, none, none, none, none] nestedStart).map
        (fun y => (y.1.fts_info, cstr y.1.fts_name)) =
      [(FTS_D, "D".toList), (FTS_F, "m".toList), (FTS_D, "sub".toList),
        (FTS_DP, "sub".toList), (FTS_DP, "D".toList)] ∧
    fts_read sysNested skipState =
      Outcome.ret (some (fenced (skipState.fts_cur.headD ⟨ent0, []⟩).ent))
        { skipState with
          fts_child := []
          fts_cur := ⟨fenced (skipState.fts_cur.headD ⟨ent0, []⟩).ent,
            (skipState.fts_cur.headD ⟨ent0, []⟩).link⟩ :: skipState.fts_cur.tail } :=
  ⟨by decide,
   (skip_fence sysNested isort_perm skipState
      (skipState.fts_cur.headD ⟨ent0, []⟩).ent (skipState.fts_cur.headD ⟨ent0, []⟩).link
      skipState.fts_cur.tail (frames_cons_of_length_ne _ _ (by decide)) (by decide) (by decide)
      (by decide) (Or.inl (by decide)) (by decide) (by decide)).1⟩

set_option maxRecDepth 100000 in
/-- C1 (counterexample): for the arguments `D` (a directory that cannot be opened) and `E` (a
regular file), calls of `fts_read` alone return (pre-dir, D), (unreadable-dir, D) and then the
later sibling (regular, E), both roots at level 0: `D` is never returned with kind post-dir,
and its sibling `E`, which has not `D` on its parent chain, is returned after the pre-order
return of `D`. -/
theorem unreadable_dir_then_sibling :
    (run sysUnread 6 unreadStart2).map
        (fun y => (y.1.fts_info, cstr y.1.fts_name, y.1.fts_level, y.1.addr)) =
      [(FTS_D, "D".toList, 0, 1), (FTS_DNR, "D".toList, 0, 1), (FTS_F, "E".toList, 0, 2)] := by
  decide

theorem openRoots_addrs (sys : Sys) (parent : FTSENT) (argv : List Bytes) :
    ∀ (sp : FTS) (root : List FTSENT) (n : Nat) (r : List FTSENT × Nat) (sp1 : FTS),
      openRoots sys parent argv sp root n = (some r, sp1) →
      (r.1.map (fun c => c.addr)).Perm
          (root.map (fun c => c.addr) ++ List.range' sp.nalloc argv.length) ∧
        (sp.fts_compar = none →
          r.1.map (fun c => c.addr) =
            root.map (fun c => c.addr) ++ List.range' sp.nalloc argv.length) := by
  induction argv with
  | nil =>
    intro sp root n r sp1 h
    simp only [openRoots, Prod.mk.injEq, Option.some.injEq] at h
    obtain ⟨h1, _⟩ := h
    subst h1
    simp
  | cons a as ih =>
    intro sp root n r sp1 h
    obtain ⟨f1, _, _, _, f5, f6⟩ := openRoot_facts sys parent sp a
    unfold openRoots at h
    by_cases h0 : strlen a = 0
    · rw [if_pos h0] at h
      simp at h
    · rw [if_neg h0] at h
      by_cases hc : sp.fts_compar.isSome = true
      · rw [if_pos hc] at h
        obtain ⟨i1, _⟩ := ih _ _ _ r sp1 h
        refine ⟨?_, ?_⟩
        · refine i1.trans ?_
          rw [f5, List.map_cons, f1, List.length_cons, List.range'_succ]
          exact (List.perm_middle).symm
        · intro hn; rw [hn] at hc; simp at hc
      · rw [if_neg hc] at h
        obtain ⟨i1, i2⟩ := ih _ _ _ r sp1 h
        have e : (root ++ [(openRoot sys parent sp a).1]).map (fun c => c.addr) ++
            List.range' (openRoot sys parent sp a).2.nalloc as.length =
            root.map (fun c => c.addr) ++ List.range' sp.nalloc (a :: as).length := by
          rw [f5, List.map_append, List.map_singleton, f1, List.length_cons, List.range'_succ]
          simp
        refine ⟨e ▸ i1, ?_⟩
        intro hn
        rw [← e]
        exact i2 (f6.2.1.trans hn)

theorem eraseInstr_level (e p : FTSENT) (h : eraseInstr e = eraseInstr p) :
    e.fts_level = p.fts_level := by
  have := congrArg (fun x : FTSENT => x.fts_level) h
  exact this

theorem erase_flat (r2 : List Frame) :
    ∀ r : List Frame, r2.map eraseFrame = r.map eraseFrame →
      r2.flatMap frameAddrs = r.flatMap frameAddrs := by
  induction r2 with
  | nil =>
    intro r h
    cases r with
    | nil => rfl
    | cons x t => simp at h
  | cons y t2 ih =>
    intro r h
    cases r with
    | nil => simp at h
    | cons x t =>
      simp only [List.map_cons, List.cons.injEq] at h
      simp only [List.flatMap_cons]
      rw [eraseFrame_addrs y x h.1, ih t h.2]

theorem erase_split (m : List Frame) :
    ∀ (l b : List Frame), l.map eraseFrame = (m ++ b).map eraseFrame →
      ∃ m2 b2, l = m2 ++ b2 ∧ m2.map eraseFrame = m.map eraseFrame ∧
        b2.map eraseFrame = b.map eraseFrame := by
  induction m with
  | nil => intro l b h; exact ⟨[], l, rfl, rfl, h⟩
  | cons x m ih =>
    intro l b h
    cases l with
    | nil => simp at h
    | cons y l2 =>
      simp only [List.cons_append, List.map_cons, List.cons.injEq] at h
      obtain ⟨m2, b2, h1, h2, h3⟩ := ih l2 b h.2
      exact ⟨y :: m2, b2, by rw [h1]; rfl, by simp [h.1, h2], h3⟩

theorem instrOnly_parts {s t : FTS} (h : InstrOnly s t) :
    t.fts_cur.map eraseFrame = s.fts_cur.map eraseFrame ∧
    (s.fts_child = [] → t.fts_child = []) ∧ t.nalloc = s.nalloc ∧
    t.fts_options = s.fts_options := by
  obtain ⟨cur, child, ht, h1, h2⟩ := h
  subst ht
  refine ⟨h1, ?_, rfl, rfl⟩
  intro hc
  rw [hc] at h2
  cases child with
  | nil => rfl
  | cons c cs => simp at h2

theorem retAddr_false (a : Nat) (c : Call) (h : ∀ e, c.val = some e → e.addr ≠ a) :
    retAddr a c = false := by
  unfold retAddr
  cases hv : c.val with
  | none => rfl
  | some e =>
    simp only [beq_eq_false_iff_ne, ne_eq]
    exact h e hv

theorem filter_nil_of (a : Nat) (l : List Call) (h : ∀ c ∈ l, retAddr a c = false) :
    l.filter (retAddr a) = [] := by
  rw [List.filter_eq_nil_iff]
  intro c hc
  rw [h c hc]
  simp

theorem fence_step (sys : Sys) (t : FTS) (p : FTSENT) (lk : List FTSENT) (rest : List Frame)
    (hcur : t.fts_cur = ⟨p, lk⟩ :: rest) (hstop : t.fts_options.stop = false)
    (hD : p.fts_info = FTS_D) (hA : p.fts_instr ≠ FTS_AGAIN)
    (hc : p.fts_instr = FTS_SKIP ∨ (t.fts_options.xdev = true ∧ p.fts_dev ≠ t.fts_dev)) :
    fts_read sys t =
      Outcome.ret (some { p with fts_instr := FTS_NOINSTR, fts_info := FTS_DP })
        { t with fts_child := [],
                 fts_cur := ⟨{ p with fts_instr := FTS_NOINSTR, fts_info := FTS_DP }, lk⟩ ::
                   rest } := by
  unfold fts_read
  rw [hcur]
  dsimp only
  have hs : ¬ t.fts_options.stop = true := by rw [hstop]; simp
  have hnf : ¬ (p.fts_instr = FTS_FOLLOW ∧ (p.fts_info = FTS_SL ∨ p.fts_info = FTS_SLNONE)) := by
    rintro ⟨_, h | h⟩
    · rw [hD] at h; cases h
    · rw [hD] at h; cases h
  rw [if_neg hs, if_neg hA, if_neg hnf, if_pos hD]
  unfold readDir
  rw [if_pos hc]

set_option maxRecDepth 100000 in
/-- C2 (counterexample): for the single argument `D`, a directory that cannot be opened, the
calls of `fts_read` return (pre-dir, D), then (unreadable-dir, D), then null with the stop flag
never set: the entry returned with kind pre-dir is never returned with kind post-dir. -/
theorem unreadable_dir_unpaired :
    (callsOf sysUnread 5 unreadStart1).map
        (fun c => (c.val.map (fun e => (e.fts_info, cstr e.fts_name, e.addr)),
          c.post.fts_options.stop)) =
      [(some (FTS_D, "D".toList, 1), false), (some (FTS_DNR, "D".toList, 1), false),
        (none, false)] := by
  decide

theorem crashed_eq {α : Type} (o : Outcome α) (h : crashed o = true) : o = Outcome.crash := by
  cases o with
  | crash => rfl
  | ret v s => simp [crashed] at h

set_option maxRecDepth 100000 in
/-- C12 (the code at the failing input): the walk of scenario 1 ends with a null return of
`fts_read` that leaves the cursor null and the stop flag not set; `fts_children` called with
the valid argument 0 on that state reads `p->fts_info` through the null cursor instead of
returning null. -/
theorem children_after_end_derefs_null :
    (callsOf sysFlat 9 flatStart).map
        (fun c => c.val.map (fun e => (e.fts_info, cstr e.fts_name))) =
      [some (FTS_D, "D".toList), some (FTS_F, "a".toList), some (FTS_F, "b".toList),
        some (FTS_F, "c".toList), some (FTS_DP, "D".toList), none] ∧
    flatEnd.fts_cur.length = 0 ∧ flatEnd.fts_options.stop = false ∧
    fts_children sysFlat flatEnd 0 = Outcome.crash :=
  ⟨by decide, by decide, by decide, crashed_eq _ (by decide)⟩

set_option maxRecDepth 100000 in
/-- C13 (the code at the failing input): in the logical walk of `D`, whose directory
enumerates `.`, `..` and `loop`, with the path buffer memory holding `x`, the one entry that
`fts_build` returns is named `xxxxxx`, not `loop`: the bytes of the path buffer after the
separator have been copied over the name. In the walk of scenario 2, which changes directory,
the names `m` and `sub` are kept. -/
theorem build_overwrites_child_name :
    (sysLoopX.opendir 0 "D".toList).toOption.map (fun r => r.2.map (fun d => cstr d.d_name)) =
      some [".".toList, "..".toList, "loop".toList] ∧
    (builtChildren sysLoopX loopAtDX).map (fun c => cstr c.fts_name) = ["xxxxxx".toList] ∧
    (builtChildren sysNested nestedAtD).map (fun c => cstr c.fts_name) =
      ["m".toList, "sub".toList] := by
  decide

set_option maxRecDepth 100000 in
/-- C15 (the code at the failing input): every entry that `fts_build` allocates for a directory
entry gets the name length `strlen (d_name) + 1` and the path length `len + strlen (d_name) + 2`,
one more than the number of bytes of the name and of the full path. In scenario 2 the
children `m` and `sub` of `D` get name lengths 2 and 4 and path lengths 4 and 6, while `D/m`
has 3 bytes and `D/sub` has 5. -/
theorem child_lengths_one_too_large :
    (∀ (sys : Sys) (cur : FTSENT) (len : Nat) (level : Int) (st : BuildLoop) (dp : Dirent),
      (buildAlloc sys cur len level st dp).1.fts_namelen = strlen dp.d_name + 1 ∧
      (buildAlloc sys cur len level st dp).1.fts_pathlen = len + (strlen dp.d_name + 1) + 1) ∧
    (builtChildren sysNested nestedAtD).map
        (fun c => (cstr c.fts_name, c.fts_namelen, c.fts_pathlen)) =
      [("m".toList, 2, 4), ("sub".toList, 4, 6)] :=
  ⟨fun _ _ _ _ _ _ => ⟨rfl, rfl⟩, by decide⟩

set_option maxRecDepth 100000 in
/-- C14 (counterexample): in the default walk the stat budget is -1, and the entries `a`, `b`,
`c` of `D`, whose type hint is present and is neither `DT_DIR` nor `DT_UNKNOWN`, are stat
probed all the same: they get kind regular-file, not unknown-nonstat. -/
theorem hint_ignored_when_stat_all :
    (hintAtD.fts_cur.head?.map (fun f => buildNlinks hintAtD f.ent BType.BREAD)) = some (-1) ∧
    sysHint.cfg.have_d_type = true ∧
    (builtChildren sysHint hintAtD).map (fun c => (cstr c.fts_name, c.fts_info)) =
      [("a".toList, FTS_F), ("b".toList, FTS_F), ("c".toList, FTS_F)] := by
  decide

/-- C14 (amended): for every directory entry that the loop of `fts_build` processes (it is not
skipped as `.` or `..`) when the descent did not fail, and every value of the stat budget
`nlinks`: if `nlinks` is 0, or `nlinks` is positive and the type hint is present and is neither
`DT_DIR` nor `DT_UNKNOWN`, the child gets kind unknown-nonstat, the budget is unchanged and
the stat probe is not used; in every other case the kind of the child is the result of the
stat probe, and `nlinks` is decremented when it is positive and that result is pre-dir,
cycle-dir or dot-self. -/
theorem stat_elision (sys : Sys) (cur : FTSENT) (chain : List FTSENT) (len cp : Nat)
    (level : Int) (st : BuildLoop) (dp : Dirent)
    (hdot : (!st.sp.fts_options.seedot && ISDOT dp.d_name) = false) :
    StatElision sys cur chain len cp level st dp := by
  have h0 : ¬ ((0 : Nat) ≠ 0) := by simp
  refine ⟨?_, ?_⟩
  · intro he
    have he2 : st.nlinks = 0 ∨ (sys.cfg.have_d_type = true ∧ st.nlinks > 0 ∧
        dp.d_type ≠ DType.DT_DIR ∧ dp.d_type ≠ DType.DT_UNKNOWN) := he
    refine ⟨?_, ?_, ?_⟩
    · unfold buildEntry
      rw [hdot]
      simp only [Bool.false_eq_true, if_false]
      rw [if_neg h0, if_pos he2]
      exact ⟨_, rfl, rfl⟩
    · unfold buildEntry
      rw [hdot]
      simp only [Bool.false_eq_true, if_false]
      rw [if_neg h0, if_pos he2]
    · intro f g
      unfold buildEntry
      rw [hdot]
      simp only [Bool.false_eq_true, if_false]
      rw [if_neg h0, if_neg h0, if_pos he2]
      rw [if_pos (show st.nlinks = 0 ∨ (({ sys with stat := f, lstat := g } : Sys).cfg.have_d_type
        = true ∧ st.nlinks > 0 ∧ dp.d_type ≠ DType.DT_DIR ∧ dp.d_type ≠ DType.DT_UNKNOWN)
        from he2)]
      rfl
  · intro he
    have he2 : ¬ (st.nlinks = 0 ∨ (sys.cfg.have_d_type = true ∧ st.nlinks > 0 ∧
        dp.d_type ≠ DType.DT_DIR ∧ dp.d_type ≠ DType.DT_UNKNOWN)) := he
    refine ⟨if (buildAlloc sys cur len level st dp).2.1.fts_options.nochdir then
        { (buildAlloc sys cur len level st dp).1 with
          fts_accpath := AccPath.path
          fts_name := memWrite (buildAlloc sys cur len level st dp).1.fts_name 0
            ((buildAlloc sys cur len level st dp).2.1.fts_path.drop cp)
            ((buildAlloc sys cur len level st dp).1.fts_namelen + 1) }
      else { (buildAlloc sys cur len level st dp).1 with
        fts_accpath := AccPath.name (buildAlloc sys cur len level st dp).1.addr }, ?_, ?_⟩
    · unfold buildEntry
      rw [hdot]
      simp only [Bool.false_eq_true, if_false]
      rw [if_neg h0, if_neg he2]
    · unfold buildEntry
      rw [hdot]
      simp only [Bool.false_eq_true, if_false]
      rw [if_neg h0, if_neg he2]

set_option maxRecDepth 100000 in
/-- Witness of C14: for the hinted directory entry `a` of `D`, the iteration with stat budget
-1 probes it (kind regular-file, budget still -1), the iterations with budget 3 and 0 give
kind unknown-nonstat and leave the budget unchanged. -/
theorem stat_elision_witness :
    (!(hintSt (-1)).sp.fts_options.seedot && ISDOT hintDirent.d_name) = false ∧
    StatElision sysHint hintCur [hintCur] 1 2 1 (hintSt (-1)) hintDirent ∧
    ((buildEntry sysHint hintCur [hintCur] 0 1 2 1 (hintSt (-1)) hintDirent).head.map
        (fun c => c.fts_info),
      (buildEntry sysHint hintCur [hintCur] 0 1 2 1 (hintSt (-1)) hintDirent).nlinks) =
      ([FTS_F], -1) ∧
    ((buildEntry sysHint hintCur [hintCur] 0 1 2 1 (hintSt 3) hintDirent).head.map
        (fun c => c.fts_info),
      (buildEntry sysHint hintCur [hintCur] 0 1 2 1 (hintSt 3) hintDirent).nlinks) =
      ([FTS_NSOK], 3) ∧
    ((buildEntry sysHint hintCur [hintCur] 0 1 2 1 (hintSt 0) hintDirent).head.map
        (fun c => c.fts_info),
      (buildEntry sysHint hintCur [hintCur] 0 1 2 1 (hintSt 0) hintDirent).nlinks) =
      ([FTS_NSOK], 0) :=
  ⟨by decide, stat_elision sysHint hintCur [hintCur] 1 2 1 (hintSt (-1)) hintDirent (by decide),
    by decide, by decide, by decide⟩

theorem setSb_cycle (sp : FTS) (p : FTSENT) (sb : Stat) :
    (setSb sp p sb).fts_cycle = p.fts_cycle ∧ (setSb sp p sb).fts_info = p.fts_info := by
  unfold setSb; split <;> exact ⟨rfl, rfl⟩

theorem fts_stat_mode_cyc (anc : List FTSENT) (p : FTSENT) (sb : Stat)
    (h : (fts_stat_mode anc p sb).1 = FTS_DC) : (fts_stat_mode anc p sb).2.fts_cycle ≠ none := by
  unfold fts_stat_mode at h ⊢
  dsimp only at h ⊢
  by_cases h1 : sb.st_mode = Mode.dir
  · rw [if_pos h1] at h ⊢
    by_cases h2 : ISDOT p.fts_name = true
    · rw [if_pos h2] at h; cases h
    · rw [if_neg h2] at h ⊢
      cases hc : cycleScan sb.st_ino sb.st_dev anc with
      | none => rw [hc] at h; cases h
      | some t => simp
  · rw [if_neg h1] at h
    by_cases h2 : sb.st_mode = Mode.lnk
    · rw [if_pos h2] at h; cases h
    · rw [if_neg h2] at h
      by_cases h3 : sb.st_mode = Mode.reg
      · rw [if_pos h3] at h; cases h
      · rw [if_neg h3] at h; cases h

theorem fts_stat_cyc (sys : Sys) (sp : FTS) (anc : List FTSENT) (dp : Option Dirent)
    (p : FTSENT) (follow : Bool) (h : (fts_stat sys sp anc dp p follow).1 = FTS_DC) :
    (fts_stat sys sp anc dp p follow).2.1.fts_cycle ≠ none := by
  unfold fts_stat at h ⊢
  split at h
  · cases h
  · rename_i hw
    rw [if_neg hw]
    split at h
    · rename_i hl
      rw [if_pos hl]
      split at h
      · split at h
        · cases h
        · cases h
      · exact fts_stat_mode_cyc _ _ _ h
    · rename_i hl
      rw [if_neg hl]
      split at h
      · cases h
      · exact fts_stat_mode_cyc _ _ _ h

theorem cycOk_stat (sys : Sys) (sp : FTS) (anc : List FTSENT) (dp : Option Dirent)
    (p : FTSENT) (follow : Bool) :
    CycOk { (fts_stat sys sp anc dp p follow).2.1 with
      fts_info := (fts_stat sys sp anc dp p follow).1 } :=
  fun h => fts_stat_cyc sys sp anc dp p follow h

theorem followStat_cyc (sys : Sys) (sp : FTS) (anc : List FTSENT) (p : FTSENT) :
    CycOk (followStat sys sp anc p).1 := by
  have h := cycOk_stat sys sp anc none p true
  unfold followStat
  dsimp only
  split
  · split
    · exact h
    · intro h2; cases h2
  · exact h

theorem fts_load_cyc (sp : FTS) (p : FTSENT) (h : CycOk p) : CycOk (fts_load sp p).1 := by
  unfold fts_load
  dsimp only
  split
  · split <;> exact h
  · exact h

theorem cycOk_snoc (l : List FTSENT) (p : FTSENT) (h : ∀ c ∈ l, CycOk c) (hp : CycOk p) :
    ∀ c ∈ l ++ [p], CycOk c := by
  intro c hc
  rcases List.mem_append.mp hc with hc | hc
  · exact h c hc
  · simp only [List.mem_singleton] at hc
    rw [hc]; exact hp

theorem buildEntry_cyc (sys : Sys) (cur : FTSENT) (chain : List FTSENT) (cderrno len cp : Nat)
    (level : Int) (st : BuildLoop) (dp : Dirent) (h : ∀ c ∈ st.head, CycOk c) :
    ∀ c ∈ (buildEntry sys cur chain cderrno len cp level st dp).head, CycOk c := by
  unfold buildEntry
  by_cases hs : (!st.sp.fts_options.seedot && ISDOT dp.d_name) = true
  · rw [if_pos hs]; exact h
  · rw [if_neg hs]
    dsimp only
    by_cases hc : cderrno ≠ 0
    · rw [if_pos hc]
      refine cycOk_snoc _ _ h ?_
      split
      · intro h2; cases h2
      · intro h2; cases h2
    · rw [if_neg hc]
      split
      · refine cycOk_snoc _ _ h ?_
        intro h2; cases h2
      · exact cycOk_snoc _ _ h (cycOk_stat _ _ _ _ _ _)

theorem build_fold_cyc (sys : Sys) (cur : FTSENT) (chain : List FTSENT) (cderrno len cp : Nat)
    (level : Int) (ents : List Dirent) :
    ∀ st : BuildLoop, (∀ c ∈ st.head, CycOk c) →
      ∀ c ∈ (ents.foldl (buildEntry sys cur chain cderrno len cp level) st).head, CycOk c := by
  induction ents with
  | nil => intro st h; exact h
  | cons d ds ih =>
    intro st h
    exact ih _ (buildEntry_cyc sys cur chain cderrno len cp level st d h)

theorem buildDescend_cyc (sys : Sys) (sp : FTS) (cur : FTSENT) (type : BType) (nlinks : Int)
    (dirp : Nat) (h : CycOk cur) : CycOk (buildDescend sys sp cur type nlinks dirp).2.2.1 := by
  unfold buildDescend
  split
  · split
    · split <;> exact h
    · exact h
  · exact h

theorem fts_sort_mem (sys : Sys) (hq : ∀ cmp l, (sys.qsort cmp l).Perm l) (sp : FTS)
    (head : List FTSENT) (nitems : Nat) (c : FTSENT)
    (hc : c ∈ (fts_sort sys sp head nitems).1) : c ∈ head := by
  unfold fts_sort at hc
  dsimp only at hc
  split at hc
  · exact List.mem_of_mem_take ((hq _ _).mem_iff.mp hc)
  · exact hc

theorem buildFinish_cyc (sys : Sys) (hq : ∀ cmp l, (sys.qsort cmp l).Perm l) (type : BType)
    (cur1 : FTSENT) (descend : Bool) (cp : Nat) (st : BuildLoop)
    (h : ∀ c ∈ st.head, CycOk c) :
    (CycOk cur1 → CycOk (buildFinish sys type cur1 descend cp st).2.1) ∧
    ∀ c ∈ (buildFinish sys type cur1 descend cp st).1, CycOk c := by
  unfold buildFinish
  dsimp only
  split
  · exact ⟨fun _ h2 => (by cases h2), fun c hc => (by simp at hc)⟩
  · split
    · refine ⟨fun h1 => ?_, fun c hc => by simp at hc⟩
      split
      · intro h2; cases h2
      · exact h1
    · split
      · exact ⟨fun h1 => h1, fun c hc => h c (fts_sort_mem sys hq _ _ _ c hc)⟩
      · exact ⟨fun h1 => h1, h⟩

theorem fts_build_core_cyc (sys : Sys) (hq : ∀ cmp l, (sys.qsort cmp l).Perm l) (sp : FTS)
    (cur : FTSENT) (anc : List FTSENT) (type : BType) :
    (CycOk cur → CycOk (fts_build_core sys sp cur anc type).2.1) ∧
    ∀ c ∈ (fts_build_core sys sp cur anc type).1, CycOk c := by
  unfold fts_build_core
  split
  · split
    · exact ⟨fun _ h2 => (by cases h2), fun c hc => (by simp at hc)⟩
    · exact ⟨fun h1 => h1, fun c hc => by simp at hc⟩
  · rename_i dirp ents _
    dsimp only
    have hf := build_fold_cyc sys
      (buildDescend sys sp cur type (buildNlinks sp cur type) dirp).2.2.1
      ((buildDescend sys sp cur type (buildNlinks sp cur type) dirp).2.2.1 :: anc)
      (buildDescend sys sp cur type (buildNlinks sp cur type) dirp).1
      (NAPPEND (buildDescend sys sp cur type (buildNlinks sp cur type) dirp).2.2.2
        (buildDescend sys sp cur type (buildNlinks sp cur type) dirp).2.2.1)
      (NAPPEND (buildDescend sys sp cur type (buildNlinks sp cur type) dirp).2.2.2
        (buildDescend sys sp cur type (buildNlinks sp cur type) dirp).2.2.1 + 1)
      ((buildDescend sys sp cur type (buildNlinks sp cur type) dirp).2.2.1.fts_level + 1)
      ents
      { sp := buildStart (buildDescend sys sp cur type (buildNlinks sp cur type) dirp).2.2.2
          (buildDescend sys sp cur type (buildNlinks sp cur type) dirp).2.2.1
        nlinks := buildNlinks sp cur type
        maxlen := ((buildDescend sys sp cur type (buildNlinks sp cur type) dirp).2.2.2.fts_pathlen
          : Int) - (buildDescend sys sp cur type (buildNlinks sp cur type) dirp).2.2.1.fts_pathlen
          - 1
        head := []
        nitems := 0 }
      (fun c hc => by simp at hc)
    obtain ⟨g1, g2⟩ := buildFinish_cyc sys hq type
      (buildDescend sys sp cur type (buildNlinks sp cur type) dirp).2.2.1
      (buildDescend sys sp cur type (buildNlinks sp cur type) dirp).2.1
      (NAPPEND (buildDescend sys sp cur type (buildNlinks sp cur type) dirp).2.2.2
        (buildDescend sys sp cur type (buildNlinks sp cur type) dirp).2.2.1 + 1) _ hf
    exact ⟨fun h1 => g1 (buildDescend_cyc sys sp cur type _ dirp h1), g2⟩

theorem above_cons (f : Frame) (rest : List Frame) (hf : FrameCyc f) (ha : Above rest) :
    Above (f :: rest) := by
  cases rest with
  | nil => exact absurd ha (by simp [Above])
  | cons g r => exact ⟨hf, ha⟩

theorem above_up (par : Frame) (rest1 : List Frame) (ha : Above (par :: rest1))
    (hl : par.ent.fts_level ≠ FTS_ROOTPARENTLEVEL) : FrameCyc par ∧ Above rest1 := by
  cases rest1 with
  | nil => exact absurd ha hl
  | cons g r => exact ha

theorem cycInv_of (u : FTS) (f : Frame) (rest : List Frame) (hcur : u.fts_cur = f :: rest)
    (hf : FrameCyc f) (ha : Above rest) (hch : ∀ q ∈ u.fts_child, CycOk q) : CycInv u :=
  ⟨Or.inr ⟨f, rest, hcur, hf, ha⟩, hch⟩

theorem cycInv_same (s u : FTS) (hcur : u.fts_cur = s.fts_cur) (hch : u.fts_child = s.fts_child)
    (h : CycInv s) : CycInv u := by
  unfold CycInv
  rw [hcur, hch]
  exact h

theorem readUp_cyc (sys : Sys) (sp : FTS) (tmp : FTSENT) (rest : List Frame)
    (v : Option FTSENT) (u : FTS) (hinv : CycInv sp) (ha : Above rest)
    (h : readUp sys sp tmp rest = Outcome.ret v u) :
    CycInv u ∧ ∀ e, v = some e → CycOk e := by
  unfold readUp at h
  cases rest with
  | nil => simp at h
  | cons par rest1 =>
    dsimp only at h
    by_cases hpar : tmp.fts_parent ≠ some par.ent.addr
    · rw [if_pos hpar] at h; cases h
    · rw [if_neg hpar] at h
      by_cases hl : par.ent.fts_level = FTS_ROOTPARENTLEVEL
      · rw [if_pos hl] at h
        cases h
        exact ⟨⟨Or.inl rfl, hinv.2⟩, fun e he => by cases he⟩
      · rw [if_neg hl] at h
        obtain ⟨hpf, har⟩ := above_up par rest1 ha hl
        have hp1 : CycOk { par.ent with
            fts_info := if par.ent.fts_errno ≠ 0 then FTS_ERR else FTS_DP } := by
          intro h2
          dsimp only at h2
          split at h2 <;> cases h2
        have hgen : ∀ r : Bool × FTS,
            (r.2.fts_child = sp.fts_child ∧ r.2.fts_cur = sp.fts_cur) →
            (if r.1 = true then
                Outcome.ret none { r.2 with fts_options := { r.2.fts_options with stop := true } }
              else
                Outcome.ret (some { par.ent with
                    fts_info := if par.ent.fts_errno ≠ 0 then FTS_ERR else FTS_DP })
                  { r.2 with fts_cur := ⟨{ par.ent with
                    fts_info := if par.ent.fts_errno ≠ 0 then FTS_ERR else FTS_DP },
                      par.link⟩ :: rest1 }) = Outcome.ret v u →
            CycInv u ∧ ∀ e, v = some e → CycOk e := by
          intro r hr h2
          by_cases h1 : r.1 = true
          · rw [if_pos h1] at h2
            cases h2
            exact ⟨cycInv_same sp _ hr.2 hr.1 hinv, fun e he => by cases he⟩
          · rw [if_neg h1] at h2
            cases h2
            refine ⟨cycInv_of _ _ rest1 rfl ⟨hp1, hpf.2⟩ har ?_, ?_⟩
            · intro q hq2
              exact hinv.2 q (hr.1 ▸ hq2)
            · intro e he
              cases he
              exact hp1
        refine hgen _ ?_ h
        split
        · have := FCHDIR_frame sys
            { sp with fts_path := memWrite sp.fts_path par.ent.fts_pathlen [NUL] 1 } sp.fts_rfd
          exact ⟨this.2.2.2.1, this.2.2.1⟩
        · split
          · have := FCHDIR_frame sys
              { sp with fts_path := memWrite sp.fts_path par.ent.fts_pathlen [NUL] 1 }
              par.ent.fts_symfd
            exact ⟨this.2.2.2.1, this.2.2.1⟩
          · split
            · have := CHDIR_frame sys
                { sp with fts_path := memWrite sp.fts_path par.ent.fts_pathlen [NUL] 1 } ['.', '.']
              exact ⟨this.2.2.2.1, this.2.2.1⟩
            · exact ⟨rfl, rfl⟩

theorem readName_cyc (sp : FTS) (p : FTSENT) (lk : List FTSENT) (rest : List Frame)
    (v : Option FTSENT) (u : FTS) (hch : ∀ q ∈ sp.fts_child, CycOk q)
    (hf : FrameCyc ⟨p, lk⟩) (ha : Above rest)
    (h : readName sp p lk rest = Outcome.ret v u) :
    CycInv u ∧ ∀ e, v = some e → CycOk e := by
  rcases readName_cases sp p lk rest with h2 | ⟨path, h2⟩
  · rw [h2] at h; cases h
  · rw [h2] at h
    cases h
    exact ⟨cycInv_of _ _ rest rfl hf ha hch, fun e he => by cases he; exact hf.1⟩

theorem readNext_cyc (sys : Sys) (rest : List Frame) (ha : Above rest) :
    ∀ (lk : List FTSENT) (sp : FTS) (tmp : FTSENT) (v : Option FTSENT) (u : FTS),
      CycInv sp → (∀ q ∈ lk, CycOk q) → readNext sys rest sp tmp lk = Outcome.ret v u →
      CycInv u ∧ ∀ e, v = some e → CycOk e := by
  intro lk
  induction lk with
  | nil =>
    intro sp tmp v u hinv _ h
    unfold readNext at h
    exact readUp_cyc sys sp tmp rest v u hinv ha h
  | cons q lk1 ih =>
    intro sp tmp v u hinv hlk h
    have hq := hlk q (List.mem_cons_self _ _)
    have hlk1 : ∀ x ∈ lk1, CycOk x := fun x hx => hlk x (List.mem_cons_of_mem _ hx)
    unfold readNext at h
    by_cases h0 : q.fts_level = FTS_ROOTLEVEL
    · rw [if_pos h0] at h
      dsimp only at h
      obtain ⟨f1, f2, f3, f4, f5⟩ := FCHDIR_frame sys sp sp.fts_rfd
      by_cases h1 : (FCHDIR sys sp sp.fts_rfd).1 = true
      · rw [if_pos h1] at h
        cases h
        exact ⟨cycInv_same sp _ f3 f4 hinv, fun e he => by cases he⟩
      · rw [if_neg h1] at h
        cases h
        obtain ⟨l1, l2, l3⟩ := fts_load_frame (FCHDIR sys sp sp.fts_rfd).2 q
        have hl := fts_load_cyc (FCHDIR sys sp sp.fts_rfd).2 q hq
        refine ⟨cycInv_of _ _ rest rfl ⟨hl, hlk1⟩ ha ?_, fun e he => by cases he; exact hl⟩
        intro x hx
        have hx2 : x ∈ (fts_load (FCHDIR sys sp sp.fts_rfd).2 q).2.fts_child := hx
        rw [l1, f4] at hx2
        exact hinv.2 x hx2
    · rw [if_neg h0] at h
      by_cases hs : q.fts_instr = FTS_SKIP
      · rw [if_pos hs] at h
        exact ih sp q v u hinv hlk1 h
      · rw [if_neg hs] at h
        by_cases hf : q.fts_instr = FTS_FOLLOW
        · rw [if_pos hf] at h
          dsimp only at h
          obtain ⟨g1, g2, _, _⟩ := followStat_frame sys sp (rest.map (fun g => g.ent)) q
          have hc := followStat_cyc sys sp (rest.map (fun g => g.ent)) q
          generalize followStat sys sp (rest.map (fun g => g.ent)) q = r at h g1 g2 hc
          obtain ⟨r1, r2⟩ := r
          refine readName_cyc r2 { r1 with fts_instr := FTS_NOINSTR } lk1 rest v u ?_
            ⟨hc, hlk1⟩ ha h
          intro x hx
          exact hinv.2 x (g2 ▸ hx)
        · rw [if_neg hf] at h
          exact readName_cyc sp q lk1 rest v u hinv.2 ⟨hq, hlk1⟩ ha h

theorem fts_build_cyc (sys : Sys) (hq : ∀ cmp l, (sys.qsort cmp l).Perm l) (sp : FTS)
    (f : Frame) (rest : List Frame) (hcur : sp.fts_cur = f :: rest) (hf : CycOk f.ent)
    (type : BType) (l : List FTSENT) (sp2 : FTS)
    (h : fts_build sys sp type = Outcome.ret l sp2) :
    (∃ e, sp2.fts_cur = ⟨e, f.link⟩ :: rest ∧ CycOk e) ∧ sp2.fts_child = sp.fts_child ∧
    ∀ c ∈ l, CycOk c := by
  obtain ⟨g1, g2⟩ := fts_build_core_cyc sys hq sp f.ent (rest.map (fun g => g.ent)) type
  have hpost := fts_build_core_post sys hq sp f.ent (rest.map (fun g => g.ent)) type
  unfold fts_build at h
  rw [hcur] at h
  dsimp only at h
  generalize fts_build_core sys sp f.ent (rest.map (fun g => g.ent)) type = r at h g1 g2 hpost
  obtain ⟨rl, rc, rs⟩ := r
  cases h
  exact ⟨⟨rc, rfl, g1 hf⟩, hpost.2.2.2.1, g2⟩

theorem readDir_cyc (sys : Sys) (hq : ∀ cmp l, (sys.qsort cmp l).Perm l) (sp : FTS)
    (p : FTSENT) (lk : List FTSENT) (rest : List Frame) (instr : Int) (v : Option FTSENT)
    (u : FTS) (hch : ∀ q ∈ sp.fts_child, CycOk q) (hf : FrameCyc ⟨p, lk⟩) (ha : Above rest)
    (h : readDir sys sp p lk rest instr = Outcome.ret v u) :
    CycInv u ∧ ∀ e, v = some e → CycOk e := by
  unfold readDir at h
  by_cases hx : instr = FTS_SKIP ∨ (sp.fts_options.xdev = true ∧ p.fts_dev ≠ sp.fts_dev)
  · rw [if_pos hx] at h
    cases h
    have hp1 : CycOk { p with fts_info := FTS_DP } := fun h2 => by cases h2
    exact ⟨cycInv_of _ _ rest rfl ⟨hp1, hf.2⟩ ha (fun q hq2 => by simp at hq2),
      fun e he => by cases he; exact hp1⟩
  · rw [if_neg hx] at h
    have hsd : ∀ q ∈ (readDirDrop sp).fts_child, CycOk q := by
      unfold readDirDrop
      split
      · intro q hq2; simp at hq2
      · exact hch
    generalize readDirDrop sp = sd at h hsd
    unfold readDirEnter at h
    cases hc : sd.fts_child with
    | cons c cs =>
      rw [hc] at h hsd
      dsimp only at h
      have hcc := hsd c (List.mem_cons_self _ _)
      have hcs : ∀ x ∈ cs, CycOk x := fun x hx2 => hsd x (List.mem_cons_of_mem _ hx2)
      by_cases h1 : (CHDIR sys sd (accString sd (rest.map (fun g => g.ent)) p)).1 = true
      · rw [if_pos h1] at h
        split at h
        · refine readName_cyc _ _ _ _ v u ?_ ?_ ?_ h
          · intro q hq2; exact absurd hq2 (List.not_mem_nil q)
          · refine ⟨hcc, ?_⟩
            intro q hq2
            obtain ⟨x, hx2, hxq⟩ := List.mem_map.mp hq2
            rw [← hxq]
            exact hcs x hx2
          · exact above_cons _ rest ⟨hf.1, hf.2⟩ ha
        · cases h
      · rw [if_neg h1] at h
        refine readName_cyc _ _ _ _ v u ?_ ?_ ?_ h
        · intro q hq2; exact absurd hq2 (List.not_mem_nil q)
        · exact ⟨hcc, hcs⟩
        · exact above_cons _ rest hf ha
    | nil =>
      rw [hc] at h
      dsimp only at h
      unfold readDirBuild at h
      cases hb : fts_build sys { sd with fts_cur := ⟨p, lk⟩ :: rest } BType.BREAD with
      | crash => rw [hb] at h; cases h
      | ret l sp2 =>
        rw [hb] at h
        obtain ⟨⟨e, he1, he2⟩, b2, b3⟩ := fts_build_cyc sys hq
          { sd with fts_cur := ⟨p, lk⟩ :: rest } ⟨p, lk⟩ rest rfl hf.1 BType.BREAD l sp2 hb
        have hch2 : ∀ q ∈ sp2.fts_child, CycOk q := by
          intro q hq2
          rw [b2] at hq2
          have hq3 : q ∈ sd.fts_child := hq2
          rw [hc] at hq3
          simp at hq3
        have hinv2 : CycInv sp2 := cycInv_of sp2 _ rest he1 ⟨he2, hf.2⟩ ha hch2
        cases l with
        | nil =>
          dsimp only at h
          split at h
          · cases h
            exact ⟨hinv2, fun x hx2 => by cases hx2⟩
          · cases h
            refine ⟨hinv2, ?_⟩
            intro x hx2
            rw [he1] at hx2
            simp only [List.head?_cons, Option.map_some', Option.some.injEq] at hx2
            rw [← hx2]; exact he2
        | cons c cs =>
          dsimp only at h
          rw [he1] at h
          exact readName_cyc sp2 c cs (⟨e, lk⟩ :: rest) v u hch2
            ⟨b3 c (List.mem_cons_self _ _), fun x hx2 => b3 x (List.mem_cons_of_mem _ hx2)⟩
            (above_cons ⟨e, lk⟩ rest ⟨he2, hf.2⟩ ha) h

theorem fts_read_cyc (sys : Sys) (hq : ∀ cmp l, (sys.qsort cmp l).Perm l) (sp : FTS)
    (v : Option FTSENT) (u : FTS) (hinv : CycInv sp)
    (h : fts_read sys sp = Outcome.ret v u) :
    CycInv u ∧ ∀ e, v = some e → CycOk e := by
  unfold fts_read at h
  cases hc : sp.fts_cur with
  | nil =>
    rw [hc] at h
    cases h
    exact ⟨hinv, fun e he => by cases he⟩
  | cons f rest =>
    obtain ⟨p0, lk⟩ := f
    have hfr : FrameCyc ⟨p0, lk⟩ ∧ Above rest := by
      rcases hinv.1 with h1 | ⟨f2, r2, h1, h2, h3⟩
      · rw [hc] at h1; cases h1
      · rw [hc] at h1
        simp only [List.cons.injEq] at h1
        obtain ⟨a1, a2⟩ := h1
        subst a1 a2
        exact ⟨h2, h3⟩
    obtain ⟨hf, ha⟩ := hfr
    rw [hc] at h
    dsimp only at h
    by_cases hs : sp.fts_options.stop = true
    · rw [if_pos hs] at h
      cases h
      exact ⟨hinv, fun e he => by cases he⟩
    · rw [if_neg hs] at h
      by_cases hag : p0.fts_instr = FTS_AGAIN
      · rw [if_pos hag] at h
        cases h
        have hp1 := cycOk_stat sys sp (rest.map (fun g => g.ent)) none
          { p0 with fts_instr := FTS_NOINSTR } false
        exact ⟨cycInv_of _ _ rest rfl ⟨hp1, hf.2⟩ ha hinv.2, fun e he => by cases he; exact hp1⟩
      · rw [if_neg hag] at h
        by_cases hfo : p0.fts_instr = FTS_FOLLOW ∧
            (({ p0 with fts_instr := FTS_NOINSTR } : FTSENT).fts_info = FTS_SL ∨
             ({ p0 with fts_instr := FTS_NOINSTR } : FTSENT).fts_info = FTS_SLNONE)
        · rw [if_pos hfo] at h
          cases h
          obtain ⟨_, g2, _, _⟩ := followStat_frame sys sp (rest.map (fun g => g.ent))
            { p0 with fts_instr := FTS_NOINSTR }
          have hp1 := followStat_cyc sys sp (rest.map (fun g => g.ent))
            { p0 with fts_instr := FTS_NOINSTR }
          refine ⟨cycInv_of _ _ rest rfl ⟨hp1, hf.2⟩ ha ?_, fun e he => by cases he; exact hp1⟩
          intro q hq2
          have hq3 : q ∈ (followStat sys sp (rest.map (fun g => g.ent))
            { p0 with fts_instr := FTS_NOINSTR }).2.fts_child := hq2
          rw [g2] at hq3
          exact hinv.2 q hq3
        · rw [if_neg hfo] at h
          by_cases hd : ({ p0 with fts_instr := FTS_NOINSTR } : FTSENT).fts_info = FTS_D
          · rw [if_pos hd] at h
            exact readDir_cyc sys hq sp { p0 with fts_instr := FTS_NOINSTR } lk rest
              p0.fts_instr v u hinv.2 ⟨hf.1, hf.2⟩ ha h
          · rw [if_neg hd] at h
            exact readNext_cyc sys rest ha lk
              { sp with fts_cur := ⟨{ p0 with fts_instr := FTS_NOINSTR }, lk⟩ :: rest }
              { p0 with fts_instr := FTS_NOINSTR } v u
              (cycInv_of _ _ rest rfl ⟨hf.1, hf.2⟩ ha hinv.2) hf.2 h

theorem childrenBuild_cyc (sys : Sys) (hq : ∀ cmp l, (sys.qsort cmp l).Perm l) (p : FTSENT)
    (lk : List FTSENT) (rest : List Frame) (hf : FrameCyc ⟨p, lk⟩) (ha : Above rest)
    (s1 : FTS) (ty : BType) (l2 : List FTSENT) (s2 : FTS)
    (e1 : s1.fts_cur = ⟨p, lk⟩ :: rest) (e2 : fts_build sys s1 ty = Outcome.ret l2 s2)
    (w : FTS) (w1 : w.fts_cur = s2.fts_cur) (w2 : w.fts_child = l2) :
    CycInv w ∧ ∀ c ∈ l2, CycOk c := by
  obtain ⟨⟨e, he1, he2⟩, _, b3⟩ := fts_build_cyc sys hq s1 ⟨p, lk⟩ rest e1 hf.1 ty l2 s2 e2
  refine ⟨cycInv_of w ⟨e, lk⟩ rest (w1.trans he1) ⟨he2, hf.2⟩ ha ?_, b3⟩
  rw [w2]; exact b3

theorem childrenTail_cyc (sys : Sys) (hq : ∀ cmp l, (sys.qsort cmp l).Perm l) (p : FTSENT)
    (lk : List FTSENT) (rest : List Frame) (hf : FrameCyc ⟨p, lk⟩) (ha : Above rest)
    (s1 : FTS) (ty : BType) (c : Prop) [Decidable c] (l : List FTSENT) (u : FTS)
    (e1 : s1.fts_cur = ⟨p, lk⟩ :: rest) (hch : ∀ q ∈ s1.fts_child, CycOk q)
    (h : (if c then
            match fts_build sys s1 ty with
            | Outcome.crash => Outcome.crash
            | Outcome.ret l sp2 => Outcome.ret l { sp2 with fts_child := l }
          else
            match sys.openDot s1.cwd with
            | Except.error e => Outcome.ret [] { s1 with errno := e }
            | Except.ok fd =>
              match fts_build sys s1 ty with
              | Outcome.crash => Outcome.crash
              | Outcome.ret l sp2 =>
                match sys.fchdir fd with
                | Except.error e => Outcome.ret [] { { sp2 with fts_child := l } with errno := e }
                | Except.ok d => Outcome.ret l { { sp2 with fts_child := l } with cwd := d })
          = Outcome.ret l u) :
    CycInv u ∧ ∀ c ∈ l, CycOk c := by
  by_cases hcc : c
  · rw [if_pos hcc] at h
    cases hb : fts_build sys s1 ty with
    | crash => rw [hb] at h; cases h
    | ret l2 s2 =>
      rw [hb] at h
      cases h
      exact childrenBuild_cyc sys hq p lk rest hf ha s1 ty l s2 e1 hb _ rfl rfl
  · rw [if_neg hcc] at h
    cases ho : sys.openDot s1.cwd with
    | error e =>
      rw [ho] at h
      cases h
      exact ⟨cycInv_of _ ⟨p, lk⟩ rest e1 hf ha hch, fun c hc2 => absurd hc2 (List.not_mem_nil c)⟩
    | ok fd =>
      rw [ho] at h
      cases hb : fts_build sys s1 ty with
      | crash => rw [hb] at h; cases h
      | ret l2 s2 =>
        rw [hb] at h
        dsimp only at h
        have hw := childrenBuild_cyc sys hq p lk rest hf ha s1 ty l2 s2 e1 hb
        cases hd : sys.fchdir fd with
        | error e =>
          rw [hd] at h
          cases h
          exact ⟨(hw { { s2 with fts_child := l2 } with errno := e } rfl rfl).1,
            fun c hc2 => absurd hc2 (List.not_mem_nil c)⟩
        | ok d =>
          rw [hd] at h
          cases h
          exact hw { { s2 with fts_child := l } with cwd := d } rfl rfl

theorem fts_children_cyc (sys : Sys) (hq : ∀ cmp l, (sys.qsort cmp l).Perm l) (sp : FTS)
    (instr : Int) (l : List FTSENT) (u : FTS) (hinv : CycInv sp)
    (h : fts_children sys sp instr = Outcome.ret l u) :
    CycInv u ∧ ∀ c ∈ l, CycOk c := by
  unfold fts_children at h
  by_cases hi : instr ≠ 0 ∧ instr ≠ (FTS_NAMEONLY : Int)
  · rw [if_pos hi] at h
    cases h
    exact ⟨cycInv_same sp _ rfl rfl hinv, fun c hc => absurd hc (List.not_mem_nil c)⟩
  · rw [if_neg hi] at h
    dsimp only at h
    by_cases hs : sp.fts_options.stop = true
    · rw [if_pos hs] at h
      cases h
      exact ⟨cycInv_same sp _ rfl rfl hinv, fun c hc => absurd hc (List.not_mem_nil c)⟩
    · rw [if_neg hs] at h
      cases hc : sp.fts_cur with
      | nil => rw [hc] at h; cases h
      | cons f rest =>
        obtain ⟨p, lk⟩ := f
        have hfr : FrameCyc ⟨p, lk⟩ ∧ Above rest := by
          rcases hinv.1 with h1 | ⟨f2, r2, h1, h2, h3⟩
          · rw [hc] at h1; cases h1
          · rw [hc] at h1
            simp only [List.cons.injEq] at h1
            obtain ⟨a1, a2⟩ := h1
            subst a1 a2
            exact ⟨h2, h3⟩
        obtain ⟨hf, ha⟩ := hfr
        rw [hc] at h
        dsimp only at h
        by_cases h1 : p.fts_info = FTS_INIT
        · rw [if_pos h1] at h
          cases h
          exact ⟨cycInv_same sp _ hc.symm rfl hinv, fun c hc2 => hf.2 c hc2⟩
        · rw [if_neg h1] at h
          by_cases h2 : p.fts_info ≠ FTS_D
          · rw [if_pos h2] at h
            cases h
            exact ⟨cycInv_same sp _ hc.symm rfl hinv,
              fun c hc2 => absurd hc2 (List.not_mem_nil c)⟩
          · rw [if_neg h2] at h
            refine childrenTail_cyc sys hq p lk rest hf ha _ _ _ l u ?_ ?_ h
            · split <;> rfl
            · intro q hq2
              refine hinv.2 q ?_
              revert hq2
              split <;> exact id

theorem cycOk_erase (a b : FTSENT) (h : eraseInstr a = eraseInstr b) (hb : CycOk b) :
    CycOk a := by
  have h1 : (eraseInstr a).fts_info = (eraseInstr b).fts_info := congrArg FTSENT.fts_info h
  have h2 : (eraseInstr a).fts_cycle = (eraseInstr b).fts_cycle :=
    congrArg FTSENT.fts_cycle h
  intro hi
  have h3 : a.fts_info = b.fts_info := h1
  have h4 : a.fts_cycle = b.fts_cycle := h2
  rw [h4]
  exact hb (h3 ▸ hi)

theorem cycOk_eraseList : ∀ (l1 l2 : List FTSENT), l1.map eraseInstr = l2.map eraseInstr →
    (∀ q ∈ l2, CycOk q) → ∀ q ∈ l1, CycOk q := by
  intro l1
  induction l1 with
  | nil => intro l2 _ _ q hq; exact absurd hq (List.not_mem_nil q)
  | cons a as ih =>
    intro l2 h hl q hq
    cases l2 with
    | nil => simp at h
    | cons b bs =>
      simp only [List.map_cons, List.cons.injEq] at h
      rcases List.mem_cons.mp hq with hq1 | hq1
      · rw [hq1]
        exact cycOk_erase a b h.1 (hl b (List.mem_cons_self _ _))
      · exact ih bs h.2 (fun x hx => hl x (List.mem_cons_of_mem _ hx)) q hq1

theorem frameCyc_erase (f g : Frame) (h : eraseFrame f = eraseFrame g) (hg : FrameCyc g) :
    FrameCyc f := by
  have h1 : eraseInstr f.ent = eraseInstr g.ent := congrArg Frame.ent h
  have h2 : f.link.map eraseInstr = g.link.map eraseInstr := congrArg Frame.link h
  exact ⟨cycOk_erase _ _ h1 hg.1, cycOk_eraseList _ _ h2 hg.2⟩

theorem above_erase : ∀ (r1 r2 : List Frame), r1.map eraseFrame = r2.map eraseFrame →
    Above r2 → Above r1 := by
  intro r1
  induction r1 with
  | nil =>
    intro r2 h ha
    cases r2 with
    | nil => exact ha
    | cons b bs => simp at h
  | cons a as ih =>
    intro r2 h ha
    cases r2 with
    | nil => simp at h
    | cons b bs =>
      simp only [List.map_cons, List.cons.injEq] at h
      cases as with
      | nil =>
        cases bs with
        | nil =>
          have h1 : eraseInstr a.ent = eraseInstr b.ent := congrArg Frame.ent h.1
          have h2 : (eraseInstr a.ent).fts_level = (eraseInstr b.ent).fts_level :=
            congrArg FTSENT.fts_level h1
          have h3 : a.ent.fts_level = b.ent.fts_level := h2
          show a.ent.fts_level = FTS_ROOTPARENTLEVEL
          rw [h3]; exact ha
        | cons b2 bs2 => simp at h
      | cons a2 as2 =>
        cases bs with
        | nil => simp at h
        | cons b2 bs2 =>
          exact ⟨frameCyc_erase a b h.1 ha.1, ih (b2 :: bs2) h.2 ha.2⟩

theorem instrOnly_cyc (s t : FTS) (h : InstrOnly s t) (hinv : CycInv s) : CycInv t := by
  obtain ⟨cur, child, ht, hcur, hchild⟩ := h
  subst ht
  refine ⟨?_, cycOk_eraseList child s.fts_child hchild hinv.2⟩
  rcases hinv.1 with h1 | ⟨f, rest, h1, h2, h3⟩
  · rw [h1] at hcur
    left
    cases cur with
    | nil => rfl
    | cons a as => simp at hcur
  · rw [h1] at hcur
    right
    cases cur with
    | nil => simp at hcur
    | cons a as =>
      simp only [List.map_cons, List.cons.injEq] at hcur
      exact ⟨a, as, rfl, frameCyc_erase a f hcur.1 h2, above_erase as rest hcur.2 h3⟩

theorem openRoot_cyc (sys : Sys) (parent : FTSENT) (sp : FTS) (a : Bytes) :
    CycOk (openRoot sys parent sp a).1 := by
  unfold openRoot
  dsimp only
  intro h
  split at h
  · cases h
  · exact fts_stat_cyc _ _ _ _ _ _ h

theorem openRoots_cyc (sys : Sys) (parent : FTSENT) (argv : List Bytes) :
    ∀ (sp : FTS) (root : List FTSENT) (n : Nat) (r : List FTSENT × Nat) (sp1 : FTS),
      openRoots sys parent argv sp root n = (some r, sp1) →
      (∀ x ∈ root, CycOk x) → ∀ x ∈ r.1, CycOk x := by
  induction argv with
  | nil =>
    intro sp root n r sp1 h hr
    simp only [openRoots, Prod.mk.injEq, Option.some.injEq] at h
    obtain ⟨h1, _⟩ := h
    subst h1
    exact hr
  | cons a as ih =>
    intro sp root n r sp1 h hr
    have hnew := openRoot_cyc sys parent sp a
    unfold openRoots at h
    by_cases h0 : strlen a = 0
    · rw [if_pos h0] at h
      simp at h
    · rw [if_neg h0] at h
      by_cases hc : sp.fts_compar.isSome = true
      · rw [if_pos hc] at h
        refine ih _ _ _ r sp1 h ?_
        intro x hx
        rcases List.mem_cons.mp hx with hx | hx
        · subst hx; exact hnew
        · exact hr x hx
      · rw [if_neg hc] at h
        refine ih _ _ _ r sp1 h ?_
        intro x hx
        rcases List.mem_append.mp hx with hx | hx
        · exact hr x hx
        · simp only [List.mem_singleton] at hx
          subst hx; exact hnew

theorem open_cyc (sys : Sys) (hq : ∀ cmp l, (sys.qsort cmp l).Perm l) (cwd errno0 : Nat)
    (argv : List Bytes) (options : Nat) (compar : Option (FTSENT → FTSENT → Int))
    (sp0 : FTS) (h : (fts_open sys cwd errno0 argv options compar).1 = some sp0) :
    CycInv sp0 := by
  obtain ⟨a1, a2, a3, a4, a5, a6⟩ := openInit_facts sys cwd errno0 argv options compar
  unfold fts_open at h
  by_cases hm : options &&& (0xffffffff - FTS_OPTIONMASK) ≠ 0
  · rw [if_pos hm] at h; simp at h
  · rw [if_neg hm] at h
    dsimp only at h
    rcases hr : openRoots sys (openInit sys cwd errno0 argv options compar).2 argv
      (openInit sys cwd errno0 argv options compar).1 [] 0 with ⟨r1, sp3⟩
    rw [hr] at h
    cases r1 with
    | none => simp at h
    | some r =>
      obtain ⟨root, nitems⟩ := r
      simp only [Option.some.injEq] at h
      obtain ⟨_, i2, _, i4⟩ := openRoots_inv sys _ argv _ [] 0 (root, nitems) sp3 hr
        (by intro x hx; simp at hx) rfl
      have hroot := openRoots_cyc sys _ argv _ [] 0 (root, nitems) sp3 hr
        (by intro x hx; simp at hx)
      obtain ⟨dummy, roots, f1, f2, _, _, f5, _, _, f8, _, _⟩ :=
        openFinish_facts sys hq sp3 (openInit sys cwd errno0 argv options compar).2 root nitems i2
      rw [← h]
      refine cycInv_of _ _ _ f1 ⟨?_, ?_⟩ a6 ?_
      · intro h2
        rw [f5] at h2
        cases h2
      · intro q hq2
        exact hroot q (f2.mem_iff.mp hq2)
      · rw [f8, i4.2.2.2, a2]
        intro q hq2
        exact absurd hq2 (List.not_mem_nil q)

theorem above_dropLast : ∀ (rest : List Frame), Above rest → ∀ f ∈ rest.dropLast, FrameCyc f := by
  intro rest
  induction rest with
  | nil => intro ha; exact absurd ha (by simp [Above])
  | cons g r ih =>
    intro ha f hf
    cases r with
    | nil => simp at hf
    | cons g2 r2 =>
      rw [List.dropLast_cons₂] at hf
      rcases List.mem_cons.mp hf with hf1 | hf1
      · rw [hf1]; exact ha.1
      · exact ih ha.2 f hf1

theorem cycInv_live (u : FTS) (h : CycInv u) : CycleLinked u := by
  intro e he
  unfold liveEntries at he
  rcases List.mem_append.mp he with he1 | he1
  · obtain ⟨l, hl, hel⟩ := List.mem_flatten.mp he1
    obtain ⟨f, hf, hfl⟩ := List.mem_map.mp hl
    have hfc : FrameCyc f := by
      rcases h.1 with h1 | ⟨f0, rest, h1, h2, h3⟩
      · rw [h1] at hf; simp at hf
      · rw [h1] at hf
        cases rest with
        | nil => exact absurd h3 (by simp [Above])
        | cons g r =>
          rw [List.dropLast_cons₂] at hf
          rcases List.mem_cons.mp hf with hf1 | hf1
          · rw [hf1]; exact h2
          · exact above_dropLast (g :: r) h3 f hf1
    rw [← hfl] at hel
    rcases List.mem_cons.mp hel with h4 | h4
    · rw [h4]; exact hfc.1
    · exact hfc.2 e h4
  · exact h.2 e he1

theorem reach_cyc (sys : Sys) (hq : ∀ cmp l, (sys.qsort cmp l).Perm l) (u : FTS)
    (h : Reach sys u) : CycInv u := by
  induction h with
  | start cwd errno0 argv options compar sp hopen =>
    exact open_cyc sys hq cwd errno0 argv options compar sp hopen
  | read s v u _ hr ih => exact (fts_read_cyc sys hq s v u ih hr).1
  | children s instr l u _ hr ih => exact (fts_children_cyc sys hq s instr l u ih hr).1
  | set s t _ hi ih => exact instrOnly_cyc s t hi ih
  | setRejected s _ ih => exact cycInv_same s _ rfl rfl ih

theorem reach_run (sys : Sys) : ∀ (n : Nat) (s : FTS), Reach sys s →
    ∀ x ∈ run sys n s, Reach sys x.2 := by
  intro n
  induction n with
  | zero => intro s _ x hx; simp [run] at hx
  | succ k ih =>
    intro s hs x hx
    unfold run at hx
    cases hr : fts_read sys s with
    | crash => rw [hr] at hx; simp at hx
    | ret v s1 =>
      rw [hr] at hx
      cases v with
      | none => simp at hx
      | some e =>
        have h1 : Reach sys s1 := Reach.read s (some e) s1 hs hr
        rcases List.mem_cons.mp hx with hx1 | hx1
        · rw [hx1]; exact h1
        · exact ih s1 h1 x hx1

theorem getLastD_mem_cons {α : Type} : ∀ (t : List α) (a : α), t.getLastD a ∈ a :: t := by
  intro t
  induction t with
  | nil => intro a; simp
  | cons b t ih =>
    intro a
    rw [List.getLastD_cons]
    exact List.mem_cons_of_mem _ (ih b)

theorem reach_last (sys : Sys) (n : Nat) (s : FTS) (hs : Reach sys s) (d : FTSENT × FTS)
    (hne : (run sys n s).length ≠ 0) : Reach sys ((run sys n s).getLastD d).2 := by
  refine reach_run sys n s hs _ ?_
  cases hl : run sys n s with
  | nil => rw [hl] at hne; simp at hne
  | cons a t =>
    rw [List.getLastD_cons]
    exact getLastD_mem_cons t a

set_option maxRecDepth 100000 in
/-- C16 (counterexample): when the memory that `malloc` returns is not zeroed, the walk of `D`
reaches, after two calls of `fts_read`, a state whose cursor is the regular file `a` with a
cycle link that is not null, below the directory `D` of kind pre-dir with such a link too:
`fts_alloc` never writes the cycle link, and the stat probe writes it only when it finds a
cycle. The parent of the roots, whose kind no code assigns, reads as kind cycle-dir with a
null link. -/
theorem regular_file_with_cycle_link :
    Reach sysJunk junkAtFile ∧
    junkAtFile.fts_cur.map
        (fun f => (f.ent.fts_level, f.ent.fts_info, cstr f.ent.fts_name, f.ent.fts_cycle)) =
      [(1, FTS_F, "a".toList, some 7), (0, FTS_D, "D".toList, some 7),
        (-1, FTS_DC, [], none)] :=
  ⟨reach_last sysJunk 2 junkStart
      (Reach.start 0 0 ["D".toList] 0 none junkStart
        (some_getD_of_isSome _ spStopped (by decide)))
      (ent0, spStopped) (by decide),
   by decide⟩

/-- C16 (amended): in every walk state reachable from `fts_open` by calls of `fts_read`,
`fts_children` and `fts_set` (the sort routine returning a permutation), every live entry of
kind cycle-dir, the parent of the roots apart, has a cycle link that is not null. -/
theorem cycle_dir_has_link (sys : Sys) (hq : ∀ cmp l, (sys.qsort cmp l).Perm l) (u : FTS)
    (h : Reach sys u) : CycleLinked u :=
  cycInv_live u (reach_cyc sys hq u h)

set_option maxRecDepth 100000 in
/-- Witness of C16: in the logical walk of `D` holding the link `loop` to `D` the state after
two calls of `fts_read` is reachable, its cursor has kind cycle-dir and its cycle link is the
address of `D`. -/
theorem cycle_dir_has_link_witness :
    Reach sysLoop loopAtLink ∧
    loopAtLink.fts_cur.map (fun f => (f.ent.addr, f.ent.fts_info, f.ent.fts_cycle)) =
      [(3, FTS_DC, some 1), (1, FTS_D, none), (0, FTS_INIT, none)] ∧
    CycleLinked loopAtLink :=
  ⟨reach_last sysLoop 2 loopStart
      (Reach.start 0 0 ["D".toList] FTS_LOGICAL none loopStart
        (some_getD_of_isSome _ spStopped (by decide)))
      (ent0, spStopped) (by decide),
   by decide,
   cycle_dir_has_link sysLoop (fun _ l => List.Perm.refl l) loopAtLink
    (reach_last sysLoop 2 loopStart
      (Reach.start 0 0 ["D".toList] FTS_LOGICAL none loopStart
        (some_getD_of_isSome _ spStopped (by decide)))
      (ent0, spStopped) (by decide))⟩

theorem cstr_take_pad (a : Bytes) : ∀ (m j : Nat), 0 < m →
    cstr ((a ++ List.replicate m NUL).take (strlen a + 1 + j)) = cstr a := by
  induction a with
  | nil =>
    intro m j hm
    obtain ⟨k, rfl⟩ : ∃ k, m = k + 1 := ⟨m - 1, by omega⟩
    have h0 : strlen ([] : Bytes) = 0 := rfl
    rw [h0, List.nil_append, List.replicate_succ, show 0 + 1 + j = j + 1 by omega,
      List.take_succ_cons, cstr_cons, if_pos rfl]
    rfl
  | cons c t ih =>
    intro m j hm
    by_cases hc : c = NUL
    · have hs : strlen (c :: t) = 0 := by simp [strlen, List.takeWhile, hc]
      rw [hs, List.cons_append, show 0 + 1 + j = j + 1 by omega, List.take_succ_cons,
        cstr_cons, if_pos hc, cstr_cons, if_pos hc]
    · have hb : (c != NUL) = true := by simpa using hc
      have hs : strlen (c :: t) = strlen t + 1 := by simp [strlen, List.takeWhile, hb]
      rw [hs, List.cons_append, show strlen t + 1 + 1 + j = (strlen t + 1 + j) + 1 by omega,
        List.take_succ_cons, cstr_cons, if_neg hc, cstr_cons, if_neg hc, ih m j hm]

theorem KeepsName.knTrans {a b c : FTSENT} (h1 : KeepsName a b) (h2 : KeepsName b c) :
    KeepsName a c := ⟨h1.1.trans h2.1, h1.2.trans h2.2⟩

theorem setSb_name (sp : FTS) (p : FTSENT) (sb : Stat) : KeepsName (setSb sp p sb) p := by
  unfold setSb; split <;> exact ⟨rfl, rfl⟩

theorem fts_stat_mode_name (anc : List FTSENT) (p : FTSENT) (sb : Stat) :
    KeepsName (fts_stat_mode anc p sb).2 p := by
  unfold fts_stat_mode
  dsimp only
  by_cases h1 : sb.st_mode = Mode.dir
  · rw [if_pos h1]
    by_cases h2 : ISDOT p.fts_name = true
    · rw [if_pos h2]; exact ⟨rfl, rfl⟩
    · rw [if_neg h2]
      cases cycleScan sb.st_ino sb.st_dev anc <;> exact ⟨rfl, rfl⟩
  · rw [if_neg h1]
    by_cases h2 : sb.st_mode = Mode.lnk
    · rw [if_pos h2]; exact ⟨rfl, rfl⟩
    · rw [if_neg h2]
      by_cases h3 : sb.st_mode = Mode.reg
      · rw [if_pos h3]; exact ⟨rfl, rfl⟩
      · rw [if_neg h3]; exact ⟨rfl, rfl⟩

theorem fts_stat_name (sys : Sys) (sp : FTS) (anc : List FTSENT) (dp : Option Dirent)
    (p : FTSENT) (follow : Bool) : KeepsName (fts_stat sys sp anc dp p follow).2.1 p := by
  unfold fts_stat
  split
  · exact setSb_name _ _ _
  · split
    · split
      · split
        · exact setSb_name _ _ _
        · exact (setSb_name _ _ _).knTrans ⟨rfl, rfl⟩
      · exact (fts_stat_mode_name _ _ _).knTrans (setSb_name _ _ _)
    · split
      · exact (setSb_name _ _ _).knTrans ⟨rfl, rfl⟩
      · exact (fts_stat_mode_name _ _ _).knTrans (setSb_name _ _ _)

theorem fts_stat_ns (sys : Sys) (sp : FTS) (anc : List FTSENT) (p : FTSENT) (follow : Bool)
    (h1 : ∃ e, sys.stat sp.cwd (accString sp anc p) = Except.error e)
    (h2 : ∃ e, sys.lstat sp.cwd (accString sp anc p) = Except.error e) :
    (fts_stat sys sp anc none p follow).1 = FTS_NS := by
  obtain ⟨e1, h1⟩ := h1
  obtain ⟨e2, h2⟩ := h2
  unfold fts_stat
  rw [if_neg (by simp), h1, h2]
  split <;> rfl

theorem openRoot_from (sys : Sys) (parent : FTSENT) (sp : FTS) (a : Bytes) :
    RootFrom sys sp.cwd (openRoot sys parent sp a).1 a ∧
    (openRoot sys parent sp a).2.cwd = sp.cwd := by
  have hn := fts_stat_name sys (fts_alloc sys sp a (strlen a)).2 [parent] none
    { (fts_alloc sys sp a (strlen a)).1 with
      fts_level := FTS_ROOTLEVEL, fts_parent := some parent.addr,
      fts_accpath := AccPath.name (fts_alloc sys sp a (strlen a)).1.addr }
    (fts_alloc sys sp a (strlen a)).2.fts_options.comfollow
  have hs := fts_stat_same sys (fts_alloc sys sp a (strlen a)).2 [parent] none
    { (fts_alloc sys sp a (strlen a)).1 with
      fts_level := FTS_ROOTLEVEL, fts_parent := some parent.addr,
      fts_accpath := AccPath.name (fts_alloc sys sp a (strlen a)).1.addr }
    (fts_alloc sys sp a (strlen a)).2.fts_options.comfollow
  have hc : cstr (memTake (strlen a + 1) a) = cstr a := by
    have := cstr_take_pad a (strlen a + 1) 0 (by omega)
    exact this
  have hacc : accString (fts_alloc sys sp a (strlen a)).2 [parent]
      { (fts_alloc sys sp a (strlen a)).1 with
        fts_level := FTS_ROOTLEVEL, fts_parent := some parent.addr,
        fts_accpath := AccPath.name (fts_alloc sys sp a (strlen a)).1.addr } = cstr a := by
    unfold accString
    dsimp only
    rw [if_pos rfl]
    exact hc
  refine ⟨⟨?_, ?_, ?_, ?_⟩, rfl⟩
  · show cstr (fts_stat sys _ _ _ _ _).2.1.fts_name = cstr a
    rw [hn.1]
    exact hc
  · show (fts_stat sys _ _ _ _ _).2.1.fts_namelen = strlen a
    rw [hn.2]
    rfl
  · exact hs.2.2.2
  · intro h1 h2
    have hns := fts_stat_ns sys (fts_alloc sys sp a (strlen a)).2 [parent]
      { (fts_alloc sys sp a (strlen a)).1 with
        fts_level := FTS_ROOTLEVEL, fts_parent := some parent.addr,
        fts_accpath := AccPath.name (fts_alloc sys sp a (strlen a)).1.addr }
      (fts_alloc sys sp a (strlen a)).2.fts_options.comfollow
      (by rw [hacc]; exact h1) (by rw [hacc]; exact h2)
    show (if (fts_stat sys _ _ _ _ _).1 = FTS_DOT then FTS_D else (fts_stat sys _ _ _ _ _).1) = FTS_NS
    rw [hns]
    rfl

theorem openRoots_from (sys : Sys) (parent : FTSENT) (argv : List Bytes) :
    ∀ (sp : FTS) (root : List FTSENT) (n : Nat) (r : List FTSENT × Nat) (sp1 : FTS),
      openRoots sys parent argv sp root n = (some r, sp1) →
      ∃ l0, List.Forall₂ (RootFrom sys sp.cwd) l0 argv ∧ r.1.Perm (root ++ l0) ∧
        (sp.fts_compar = none → r.1 = root ++ l0) := by
  induction argv with
  | nil =>
    intro sp root n r sp1 h
    simp only [openRoots, Prod.mk.injEq, Option.some.injEq] at h
    obtain ⟨h1, _⟩ := h
    subst h1
    exact ⟨[], List.Forall₂.nil, by simp, fun _ => by simp⟩
  | cons a as ih =>
    intro sp root n r sp1 h
    obtain ⟨hnew, hcwd⟩ := openRoot_from sys parent sp a
    obtain ⟨_, _, _, _, _, f6⟩ := openRoot_facts sys parent sp a
    unfold openRoots at h
    by_cases h0 : strlen a = 0
    · rw [if_pos h0] at h
      simp at h
    · rw [if_neg h0] at h
      by_cases hc : sp.fts_compar.isSome = true
      · rw [if_pos hc] at h
        obtain ⟨l0, i1, i2, _⟩ := ih _ _ _ r sp1 h
        rw [hcwd] at i1
        refine ⟨(openRoot sys parent sp a).1 :: l0, List.Forall₂.cons hnew i1, ?_, ?_⟩
        · refine i2.trans ?_
          rw [List.cons_append]
          exact (List.perm_middle).symm
        · intro hn; rw [hn] at hc; simp at hc
      · rw [if_neg hc] at h
        obtain ⟨l0, i1, i2, i3⟩ := ih _ _ _ r sp1 h
        rw [hcwd] at i1
        have e : root ++ [(openRoot sys parent sp a).1] ++ l0 =
            root ++ (openRoot sys parent sp a).1 :: l0 := by simp
        refine ⟨(openRoot sys parent sp a).1 :: l0, List.Forall₂.cons hnew i1, e ▸ i2, ?_⟩
        intro hn
        rw [← e]
        exact i3 (f6.2.1.trans hn)

theorem open_roots (sys : Sys) (hq : ∀ cmp l, (sys.qsort cmp l).Perm l) (cwd errno0 : Nat)
    (argv : List Bytes) (options : Nat) (compar : Option (FTSENT → FTSENT → Int))
    (sp0 : FTS) (h : (fts_open sys cwd errno0 argv options compar).1 = some sp0) :
    ∃ dummy roots parent l0, sp0.fts_cur = [⟨dummy, roots⟩, ⟨parent, []⟩] ∧
      dummy.fts_info = FTS_INIT ∧ parent.fts_level = FTS_ROOTPARENTLEVEL ∧
      roots.Perm l0 ∧ List.Forall₂ (RootFrom sys cwd) l0 argv ∧ (compar = none → roots = l0) := by
  obtain ⟨a1, a2, a3, a4, a5, a6⟩ := openInit_facts sys cwd errno0 argv options compar
  have hcwd : (openInit sys cwd errno0 argv options compar).1.cwd = cwd := rfl
  unfold fts_open at h
  by_cases hm : options &&& (0xffffffff - FTS_OPTIONMASK) ≠ 0
  · rw [if_pos hm] at h; simp at h
  · rw [if_neg hm] at h
    dsimp only at h
    rcases hr : openRoots sys (openInit sys cwd errno0 argv options compar).2 argv
      (openInit sys cwd errno0 argv options compar).1 [] 0 with ⟨r1, sp3⟩
    rw [hr] at h
    cases r1 with
    | none => simp at h
    | some r =>
      obtain ⟨root, nitems⟩ := r
      simp only [Option.some.injEq] at h
      obtain ⟨_, i2, _, i4⟩ := openRoots_inv sys _ argv _ [] 0 (root, nitems) sp3 hr
        (by intro x hx; simp at hx) rfl
      obtain ⟨l0, j1, j2, j3⟩ := openRoots_from sys _ argv _ [] 0 (root, nitems) sp3 hr
      rw [hcwd] at j1
      simp only [List.nil_append] at j2 j3
      obtain ⟨dummy, roots, f1, f2, _, _, f5, _, _, _, _, f10⟩ :=
        openFinish_facts sys hq sp3 (openInit sys cwd errno0 argv options compar).2 root nitems i2
      rw [← h]
      refine ⟨dummy, roots, _, l0, f1, f5, a6, f2.trans j2, j1, ?_⟩
      intro hn
      have hc3 : sp3.fts_compar = none := by rw [i4.2.1, a3]; exact hn
      rw [f10 hc3]
      exact j3 (by rw [a3]; exact hn)

/-- C8: for every argument list, option word and comparator (allocations succeed in the model,
the sort routine returns a permutation), `fts_open` returns null with `errno` `EINVAL` if the
option word has a bit outside the option mask; otherwise null with `errno` `ENOENT` if some
argument is the empty string; otherwise it returns a walk state: its cursor is the entry of
kind init, linked to one root for each argument (in the order of the arguments without
comparator, a permutation of it with one), above the parent of the roots; each root holds its
argument and is at level 0, and a root whose argument names a missing file (neither `stat` nor
`lstat` succeeds on it) has kind stat-failed. -/
theorem fts_open_failure_conditions (sys : Sys) (hq : ∀ cmp l, (sys.qsort cmp l).Perm l)
    (cwd errno0 : Nat) (argv : List Bytes)
    (options : Nat) (compar : Option (FTSENT → FTSENT → Int)) :
    if options &&& (0xffffffff - FTS_OPTIONMASK) ≠ 0 then
      fts_open sys cwd errno0 argv options compar = (none, EINVAL)
    else if argv.any (fun a => decide (strlen a = 0)) then
      (fts_open sys cwd errno0 argv options compar).1 = none ∧
      (fts_open sys cwd errno0 argv options compar).2 = ENOENT
    else ∃ sp0 dummy roots parent l0,
      (fts_open sys cwd errno0 argv options compar).1 = some sp0 ∧
      sp0.fts_cur = [⟨dummy, roots⟩, ⟨parent, []⟩] ∧
      dummy.fts_info = FTS_INIT ∧ parent.fts_level = FTS_ROOTPARENTLEVEL ∧
      roots.Perm l0 ∧ List.Forall₂ (RootFrom sys cwd) l0 argv ∧ (compar = none → roots = l0) := by
  by_cases hm : options &&& (0xffffffff - FTS_OPTIONMASK) ≠ 0
  · rw [if_pos hm]
    unfold fts_open
    rw [if_pos hm]
  · rw [if_neg hm]
    by_cases he : argv.any (fun a => decide (strlen a = 0)) = true
    · rw [if_pos he]
      have h := openRoots_fail sys (openInit sys cwd errno0 argv options compar).2 argv
        (openInit sys cwd errno0 argv options compar).1 [] 0 he
      unfold fts_open
      rw [if_neg hm]
      dsimp only
      rcases hr : openRoots sys (openInit sys cwd errno0 argv options compar).2 argv
        (openInit sys cwd errno0 argv options compar).1 [] 0 with ⟨r1, r2⟩
      rw [hr] at h
      obtain ⟨h1, h2⟩ := h
      simp only at h1 h2
      subst h1
      exact ⟨rfl, h2⟩
    · rw [if_neg he]
      have he2 : argv.any (fun a => decide (strlen a = 0)) = false := by
        simpa using he
      obtain ⟨l, m, h⟩ := openRoots_ok sys (openInit sys cwd errno0 argv options compar).2 argv
        (openInit sys cwd errno0 argv options compar).1 [] 0 he2
      have hsome : ∃ sp0, (fts_open sys cwd errno0 argv options compar).1 = some sp0 := by
        unfold fts_open
        rw [if_neg hm]
        dsimp only
        rcases hr : openRoots sys (openInit sys cwd errno0 argv options compar).2 argv
          (openInit sys cwd errno0 argv options compar).1 [] 0 with ⟨r1, r2⟩
        rw [hr] at h
        simp only at h
        subst h
        exact ⟨_, rfl⟩
      obtain ⟨sp0, h0⟩ := hsome
      obtain ⟨dummy, roots, parent, l0, g⟩ :=
        open_roots sys hq cwd errno0 argv options compar sp0 h0
      exact ⟨sp0, dummy, roots, parent, l0, h0, g⟩

set_option maxRecDepth 100000 in
/-- Witness of C8: for the arguments `D` (a directory) and `x` (a missing file) `fts_open`
returns a walk state whose roots are `D`, of kind pre-dir, and `x`, of kind stat-failed. -/
theorem fts_open_failure_conditions_witness :
    missingStart.map (fun s => (curLink s).map (fun r => (cstr r.fts_name, r.fts_info))) =
      some [("D".toList, FTS_D), ("x".toList, FTS_NS)] ∧
    ∃ sp0 dummy roots parent l0, missingStart = some sp0 ∧
      sp0.fts_cur = [⟨dummy, roots⟩, ⟨parent, []⟩] ∧
      dummy.fts_info = FTS_INIT ∧ parent.fts_level = FTS_ROOTPARENTLEVEL ∧
      roots.Perm l0 ∧ List.Forall₂ (RootFrom sysFlat 0) l0 ["D".toList, "x".toList] ∧
      ((none : Option (FTSENT → FTSENT → Int)) = none → roots = l0) := by
  refine ⟨by decide, ?_⟩
  have h := fts_open_failure_conditions sysFlat (fun _ l => List.Perm.refl l) 0 0
    ["D".toList, "x".toList] 0 none
  rw [if_neg (by decide), if_neg (by decide)] at h
  exact h

theorem accString_congr (s1 s2 : FTS) (anc : List FTSENT) (p : FTSENT) (i : Int)
    (h : s1.fts_path = s2.fts_path) :
    accString s1 anc { p with fts_instr := i } = accString s2 anc p := by
  unfold accString
  dsimp only
  rw [h]

theorem FCHDIR_congr (sys : Sys) (s1 s2 : FTS) (fd : Int)
    (h : s1.fts_options.nochdir = s2.fts_options.nochdir) :
    (FCHDIR sys s1 fd).1 = (FCHDIR sys s2 fd).1 := by
  unfold FCHDIR
  rw [h]
  split
  · rfl
  · split
    · split <;> rfl
    · rfl

theorem fts_load_kind (sp : FTS) (p : FTSENT) :
    (fts_load sp p).1.fts_info = p.fts_info ∧ (fts_load sp p).1.fts_errno = p.fts_errno := by
  unfold fts_load
  dsimp only
  split
  · split <;> exact ⟨rfl, rfl⟩
  · exact ⟨rfl, rfl⟩

theorem readUp_step (sys : Sys) (sp : FTS) (tmp : FTSENT) (rest : List Frame)
    (v : Option FTSENT) (w : FTS) (hstop : sp.fts_options.stop = false)
    (h : readUp sys sp tmp rest = Outcome.ret v w)
    (t : FTS) (p : FTSENT) (lk : List FTSENT) (hp : p.fts_info ≠ FTS_D)
    (hc : sp.fts_child = t.fts_child) (hn : sp.nalloc = t.nalloc) :
    Step sys t p lk rest v w := by
  unfold readUp at h
  cases rest with
  | nil => simp at h
  | cons par rest1 =>
    dsimp only at h
    by_cases hpar : tmp.fts_parent ≠ some par.ent.addr
    · rw [if_pos hpar] at h; cases h
    · rw [if_neg hpar] at h
      by_cases hl : par.ent.fts_level = FTS_ROOTPARENTLEVEL
      · rw [if_pos hl] at h
        cases h
        exact Step.done _ par rest1 hp rfl hl rfl hc hn hstop
      · rw [if_neg hl] at h
        have hgen : ∀ r : Bool × FTS,
            (r.2.fts_child = sp.fts_child ∧ r.2.nalloc = sp.nalloc ∧
              r.2.fts_options = sp.fts_options) →
            (if r.1 = true then
                Outcome.ret none { r.2 with fts_options := { r.2.fts_options with stop := true } }
              else
                Outcome.ret (some { par.ent with
                    fts_info := if par.ent.fts_errno ≠ 0 then FTS_ERR else FTS_DP })
                  { r.2 with fts_cur := ⟨{ par.ent with
                    fts_info := if par.ent.fts_errno ≠ 0 then FTS_ERR else FTS_DP },
                      par.link⟩ :: rest1 }) = Outcome.ret v w →
            Step sys t p lk (par :: rest1) v w := by
          intro r hr h2
          by_cases h1 : r.1 = true
          · rw [if_pos h1] at h2
            cases h2
            exact Step.stopped _ rfl (by show t.nalloc ≤ r.2.nalloc; rw [hr.2.1, hn])
          · rw [if_neg h1] at h2
            cases h2
            refine Step.up _ par rest1 _ hp rfl hl rfl rfl rfl ?_ (hr.1.trans hc)
              (hr.2.1.trans hn) (by show r.2.fts_options.stop = false; rw [hr.2.2]; exact hstop)
            dsimp only
            by_cases he : par.ent.fts_errno ≠ 0
            · rw [if_pos he]; exact Or.inr ⟨rfl, he⟩
            · rw [if_neg he]; exact Or.inl rfl
        refine hgen _ ?_ h
        split
        · have := FCHDIR_frame sys
            { sp with fts_path := memWrite sp.fts_path par.ent.fts_pathlen [NUL] 1 } sp.fts_rfd
          exact ⟨this.2.2.2.1, this.2.2.2.2, this.1⟩
        · split
          · have := FCHDIR_frame sys
              { sp with fts_path := memWrite sp.fts_path par.ent.fts_pathlen [NUL] 1 }
              par.ent.fts_symfd
            exact ⟨this.2.2.2.1, this.2.2.2.2, this.1⟩
          · split
            · have := CHDIR_frame sys
                { sp with fts_path := memWrite sp.fts_path par.ent.fts_pathlen [NUL] 1 } ['.', '.']
              exact ⟨this.2.2.2.1, this.2.2.2.2, this.1⟩
            · exact ⟨rfl, rfl, rfl⟩

theorem readName_step (sys : Sys) (sp : FTS) (q q1 : FTSENT) (pre lk1 : List FTSENT)
    (rest : List Frame) (v : Option FTSENT) (w : FTS)
    (hstop : sp.fts_options.stop = false) (hq : q1.addr = q.addr)
    (hlv : q1.fts_level = q.fts_level)
    (hk : q.fts_instr = FTS_NOINSTR → q1.fts_info = q.fts_info ∧ q1.fts_errno = q.fts_errno)
    (h : readName sp q1 lk1 rest = Outcome.ret v w)
    (t : FTS) (p : FTSENT) (hp : p.fts_info ≠ FTS_D)
    (hc : sp.fts_child = t.fts_child) (hn : sp.nalloc = t.nalloc) :
    Step sys t p (pre ++ q :: lk1) rest v w := by
  rcases readName_cases sp q1 lk1 rest with h2 | ⟨path, h2⟩
  · rw [h2] at h; cases h
  · rw [h2] at h
    cases h
    exact Step.side q1 lk1 pre q _ hp rfl rfl hq hlv hc hn hstop hk

theorem readNext_step (sys : Sys) (rest : List Frame) :
    ∀ (lk : List FTSENT) (sp : FTS) (tmp : FTSENT) (v : Option FTSENT) (w : FTS),
      sp.fts_options.stop = false → readNext sys rest sp tmp lk = Outcome.ret v w →
      ∀ (t : FTS) (p : FTSENT) (pre : List FTSENT), p.fts_info ≠ FTS_D →
        sp.fts_child = t.fts_child → sp.nalloc = t.nalloc →
        Step sys t p (pre ++ lk) rest v w := by
  intro lk
  induction lk with
  | nil =>
    intro sp tmp v w hstop h t p pre hp hc hn
    unfold readNext at h
    exact readUp_step sys sp tmp rest v w hstop h t p _ hp hc hn
  | cons q lk1 ih =>
    intro sp tmp v w hstop h t p pre hp hc hn
    unfold readNext at h
    by_cases h0 : q.fts_level = FTS_ROOTLEVEL
    · rw [if_pos h0] at h
      dsimp only at h
      obtain ⟨f1, f2, f3, f4, f5⟩ := FCHDIR_frame sys sp sp.fts_rfd
      by_cases h1 : (FCHDIR sys sp sp.fts_rfd).1 = true
      · rw [if_pos h1] at h
        cases h
        exact Step.stopped _ rfl (by show t.nalloc ≤ (FCHDIR sys sp sp.fts_rfd).2.nalloc;
                                     rw [f5, hn])
      · rw [if_neg h1] at h
        cases h
        obtain ⟨l1, l2, l3⟩ := fts_load_frame (FCHDIR sys sp sp.fts_rfd).2 q
        have hs := fts_load_same (FCHDIR sys sp sp.fts_rfd).2 q
        refine Step.side _ lk1 pre q _ hp rfl rfl hs.1 hs.2.2.2 ?_ ?_ ?_
          (fun _ => fts_load_kind _ q)
        · show (fts_load (FCHDIR sys sp sp.fts_rfd).2 q).2.fts_child = t.fts_child
          rw [l1, f4, hc]
        · show (fts_load (FCHDIR sys sp sp.fts_rfd).2 q).2.nalloc = t.nalloc
          rw [l2, f5, hn]
        · show (fts_load (FCHDIR sys sp sp.fts_rfd).2 q).2.fts_options.stop = false
          rw [l3, f1]; exact hstop
    · rw [if_neg h0] at h
      by_cases hs : q.fts_instr = FTS_SKIP
      · rw [if_pos hs] at h
        have := ih sp q v w hstop h t p (pre ++ [q]) hp hc hn
        rw [List.append_assoc] at this
        exact this
      · rw [if_neg hs] at h
        by_cases hf : q.fts_instr = FTS_FOLLOW
        · rw [if_pos hf] at h
          dsimp only at h
          obtain ⟨g1, g2, g3, _⟩ := followStat_frame sys sp (rest.map (fun g => g.ent)) q
          have hsame := followStat_same sys sp (rest.map (fun g => g.ent)) q
          generalize followStat sys sp (rest.map (fun g => g.ent)) q = r at h g1 g2 g3 hsame
          obtain ⟨r1, r2⟩ := r
          exact readName_step sys r2 q { r1 with fts_instr := FTS_NOINSTR } pre lk1 rest v w
            (by rw [g3]; exact hstop) hsame.1 hsame.2.2.2
            (fun hno => absurd (hf.symm.trans hno) (by decide)) h t p hp (g2.trans hc)
            (g1.trans hn)
        · rw [if_neg hf] at h
          exact readName_step sys sp q q pre lk1 rest v w hstop rfl rfl (fun _ => ⟨rfl, rfl⟩) h t
            p hp hc hn

theorem buildFinish_cur (sys : Sys) (type : BType) (cur1 : FTSENT) (descend : Bool) (cp : Nat)
    (st : BuildLoop) :
    (buildFinish sys type cur1 descend cp st).2.1.fts_errno = cur1.fts_errno ∧
    ((buildFinish sys type cur1 descend cp st).2.1.fts_info = cur1.fts_info ∨
      ((buildFinish sys type cur1 descend cp st).2.1.fts_info = FTS_ERR ∧
        (buildFinish sys type cur1 descend cp st).2.2.fts_options.stop = true) ∨
      ((buildFinish sys type cur1 descend cp st).2.1.fts_info = FTS_DP ∧
        type = BType.BREAD)) := by
  unfold buildFinish
  dsimp only
  split
  · exact ⟨rfl, Or.inr (Or.inl ⟨rfl, rfl⟩)⟩
  · split
    · split
      · rename_i ht
        exact ⟨rfl, Or.inr (Or.inr ⟨rfl, ht⟩)⟩
      · exact ⟨rfl, Or.inl rfl⟩
    · split
      · exact ⟨rfl, Or.inl rfl⟩
      · exact ⟨rfl, Or.inl rfl⟩

theorem buildFinish_list (sys : Sys) (hq : ∀ cmp l, (sys.qsort cmp l).Perm l) (type : BType)
    (cur1 : FTSENT) (descend : Bool) (cp : Nat) (st : BuildLoop) (n0 : Nat) (level : Int)
    (hinv : BuildInv n0 cur1 level st) :
    ((buildFinish sys type cur1 descend cp st).1.map (fun c => c.addr)).Nodup := by
  have hlen := buildInv_length hinv
  have hnd : (st.head.map (fun c => c.addr)).Nodup := by
    rw [hinv.1]; exact List.nodup_range' _ _
  unfold buildFinish
  dsimp only
  split
  · exact List.nodup_nil
  · split
    · exact List.nodup_nil
    · split
      · exact ((fts_sort_perm sys hq _ st.head st.nitems hlen).map _).nodup_iff.mpr hnd
      · exact hnd

theorem buildDescend_errno (sys : Sys) (sp : FTS) (cur : FTSENT) (type : BType) (nlinks : Int)
    (dirp : Nat) :
    ((buildDescend sys sp cur type nlinks dirp).2.2.1.fts_errno ≠ cur.fts_errno →
      (FCHDIR sys sp dirp).1 = true ∧ type = BType.BREAD) := by
  unfold buildDescend
  split
  · split
    · rename_i hf
      split
      · rename_i h2
        intro _; exact ⟨hf, h2.2⟩
      · intro h; exact absurd rfl h
    · intro h; exact absurd rfl h
  · intro h; exact absurd rfl h

theorem fts_build_core_cur (sys : Sys) (hq : ∀ cmp l, (sys.qsort cmp l).Perm l) (sp : FTS)
    (cur : FTSENT) (anc : List FTSENT) (type : BType) :
    ((fts_build_core sys sp cur anc type).1.map (fun c => c.addr)).Nodup ∧
    ((fts_build_core sys sp cur anc type).2.1.fts_info = FTS_DNR → cur.fts_info ≠ FTS_DNR →
      ∃ e, sys.opendir sp.cwd (accString sp anc cur) = Except.error e) ∧
    ((fts_build_core sys sp cur anc type).2.1.fts_errno ≠ cur.fts_errno →
      (fts_build_core sys sp cur anc type).1 ≠ [] → type = BType.BREAD ∧
      ∃ r, sys.opendir sp.cwd (accString sp anc cur) = Except.ok r ∧
        (FCHDIR sys sp r.1).1 = true) ∧
    (type ≠ BType.BREAD →
      (fts_build_core sys sp cur anc type).2.1.fts_errno = cur.fts_errno ∧
      ((fts_build_core sys sp cur anc type).2.1.fts_info = cur.fts_info ∨
        (fts_build_core sys sp cur anc type).2.2.fts_options.stop = true)) := by
  unfold fts_build_core
  cases hopen : sys.opendir sp.cwd (accString sp anc cur) with
  | error e =>
    dsimp only
    split
    · rename_i ht
      exact ⟨List.nodup_nil, fun _ _ => ⟨e, rfl⟩, fun _ h => absurd rfl h,
        fun h => absurd ht h⟩
    · exact ⟨List.nodup_nil, fun _ _ => ⟨e, rfl⟩, fun _ h => absurd rfl h,
        fun _ => ⟨rfl, Or.inl rfl⟩⟩
  | ok r =>
    obtain ⟨dirp, ents⟩ := r
    dsimp only
    obtain ⟨d1, d2, d3, d4⟩ := buildDescend_facts sys sp cur type (buildNlinks sp cur type) dirp
    have d5 := buildDescend_errno sys sp cur type (buildNlinks sp cur type) dirp
    generalize buildDescend sys sp cur type (buildNlinks sp cur type) dirp = d at d1 d2 d3 d4 d5
    obtain ⟨b1, b2⟩ := buildStart_facts d.2.2.2 d.2.2.1
    have hinit := buildInv_init sp.nalloc d.2.2.1 (d.2.2.1.fts_level + 1)
      (buildStart d.2.2.2 d.2.2.1) (buildNlinks sp cur type)
      ((d.2.2.2.fts_pathlen : Int) - d.2.2.1.fts_pathlen - 1) (b2.trans d4)
    obtain ⟨f1, f2⟩ := build_fold_inv sys d.2.2.1 (d.2.2.1 :: anc) d.1
      (NAPPEND d.2.2.2 d.2.2.1) (NAPPEND d.2.2.2 d.2.2.1 + 1) (d.2.2.1.fts_level + 1)
      sp.nalloc ents _ hinit
    obtain ⟨c1, c2⟩ := buildFinish_cur sys type d.2.2.1 d.2.1 (NAPPEND d.2.2.2 d.2.2.1 + 1)
      (ents.foldl (buildEntry sys d.2.2.1 (d.2.2.1 :: anc) d.1 (NAPPEND d.2.2.2 d.2.2.1)
        (NAPPEND d.2.2.2 d.2.2.1 + 1) (d.2.2.1.fts_level + 1))
        { sp := buildStart d.2.2.2 d.2.2.1, nlinks := buildNlinks sp cur type,
          maxlen := (d.2.2.2.fts_pathlen : Int) - d.2.2.1.fts_pathlen - 1, head := [],
          nitems := 0 })
    refine ⟨buildFinish_list sys hq type _ _ _ _ sp.nalloc _ f1, ?_, ?_, ?_⟩
    · intro hk hne
      exfalso
      rcases c2 with h | h | h
      · rw [h, d2] at hk; exact hne hk
      · rw [h.1] at hk; cases hk
      · rw [h.1] at hk; cases hk
    · intro he _
      rw [c1] at he
      obtain ⟨g1, g2⟩ := d5 he
      exact ⟨g2, ⟨(dirp, ents), rfl, g1⟩⟩
    · intro ht
      refine ⟨?_, ?_⟩
      · rw [c1]
        by_contra hne
        exact ht (d5 hne).2
      · rcases c2 with h | h | h
        · left; rw [h, d2]
        · right; exact h.2
        · exact absurd h.2 ht

theorem readDrop_facts (t : FTS) :
    (readDirDrop t).nalloc = t.nalloc ∧
    (readDirDrop t).fts_options.stop = t.fts_options.stop ∧
    (readDirDrop t).cwd = t.cwd ∧ (readDirDrop t).fts_path = t.fts_path ∧
    (readDirDrop t).fts_options.nochdir = t.fts_options.nochdir ∧
    ((readDirDrop t).fts_child = [] ∨ readDirDrop t = t) := by
  unfold readDirDrop
  split
  · exact ⟨rfl, rfl, rfl, rfl, rfl, Or.inl rfl⟩
  · exact ⟨rfl, rfl, rfl, rfl, rfl, Or.inr rfl⟩

theorem openFails_of (sys : Sys) (t : FTS) (p0 : FTSENT) (lk : List FTSENT) (rest : List Frame)
    (e : Nat) (hc : t.fts_cur = ⟨p0, lk⟩ :: rest)
    (h : sys.opendir t.cwd (accString t (rest.map (fun g => g.ent)) p0) = Except.error e) :
    openFails sys t = true := by
  unfold openFails
  rw [hc]
  dsimp only
  rw [h]

theorem enterFails_build (sys : Sys) (t : FTS) (p0 : FTSENT) (lk : List FTSENT)
    (rest : List Frame) (r : Nat × List Dirent) (hc : t.fts_cur = ⟨p0, lk⟩ :: rest)
    (hd : (readDirDrop t).fts_child = [])
    (h : sys.opendir t.cwd (accString t (rest.map (fun g => g.ent)) p0) = Except.ok r)
    (hf : (FCHDIR sys t r.1).1 = true) : enterFails sys t = true := by
  unfold enterFails
  rw [hc]
  dsimp only
  rw [hd]
  dsimp only
  rw [h]
  exact hf

theorem enterFails_pending (sys : Sys) (t : FTS) (p0 : FTSENT) (lk : List FTSENT)
    (rest : List Frame) (c : FTSENT) (cs : List FTSENT) (hc : t.fts_cur = ⟨p0, lk⟩ :: rest)
    (hd : (readDirDrop t).fts_child = c :: cs)
    (hf : (CHDIR sys t (accString t (rest.map (fun g => g.ent)) p0)).1 = true) :
    enterFails sys t = true := by
  unfold enterFails
  rw [hc]
  dsimp only
  rw [hd]
  exact hf

theorem setSb_errno (sp : FTS) (p : FTSENT) (sb : Stat) :
    (setSb sp p sb).fts_errno = p.fts_errno := by
  unfold setSb; split <;> rfl

theorem fts_stat_mode_errno (anc : List FTSENT) (p : FTSENT) (sb : Stat) :
    (fts_stat_mode anc p sb).2.fts_errno = p.fts_errno := by
  unfold fts_stat_mode
  dsimp only
  by_cases h1 : sb.st_mode = Mode.dir
  · rw [if_pos h1]
    by_cases h2 : ISDOT p.fts_name = true
    · rw [if_pos h2]
    · rw [if_neg h2]
      cases cycleScan sb.st_ino sb.st_dev anc <;> rfl
  · rw [if_neg h1]
    by_cases h2 : sb.st_mode = Mode.lnk
    · rw [if_pos h2]
    · rw [if_neg h2]
      by_cases h3 : sb.st_mode = Mode.reg
      · rw [if_pos h3]
      · rw [if_neg h3]

theorem fts_stat_errno (sys : Sys) (sp : FTS) (anc : List FTSENT) (dp : Option Dirent)
    (p : FTSENT) (follow : Bool) (h : (fts_stat sys sp anc dp p follow).1 ≠ FTS_NS) :
    (fts_stat sys sp anc dp p follow).2.1.fts_errno = p.fts_errno := by
  unfold fts_stat at h ⊢
  split
  · exact setSb_errno _ _ _
  · rename_i hw
    rw [if_neg hw] at h
    split
    · rename_i hl
      rw [if_pos hl] at h
      split
      · rename_i e he
        rw [he] at h
        split
        · exact setSb_errno _ _ _
        · rename_i e2 he2
          rw [he2] at h
          exact absurd rfl h
      · exact (fts_stat_mode_errno _ _ _).trans (setSb_errno _ _ _)
    · rename_i hl
      rw [if_neg hl] at h
      split
      · rename_i e he
        rw [he] at h
        exact absurd rfl h
      · exact (fts_stat_mode_errno _ _ _).trans (setSb_errno _ _ _)

theorem buildEntry_err (sys : Sys) (cur : FTSENT) (chain : List FTSENT) (cderrno len cp : Nat)
    (level : Int) (st : BuildLoop) (dp : Dirent) (h : ∀ x ∈ st.head, ErrOk x) :
    ∀ x ∈ (buildEntry sys cur chain cderrno len cp level st dp).head, ErrOk x := by
  have ha : (buildAlloc sys cur len level st dp).1.fts_errno = 0 := by
    unfold buildAlloc fts_alloc; rfl
  unfold buildEntry
  by_cases hs : (!st.sp.fts_options.seedot && ISDOT dp.d_name) = true
  · rw [if_pos hs]; exact h
  · rw [if_neg hs]
    dsimp only
    by_cases hc : cderrno ≠ 0
    · rw [if_pos hc]
      intro x hx
      rcases List.mem_append.mp hx with hx | hx
      · exact h x hx
      · rw [List.mem_singleton] at hx
        subst hx
        intro hk
        exfalso
        revert hk
        split <;> (intro hk; cases hk)
    · rw [if_neg hc]
      split
      · intro x hx
        rcases List.mem_append.mp hx with hx | hx
        · exact h x hx
        · rw [List.mem_singleton] at hx
          subst hx
          intro hk; cases hk
      · intro x hx
        rcases List.mem_append.mp hx with hx | hx
        · exact h x hx
        · rw [List.mem_singleton] at hx
          subst hx
          intro hk
          have hk2 : (fts_stat sys (buildAlloc sys cur len level st dp).2.1 chain (some dp)
              (if (buildAlloc sys cur len level st dp).2.1.fts_options.nochdir = true then
                { (buildAlloc sys cur len level st dp).1 with
                  fts_accpath := AccPath.path
                  fts_name := memWrite (buildAlloc sys cur len level st dp).1.fts_name 0
                    ((buildAlloc sys cur len level st dp).2.1.fts_path.drop cp)
                    ((buildAlloc sys cur len level st dp).1.fts_namelen + 1) }
              else { (buildAlloc sys cur len level st dp).1 with
                fts_accpath := AccPath.name (buildAlloc sys cur len level st dp).1.addr })
              false).1 = FTS_D := hk
          show (fts_stat sys _ _ _ _ _).2.1.fts_errno = 0
          rw [fts_stat_errno _ _ _ _ _ _ (by rw [hk2]; decide)]
          split <;> exact ha

theorem build_fold_err (sys : Sys) (cur : FTSENT) (chain : List FTSENT) (cderrno len cp : Nat)
    (level : Int) (ents : List Dirent) :
    ∀ st : BuildLoop, (∀ x ∈ st.head, ErrOk x) →
      ∀ x ∈ (ents.foldl (buildEntry sys cur chain cderrno len cp level) st).head, ErrOk x := by
  induction ents with
  | nil => intro st h; exact h
  | cons d ds ih =>
    intro st h
    rw [List.foldl_cons]
    exact ih _ (buildEntry_err sys cur chain cderrno len cp level st d h)

theorem buildFinish_mem (sys : Sys) (hq : ∀ cmp l, (sys.qsort cmp l).Perm l) (type : BType)
    (cur1 : FTSENT) (descend : Bool) (cp : Nat) (st : BuildLoop) (n0 : Nat) (level : Int)
    (hinv : BuildInv n0 cur1 level st) :
    ∀ x ∈ (buildFinish sys type cur1 descend cp st).1, x ∈ st.head := by
  have hlen := buildInv_length hinv
  unfold buildFinish
  dsimp only
  split
  · intro x hx; simp at hx
  · split
    · intro x hx; simp at hx
    · split
      · intro x hx
        exact (fts_sort_perm sys hq _ st.head st.nitems hlen).mem_iff.mp hx
      · intro x hx; exact hx

theorem fts_build_core_err (sys : Sys) (hq : ∀ cmp l, (sys.qsort cmp l).Perm l) (sp : FTS)
    (cur : FTSENT) (anc : List FTSENT) (type : BType) :
    ∀ x ∈ (fts_build_core sys sp cur anc type).1, ErrOk x := by
  unfold fts_build_core
  cases hopen : sys.opendir sp.cwd (accString sp anc cur) with
  | error e =>
    dsimp only
    split <;> (intro x hx; simp at hx)
  | ok r =>
    obtain ⟨dirp, ents⟩ := r
    dsimp only
    obtain ⟨d1, d2, d3, d4⟩ := buildDescend_facts sys sp cur type (buildNlinks sp cur type) dirp
    generalize buildDescend sys sp cur type (buildNlinks sp cur type) dirp = d at d1 d2 d3 d4
    obtain ⟨b1, b2⟩ := buildStart_facts d.2.2.2 d.2.2.1
    have hinit := buildInv_init sp.nalloc d.2.2.1 (d.2.2.1.fts_level + 1)
      (buildStart d.2.2.2 d.2.2.1) (buildNlinks sp cur type)
      ((d.2.2.2.fts_pathlen : Int) - d.2.2.1.fts_pathlen - 1) (b2.trans d4)
    obtain ⟨f1, f2⟩ := build_fold_inv sys d.2.2.1 (d.2.2.1 :: anc) d.1
      (NAPPEND d.2.2.2 d.2.2.1) (NAPPEND d.2.2.2 d.2.2.1 + 1) (d.2.2.1.fts_level + 1)
      sp.nalloc ents _ hinit
    intro x hx
    have hx2 := buildFinish_mem sys hq type _ _ _ _ sp.nalloc _ f1 x hx
    exact build_fold_err sys d.2.2.1 (d.2.2.1 :: anc) d.1
      (NAPPEND d.2.2.2 d.2.2.1) (NAPPEND d.2.2.2 d.2.2.1 + 1) (d.2.2.1.fts_level + 1) ents _
      (by intro y hy; simp at hy) x hx2

theorem openRoot_err (sys : Sys) (parent : FTSENT) (sp : FTS) (a : Bytes) :
    ErrOk (openRoot sys parent sp a).1 := by
  unfold openRoot
  dsimp only
  intro hk
  have hk2 : (if (fts_stat sys (fts_alloc sys sp a (strlen a)).2 [parent] none
      { (fts_alloc sys sp a (strlen a)).1 with
        fts_level := FTS_ROOTLEVEL, fts_parent := some parent.addr,
        fts_accpath := AccPath.name (fts_alloc sys sp a (strlen a)).1.addr }
      (fts_alloc sys sp a (strlen a)).2.fts_options.comfollow).1 = FTS_DOT then FTS_D
    else (fts_stat sys (fts_alloc sys sp a (strlen a)).2 [parent] none
      { (fts_alloc sys sp a (strlen a)).1 with
        fts_level := FTS_ROOTLEVEL, fts_parent := some parent.addr,
        fts_accpath := AccPath.name (fts_alloc sys sp a (strlen a)).1.addr }
      (fts_alloc sys sp a (strlen a)).2.fts_options.comfollow).1) = FTS_D := hk
  show (fts_stat sys _ _ _ _ _).2.1.fts_errno = 0
  rw [fts_stat_errno]
  · unfold fts_alloc; rfl
  · intro hns
    rw [hns] at hk2
    simp at hk2

theorem openRoots_err (sys : Sys) (parent : FTSENT) (argv : List Bytes) :
    ∀ (sp : FTS) (root : List FTSENT) (n : Nat) (r : List FTSENT × Nat) (sp1 : FTS),
      openRoots sys parent argv sp root n = (some r, sp1) →
      (∀ x ∈ root, ErrOk x) → ∀ x ∈ r.1, ErrOk x := by
  induction argv with
  | nil =>
    intro sp root n r sp1 h hr
    simp only [openRoots, Prod.mk.injEq, Option.some.injEq] at h
    obtain ⟨h1, _⟩ := h
    rw [← h1]; exact hr
  | cons a argv ih =>
    intro sp root n r sp1 h hr
    unfold openRoots at h
    by_cases h0 : strlen a = 0
    · rw [if_pos h0] at h; simp at h
    · rw [if_neg h0] at h
      by_cases hc : sp.fts_compar.isSome = true
      · rw [if_pos hc] at h
        refine ih _ _ _ r sp1 h ?_
        intro x hx
        rcases List.mem_cons.mp hx with hx | hx
        · rw [hx]; exact openRoot_err sys parent sp a
        · exact hr x hx
      · rw [if_neg hc] at h
        refine ih _ _ _ r sp1 h ?_
        intro x hx
        rcases List.mem_append.mp hx with hx | hx
        · exact hr x hx
        · rw [List.mem_singleton] at hx
          rw [hx]; exact openRoot_err sys parent sp a

theorem readDirBuild_step (sys : Sys) (hq : ∀ cmp l, (sys.qsort cmp l).Perm l) (t sd : FTS)
    (p0 : FTSENT) (lk : List FTSENT) (rest : List Frame)
    (hc : t.fts_cur = ⟨p0, lk⟩ :: rest) (hD : p0.fts_info = FTS_D)
    (hA : p0.fts_instr ≠ FTS_AGAIN)
    (h1 : sd.nalloc = t.nalloc) (h2 : sd.fts_options.stop = false) (h3 : sd.cwd = t.cwd)
    (h4 : sd.fts_path = t.fts_path) (h5 : sd.fts_options.nochdir = t.fts_options.nochdir)
    (h6 : sd.fts_child = []) (h7 : (readDirDrop t).fts_child = [])
    (v : Option FTSENT) (w : FTS)
    (h : readDirBuild sys sd { p0 with fts_instr := FTS_NOINSTR } lk rest = Outcome.ret v w) :
    Step sys t p0 lk rest v w := by
  unfold readDirBuild at h
  have hpost := fts_build_core_post sys hq
    { sd with fts_cur := ⟨{ p0 with fts_instr := FTS_NOINSTR }, lk⟩ :: rest }
    { p0 with fts_instr := FTS_NOINSTR } (rest.map (fun g => g.ent)) BType.BREAD
  obtain ⟨k1, k2, k3, _⟩ := fts_build_core_cur sys hq
    { sd with fts_cur := ⟨{ p0 with fts_instr := FTS_NOINSTR }, lk⟩ :: rest }
    { p0 with fts_instr := FTS_NOINSTR } (rest.map (fun g => g.ent)) BType.BREAD
  have k9 := fts_build_core_err sys hq
    { sd with fts_cur := ⟨{ p0 with fts_instr := FTS_NOINSTR }, lk⟩ :: rest }
    { p0 with fts_instr := FTS_NOINSTR } (rest.map (fun g => g.ent)) BType.BREAD
  have hacc : accString { sd with fts_cur := ⟨{ p0 with fts_instr := FTS_NOINSTR }, lk⟩ :: rest }
      (rest.map (fun g => g.ent)) { p0 with fts_instr := FTS_NOINSTR } =
      accString t (rest.map (fun g => g.ent)) p0 :=
    accString_congr _ t _ p0 FTS_NOINSTR h4
  have hfc : ∀ fd, (FCHDIR sys
      { sd with fts_cur := ⟨{ p0 with fts_instr := FTS_NOINSTR }, lk⟩ :: rest } fd).1 =
      (FCHDIR sys t fd).1 := fun fd => FCHDIR_congr sys _ t fd h5
  have hb : fts_build sys
      { sd with fts_cur := ⟨{ p0 with fts_instr := FTS_NOINSTR }, lk⟩ :: rest } BType.BREAD =
      Outcome.ret (fts_build_core sys
          { sd with fts_cur := ⟨{ p0 with fts_instr := FTS_NOINSTR }, lk⟩ :: rest }
          { p0 with fts_instr := FTS_NOINSTR } (rest.map (fun g => g.ent)) BType.BREAD).1
        { (fts_build_core sys
            { sd with fts_cur := ⟨{ p0 with fts_instr := FTS_NOINSTR }, lk⟩ :: rest }
            { p0 with fts_instr := FTS_NOINSTR } (rest.map (fun g => g.ent)) BType.BREAD).2.2 with
          fts_cur := ⟨(fts_build_core sys
            { sd with fts_cur := ⟨{ p0 with fts_instr := FTS_NOINSTR }, lk⟩ :: rest }
            { p0 with fts_instr := FTS_NOINSTR } (rest.map (fun g => g.ent))
            BType.BREAD).2.1, lk⟩ :: rest } := by
    unfold fts_build
    rfl
  rw [hb] at h
  generalize fts_build_core sys
    { sd with fts_cur := ⟨{ p0 with fts_instr := FTS_NOINSTR }, lk⟩ :: rest }
    { p0 with fts_instr := FTS_NOINSTR } (rest.map (fun g => g.ent)) BType.BREAD = r
    at hpost k1 k2 k3 k9 h
  obtain ⟨rl, rc, rs⟩ := r
  obtain ⟨b1, b2, b3, b4, b5, b6, b7, b8, b9⟩ := hpost
  simp only at b1 b2 b3 b4 b5 b6 b7 b8 b9 h k1 k2 k3 k9
  have hn : t.nalloc ≤ rs.nalloc := by rw [← h1]; exact b2
  have hch : rs.fts_child = [] := b4.trans h6
  cases rl with
  | nil =>
    simp only at h
    by_cases hstop : rs.fts_options.stop = true
    · simp only [hstop, if_true] at h
      cases h
      exact Step.stopped _ hstop hn
    · simp only [hstop, if_false, Bool.false_eq_true, List.head?_cons, Option.map_some'] at h
      cases h
      refine Step.stay rc _ (Or.inr (Or.inr hD)) rfl b1.1 b1.2.2.2 (Or.inr hch) hn
        (by simpa using hstop) ?_
      intro _ _
      refine ⟨hch, ?_⟩
      rcases b8 rfl trivial with g | g | g
      · exact absurd g hstop
      · right
        obtain ⟨e, he⟩ := k2 g (by show p0.fts_info ≠ FTS_DNR; rw [hD]; decide)
        rw [hacc] at he
        exact ⟨g, openFails_of sys t p0 lk rest e hc (by rw [← h3]; exact he)⟩
      · exact Or.inl g
  | cons c cs =>
    simp only at h
    have hopt : rs.fts_options = sd.fts_options := by
      rcases b7 with g | g
      · exact g
      · exact absurd g.2 (by simp)
    rcases readName_cases { rs with fts_cur := ⟨rc, lk⟩ :: rest } c cs (⟨rc, lk⟩ :: rest)
      with g | ⟨path, g⟩
    · rw [g] at h; cases h
    · rw [g] at h
      cases h
      refine Step.down c cs rc _ hD hA rfl b1.1 b1.2.2.2 hch hn
        (by show rs.fts_options.stop = false; rw [hopt]; exact h2) ?_ (Or.inl ⟨k1, ?_⟩)
      · intro he
        by_cases hpe : p0.fts_errno = 0
        · right
          have hne : rc.fts_errno ≠ ({ p0 with fts_instr := FTS_NOINSTR } : FTSENT).fts_errno := by
            show rc.fts_errno ≠ p0.fts_errno
            rw [hpe]; exact he
          obtain ⟨_, r, hr1, hr2⟩ := k3 hne (by simp)
          rw [hfc] at hr2
          rw [hacc] at hr1
          exact enterFails_build sys t p0 lk rest r hc h7 (by rw [← h3]; exact hr1) hr2
        · exact Or.inl hpe
      · intro x hx
        obtain ⟨x1, x2, _, _, x5⟩ := b3 x hx
        exact ⟨by show t.nalloc ≤ x.addr; rw [← h1]; exact x1, x2, x5, k9 x hx⟩

theorem readDir_step (sys : Sys) (hq : ∀ cmp l, (sys.qsort cmp l).Perm l) (t : FTS)
    (p0 : FTSENT) (lk : List FTSENT) (rest : List Frame)
    (hc : t.fts_cur = ⟨p0, lk⟩ :: rest) (hstop : t.fts_options.stop = false)
    (hD : p0.fts_info = FTS_D) (hA : p0.fts_instr ≠ FTS_AGAIN)
    (v : Option FTSENT) (w : FTS)
    (h : readDir sys t { p0 with fts_instr := FTS_NOINSTR } lk rest p0.fts_instr =
      Outcome.ret v w) :
    Step sys t p0 lk rest v w := by
  unfold readDir at h
  by_cases hx : p0.fts_instr = FTS_SKIP ∨ (t.fts_options.xdev = true ∧
      ({ p0 with fts_instr := FTS_NOINSTR } : FTSENT).fts_dev ≠ t.fts_dev)
  · rw [if_pos hx] at h
    cases h
    exact Step.stay _ _ (Or.inr (Or.inr hD)) rfl rfl rfl (Or.inr rfl) (Nat.le_refl _) hstop
      (fun _ _ => ⟨rfl, Or.inl rfl⟩)
  · rw [if_neg hx] at h
    obtain ⟨d1, d2, d3, d4, d5, d6⟩ := readDrop_facts t
    unfold readDirEnter at h
    cases hch0 : (readDirDrop t).fts_child with
    | nil =>
      rw [hch0] at h
      exact readDirBuild_step sys hq t (readDirDrop t) p0 lk rest hc hD hA d1 (d2.trans hstop)
        d3 d4 d5 hch0 hch0 v w h
    | cons c cs =>
      have hsd : readDirDrop t = t := by
        rcases d6 with g | g
        · rw [g] at hch0; cases hch0
        · exact g
      have hch : t.fts_child = c :: cs := by rw [← hsd]; exact hch0
      rw [hsd, hch] at h
      dsimp only at h
      have hacc : accString t (rest.map (fun g => g.ent)) { p0 with fts_instr := FTS_NOINSTR } =
          accString t (rest.map (fun g => g.ent)) p0 := accString_congr t t _ p0 FTS_NOINSTR rfl
      rw [hacc] at h
      obtain ⟨g1, _, _, _, g5⟩ := CHDIR_frame sys t (accString t (rest.map (fun g => g.ent)) p0)
      have hst2 : (CHDIR sys t (accString t (rest.map (fun g => g.ent)) p0)).2.fts_options.stop =
          false := by rw [g1]; exact hstop
      by_cases hf : (CHDIR sys t (accString t (rest.map (fun g => g.ent)) p0)).1 = true
      · rw [if_pos hf] at h
        by_cases hpar : ∀ q ∈ c :: cs,
            q.fts_parent = some ({ p0 with fts_instr := FTS_NOINSTR } : FTSENT).addr
        · rw [if_pos hpar] at h
          rcases readName_cases _ _ _ _ with g | ⟨path, g⟩
          · rw [g] at h; cases h
          · rw [g] at h
            cases h
            refine Step.down _ _ _ _ hD hA rfl rfl rfl rfl (by show t.nalloc ≤ _; rw [g5])
              hst2 ?_ (Or.inr ⟨?_, ?_⟩)
            · intro _
              exact Or.inr (enterFails_pending sys t p0 lk rest c cs hc hch0 hf)
            · rw [hch]
              simp [List.map_map, Function.comp]
            · rw [hch]
              simp [List.map_map, Function.comp]
        · rw [if_neg hpar] at h; cases h
      · rw [if_neg hf] at h
        rcases readName_cases _ _ _ _ with g | ⟨path, g⟩
        · rw [g] at h; cases h
        · rw [g] at h
          cases h
          refine Step.down c cs _ _ hD hA rfl rfl rfl rfl (by show t.nalloc ≤ _; rw [g5])
            hst2 ?_ (Or.inr ⟨by rw [hch], by rw [hch]⟩)
          intro he
          exact Or.inl he

theorem read_step (sys : Sys) (hq : ∀ cmp l, (sys.qsort cmp l).Perm l) (t : FTS)
    (p0 : FTSENT) (lk : List FTSENT) (rest : List Frame)
    (hc : t.fts_cur = ⟨p0, lk⟩ :: rest) (v : Option FTSENT) (w : FTS)
    (h : fts_read sys t = Outcome.ret v w) : Step sys t p0 lk rest v w := by
  unfold fts_read at h
  rw [hc] at h
  dsimp only at h
  by_cases hs : t.fts_options.stop = true
  · rw [if_pos hs] at h
    cases h
    exact Step.stopped _ hs (Nat.le_refl _)
  · rw [if_neg hs] at h
    have hstop : t.fts_options.stop = false := by simpa using hs
    by_cases ha : p0.fts_instr = FTS_AGAIN
    · rw [if_pos ha] at h
      cases h
      have hsame := fts_stat_same sys t (rest.map (fun g => g.ent)) none
        { p0 with fts_instr := FTS_NOINSTR } false
      exact Step.stay _ _ (Or.inl ha) rfl hsame.1 hsame.2.2.2 (Or.inl rfl) (Nat.le_refl _)
        hstop (fun hna => absurd ha hna)
    · rw [if_neg ha] at h
      by_cases hf : p0.fts_instr = FTS_FOLLOW ∧
          (({ p0 with fts_instr := FTS_NOINSTR } : FTSENT).fts_info = FTS_SL ∨
           ({ p0 with fts_instr := FTS_NOINSTR } : FTSENT).fts_info = FTS_SLNONE)
      · rw [if_pos hf] at h
        cases h
        obtain ⟨g1, g2, g3, _⟩ := followStat_frame sys t (rest.map (fun g => g.ent))
          { p0 with fts_instr := FTS_NOINSTR }
        have hsame := followStat_same sys t (rest.map (fun g => g.ent))
          { p0 with fts_instr := FTS_NOINSTR }
        refine Step.stay _ _ (Or.inr (Or.inl ⟨hf.1, hf.2⟩)) rfl hsame.1 hsame.2.2.2 (Or.inl g2)
          (by show t.nalloc ≤ (followStat sys t _ _).2.nalloc; rw [g1])
          (by show (followStat sys t _ _).2.fts_options.stop = false; rw [g3]; exact hstop) ?_
        intro _ hD
        rcases hf.2 with h2 | h2
        · rw [show p0.fts_info = FTS_SL from h2] at hD; cases hD
        · rw [show p0.fts_info = FTS_SLNONE from h2] at hD; cases hD
      · rw [if_neg hf] at h
        by_cases hd : ({ p0 with fts_instr := FTS_NOINSTR } : FTSENT).fts_info = FTS_D
        · rw [if_pos hd] at h
          exact readDir_step sys hq t p0 lk rest hc hstop hd ha v w h
        · rw [if_neg hd] at h
          have := readNext_step sys rest lk
            { t with fts_cur := ⟨{ p0 with fts_instr := FTS_NOINSTR }, lk⟩ :: rest }
            { p0 with fts_instr := FTS_NOINSTR } v w hstop h t p0 [] hd rfl rfl
          simpa using this

theorem childrenBuild_eff (sys : Sys) (hq : ∀ cmp l, (sys.qsort cmp l).Perm l) (p : FTSENT)
    (lk : List FTSENT) (rest : List Frame) (hD : p.fts_info = FTS_D)
    (s1 : FTS) (ty : BType) (hty : ty ≠ BType.BREAD) (l2 : List FTSENT) (s2 : FTS)
    (e1 : s1.fts_cur = ⟨p, lk⟩ :: rest) (e2 : fts_build sys s1 ty = Outcome.ret l2 s2)
    (t : FTS) (ht1 : t.fts_cur = ⟨p, lk⟩ :: rest) (ht2 : t.nalloc = s1.nalloc)
    (ht3 : t.fts_options.stop = false)
    (w : FTS) (w1 : w.fts_cur = s2.fts_cur) (w2 : w.fts_child = l2)
    (w3 : w.nalloc = s2.nalloc) (w4 : w.fts_options.stop = s2.fts_options.stop) :
    Built t w := by
  have hpost := fts_build_core_post sys hq s1 p (rest.map (fun g => g.ent)) ty
  obtain ⟨k1, _, _, k4⟩ := fts_build_core_cur sys hq s1 p (rest.map (fun g => g.ent)) ty
  obtain ⟨k5, k6⟩ := k4 hty
  unfold fts_build at e2
  rw [e1] at e2
  dsimp only at e2
  generalize fts_build_core sys s1 p (rest.map (fun g => g.ent)) ty = r at hpost k1 k5 k6 e2
  obtain ⟨rl, rc, rs⟩ := r
  obtain ⟨b1, b2, b3, _⟩ := hpost
  simp only at b1 b2 b3 k1 k5 k6 e2
  cases e2
  refine ⟨p, lk, rest, rc, ht1, hD, ht3, w1, b1, k5, ?_, ?_, ?_, ?_⟩
  · rcases k6 with g | g
    · exact Or.inl g
    · right; rw [w4]; exact g
  · rw [w3, ht2]; exact b2
  · rw [w2]; exact k1
  · intro q hq2
    rw [w2] at hq2
    obtain ⟨x1, x2, _, _, x5⟩ := b3 q hq2
    exact ⟨by rw [ht2]; exact x1, by rw [w3]; exact x2, x5⟩

theorem childrenTail_eff (sys : Sys) (hq : ∀ cmp l, (sys.qsort cmp l).Perm l) (p : FTSENT)
    (lk : List FTSENT) (rest : List Frame) (hD : p.fts_info = FTS_D)
    (s1 : FTS) (ty : BType) (hty : ty ≠ BType.BREAD) (c : Prop) [Decidable c]
    (l : List FTSENT) (u : FTS)
    (e1 : s1.fts_cur = ⟨p, lk⟩ :: rest)
    (t : FTS) (ht1 : t.fts_cur = ⟨p, lk⟩ :: rest) (ht2 : t.nalloc = s1.nalloc)
    (ht3 : t.fts_options.stop = false) (ht4 : s1.fts_child = t.fts_child)
    (ht5 : s1.fts_options.stop = false)
    (h : (if c then
            match fts_build sys s1 ty with
            | Outcome.crash => Outcome.crash
            | Outcome.ret l sp2 => Outcome.ret l { sp2 with fts_child := l }
          else
            match sys.openDot s1.cwd with
            | Except.error e => Outcome.ret [] { s1 with errno := e }
            | Except.ok fd =>
              match fts_build sys s1 ty with
              | Outcome.crash => Outcome.crash
              | Outcome.ret l sp2 =>
                match sys.fchdir fd with
                | Except.error e => Outcome.ret [] { { sp2 with fts_child := l } with errno := e }
                | Except.ok d => Outcome.ret l { { sp2 with fts_child := l } with cwd := d })
          = Outcome.ret l u) :
    Unbuilt t u ∨ Built t u := by
  by_cases hcc : c
  · rw [if_pos hcc] at h
    cases hb : fts_build sys s1 ty with
    | crash => rw [hb] at h; cases h
    | ret l2 s2 =>
      rw [hb] at h
      cases h
      exact Or.inr (childrenBuild_eff sys hq p lk rest hD s1 ty hty l s2 e1 hb t ht1 ht2 ht3
        _ rfl rfl rfl rfl)
  · rw [if_neg hcc] at h
    cases ho : sys.openDot s1.cwd with
    | error e =>
      rw [ho] at h
      cases h
      exact Or.inl ⟨e1.trans ht1.symm, ht4, ht2.symm, ht5.trans ht3.symm⟩
    | ok fd =>
      rw [ho] at h
      cases hb : fts_build sys s1 ty with
      | crash => rw [hb] at h; cases h
      | ret l2 s2 =>
        rw [hb] at h
        dsimp only at h
        have hw := childrenBuild_eff sys hq p lk rest hD s1 ty hty l2 s2 e1 hb t ht1 ht2 ht3
        cases hd : sys.fchdir fd with
        | error e =>
          rw [hd] at h
          cases h
          exact Or.inr (hw { { s2 with fts_child := l2 } with errno := e } rfl rfl rfl rfl)
        | ok d =>
          rw [hd] at h
          cases h
          exact Or.inr (hw { { s2 with fts_child := l } with cwd := d } rfl rfl rfl rfl)

theorem children_call (sys : Sys) (hq : ∀ cmp l, (sys.qsort cmp l).Perm l) (t : FTS)
    (instr : Int) (l : List FTSENT) (u : FTS)
    (h : fts_children sys t instr = Outcome.ret l u) : Unbuilt t u ∨ Built t u := by
  unfold fts_children at h
  by_cases hi : instr ≠ 0 ∧ instr ≠ (FTS_NAMEONLY : Int)
  · rw [if_pos hi] at h
    cases h
    exact Or.inl ⟨rfl, rfl, rfl, rfl⟩
  · rw [if_neg hi] at h
    dsimp only at h
    by_cases hs : t.fts_options.stop = true
    · rw [if_pos hs] at h
      cases h
      exact Or.inl ⟨rfl, rfl, rfl, rfl⟩
    · rw [if_neg hs] at h
      have hstop : t.fts_options.stop = false := by simpa using hs
      cases hc : t.fts_cur with
      | nil => rw [hc] at h; cases h
      | cons f rest =>
        obtain ⟨p, lk⟩ := f
        rw [hc] at h
        dsimp only at h
        by_cases h1 : p.fts_info = FTS_INIT
        · rw [if_pos h1] at h
          cases h
          exact Or.inl ⟨hc.symm, rfl, rfl, rfl⟩
        · rw [if_neg h1] at h
          by_cases h2 : p.fts_info ≠ FTS_D
          · rw [if_pos h2] at h
            cases h
            exact Or.inl ⟨hc.symm, rfl, rfl, rfl⟩
          · rw [if_neg h2] at h
            have hD : p.fts_info = FTS_D := by
              by_contra hne; exact h2 hne
            refine childrenTail_eff sys hq p lk rest hD _ _ ?_ _ l u ?_ t hc ?_ hstop ?_ ?_ h
            · split <;> decide
            · split <;> rfl
            · split <;> rfl
            · split <;> rfl
            · split <;> exact hstop

theorem levels_cons (f : Frame) (rest : List Frame) (h0 : 0 ≤ f.ent.fts_level)
    (h1 : ∀ q ∈ f.link, 0 ≤ q.fts_level) (hr : Levels rest) : Levels (f :: rest) := by
  cases rest with
  | nil => exact absurd hr (by simp [Levels])
  | cons g r => exact ⟨h0, h1, hr⟩

theorem levels_up (par : Frame) (rest1 : List Frame) (h : Levels (par :: rest1))
    (hl : par.ent.fts_level ≠ FTS_ROOTPARENTLEVEL) :
    0 ≤ par.ent.fts_level ∧ (∀ q ∈ par.link, 0 ≤ q.fts_level) ∧ Levels rest1 := by
  cases rest1 with
  | nil => exact absurd h hl
  | cons g r => exact h

theorem stack_addrs_cons (p : FTSENT) (lk : List FTSENT) (rest : List Frame) :
    (⟨p, lk⟩ :: rest : List Frame).flatMap frameAddrs =
      p.addr :: lk.map (fun q => q.addr) ++ rest.flatMap frameAddrs := by
  simp [List.flatMap_cons, frameAddrs]

theorem nodup_of_subperm {l1 l2 : List Nat} (h : l1.Subperm l2) (hn : l2.Nodup) :
    l1.Nodup ∧ ∀ x ∈ l1, x ∈ l2 := by
  obtain ⟨l, hp, hs⟩ := h
  refine ⟨hp.nodup_iff.mp (hn.sublist hs), ?_⟩
  intro x hx
  exact hs.subset (hp.mem_iff.mpr hx)

theorem wf_core_of (t w : FTS) (fresh : List Nat)
    (hn : (liveAddrs t).Nodup) (hb : ∀ x ∈ liveAddrs t, x < t.nalloc)
    (hf1 : fresh.Nodup) (hf2 : ∀ x ∈ fresh, t.nalloc ≤ x ∧ x < w.nalloc)
    (hle : t.nalloc ≤ w.nalloc) (hs : (liveAddrs w).Subperm (fresh ++ liveAddrs t)) :
    (liveAddrs w).Nodup ∧ ∀ x ∈ liveAddrs w, x < w.nalloc := by
  have hnd : (fresh ++ liveAddrs t).Nodup := by
    rw [List.nodup_append]
    refine ⟨hf1, hn, ?_⟩
    intro x hx1 hx2
    have := (hf2 x hx1).1
    have := hb x hx2
    omega
  obtain ⟨h1, h2⟩ := nodup_of_subperm hs hnd
  refine ⟨h1, ?_⟩
  intro x hx
  rcases List.mem_append.mp (h2 x hx) with h3 | h3
  · exact (hf2 x h3).2
  · exact Nat.lt_of_lt_of_le (hb x h3) hle

theorem erase_levels (l2 l : List FTSENT) (h : l2.map eraseInstr = l.map eraseInstr)
    (hl : ∀ q ∈ l, 0 ≤ q.fts_level) : ∀ q ∈ l2, 0 ≤ q.fts_level := by
  intro q hq
  have : eraseInstr q ∈ l.map eraseInstr := by rw [← h]; exact List.mem_map_of_mem _ hq
  obtain ⟨y, hy, hyq⟩ := List.mem_map.mp this
  rw [← eraseInstr_level _ _ hyq]
  exact hl y hy

theorem levels_erase : ∀ (r1 r2 : List Frame), r1.map eraseFrame = r2.map eraseFrame →
    Levels r2 → Levels r1 := by
  intro r1
  induction r1 with
  | nil =>
    intro r2 h ha
    cases r2 with
    | nil => exact ha
    | cons b bs => simp at h
  | cons a as ih =>
    intro r2 h ha
    cases r2 with
    | nil => simp at h
    | cons b bs =>
      simp only [List.map_cons, List.cons.injEq] at h
      have h1 : eraseInstr a.ent = eraseInstr b.ent := congrArg Frame.ent h.1
      have h2 : a.link.map eraseInstr = b.link.map eraseInstr := congrArg Frame.link h.1
      have h3 : a.ent.fts_level = b.ent.fts_level := eraseInstr_level _ _ h1
      cases as with
      | nil =>
        cases bs with
        | nil =>
          show a.ent.fts_level = FTS_ROOTPARENTLEVEL
          rw [h3]; exact ha
        | cons b2 bs2 => simp at h
      | cons a2 as2 =>
        cases bs with
        | nil => simp at h
        | cons b2 bs2 =>
          exact ⟨by rw [h3]; exact ha.1, erase_levels _ _ h2 ha.2.1, ih (b2 :: bs2) h.2 ha.2.2⟩

theorem wf_set (s t : FTS) (h : SetOnly s t) (hwf : WellFormed s) : WellFormed t := by
  obtain ⟨hi, hd⟩ := h
  obtain ⟨cur, child, ht, hcur, hchild⟩ := hi
  subst ht
  rcases hwf with hs | ⟨h1, h2, h3, h4⟩
  · exact Or.inl hs
  · right
    have ha : liveAddrs { s with fts_cur := cur, fts_child := child } = liveAddrs s := by
      unfold liveAddrs
      show cur.flatMap frameAddrs ++ child.map _ = _
      rw [erase_flat cur s.fts_cur hcur, eraseInstr_addr_list _ _ hchild]
    refine ⟨by rw [ha]; exact h1, by rw [ha]; exact h2, ?_, erase_levels _ _ hchild h4⟩
    rcases h3 with h3 | ⟨f, rest, hc, hh, hl⟩
    · left
      rw [h3] at hcur
      cases cur with
      | nil => rfl
      | cons x y => simp at hcur
    · right
      rw [hc] at hcur
      cases cur with
      | nil => simp at hcur
      | cons f2 rest2 =>
        simp only [List.map_cons, List.cons.injEq] at hcur
        have e1 : eraseInstr f2.ent = eraseInstr f.ent := congrArg Frame.ent hcur.1
        have e2 : f2.link.map eraseInstr = f.link.map eraseInstr := congrArg Frame.link hcur.1
        refine ⟨f2, rest2, rfl, ⟨?_, erase_levels _ _ e2 hh.2⟩, levels_erase _ _ hcur.2 hl⟩
        rcases hh.1 with ⟨k1, _⟩ | k
        · left
          have k2 : f2.ent.fts_info = FTS_INIT := by
            rw [(eraseInstr_fields _ _ e1).2]; exact k1
          exact ⟨k2, hd f2 (by simp) k2⟩
        · right
          rw [eraseInstr_level _ _ e1]; exact k

theorem wf_children (sys : Sys) (hq : ∀ cmp l, (sys.qsort cmp l).Perm l) (t : FTS)
    (instr : Int) (l : List FTSENT) (u : FTS)
    (h : fts_children sys t instr = Outcome.ret l u) (hwf : WellFormed t) : WellFormed u := by
  rcases children_call sys hq t instr l u h with hu | hb
  · obtain ⟨u1, u2, u3, u4⟩ := hu
    unfold WellFormed liveAddrs at hwf ⊢
    rw [u1, u2, u3, u4]
    exact hwf
  · obtain ⟨p, lk, rest, e, b1, b2, b3, b4, b5, b6, b7, b8, b9, b10⟩ := hb
    by_cases hst : u.fts_options.stop = true
    · exact Or.inl hst
    · rcases hwf with hs | ⟨h1, h2, h3, h4⟩
      · rw [b3] at hs; cases hs
      · right
        have hp : 0 ≤ p.fts_level ∧ (∀ q ∈ lk, 0 ≤ q.fts_level) ∧ Levels rest := by
          rcases h3 with h3 | ⟨f, r, hc, hh, hl⟩
          · rw [b1] at h3; cases h3
          · rw [b1] at hc
            simp only [List.cons.injEq] at hc
            obtain ⟨hc1, hc2⟩ := hc
            subst hc1; subst hc2
            rcases hh.1 with ⟨k1, _⟩ | k
            · rw [b2] at k1; exact absurd k1 (by decide)
            · exact ⟨k, hh.2, hl⟩
        have hcore := wf_core_of t u (u.fts_child.map (fun q => q.addr)) h1 h2 b9
          (by
            intro x hx
            obtain ⟨q, hq2, hqa⟩ := List.mem_map.mp hx
            rw [← hqa]
            exact ⟨(b10 q hq2).1, (b10 q hq2).2.1⟩) b8
          (by
            unfold liveAddrs
            rw [b4, b1, stack_addrs_cons, stack_addrs_cons, b5.1]
            exact ⟨_, List.perm_append_comm,
              List.Sublist.append (List.Sublist.refl _) (List.sublist_append_left _ _)⟩)
        refine ⟨hcore.1, hcore.2, Or.inr ⟨_, _, b4, ⟨Or.inr ?_, hp.2.1⟩, hp.2.2⟩, ?_⟩
        · rw [b5.2.2.2]; exact hp.1
        · intro q hq2
          rw [(b10 q hq2).2.2]
          have := hp.1
          omega

theorem wf_caller (sys : Sys) (hq : ∀ cmp l, (sys.qsort cmp l).Perm l) (s t : FTS)
    (h : Caller sys s t) (hwf : WellFormed s) : WellFormed t := by
  induction h with
  | idle => exact hwf
  | set t u _ hs ih => exact wf_set t u hs ih
  | rejected t _ ih => exact ih
  | children t instr l u _ hc ih => exact wf_children sys hq t instr l u hc ih

theorem live_cons (t : FTS) (p : FTSENT) (lk : List FTSENT) (rest : List Frame)
    (hc : t.fts_cur = ⟨p, lk⟩ :: rest) :
    liveAddrs t = p.addr :: (lk.map (fun q => q.addr) ++
      (rest.flatMap frameAddrs ++ t.fts_child.map (fun q => q.addr))) := by
  unfold liveAddrs
  rw [hc, stack_addrs_cons]
  simp only [List.cons_append, List.append_assoc]

theorem pending_levels (l : List FTSENT) (child : List FTSENT)
    (h : l.map (fun x => x.fts_level) = child.map (fun x => x.fts_level))
    (h4 : ∀ q ∈ child, 0 ≤ q.fts_level) : ∀ x ∈ l, 0 ≤ x.fts_level := by
  intro x hx
  have : x.fts_level ∈ child.map (fun x => x.fts_level) := by
    rw [← h]; exact List.mem_map_of_mem _ hx
  obtain ⟨y, hy, hyx⟩ := List.mem_map.mp this
  rw [← hyx]; exact h4 y hy

theorem wf_read (sys : Sys) (hq : ∀ cmp l, (sys.qsort cmp l).Perm l) (t : FTS)
    (v : Option FTSENT) (w : FTS) (h : fts_read sys t = Outcome.ret v w)
    (hwf : WellFormed t) : WellFormed w := by
  by_cases hst : t.fts_options.stop = true
  · rw [read_stopped sys t hst] at h
    cases h
    exact hwf
  · rcases hwf with hs | ⟨h1, h2, h3, h4⟩
    · exact absurd hs hst
    · rcases h3 with h3 | ⟨f, rest, hc, hh, hl⟩
      · have : fts_read sys t = Outcome.ret none t := by unfold fts_read; rw [h3]
        rw [this] at h; cases h; exact Or.inr ⟨h1, h2, Or.inl h3, h4⟩
      · obtain ⟨p, lk⟩ := f
        have ht := live_cons t p lk rest hc
        have hs := read_step sys hq t p lk rest hc v w h
        cases hs with
        | stopped w a1 a2 => exact Or.inl a1
        | done w par rest1 d1 d2 d3 d4 d5 d6 d7 =>
          right
          have hcore := wf_core_of t w [] h1 h2 List.nodup_nil
            (by intro x hx; simp at hx) (by omega)
            (by
              apply List.Sublist.subperm
              rw [ht]
              unfold liveAddrs
              rw [d4, d5]
              exact (List.sublist_append_right _ _).trans
                ((List.sublist_append_right _ _).trans (List.sublist_cons_self _ _)))
          exact ⟨hcore.1, hcore.2, Or.inl d4, by rw [d5]; exact h4⟩
        | stay e w s1 s2 s3 s4 s5 s6 s7 s8 =>
          right
          have hw := live_cons w e lk rest s2
          have hcore := wf_core_of t w [] h1 h2 List.nodup_nil
            (by intro x hx; simp at hx) s6
            (by
              apply List.Sublist.subperm
              rw [ht, hw, s3]
              apply List.Sublist.cons₂
              apply List.Sublist.append (List.Sublist.refl _)
              apply List.Sublist.append (List.Sublist.refl _)
              rcases s5 with s5 | s5
              · rw [s5]
              · rw [s5]; exact List.nil_sublist _)
          refine ⟨hcore.1, hcore.2, Or.inr ⟨_, _, s2, ⟨Or.inr ?_, hh.2⟩, hl⟩, ?_⟩
          · rw [s4]
            rcases hh.1 with ⟨k1, k2⟩ | k
            · rcases s1 with s | s | s
              · rw [k2] at s; exact absurd s (by decide)
              · rw [k2] at s; exact absurd s.1 (by decide)
              · rw [k1] at s; exact absurd s (by decide)
            · exact k
          · rcases s5 with s5 | s5
            · rw [s5]; exact h4
            · rw [s5]; intro q hq2; simp at hq2
        | down c cs e w d1 d2 d3 d4 d5 d6 d7 d8 d9 d10 =>
          right
          have hp : 0 ≤ p.fts_level := by
            rcases hh.1 with ⟨k1, _⟩ | k
            · rw [d1] at k1; exact absurd k1 (by decide)
            · exact k
          have hw : liveAddrs w = (c :: cs).map (fun x => x.addr) ++
              (p.addr :: (lk.map (fun q => q.addr) ++ rest.flatMap frameAddrs)) := by
            unfold liveAddrs
            rw [d3, d6, stack_addrs_cons, stack_addrs_cons, d4]
            simp only [List.map_cons, List.map_nil, List.cons_append, List.append_nil]
          have hsub : (p.addr :: (lk.map (fun q => q.addr) ++ rest.flatMap frameAddrs)).Sublist
              (liveAddrs t) := by
            rw [ht]
            apply List.Sublist.cons₂
            apply List.Sublist.append (List.Sublist.refl _)
            exact List.sublist_append_left _ _
          have hlv : ∀ x ∈ c :: cs, 0 ≤ x.fts_level := by
            rcases d10 with ⟨_, g2⟩ | ⟨_, g2⟩
            · intro x hx
              rw [(g2 x hx).2.2.1]; omega
            · exact pending_levels _ _ g2 h4
          have hcore : (liveAddrs w).Nodup ∧ ∀ x ∈ liveAddrs w, x < w.nalloc := by
            rcases d10 with ⟨g1, g2⟩ | ⟨g1, _⟩
            · refine wf_core_of t w ((c :: cs).map (fun x => x.addr)) h1 h2 g1 ?_ d7 ?_
              · intro x hx
                obtain ⟨y, hy, hyx⟩ := List.mem_map.mp hx
                rw [← hyx]
                exact ⟨(g2 y hy).1, (g2 y hy).2.1⟩
              · rw [hw]
                exact (List.Sublist.append (List.Sublist.refl _) hsub).subperm
            · refine wf_core_of t w [] h1 h2 List.nodup_nil (by intro x hx; simp at hx) d7 ?_
              rw [hw, g1, List.nil_append]
              refine ⟨_, List.perm_append_comm, ?_⟩
              rw [ht]
              simp only [List.cons_append, List.append_assoc]
              exact List.Sublist.refl _
          refine ⟨hcore.1, hcore.2, Or.inr ⟨_, _, d3, ⟨Or.inr (hlv c (by simp)), ?_⟩, ?_⟩, ?_⟩
          · intro q hq2; exact hlv q (List.mem_cons_of_mem _ hq2)
          · exact levels_cons _ _ (by show 0 ≤ e.fts_level; rw [d5]; exact hp) hh.2 hl
          · rw [d6]; intro q hq2; simp at hq2
        | side e l pre q w s1 s2 s3 s4 s5 s6 s7 s8 _ =>
          right
          have hw := live_cons w e l rest s3
          have hcore := wf_core_of t w [] h1 h2 List.nodup_nil
            (by intro x hx; simp at hx) (by omega)
            (by
              apply List.Sublist.subperm
              rw [ht, hw, s4, s6, s2, List.nil_append]
              apply List.Sublist.cons
              simp only [List.map_append, List.map_cons, List.append_assoc, List.cons_append]
              exact List.sublist_append_right _ _)
          refine ⟨hcore.1, hcore.2, Or.inr ⟨_, _, s3, ⟨Or.inr ?_, ?_⟩, hl⟩,
            by rw [s6]; exact h4⟩
          · rw [s5]; exact hh.2 q (by rw [s2]; simp)
          · intro x hx; exact hh.2 x (by rw [s2]; simp [hx])
        | up e par rest1 w u1 u2 u3 u4 u5 u6 u7 u8 u9 u10 =>
          right
          obtain ⟨pe, pl⟩ := par
          have hw := live_cons w e pl rest1 u4
          rw [u2] at hl
          obtain ⟨l1, l2, l3⟩ := levels_up _ _ hl u3
          have hcore := wf_core_of t w [] h1 h2 List.nodup_nil
            (by intro x hx; simp at hx) (by omega)
            (by
              apply List.Sublist.subperm
              rw [ht, hw, u5, u8, u2, stack_addrs_cons, List.nil_append]
              apply List.Sublist.cons
              simp only [List.cons_append, List.append_assoc]
              exact List.sublist_append_right _ _)
          exact ⟨hcore.1, hcore.2, Or.inr ⟨_, _, u4, ⟨Or.inr (by rw [u6]; exact l1), l2⟩, l3⟩,
            by rw [u8]; exact h4⟩

theorem forall2_mem_left {α β : Type} {R : α → β → Prop} {l1 : List α} {l2 : List β}
    (h : List.Forall₂ R l1 l2) : ∀ x ∈ l1, ∃ y ∈ l2, R x y := by
  induction h with
  | nil => intro x hx; simp at hx
  | cons hr _ ih =>
    intro x hx
    rcases List.mem_cons.mp hx with hx | hx
    · subst hx; exact ⟨_, by simp, hr⟩
    · obtain ⟨y, hy, hxy⟩ := ih x hx
      exact ⟨y, List.mem_cons_of_mem _ hy, hxy⟩

theorem open_wf (sys : Sys) (hq : ∀ cmp l, (sys.qsort cmp l).Perm l) (cwd errno0 : Nat)
    (argv : List Bytes) (options : Nat) (compar : Option (FTSENT → FTSENT → Int))
    (sp0 : FTS) (h : (fts_open sys cwd errno0 argv options compar).1 = some sp0) :
    WellFormed sp0 := by
  obtain ⟨dm, rts, par, l0, r1, r2, r3, r4, r5, _⟩ :=
    open_roots sys hq cwd errno0 argv options compar sp0 h
  obtain ⟨a1, a2, a3, a4, a5, a6⟩ := openInit_facts sys cwd errno0 argv options compar
  unfold fts_open at h
  by_cases hm : options &&& (0xffffffff - FTS_OPTIONMASK) ≠ 0
  · rw [if_pos hm] at h; simp at h
  · rw [if_neg hm] at h
    dsimp only at h
    rcases hr : openRoots sys (openInit sys cwd errno0 argv options compar).2 argv
      (openInit sys cwd errno0 argv options compar).1 [] 0 with ⟨r1, sp3⟩
    rw [hr] at h
    cases r1 with
    | none => simp at h
    | some r =>
      obtain ⟨root, nitems⟩ := r
      simp only [Option.some.injEq] at h
      obtain ⟨i1, i2, i3, i4⟩ := openRoots_inv sys _ argv _ [] 0 (root, nitems) sp3 hr
        (by intro x hx; simp at hx) rfl
      obtain ⟨j1, _⟩ := openRoots_addrs sys _ argv _ [] 0 (root, nitems) sp3 hr
      rw [a1] at j1
      simp only [List.map_nil, List.nil_append] at j1
      obtain ⟨dummy, roots, f1, f2, f3, f4, f5, _, f7, f8, _, _⟩ :=
        openFinish_facts sys hq sp3 (openInit sys cwd errno0 argv options compar).2 root nitems i2
      rw [h] at f1 f7 f8
      rw [r1] at f1
      simp only [List.cons.injEq, Frame.mk.injEq, and_true] at f1
      obtain ⟨⟨e1, e2⟩, e3⟩ := f1
      subst e1; subst e2; subst e3
      have hch : sp0.fts_child = [] := by rw [f8, i4.2.2.2, a2]
      have hra : (rts.map (fun c => c.addr)).Perm (List.range' 1 argv.length) :=
        (f2.map _).trans j1
      have hrn : (rts.map (fun c => c.addr)).Nodup :=
        hra.nodup_iff.mpr (List.nodup_range' 1 argv.length)
      have hr1 : ∀ x ∈ rts.map (fun c => c.addr), 1 ≤ x ∧ x < sp3.nalloc := by
        intro x hx
        refine ⟨?_, ?_⟩
        · have := hra.mem_iff.mp hx
          rw [List.mem_range'] at this
          obtain ⟨i, _, hi⟩ := this
          omega
        · obtain ⟨y, hy, hyx⟩ := List.mem_map.mp hx
          rw [← hyx]
          exact (i1 y (f2.mem_iff.mp hy)).1
      have hlive : liveAddrs sp0 = dm.addr :: (rts.map (fun c => c.addr) ++ [0]) := by
        rw [live_cons sp0 dm rts _ r1, hch]
        simp [List.flatMap_cons, frameAddrs, a4]
      right
      refine ⟨?_, ?_, Or.inr ⟨_, _, r1, ⟨Or.inl ⟨r2, f4⟩, ?_⟩, r3⟩, ?_⟩
      · rw [hlive, List.nodup_cons, List.nodup_append]
        refine ⟨?_, hrn, by simp, ?_⟩
        · intro hx
          rcases List.mem_append.mp hx with hx | hx
          · have := (hr1 _ hx).2; omega
          · simp at hx
            rw [a1] at i3; omega
        · intro x hx1 hx2
          simp at hx2
          have := (hr1 x hx1).1; omega
      · intro x hx
        rw [hlive] at hx
        rw [f7]
        rcases List.mem_cons.mp hx with hx | hx
        · omega
        · rcases List.mem_append.mp hx with hx | hx
          · have := (hr1 x hx).2; omega
          · simp at hx; omega
      · intro q hq2
        have hq3 := r4.mem_iff.mp hq2
        obtain ⟨a, _, hra2⟩ := forall2_mem_left r5 q hq3
        rw [hra2.2.2.1]; decide
      · rw [hch]; intro q hq2; simp at hq2

theorem walk_wf (sys : Sys) (hq : ∀ cmp l, (sys.qsort cmp l).Perm l) :
    ∀ (l : List Call) (s : FTS), WellFormed s → Walk sys s l →
      ∀ c ∈ l, WellFormed c.pre ∧ WellFormed c.post := by
  intro l
  induction l with
  | nil => intro s _ _ c hc; simp at hc
  | cons d l ih =>
    intro s hwf hw c hc
    obtain ⟨w1, w2, w3⟩ := hw
    have k1 := wf_caller sys hq s d.pre w1 hwf
    have k2 := wf_read sys hq d.pre d.val d.post w2 k1
    rcases List.mem_cons.mp hc with hc | hc
    · subst hc; exact ⟨k1, k2⟩
    · exact ih d.post k2 w3 c hc

theorem eraseInstr_errno (e p : FTSENT) (h : eraseInstr e = eraseInstr p) :
    e.fts_errno = p.fts_errno := by
  have := congrArg (fun x : FTSENT => x.fts_errno) h
  exact this

theorem caller_stop (sys : Sys) (hq : ∀ cmp l, (sys.qsort cmp l).Perm l) (s t : FTS)
    (h : Caller sys s t) (hs : s.fts_options.stop = true) : t.fts_options.stop = true := by
  induction h with
  | idle => exact hs
  | set t u _ hset ih =>
    rw [(instrOnly_frame hset.1).1]; exact ih
  | rejected t _ ih => exact ih
  | children t instr l u _ hc ih =>
    rcases children_call sys hq t instr l u hc with hu | hb
    · rw [hu.2.2.2]; exact ih
    · obtain ⟨p, lk, rest, e, _, _, b3, _⟩ := hb
      rw [b3] at ih; cases ih

theorem caller_pre (sys : Sys) (hq : ∀ cmp l, (sys.qsort cmp l).Perm l) (D : FTSENT)
    (s t : FTS) (h : Caller sys s t) (hs : PreAt D s) : PreAt D t := by
  induction h with
  | idle => exact hs
  | set t u _ hset ih =>
    rcases ih with ih | ⟨q, lk, rest, h1, h2, h3, h4⟩
    · left; rw [(instrOnly_frame hset.1).1]; exact ih
    · right
      obtain ⟨i1, _⟩ := instrOnly_parts hset.1
      rw [h1] at i1
      cases hu : u.fts_cur with
      | nil => rw [hu] at i1; simp at i1
      | cons f r =>
        rw [hu] at i1
        simp only [List.map_cons, List.cons.injEq] at i1
        have e1 : eraseInstr f.ent = eraseInstr q := congrArg Frame.ent i1.1
        obtain ⟨g1, g2⟩ := eraseInstr_fields _ _ e1
        exact ⟨f.ent, f.link, r, rfl, g1.trans h2, g2.trans h3,
          (eraseInstr_errno _ _ e1).trans h4⟩
  | rejected t _ ih => exact ih
  | children t instr l u _ hc ih =>
    rcases children_call sys hq t instr l u hc with hu | hb
    · unfold PreAt at ih ⊢
      rw [hu.1, hu.2.2.2]; exact ih
    · obtain ⟨p, lk, rest, e, b1, b2, b3, b4, b5, b6, b7, _⟩ := hb
      rcases ih with ih | ⟨q, lk2, rest2, h1, h2, h3, h4⟩
      · rw [b3] at ih; cases ih
      · rw [b1] at h1
        simp only [List.cons.injEq, Frame.mk.injEq] at h1
        obtain ⟨⟨k1, _⟩, _⟩ := h1
        subst k1
        rcases b7 with b7 | b7
        · exact Or.inr ⟨e, lk, rest, b4, b5.1.trans h2, b7.trans h3, b6.trans h4⟩
        · exact Or.inl b7

theorem caller_below (sys : Sys) (hq : ∀ cmp l, (sys.qsort cmp l).Perm l) (a : Nat) (P : Prop)
    (s t : FTS) (h : Caller sys s t) (hs : Below a P s) : Below a P t := by
  induction h with
  | idle => exact hs
  | set t u _ hset ih =>
    rcases ih with ih | ⟨mid, E, lk, rest, h1, h2, h3, h5, h4⟩
    · left; rw [(instrOnly_frame hset.1).1]; exact ih
    · right
      obtain ⟨i1, _⟩ := instrOnly_parts hset.1
      rw [h1] at i1
      obtain ⟨m2, b2, j1, j2, j3⟩ := erase_split mid _ _ i1
      cases b2 with
      | nil => simp at j3
      | cons f r =>
        simp only [List.map_cons, List.cons.injEq] at j3
        have e1 : eraseInstr f.ent = eraseInstr E := congrArg Frame.ent j3.1
        refine ⟨m2, f.ent, f.link, r, j1, ?_, (eraseInstr_fields _ _ e1).1.trans h3,
          by rw [eraseInstr_level _ _ e1]; exact h5, ?_⟩
        · intro hm
          rw [hm] at j2
          cases mid with
          | nil => exact h2 rfl
          | cons x y => simp at j2
        · rw [eraseInstr_errno _ _ e1]; exact h4
  | rejected t _ ih => exact ih
  | children t instr l u _ hc ih =>
    rcases children_call sys hq t instr l u hc with hu | hb
    · unfold Below at ih ⊢
      rw [hu.1, hu.2.2.2]; exact ih
    · obtain ⟨p, lk, rest, e, b1, b2, b3, b4, b5, b6, b7, _⟩ := hb
      rcases ih with ih | ⟨mid, E, lk2, rest2, h1, h2, h3, h5, h4⟩
      · rw [b3] at ih; cases ih
      · right
        cases mid with
        | nil => exact absurd rfl h2
        | cons f m =>
          rw [b1] at h1
          simp only [List.cons_append, List.cons.injEq] at h1
          obtain ⟨k1, k2⟩ := h1
          refine ⟨⟨e, lk⟩ :: m, E, lk2, rest2, ?_, by simp, h3, h5, h4⟩
          rw [b4, k2]; rfl

theorem caller_back (sys : Sys) (hq : ∀ cmp l, (sys.qsort cmp l).Perm l) (a : Nat)
    (s t : FTS) (h : Caller sys s t) (hs : Back a s) : Back a t := by
  induction h with
  | idle => exact hs
  | set t u _ hset ih =>
    rcases ih with ih | ⟨q, lk, rest, h1, h2, h3, h4, h5⟩
    · left; rw [(instrOnly_frame hset.1).1]; exact ih
    · right
      obtain ⟨i1, _⟩ := instrOnly_parts hset.1
      rw [h1] at i1
      cases hu : u.fts_cur with
      | nil => rw [hu] at i1; simp at i1
      | cons f r =>
        rw [hu] at i1
        simp only [List.map_cons, List.cons.injEq] at i1
        have e1 : eraseInstr f.ent = eraseInstr q := congrArg Frame.ent i1.1
        obtain ⟨g1, g2⟩ := eraseInstr_fields _ _ e1
        exact ⟨f.ent, f.link, r, rfl, g1.trans h2, by rw [g2]; exact h3, by rw [g2]; exact h4,
          by rw [g2]; exact h5⟩
  | rejected t _ ih => exact ih
  | children t instr l u _ hc ih =>
    rcases children_call sys hq t instr l u hc with hu | hb
    · unfold Back at ih ⊢
      rw [hu.1, hu.2.2.2]; exact ih
    · obtain ⟨p, lk, rest, e, b1, b2, b3, b4, b5, b6, b7, _⟩ := hb
      rcases ih with ih | ⟨q, lk2, rest2, h1, h2, h3, _⟩
      · rw [b3] at ih; cases ih
      · rw [b1] at h1
        simp only [List.cons.injEq, Frame.mk.injEq] at h1
        obtain ⟨⟨k1, _⟩, _⟩ := h1
        subst k1
        exact absurd b2 h3

theorem caller_left (sys : Sys) (hq : ∀ cmp l, (sys.qsort cmp l).Perm l) (a : Nat)
    (s t : FTS) (h : Caller sys s t) (hs : Left a s) : Left a t := by
  induction h with
  | idle => exact hs
  | set t u _ hset ih =>
    obtain ⟨cur, child, ht, hcur, hchild⟩ := hset.1
    subst ht
    have ha : liveAddrs { t with fts_cur := cur, fts_child := child } = liveAddrs t := by
      unfold liveAddrs
      show cur.flatMap frameAddrs ++ child.map _ = _
      rw [erase_flat cur t.fts_cur hcur, eraseInstr_addr_list _ _ hchild]
    unfold Left at ih ⊢
    rw [ha]; exact ih
  | rejected t _ ih => exact ih
  | children t instr l u _ hc ih =>
    rcases children_call sys hq t instr l u hc with hu | hb
    · unfold Left liveAddrs at ih ⊢
      rw [hu.1, hu.2.1, hu.2.2.1, hu.2.2.2]; exact ih
    · obtain ⟨p, lk, rest, e, b1, b2, b3, b4, b5, b6, b7, b8, b9, b10⟩ := hb
      rcases ih with ih | ⟨h1, h2⟩
      · rw [b3] at ih; cases ih
      · right
        refine ⟨?_, Nat.lt_of_lt_of_le h2 b8⟩
        intro hx
        unfold liveAddrs at hx h1
        rw [b4, stack_addrs_cons, b5.1] at hx
        rw [b1, stack_addrs_cons] at h1
        rcases List.mem_append.mp hx with hx | hx
        · exact h1 (List.mem_append_left _ hx)
        · obtain ⟨q, hq2, hqa⟩ := List.mem_map.mp hx
          have := (b10 q hq2).1
          omega

theorem step_cursor (sys : Sys) (t : FTS) (p : FTSENT) (lk : List FTSENT) (rest : List Frame)
    (e : FTSENT) (w : FTS) (hs : Step sys t p lk rest (some e) w) :
    w.fts_options.stop = false ∧ ∃ l r, w.fts_cur = ⟨e, l⟩ :: r := by
  cases hs with
  | stay e w s1 s2 s3 s4 s5 s6 s7 s8 => exact ⟨s7, _, _, s2⟩
  | down c cs e w d1 d2 d3 d4 d5 d6 d7 d8 d9 d10 => exact ⟨d8, _, _, d3⟩
  | side e l pre q w s1 s2 s3 s4 s5 s6 s7 s8 s9 => exact ⟨s8, _, _, s3⟩
  | up e par rest1 w u1 u2 u3 u4 u5 u6 u7 u8 u9 u10 => exact ⟨u10, _, _, u4⟩

theorem cursor_live (w : FTS) (e : FTSENT) (l : List FTSENT) (r : List Frame)
    (h : w.fts_cur = ⟨e, l⟩ :: r) : e.addr ∈ liveAddrs w := by
  rw [live_cons w e l r h]
  exact List.mem_cons_self _ _

theorem step_live (sys : Sys) (t : FTS) (p : FTSENT) (lk : List FTSENT) (rest : List Frame)
    (hc : t.fts_cur = ⟨p, lk⟩ :: rest) (v : Option FTSENT) (w : FTS)
    (hs : Step sys t p lk rest v w) :
    w.fts_options.stop = true ∨
    (t.nalloc ≤ w.nalloc ∧ ∀ x ∈ liveAddrs w, x ∈ liveAddrs t ∨ t.nalloc ≤ x) := by
  have ht := live_cons t p lk rest hc
  cases hs with
  | stopped w a1 a2 => exact Or.inl a1
  | done w par rest1 d1 d2 d3 d4 d5 d6 d7 =>
    right
    refine ⟨by omega, ?_⟩
    intro x hx
    left
    unfold liveAddrs at hx
    rw [d4, d5] at hx
    rw [ht]
    simp only [List.flatMap_nil, List.nil_append] at hx
    simp [hx]
  | stay e w s1 s2 s3 s4 s5 s6 s7 s8 =>
    right
    refine ⟨s6, ?_⟩
    intro x hx
    left
    rw [live_cons w e lk rest s2, s3] at hx
    rw [ht]
    rcases s5 with s5 | s5
    · rw [s5] at hx; exact hx
    · rw [s5] at hx
      simp only [List.map_nil, List.append_nil, List.mem_cons, List.mem_append] at hx ⊢
      tauto
  | down c cs e w d1 d2 d3 d4 d5 d6 d7 d8 d9 d10 =>
    right
    refine ⟨d7, ?_⟩
    intro x hx
    have hw : liveAddrs w = (c :: cs).map (fun x => x.addr) ++
        (p.addr :: (lk.map (fun q => q.addr) ++ rest.flatMap frameAddrs)) := by
      unfold liveAddrs
      rw [d3, d6, stack_addrs_cons, stack_addrs_cons, d4]
      simp only [List.map_cons, List.map_nil, List.cons_append, List.append_nil]
    rw [hw] at hx
    rw [ht]
    rcases List.mem_append.mp hx with hx | hx
    · rcases d10 with ⟨_, g2⟩ | ⟨g1, _⟩
      · right
        obtain ⟨y, hy, hyx⟩ := List.mem_map.mp hx
        rw [← hyx]; exact (g2 y hy).1
      · left
        rw [g1] at hx
        simp only [List.mem_cons, List.mem_append]
        tauto
    · left
      simp only [List.mem_cons, List.mem_append] at hx ⊢
      tauto
  | side e l pre q w s1 s2 s3 s4 s5 s6 s7 s8 s9 =>
    right
    refine ⟨by omega, ?_⟩
    intro x hx
    left
    rw [live_cons w e l rest s3, s4, s6] at hx
    rw [ht, s2]
    simp only [List.mem_cons, List.mem_append, List.map_append, List.map_cons] at hx ⊢
    tauto
  | up e par rest1 w u1 u2 u3 u4 u5 u6 u7 u8 u9 u10 =>
    right
    refine ⟨by omega, ?_⟩
    intro x hx
    left
    obtain ⟨pe, pl⟩ := par
    rw [live_cons w e pl rest1 u4, u5, u8] at hx
    rw [ht, u2, stack_addrs_cons]
    simp only [List.mem_cons, List.mem_append] at hx ⊢
    tauto

theorem step_leave (sys : Sys) (t : FTS) (p : FTSENT) (lk : List FTSENT) (rest : List Frame)
    (hc : t.fts_cur = ⟨p, lk⟩ :: rest) (v : Option FTSENT) (w : FTS)
    (hs : Step sys t p lk rest v w) (hk : p.fts_info ≠ FTS_D)
    (hi : ¬ (p.fts_instr = FTS_AGAIN ∨
      (p.fts_instr = FTS_FOLLOW ∧ (p.fts_info = FTS_SL ∨ p.fts_info = FTS_SLNONE)))) :
    w.fts_options.stop = true ∨
    (w.nalloc = t.nalloc ∧ ∀ x ∈ liveAddrs w, x ∈ (liveAddrs t).tail) := by
  have ht := live_cons t p lk rest hc
  cases hs with
  | stopped w a1 a2 => exact Or.inl a1
  | done w par rest1 d1 d2 d3 d4 d5 d6 d7 =>
    right
    refine ⟨d6, ?_⟩
    intro x hx
    unfold liveAddrs at hx
    rw [d4, d5] at hx
    rw [ht]
    simp only [List.flatMap_nil, List.nil_append] at hx
    simp [hx]
  | stay e w s1 s2 s3 s4 s5 s6 s7 s8 =>
    exfalso
    rcases s1 with s | s | s
    · exact hi (Or.inl s)
    · exact hi (Or.inr s)
    · exact hk s
  | down c cs e w d1 d2 d3 d4 d5 d6 d7 d8 d9 d10 => exact absurd d1 hk
  | side e l pre q w s1 s2 s3 s4 s5 s6 s7 s8 s9 =>
    right
    refine ⟨s7, ?_⟩
    intro x hx
    rw [live_cons w e l rest s3, s4, s6] at hx
    rw [ht, s2]
    simp only [List.mem_cons, List.mem_append, List.map_append, List.map_cons,
      List.tail_cons] at hx ⊢
    tauto
  | up e par rest1 w u1 u2 u3 u4 u5 u6 u7 u8 u9 u10 =>
    right
    refine ⟨u9, ?_⟩
    intro x hx
    obtain ⟨pe, pl⟩ := par
    rw [live_cons w e pl rest1 u4, u5, u8] at hx
    rw [ht, u2, stack_addrs_cons]
    simp only [List.mem_cons, List.mem_append, List.tail_cons] at hx ⊢
    tauto

theorem left_read (sys : Sys) (hq : ∀ cmp l, (sys.qsort cmp l).Perm l) (a : Nat) (t : FTS)
    (v : Option FTSENT) (w : FTS) (h : fts_read sys t = Outcome.ret v w) (hl : Left a t) :
    (∀ e, v = some e → e.addr ≠ a) ∧ Left a w := by
  by_cases hst : t.fts_options.stop = true
  · rw [read_stopped sys t hst] at h
    cases h
    exact ⟨fun e he => (by cases he), hl⟩
  · rcases hl with hl | ⟨h1, h2⟩
    · exact absurd hl hst
    · cases hc : t.fts_cur with
      | nil =>
        have : fts_read sys t = Outcome.ret none t := by unfold fts_read; rw [hc]
        rw [this] at h; cases h
        exact ⟨fun e he => (by cases he), Or.inr ⟨h1, h2⟩⟩
      | cons f rest =>
        obtain ⟨p, lk⟩ := f
        have hs := read_step sys hq t p lk rest hc v w h
        rcases step_live sys t p lk rest hc v w hs with k | ⟨k1, k2⟩
        · refine ⟨?_, Or.inl k⟩
          intro e he
          subst he
          rw [(step_cursor sys t p lk rest e w hs).1] at k
          cases k
        · have hna : a ∉ liveAddrs w := by
            intro hx
            rcases k2 a hx with k3 | k3
            · exact h1 k3
            · omega
          refine ⟨?_, Or.inr ⟨hna, by omega⟩⟩
          intro e he hea
          subst he
          obtain ⟨_, l, r, hw⟩ := step_cursor sys t p lk rest e w hs
          have := cursor_live w e l r hw
          rw [hea] at this
          exact hna this

theorem back_read (sys : Sys) (hq : ∀ cmp l, (sys.qsort cmp l).Perm l) (a : Nat) (t : FTS)
    (v : Option FTSENT) (w : FTS) (h : fts_read sys t = Outcome.ret v w) (hwf : WellFormed t)
    (hb : Back a t)
    (hag : ∀ f ∈ t.fts_cur.head?, f.ent.addr = a → f.ent.fts_instr ≠ FTS_AGAIN) :
    (∀ e, v = some e → e.addr ≠ a) ∧ Left a w := by
  by_cases hst : t.fts_options.stop = true
  · rw [read_stopped sys t hst] at h
    cases h
    exact ⟨fun e he => (by cases he), Or.inl hst⟩
  · rcases hb with hb | ⟨p, lk, rest, hc, b2, b3, b4, b5⟩
    · exact absurd hb hst
    · rcases hwf with hs | ⟨h1, h2, _, _⟩
      · exact absurd hs hst
      · have hs := read_step sys hq t p lk rest hc v w h
        have hA : p.fts_instr ≠ FTS_AGAIN := hag ⟨p, lk⟩ (by rw [hc]; simp) b2
        have ht := live_cons t p lk rest hc
        have hnt : a ∉ (liveAddrs t).tail := by
          rw [ht] at h1 ⊢
          rw [List.tail_cons]
          rw [List.nodup_cons, b2] at h1
          exact h1.1
        have hlt : a < t.nalloc := by
          rw [← b2]; exact h2 _ (cursor_live t p lk rest hc)
        rcases step_leave sys t p lk rest hc v w hs b3 (by
            rintro (k | ⟨_, k | k⟩)
            · exact hA k
            · exact b4 k
            · exact b5 k) with k | ⟨k1, k2⟩
        · refine ⟨?_, Or.inl k⟩
          intro e he
          subst he
          rw [(step_cursor sys t p lk rest e w hs).1] at k
          cases k
        · have hna : a ∉ liveAddrs w := fun hx => hnt (k2 a hx)
          refine ⟨?_, Or.inr ⟨hna, by omega⟩⟩
          intro e he hea
          subst he
          obtain ⟨_, l, r, hw⟩ := step_cursor sys t p lk rest e w hs
          have := cursor_live w e l r hw
          rw [hea] at this
          exact hna this

theorem mid_ne (w : FTS) (hwf : WellFormed w) (hst : w.fts_options.stop = false) (e : FTSENT)
    (l : List FTSENT) (m : List Frame) (E : FTSENT) (lk : List FTSENT) (rest : List Frame)
    (hc : w.fts_cur = (⟨e, l⟩ :: m) ++ ⟨E, lk⟩ :: rest) : e.addr ≠ E.addr := by
  rcases hwf with hs | ⟨h1, _, _, _⟩
  · rw [hst] at hs; cases hs
  · rw [live_cons w e l (m ++ ⟨E, lk⟩ :: rest) hc, List.nodup_cons] at h1
    intro hea
    apply h1.1
    rw [hea]
    simp [List.flatMap_append, List.flatMap_cons, frameAddrs]

theorem levels_no_end (x : Frame) (m : List Frame) (E : FTSENT) (lk : List FTSENT)
    (rest : List Frame) (hl : Levels (m ++ ⟨E, lk⟩ :: rest)) (hE : 0 ≤ E.fts_level)
    (hx : (m ++ ⟨E, lk⟩ :: rest).head? = some x) : x.ent.fts_level ≠ FTS_ROOTPARENTLEVEL := by
  cases m with
  | nil =>
    simp only [List.nil_append, List.head?_cons, Option.some.injEq] at hx
    subst hx
    intro h2
    have h3 : E.fts_level = FTS_ROOTPARENTLEVEL := h2
    rw [h3] at hE
    exact absurd hE (by decide)
  | cons y m2 =>
    simp only [List.cons_append, List.head?_cons, Option.some.injEq] at hx
    subst hx
    cases hm : m2 ++ (⟨E, lk⟩ : Frame) :: rest with
    | nil => simp at hm
    | cons z r3 =>
      rw [List.cons_append, hm] at hl
      have h2 : 0 ≤ y.ent.fts_level := hl.1
      intro h3
      rw [h3] at h2
      exact absurd h2 (by decide)

theorem below_read (sys : Sys) (hq : ∀ cmp l, (sys.qsort cmp l).Perm l) (a : Nat) (P : Prop)
    (t : FTS) (v : Option FTSENT) (w : FTS) (h : fts_read sys t = Outcome.ret v w)
    (hwf : WellFormed t) (hb : Below a P t) :
    (v = none ∧ w.fts_options.stop = true) ∨
    (∃ e, v = some e ∧ e.addr ≠ a ∧ Below a P w) ∨
    (∃ e, v = some e ∧ e.addr = a ∧ (e.fts_info = FTS_DP ∨ (e.fts_info = FTS_ERR ∧ P)) ∧
      Back a w) := by
  have hwfw := wf_read sys hq t v w h hwf
  by_cases hst : t.fts_options.stop = true
  · rw [read_stopped sys t hst] at h
    cases h
    exact Or.inl ⟨rfl, hst⟩
  · rcases hb with hb | ⟨mid, E, lk, rest, hc, hm, hEa, hEl, hEe⟩
    · exact absurd hb hst
    · rcases hwf with hs | ⟨_, _, h3, _⟩
      · exact absurd hs hst
      · cases mid with
        | nil => exact absurd rfl hm
        | cons f m =>
          obtain ⟨p, l0⟩ := f
          have hc2 : t.fts_cur = ⟨p, l0⟩ :: (m ++ ⟨E, lk⟩ :: rest) := hc
          have hlev : Levels (m ++ ⟨E, lk⟩ :: rest) := by
            rcases h3 with h3 | ⟨f, r, hf, _, hl⟩
            · rw [hc2] at h3; cases h3
            · rw [hc2] at hf
              simp only [List.cons.injEq] at hf
              rw [hf.2]; exact hl
          have hs := read_step sys hq t p l0 (m ++ ⟨E, lk⟩ :: rest) hc2 v w h
          cases hs with
          | stopped w a1 a2 => exact Or.inl ⟨rfl, a1⟩
          | done w par rest1 d1 d2 d3 d4 d5 d6 d7 =>
            exfalso
            exact levels_no_end par m E lk rest hlev hEl (by rw [d2]; rfl) d3
          | stay e w s1 s2 s3 s4 s5 s6 s7 s8 =>
            right; left
            have hw : w.fts_cur = (⟨e, l0⟩ :: m) ++ ⟨E, lk⟩ :: rest := s2
            exact ⟨e, rfl, by rw [← hEa]; exact mid_ne w hwfw s7 e l0 m E lk rest hw,
              Or.inr ⟨_, E, lk, rest, hw, by simp, hEa, hEl, hEe⟩⟩
          | down c cs e w d1 d2 d3 d4 d5 d6 d7 d8 d9 d10 =>
            right; left
            have hw : w.fts_cur = (⟨c, cs⟩ :: ⟨e, l0⟩ :: m) ++ ⟨E, lk⟩ :: rest := d3
            exact ⟨c, rfl, by rw [← hEa]; exact mid_ne w hwfw d8 c cs _ E lk rest hw,
              Or.inr ⟨_, E, lk, rest, hw, by simp, hEa, hEl, hEe⟩⟩
          | side e l pre q w s1 s2 s3 s4 s5 s6 s7 s8 s9 =>
            right; left
            have hw : w.fts_cur = (⟨e, l⟩ :: m) ++ ⟨E, lk⟩ :: rest := s3
            exact ⟨e, rfl, by rw [← hEa]; exact mid_ne w hwfw s8 e l m E lk rest hw,
              Or.inr ⟨_, E, lk, rest, hw, by simp, hEa, hEl, hEe⟩⟩
          | up e par rest1 w u1 u2 u3 u4 u5 u6 u7 u8 u9 u10 =>
            right
            cases m with
            | nil =>
              right
              simp only [List.nil_append, List.cons.injEq] at u2
              obtain ⟨k1, k2⟩ := u2
              subst k1; subst k2
              refine ⟨e, rfl, u5.trans hEa, ?_, Or.inr ⟨e, lk, rest, u4, u5.trans hEa, ?_⟩⟩
              · rcases u7 with g | ⟨g1, g2⟩
                · exact Or.inl g
                · exact Or.inr ⟨g1, hEe g2⟩
              · rcases u7 with g | ⟨g, _⟩
                · rw [g]; exact ⟨by decide, by decide, by decide⟩
                · rw [g]; exact ⟨by decide, by decide, by decide⟩
            | cons x m2 =>
              left
              simp only [List.cons_append, List.cons.injEq] at u2
              obtain ⟨k1, k2⟩ := u2
              subst k1; subst k2
              have hw : w.fts_cur = (⟨e, x.link⟩ :: m2) ++ ⟨E, lk⟩ :: rest := u4
              exact ⟨e, rfl, by rw [← hEa]; exact mid_ne w hwfw u10 e _ m2 E lk rest hw,
                Or.inr ⟨_, E, lk, rest, hw, by simp, hEa, hEl, hEe⟩⟩

theorem pre_read (sys : Sys) (hq : ∀ cmp l, (sys.qsort cmp l).Perm l) (D : FTSENT)
    (t : FTS) (v : Option FTSENT) (w : FTS) (h : fts_read sys t = Outcome.ret v w)
    (hwf : WellFormed t) (hp : PreAt D t)
    (hag : ∀ f ∈ t.fts_cur.head?, f.ent.addr = D.addr → f.ent.fts_instr ≠ FTS_AGAIN) :
    (v = none ∧ w.fts_options.stop = true) ∨
    (∃ e, v = some e ∧ e.addr = D.addr ∧
      (e.fts_info = FTS_DP ∨ (e.fts_info = FTS_DNR ∧ openFails sys t = true)) ∧
      Back D.addr w) ∨
    (∃ c, v = some c ∧ c.addr ≠ D.addr ∧
      Below D.addr (D.fts_errno ≠ 0 ∨ enterFails sys t = true) w) := by
  have hwfw := wf_read sys hq t v w h hwf
  by_cases hst : t.fts_options.stop = true
  · rw [read_stopped sys t hst] at h
    cases h
    exact Or.inl ⟨rfl, hst⟩
  · rcases hp with hp | ⟨p, lk, rest, hc, p2, p3, p4⟩
    · exact absurd hp hst
    · rcases hwf with hs | ⟨_, _, h3, _⟩
      · exact absurd hs hst
      · have hA : p.fts_instr ≠ FTS_AGAIN := hag ⟨p, lk⟩ (by rw [hc]; simp) p2
        have hlev : 0 ≤ p.fts_level := by
          rcases h3 with h3 | ⟨f, r, hf, hh, _⟩
          · rw [hc] at h3; cases h3
          · rw [hc] at hf
            simp only [List.cons.injEq] at hf
            rw [← hf.1] at hh
            rcases hh.1 with ⟨k, _⟩ | k
            · rw [p3] at k; exact absurd k (by decide)
            · exact k
        have hs := read_step sys hq t p lk rest hc v w h
        cases hs with
        | stopped w a1 a2 => exact Or.inl ⟨rfl, a1⟩
        | done w par rest1 d1 d2 d3 d4 d5 d6 d7 => exact absurd p3 d1
        | stay e w s1 s2 s3 s4 s5 s6 s7 s8 =>
          right; left
          obtain ⟨_, k⟩ := s8 hA p3
          refine ⟨e, rfl, s3.trans p2, k, Or.inr ⟨e, lk, rest, s2, s3.trans p2, ?_⟩⟩
          rcases k with g | ⟨g, _⟩
          · rw [g]; exact ⟨by decide, by decide, by decide⟩
          · rw [g]; exact ⟨by decide, by decide, by decide⟩
        | down c cs e w d1 d2 d3 d4 d5 d6 d7 d8 d9 d10 =>
          right; right
          have hw : w.fts_cur = (⟨c, cs⟩ :: []) ++ ⟨e, lk⟩ :: rest := d3
          refine ⟨c, rfl, ?_, Or.inr ⟨_, e, lk, rest, hw, by simp, d4.trans p2,
            by rw [d5]; exact hlev, ?_⟩⟩
          · rw [← p2, ← d4]; exact mid_ne w hwfw d8 c cs [] e lk rest hw
          · intro he
            rcases d9 he with g | g
            · left; rw [← p4]; exact g
            · exact Or.inr g
        | side e l pre q w s1 s2 s3 s4 s5 s6 s7 s8 s9 => exact absurd p3 s1
        | up e par rest1 w u1 u2 u3 u4 u5 u6 u7 u8 u9 u10 => exact absurd p3 u1

theorem stopped_walk (sys : Sys) (hq : ∀ cmp l, (sys.qsort cmp l).Perm l) :
    ∀ (l : List Call) (s : FTS), s.fts_options.stop = true → Walk sys s l →
      ∀ c ∈ l, c.val = none ∧ c.post.fts_options.stop = true := by
  intro l
  induction l with
  | nil => intro s _ _ c hc; simp at hc
  | cons c l ih =>
    intro s hs htr x hx
    obtain ⟨hi, hr, htl⟩ := htr
    have hts : c.pre.fts_options.stop = true := caller_stop sys hq s c.pre hi hs
    rw [read_stopped sys c.pre hts] at hr
    simp only [Outcome.ret.injEq] at hr
    rcases List.mem_cons.mp hx with hx | hx
    · subst hx
      exact ⟨hr.1.symm, by rw [← hr.2]; exact hts⟩
    · exact ih c.post (by rw [← hr.2]; exact hts) htl x hx

theorem pairedBy_stopped (a : Nat) (K : FTSENT → Prop) (l : List Call)
    (h : ∀ c ∈ l, c.val = none ∧ c.post.fts_options.stop = true) : PairedBy a K l := by
  have hf : l.filter (retAddr a) = [] := by
    refine filter_nil_of a l ?_
    intro c hc
    exact retAddr_false a c (fun e he => by rw [(h c hc).1] at he; cases he)
  refine ⟨by rw [hf]; simp, ?_, ?_⟩
  · intro c hc e he
    rw [(h c hc).1] at he; cases he
  · intro c hc _ hs
    rw [(h c hc).2] at hs; cases hs

theorem pairedBy_hit (a : Nat) (K : FTSENT → Prop) (c : Call) (l : List Call) (e : FTSENT)
    (hv : c.val = some e) (he : e.addr = a) (hk : K e)
    (h : ∀ x ∈ l, retAddr a x = false) : PairedBy a K (c :: l) := by
  have hc : retAddr a c = true := by
    unfold retAddr; rw [hv]; simp [he]
  have hf : (c :: l).filter (retAddr a) = [c] := by
    rw [List.filter_cons_of_pos hc, filter_nil_of a l h]
  refine ⟨by rw [hf]; simp, ?_, ?_⟩
  · intro x hx e2 he2 hea
    rcases List.mem_cons.mp hx with hx | hx
    · subst hx
      rw [hv] at he2
      cases he2
      exact hk
    · exfalso
      have := h x hx
      unfold retAddr at this
      rw [he2] at this
      simp [hea] at this
  · intro _ _ _ _
    rw [hf]; rfl

theorem pairedBy_miss (a : Nat) (K : FTSENT → Prop) (c : Call) (l : List Call) (e : FTSENT)
    (hv : c.val = some e) (he : e.addr ≠ a) (h : PairedBy a K l) : PairedBy a K (c :: l) := by
  have hc : ¬ retAddr a c = true := by
    unfold retAddr; rw [hv]; simpa using he
  have hf : (c :: l).filter (retAddr a) = l.filter (retAddr a) := List.filter_cons_of_neg hc
  refine ⟨by rw [hf]; exact h.1, ?_, ?_⟩
  · intro x hx e2 he2 hea
    rcases List.mem_cons.mp hx with hx | hx
    · subst hx
      rw [hv] at he2
      cases he2
      exact absurd hea he
    · exact h.2.1 x hx e2 he2 hea
  · intro x hx hn hs
    rw [hf]
    rcases List.mem_cons.mp hx with hx | hx
    · subst hx
      rw [hv] at hn; cases hn
    · exact h.2.2 x hx hn hs

theorem pairedBy_mono (a : Nat) (K1 K2 : FTSENT → Prop) (l : List Call)
    (hk : ∀ e, K1 e → K2 e) (h : PairedBy a K1 l) : PairedBy a K2 l :=
  ⟨h.1, fun c hc e he hea => hk e (h.2.1 c hc e he hea), h.2.2⟩

theorem left_walk (sys : Sys) (hq : ∀ cmp l, (sys.qsort cmp l).Perm l) (a : Nat) :
    ∀ (l : List Call) (s : FTS), Left a s → Walk sys s l → ∀ c ∈ l, retAddr a c = false := by
  intro l
  induction l with
  | nil => intro s _ _ c hc; simp at hc
  | cons c l ih =>
    intro s hs htr x hx
    obtain ⟨hi, hr, htl⟩ := htr
    have h1 := caller_left sys hq a s c.pre hi hs
    obtain ⟨h2, h3⟩ := left_read sys hq a c.pre c.val c.post hr h1
    rcases List.mem_cons.mp hx with hx | hx
    · subst hx
      exact retAddr_false a _ h2
    · exact ih c.post h3 htl x hx

theorem back_walk (sys : Sys) (hq : ∀ cmp l, (sys.qsort cmp l).Perm l) (a : Nat)
    (l : List Call) (s : FTS) (hwf : WellFormed s) (hb : Back a s) (hw : Walk sys s l)
    (hag : ∀ c ∈ l, NoAgainOn a c) : ∀ c ∈ l, retAddr a c = false := by
  cases l with
  | nil => intro c hc; simp at hc
  | cons c l =>
    obtain ⟨hi, hr, htl⟩ := hw
    have h1 := caller_back sys hq a s c.pre hi hb
    have h0 := wf_caller sys hq s c.pre hi hwf
    obtain ⟨h2, h3⟩ := back_read sys hq a c.pre c.val c.post hr h0 h1
      (hag c (List.mem_cons_self _ _))
    intro x hx
    rcases List.mem_cons.mp hx with hx | hx
    · subst hx
      exact retAddr_false a _ h2
    · exact left_walk sys hq a l c.post h3 htl x hx

theorem below_walk (sys : Sys) (hq : ∀ cmp l, (sys.qsort cmp l).Perm l) (a : Nat) (P : Prop) :
    ∀ (l : List Call) (s : FTS), WellFormed s → Below a P s → Walk sys s l →
      (∀ c ∈ l, NoAgainOn a c) →
      PairedBy a (fun e => e.fts_info = FTS_DP ∨ (e.fts_info = FTS_ERR ∧ P)) l := by
  intro l
  induction l with
  | nil =>
    intro s _ _ _ _
    exact ⟨by simp, fun c hc => by simp at hc, fun c hc => by simp at hc⟩
  | cons c l ih =>
    intro s hwf hb hw hag
    obtain ⟨hi, hr, htl⟩ := hw
    have hag2 : ∀ x ∈ l, NoAgainOn a x := fun x hx => hag x (List.mem_cons_of_mem _ hx)
    have h0 := wf_caller sys hq s c.pre hi hwf
    have h1 := caller_below sys hq a P s c.pre hi hb
    have h4 := wf_read sys hq c.pre c.val c.post hr h0
    rcases below_read sys hq a P c.pre c.val c.post hr h0 h1 with ⟨hv, hs⟩ | ⟨e, hv, he, hin⟩ |
        ⟨e, hv, he, hk, hpost⟩
    · refine pairedBy_stopped a _ (c :: l) ?_
      intro x hx
      rcases List.mem_cons.mp hx with hx | hx
      · subst hx; exact ⟨hv, hs⟩
      · exact stopped_walk sys hq l c.post hs htl x hx
    · exact pairedBy_miss a _ c l e hv he (ih c.post h4 hin htl hag2)
    · exact pairedBy_hit a _ c l e hv he hk (back_walk sys hq a l c.post h4 hpost htl hag2)

theorem pre_walk (sys : Sys) (hq : ∀ cmp l, (sys.qsort cmp l).Perm l) (D : FTSENT)
    (l : List Call) (s : FTS) (hwf : WellFormed s) (hp : PreAt D s) (hw : Walk sys s l)
    (hag : ∀ c ∈ l, NoAgainOn D.addr c) : PairedAt sys D l := by
  cases l with
  | nil => exact ⟨by simp, fun c hc => by simp at hc, fun c hc => by simp at hc⟩
  | cons c l =>
    obtain ⟨hi, hr, htl⟩ := hw
    have hag2 : ∀ x ∈ l, NoAgainOn D.addr x := fun x hx => hag x (List.mem_cons_of_mem _ hx)
    have h0 := wf_caller sys hq s c.pre hi hwf
    have h1 := caller_pre sys hq D s c.pre hi hp
    have h4 := wf_read sys hq c.pre c.val c.post hr h0
    rcases pre_read sys hq D c.pre c.val c.post hr h0 h1 (hag c (List.mem_cons_self _ _)) with
        ⟨hv, hs⟩ | ⟨e, hv, he, hk, hpost⟩ | ⟨e, hv, he, hin⟩
    · refine pairedBy_stopped D.addr _ (c :: l) ?_
      intro x hx
      rcases List.mem_cons.mp hx with hx | hx
      · subst hx; exact ⟨hv, hs⟩
      · exact stopped_walk sys hq l c.post hs htl x hx
    · refine pairedBy_hit D.addr _ c l e hv he ?_
        (back_walk sys hq D.addr l c.post h4 hpost htl hag2)
      rcases hk with g | ⟨g1, g2⟩
      · exact Or.inl g
      · exact Or.inr (Or.inl ⟨g1, c, l, rfl, g2⟩)
    · refine pairedBy_miss D.addr _ c l e hv he ?_
      refine pairedBy_mono D.addr _ _ l ?_
        (below_walk sys hq D.addr _ l c.post h4 hin htl hag2)
      intro x hx
      rcases hx with g | ⟨g1, g2⟩
      · exact Or.inl g
      · refine Or.inr (Or.inr ⟨g1, ?_⟩)
        rcases g2 with g | g
        · exact Or.inl g
        · exact Or.inr ⟨c, l, rfl, g⟩

theorem read_cursor (sys : Sys) (hq : ∀ cmp l, (sys.qsort cmp l).Perm l) (t : FTS)
    (e : FTSENT) (w : FTS) (h : fts_read sys t = Outcome.ret (some e) w) :
    w.fts_options.stop = false ∧ ∃ l r, w.fts_cur = ⟨e, l⟩ :: r := by
  cases hc : t.fts_cur with
  | nil =>
    have : fts_read sys t = Outcome.ret none t := by unfold fts_read; rw [hc]
    rw [this] at h; cases h
  | cons f rest =>
    obtain ⟨p, lk⟩ := f
    exact step_cursor sys t p lk rest e w (read_step sys hq t p lk rest hc (some e) w h)

theorem walk_at (sys : Sys) (hq : ∀ cmp l, (sys.qsort cmp l).Perm l) (c : Call)
    (l2 : List Call) :
    ∀ (l1 : List Call) (s : FTS), WellFormed s → Walk sys s (l1 ++ c :: l2) →
      WellFormed c.pre ∧ fts_read sys c.pre = Outcome.ret c.val c.post ∧ WellFormed c.post ∧
        Walk sys c.post l2 := by
  intro l1
  induction l1 with
  | nil =>
    intro s hwf hw
    obtain ⟨w1, w2, w3⟩ := hw
    have k1 := wf_caller sys hq s c.pre w1 hwf
    exact ⟨k1, w2, wf_read sys hq c.pre c.val c.post w2 k1, w3⟩
  | cons d l ih =>
    intro s hwf hw
    obtain ⟨w1, w2, w3⟩ := hw
    have k1 := wf_caller sys hq s d.pre w1 hwf
    exact ih d.post (wf_read sys hq d.pre d.val d.post w2 k1) w3

theorem callsOf_walk (sys : Sys) :
    ∀ (k : Nat) (s : FTS), Walk sys s (callsOf sys k s) := by
  intro k
  induction k with
  | zero => intro s; exact trivial
  | succ k ih =>
    intro s
    unfold callsOf
    cases h : fts_read sys s with
    | crash => exact trivial
    | ret v u =>
      cases v with
      | none => exact ⟨Caller.idle s, h, trivial⟩
      | some e => exact ⟨Caller.idle s, h, ih u⟩

/-- C2 (amended): in every walk from `fts_open` by calls of `fts_read`, between which the
caller may set instructions and call `fts_children` (the sort routine returning a
permutation), let a call return the entry `D` with kind pre-dir, and let the caller not set
`FTS_AGAIN` on `D` afterwards. Then the calls that follow return `D` at most once more: with
kind post-dir; or with kind unreadable-dir, and then the call after the pre-dir return could
not open the directory; or with kind error, and then that call could not change into the
directory, or `D` carried an error number already at its pre-dir return. They return `D`
exactly once more when the walk reaches its end, a null return without the stop flag set. When
skip is set on `D`, the very next call returns `D` with kind post-dir, unless the walk has
been stopped. -/
theorem paired_visits (sys : Sys) (hq : ∀ cmp l, (sys.qsort cmp l).Perm l)
    (cwd errno0 : Nat) (argv : List Bytes) (options : Nat)
    (compar : Option (FTSENT → FTSENT → Int)) (s0 : FTS)
    (hopen : (fts_open sys cwd errno0 argv options compar).1 = some s0)
    (l1 : List Call) (c : Call) (l2 : List Call) (hw : Walk sys s0 (l1 ++ c :: l2))
    (D : FTSENT) (hv : c.val = some D) (hD : D.fts_info = FTS_D)
    (hag : ∀ x ∈ l2, NoAgainOn D.addr x) :
    PairedAt sys D l2 ∧
    (∀ c1 l3, l2 = c1 :: l3 → (∀ f ∈ c1.pre.fts_cur.head?, f.ent.fts_instr = FTS_SKIP) →
      c1.pre.fts_options.stop = true ∨
      ∃ e, c1.val = some e ∧ e.addr = D.addr ∧ e.fts_info = FTS_DP) := by
  have hwf0 := open_wf sys hq cwd errno0 argv options compar s0 hopen
  obtain ⟨_, k2, k3, k4⟩ := walk_at sys hq c l2 l1 s0 hwf0 hw
  rw [hv] at k2
  obtain ⟨_, l, r, hc⟩ := read_cursor sys hq c.pre D c.post k2
  have hpre : PreAt D c.post := Or.inr ⟨D, l, r, hc, rfl, hD, rfl⟩
  refine ⟨pre_walk sys hq D l2 c.post k3 hpre k4 hag, ?_⟩
  intro c1 l3 hl hskip
  subst hl
  obtain ⟨hi, hr, _⟩ := k4
  rcases caller_pre sys hq D c.post c1.pre hi hpre with hs | ⟨q, lk, rest, j1, j2, j3, _⟩
  · exact Or.inl hs
  · by_cases hst : c1.pre.fts_options.stop = true
    · exact Or.inl hst
    · right
      have hsk : q.fts_instr = FTS_SKIP := by
        refine hskip ⟨q, lk⟩ ?_
        rw [j1]; simp
      have hA : q.fts_instr ≠ FTS_AGAIN := by rw [hsk]; decide
      rw [fence_step sys c1.pre q lk rest j1 (by simpa using hst) j3 hA (Or.inl hsk)] at hr
      simp only [Outcome.ret.injEq] at hr
      exact ⟨_, hr.1.symm, j2, rfl⟩

set_option maxRecDepth 100000 in
/-- Witness of C2: in scenario 2 the calls of `fts_read` return `D` in pre-order, then m, sub,
a, z, sub in post-order, `D` in post-order and null with the stop flag not set; `D` is
returned exactly once by the calls that follow its pre-order return, and the pairing
holds. -/
theorem paired_visits_witness :
    (callsOf sysNested 9 nestedStart).map
        (fun c => c.val.map (fun e => (e.fts_info, cstr e.fts_name))) =
      [some (FTS_D, "D".toList), some (FTS_F, "m".toList), some (FTS_D, "sub".toList),
        some (FTS_F, "a".toList), some (FTS_F, "z".toList), some (FTS_DP, "sub".toList),
        some (FTS_DP, "D".toList), none] ∧
    ((callsOf sysNested 9 nestedStart).tail.filter
      (retAddr ((((callsOf sysNested 9 nestedStart).headD ⟨spStopped, none, spStopped⟩).val).getD
        ent0).addr)).length = 1 ∧
    PairedAt sysNested
      ((((callsOf sysNested 9 nestedStart).headD ⟨spStopped, none, spStopped⟩).val).getD ent0)
      (callsOf sysNested 9 nestedStart).tail :=
  ⟨by decide, by decide,
   (paired_visits sysNested isort_perm 0 0 ["D".toList] 0 (some byName) nestedStart
      (some_getD_of_isSome _ spStopped (by decide)) []
      ((callsOf sysNested 9 nestedStart).headD ⟨spStopped, none, spStopped⟩)
      (callsOf sysNested 9 nestedStart).tail
      (by rw [← cons_of_length_ne _ _ (by decide)]; exact callsOf_walk sysNested 9 nestedStart)
      ((((callsOf sysNested 9 nestedStart).headD ⟨spStopped, none, spStopped⟩).val).getD ent0)
      (some_getD_of_isSome _ ent0 (by decide)) (by decide)
      (by unfold NoAgainOn; decide)).1⟩

theorem read_err (sys : Sys) (hq : ∀ cmp l, (sys.qsort cmp l).Perm l) (t : FTS)
    (hinv : Inv t) (herr : ErrInv t) (v0 : FTSENT) (w : FTS)
    (h : fts_read sys t = Outcome.ret (some v0) w) : ErrInv w := by
  cases hc : t.fts_cur with
  | nil =>
    have : fts_read sys t = Outcome.ret none t := by unfold fts_read; rw [hc]
    rw [this] at h; cases h
  | cons f rest =>
    obtain ⟨p, lk⟩ := f
    obtain ⟨hpo, hl, _⟩ := hinv.frames hc
    obtain ⟨e1, e2⟩ := herr
    rw [hc] at e1 e2
    have elk : ∀ q ∈ lk, ErrOk q := e2 ⟨p, lk⟩ (List.mem_cons_self _ _)
    have erest : ∀ f ∈ rest, ∀ q ∈ f.link, ErrOk q :=
      fun f hf => e2 f (List.mem_cons_of_mem _ hf)
    have hs := read_step sys hq t p lk rest hc (some v0) w h
    cases hs with
    | stay e w s1 s2 s3 s4 s5 s6 s7 s8 =>
      have hD : p.fts_info = FTS_D := by
        rcases s1 with g | ⟨g, _⟩ | g
        · rw [hpo.2] at g; exact absurd g (by decide)
        · rw [hpo.2] at g; exact absurd g (by decide)
        · exact g
      obtain ⟨_, k⟩ := s8 (by rw [hpo.2]; decide) hD
      refine ⟨?_, ?_⟩
      · intro f hf
        rw [s2] at hf
        simp only [List.head?_cons, Option.mem_def, Option.some.injEq] at hf
        subst hf
        intro hk
        rcases k with g | ⟨g, _⟩
        · rw [g] at hk; cases hk
        · rw [g] at hk; cases hk
      · intro f hf
        rw [s2] at hf
        rcases List.mem_cons.mp hf with hf | hf
        · subst hf; exact elk
        · exact erest f hf
    | down c cs e w d1 d2 d3 d4 d5 d6 d7 d8 d9 d10 =>
      have hcs : ∀ x ∈ v0 :: cs, ErrOk x := by
        rcases d10 with ⟨_, g2⟩ | ⟨g1, _⟩
        · intro x hx; exact (g2 x hx).2.2.2
        · rw [hinv.1] at g1
          simp at g1
      refine ⟨?_, ?_⟩
      · intro f hf
        rw [d3] at hf
        simp only [List.head?_cons, Option.mem_def, Option.some.injEq] at hf
        subst hf
        exact hcs v0 (List.mem_cons_self _ _)
      · intro f hf
        rw [d3] at hf
        rcases List.mem_cons.mp hf with hf | hf
        · subst hf
          intro q hq2; exact hcs q (List.mem_cons_of_mem _ hq2)
        · rcases List.mem_cons.mp hf with hf | hf
          · subst hf; exact elk
          · exact erest f hf
    | side e l pre q w s1 s2 s3 s4 s5 s6 s7 s8 s9 =>
      have hq2 : q ∈ lk := by rw [s2]; simp
      obtain ⟨k1, k2⟩ := s9 (hl q hq2).2
      refine ⟨?_, ?_⟩
      · intro f hf
        rw [s3] at hf
        simp only [List.head?_cons, Option.mem_def, Option.some.injEq] at hf
        subst hf
        intro hk
        show v0.fts_errno = 0
        rw [k2]
        exact elk q hq2 (by rw [← k1]; exact hk)
      · intro f hf
        rw [s3] at hf
        rcases List.mem_cons.mp hf with hf | hf
        · subst hf
          intro x hx
          exact elk x (by rw [s2]; simp [hx])
        · exact erest f hf
    | up e par rest1 w u1 u2 u3 u4 u5 u6 u7 u8 u9 u10 =>
      refine ⟨?_, ?_⟩
      · intro f hf
        rw [u4] at hf
        simp only [List.head?_cons, Option.mem_def, Option.some.injEq] at hf
        subst hf
        intro hk
        rcases u7 with g | ⟨g, _⟩
        · rw [g] at hk; cases hk
        · rw [g] at hk; cases hk
      · intro f hf
        rw [u4] at hf
        rcases List.mem_cons.mp hf with hf | hf
        · subst hf
          exact erest par (by rw [u2]; simp)
        · exact erest f (by rw [u2]; simp [hf])

theorem run_err (sys : Sys) (hq : ∀ cmp l, (sys.qsort cmp l).Perm l) :
    ∀ (k : Nat) (sp : FTS), Inv sp → ErrInv sp → ∀ y ∈ run sys k sp, ErrInv y.2 := by
  intro k
  induction k with
  | zero => intro sp _ _ y hy; simp [run] at hy
  | succ k ih =>
    intro sp hinv herr y hy
    by_cases hex : ∃ e sp1, fts_read sys sp = Outcome.ret (some e) sp1
    · obtain ⟨e, sp1, hr⟩ := hex
      rw [run_succ sys k sp e sp1 hr] at hy
      have h1 := read_ret_inv sys hq sp hinv e sp1 hr
      have h2 := read_err sys hq sp hinv herr e sp1 hr
      rcases List.mem_cons.mp hy with hy | hy
      · subst hy; exact h2
      · exact ih sp1 h1.1 h2 y hy
    · have hnil : run sys (k + 1) sp = [] := by
        apply run_nil_of
        intro e sp1 he
        exact hex ⟨e, sp1, he⟩
      rw [hnil] at hy
      simp at hy

theorem open_err (sys : Sys) (hq : ∀ cmp l, (sys.qsort cmp l).Perm l) (cwd errno0 : Nat)
    (argv : List Bytes) (options : Nat) (compar : Option (FTSENT → FTSENT → Int))
    (sp0 : FTS) (h : (fts_open sys cwd errno0 argv options compar).1 = some sp0) :
    ErrInv sp0 := by
  unfold fts_open at h
  by_cases hm : options &&& (0xffffffff - FTS_OPTIONMASK) ≠ 0
  · rw [if_pos hm] at h; simp at h
  · rw [if_neg hm] at h
    dsimp only at h
    rcases hr : openRoots sys (openInit sys cwd errno0 argv options compar).2 argv
      (openInit sys cwd errno0 argv options compar).1 [] 0 with ⟨r1, sp3⟩
    rw [hr] at h
    cases r1 with
    | none => simp at h
    | some r =>
      obtain ⟨root, nitems⟩ := r
      simp only [Option.some.injEq] at h
      obtain ⟨i1, i2, i3, i4⟩ := openRoots_inv sys _ argv _ [] 0 (root, nitems) sp3 hr
        (by intro x hx; simp at hx) rfl
      have j := openRoots_err sys _ argv _ [] 0 (root, nitems) sp3 hr
        (by intro x hx; simp at hx)
      obtain ⟨dummy, roots, f1, f2, f3, f4, f5, _, f7, f8, _, _⟩ :=
        openFinish_facts sys hq sp3 (openInit sys cwd errno0 argv options compar).2 root nitems i2
      rw [h] at f1
      refine ⟨?_, ?_⟩
      · intro f hf
        rw [f1] at hf
        simp only [List.head?_cons, Option.mem_def, Option.some.injEq] at hf
        subst hf
        intro hk
        rw [f5] at hk
        exact absurd hk (by decide)
      · intro f hf
        rw [f1] at hf
        simp only [List.mem_cons, List.mem_singleton, List.not_mem_nil, or_false] at hf
        rcases hf with hf | hf
        · subst hf
          intro q hq2
          exact j q (f2.mem_iff.mp hq2)
        · subst hf
          intro q hq2
          simp at hq2

theorem run_walk (sys : Sys) :
    ∀ (k : Nat) (s : FTS), Walk sys s (toCalls s (run sys k s)) := by
  intro k
  induction k with
  | zero => intro s; exact trivial
  | succ k ih =>
    intro s
    by_cases hex : ∃ e sp1, fts_read sys s = Outcome.ret (some e) sp1
    · obtain ⟨e, sp1, hr⟩ := hex
      rw [run_succ sys k s e sp1 hr]
      exact ⟨Caller.idle s, hr, ih sp1⟩
    · have hnil : run sys (k + 1) s = [] := by
        apply run_nil_of
        intro e sp1 he
        exact hex ⟨e, sp1, he⟩
      rw [hnil]
      exact trivial

theorem toCalls_mem : ∀ (l : List (FTSENT × FTS)) (s : FTS) (y : FTSENT × FTS), y ∈ l →
    ∃ c ∈ toCalls s l, c.val = some y.1 ∧ c.post = y.2 := by
  intro l
  induction l with
  | nil => intro s y hy; simp at hy
  | cons a l ih =>
    intro s y hy
    rcases List.mem_cons.mp hy with hy | hy
    · subst hy
      exact ⟨_, List.mem_cons_self _ _, rfl, rfl⟩
    · obtain ⟨c, hc, h1, h2⟩ := ih a.2 y hy
      exact ⟨c, List.mem_cons_of_mem _ hc, h1, h2⟩

theorem toCalls_pre : ∀ (l : List (FTSENT × FTS)) (s : FTS) (c : Call), c ∈ toCalls s l →
    c.pre = s ∨ ∃ y ∈ l, c.pre = y.2 := by
  intro l
  induction l with
  | nil => intro s c hc; simp [toCalls] at hc
  | cons a l ih =>
    intro s c hc
    rcases List.mem_cons.mp hc with hc | hc
    · subst hc; exact Or.inl rfl
    · right
      rcases ih a.2 c hc with h | ⟨y, hy, h⟩
      · exact ⟨a, List.mem_cons_self _ _, h⟩
      · exact ⟨y, List.mem_cons_of_mem _ hy, h⟩

theorem dropWhile_head {α : Type} (p : α → Bool) :
    ∀ (l : List α) (z : α), (l.dropWhile p).head? = some z → z ∈ l ∧ p z = false := by
  intro l
  induction l with
  | nil => intro z h; simp at h
  | cons a t ih =>
    intro z h
    by_cases hp : p a = true
    · rw [List.dropWhile_cons_of_pos hp] at h
      obtain ⟨h1, h2⟩ := ih z h
      exact ⟨List.mem_cons_of_mem _ h1, h2⟩
    · rw [List.dropWhile_cons_of_neg hp] at h
      simp only [List.head?_cons, Option.some.injEq] at h
      subst h
      exact ⟨List.mem_cons_self _ _, by simpa using hp⟩

theorem toCalls_head (s : FTS) (l : List (FTSENT × FTS)) (c1 : Call) (l1 : List Call)
    (h : toCalls s l = c1 :: l1) : c1.pre = s := by
  cases l with
  | nil => simp [toCalls] at h
  | cons a t =>
    simp only [toCalls, List.cons.injEq] at h
    rw [← h.1]

/-- C1 (amended): in every walk from `fts_open` driven by `fts_read` alone (the sort routine
returning a permutation), for every directory `D` returned with kind pre-dir: every entry
returned after that and before `D` is returned again has `D` on its parent chain and is not a
later sibling of `D`; and when `D` is returned again, it is with kind post-dir, or with kind
unreadable-dir and the call after the pre-dir return could not open `D`, or with kind error
and that call could not change into `D`; and every child the child builder enumerated for `D`
has been returned in between. -/
theorem depth_first_order (sys : Sys) (hq : ∀ cmp l, (sys.qsort cmp l).Perm l)
    (cwd errno0 : Nat) (argv : List Bytes) (options : Nat)
    (compar : Option (FTSENT → FTSENT → Int)) (sp0 : FTS)
    (hopen : (fts_open sys cwd errno0 argv options compar).1 = some sp0) (k : Nat)
    (l1 l2 : List (FTSENT × FTS)) (x : FTSENT × FTS)
    (hrun : run sys k sp0 = l1 ++ x :: l2) (hD : x.1.fts_info = FTS_D) :
    DepthFirstAt sys x l2 := by
  have hinv0 : Inv sp0 :=
    open_inv sys hq cwd errno0 argv options compar sp0
      (fts_open sys cwd errno0 argv options compar).2 (by rw [← hopen])
  obtain ⟨c1, c2⟩ := depth_first_core sys hq sp0 hinv0 k l1 l2 x hrun hD
  refine ⟨c1, ?_⟩
  intro z hz
  obtain ⟨_, z2, z3, z4⟩ := c2 z hz
  refine ⟨?_, z2, z3, z4⟩
  have hx : x ∈ run sys k sp0 := by rw [hrun]; simp
  obtain ⟨hinvx, lk, base, hcur⟩ := run_inv sys hq k sp0 hinv0 x hx
  have herrx := run_err sys hq k sp0 hinv0
    (open_err sys hq cwd errno0 argv options compar sp0 hopen) x hx
  have hl2 := run_split sys l1 k sp0 x l2 hrun
  have hwf0 := open_wf sys hq cwd errno0 argv options compar sp0 hopen
  obtain ⟨cx, hcx, _, hpost⟩ := toCalls_mem (run sys k sp0) sp0 x hx
  have hwfx : WellFormed x.2 := by
    rw [← hpost]
    exact (walk_wf sys hq _ sp0 hwf0 (run_walk sys k sp0) cx hcx).2
  have hpre : PreAt x.1 x.2 := Or.inr ⟨x.1, lk, base, hcur, rfl, hD, rfl⟩
  have hwalk : Walk sys x.2 (toCalls x.2 l2) := by
    have := run_walk sys (k - l1.length - 1) x.2
    rw [← hl2] at this
    exact this
  have hag : ∀ c ∈ toCalls x.2 l2, NoAgainOn x.1.addr c := by
    intro c hc f hf _
    have hinvc : Inv c.pre := by
      rcases toCalls_pre l2 x.2 c hc with h | ⟨y, hy, h⟩
      · rw [h]; exact hinvx
      · rw [h]
        rw [hl2] at hy
        exact (run_inv sys hq _ x.2 hinvx y hy).1
    have hfm : f ∈ c.pre.fts_cur := by
      cases hcc : c.pre.fts_cur with
      | nil => rw [hcc] at hf; simp at hf
      | cons a t =>
        rw [hcc] at hf
        simp only [List.head?_cons, Option.mem_def, Option.some.injEq] at hf
        rw [← hf]; exact List.mem_cons_self _ _
    rw [(hinvc.2 f hfm).1.2]
    decide
  have hp := pre_walk sys hq x.1 (toCalls x.2 l2) x.2 hwfx hpre hwalk hag
  obtain ⟨hzmem, hzp⟩ := dropWhile_head _ l2 z hz
  have hza : z.1.addr = x.1.addr := by simpa using hzp
  obtain ⟨cz, hcz, hv, _⟩ := toCalls_mem l2 x.2 z hzmem
  have he0 : x.1.fts_errno = 0 := herrx.1 ⟨x.1, lk⟩ (by rw [hcur]; simp) hD
  rcases hp.2.1 cz hcz z.1 hv hza with g | ⟨g, d1, l3, hl, go⟩ | ⟨g, ge | ⟨d1, l3, hl, ge⟩⟩
  · exact Or.inl g
  · rw [toCalls_head x.2 l2 d1 l3 hl] at go
    exact Or.inr (Or.inl ⟨g, go⟩)
  · exact absurd he0 ge
  · rw [toCalls_head x.2 l2 d1 l3 hl] at ge
    exact Or.inr (Or.inr ⟨g, ge⟩)

set_option maxRecDepth 100000 in
/-- Witness of C1: the flat directory `D` holding `a`, `b`, `c` is walked as (pre-dir, D),
(regular, a), (regular, b), (regular, c), (post-dir, D), and the depth-first property holds at
the pre-order return of `D`. -/
theorem depth_first_order_witness :
    (run sysFlat 6 flatStart).map (fun y => (y.1.fts_info, cstr y.1.fts_name)) =
      [(FTS_D, "D".toList), (FTS_F, "a".toList), (FTS_F, "b".toList), (FTS_F, "c".toList),
        (FTS_DP, "D".toList)] ∧
    DepthFirstAt sysFlat ((run sysFlat 6 flatStart).headD (ent0, spStopped))
      (run sysFlat 6 flatStart).tail :=
  ⟨by decide,
   depth_first_order sysFlat (fun _ l => List.Perm.refl l) 0 0 ["D".toList] 0 none flatStart
    (some_getD_of_isSome _ spStopped (by decide)) 6 []
    (run sysFlat 6 flatStart).tail ((run sysFlat 6 flatStart).headD (ent0, spStopped))
    (cons_of_length_ne _ _ (by decide)) (by decide)⟩

end Fts
